import Mathlib

/-!
# Discharging on near-triangulations: the subgraph matcher and its clients

A shallow embedding of `near_triangulation.cpp` and `basewheel.cpp`.

* Vertices are natural numbers; the C++ sentinel `-1` of the `occupied` and
  `located` vectors is `none`.
* `std::set<int>` is a strictly increasing list, `std::map` an association list.
* A failed `assert` and a throwing `map::at` (or an edge number outside the edge
  list) are the abnormal ends of the C++ code; with the exhaustion of the fuel
  they are the errors of `MatchError`.
* A read of `occupied`, `located` or `degrees` outside the vector, undefined in
  C++, reads as unset.
* The recursion of `set_edge_recursive` is driven by a fuel counter that bounds
  its depth; `containSubgraphWithCorrespondingEdge` supplies one more unit than
  the host has directed edges, which is shown to be enough.
* The sums, differences and products of `int`s in `amountChargeToSend`, `prune`
  and `isOvercharged` are taken in two's complement on 32 bits (`wrapInt`), the
  value the machine computes where C++ leaves an overflow undefined.
* An argument of `spdlog::trace` or `spdlog::debug` is evaluated whatever the log
  level is: the calls of `toString()` made for the log are steps of the functions,
  and an assertion that fails in them ends the function abnormally.
-/

namespace Discharging

/-! ## near_triangulation.hpp / near_triangulation.cpp -/

/-- The constant `MAX_DEGREE`. -/
def MAX_DEGREE : Int := 1000

/-- The constant `MIN_DEGREE`. -/
def MIN_DEGREE : Int := 5

/-- The class `Degree`: the closed range `[lower_deg, upper_deg]`. -/
structure Degree where
  lower_deg : Int
  upper_deg : Int
deriving DecidableEq, Repr

/-- The method `Degree::include`. -/
def Degree.include (self degree : Degree) : Bool :=
  decide (self.lower_deg ≤ degree.lower_deg) && decide (degree.upper_deg ≤ self.upper_deg)

/-- The method `Degree::fixed`. -/
def Degree.fixed (self : Degree) : Bool :=
  decide (self.lower_deg = self.upper_deg)

/-- A directed edge, `pair<int, int>`. -/
abbrev Edge := Nat × Nat

/-- The class `NearTriangulation`. -/
structure NearTriangulation where
  vertex_size : Nat
  degrees : List (Option Degree)
  edges : List Edge
  diagonal_vertices : List (Edge × List Nat)
deriving DecidableEq, Repr

/-- The neighbour set `VtoV[v]`. -/
def adjacent (VtoV : List (List Nat)) (v : Nat) : List Nat :=
  VtoV.getD v []

/-- The first loop of the constructor: `(v, u)` for `v` ascending and `u` in `VtoV[v]`. -/
def constructEdges (vertex_size : Nat) (VtoV : List (List Nat)) : List Edge :=
  (List.range vertex_size).flatMap (fun v => (adjacent VtoV v).map (fun u => (v, u)))

/-- The inner loop of the constructor's second loop: the `w` in `VtoV[v]` with `VtoV[u].count(w)`. -/
def constructDiagonal (VtoV : List (List Nat)) (edge : Edge) : List Nat :=
  (adjacent VtoV edge.1).filter (fun w => decide (w ∈ adjacent VtoV edge.2))

/-- The value the constructor builds, before its assertion is looked at. -/
def NearTriangulation.build (vertex_size : Nat) (VtoV : List (List Nat))
    (degrees : List (Option Degree)) : NearTriangulation :=
  { vertex_size := vertex_size
    degrees := degrees
    edges := constructEdges vertex_size VtoV
    diagonal_vertices :=
      (constructEdges vertex_size VtoV).map (fun e => (e, constructDiagonal VtoV e)) }

/-- The constructor's `assert(diagonal_vertices_[edge].size() <= 2)`, over all edges. -/
def NearTriangulation.diagonalAssertion (nt : NearTriangulation) : Bool :=
  nt.diagonal_vertices.all (fun p => decide (p.2.length ≤ 2))

/-- The constructor `NearTriangulation::NearTriangulation`: `none` when its assertion fails. -/
def NearTriangulation.construct (vertex_size : Nat) (VtoV : List (List Nat))
    (degrees : List (Option Degree)) : Option NearTriangulation :=
  if (NearTriangulation.build vertex_size VtoV degrees).diagonalAssertion then
    some (NearTriangulation.build vertex_size VtoV degrees)
  else none

/-- The lookup `diagonalVertices().at(edge)`; `none` is the throw of `map::at`. -/
def NearTriangulation.diagonalAt (nt : NearTriangulation) (edge : Edge) : Option (List Nat) :=
  nt.diagonal_vertices.lookup edge

/-- The read `degrees()[v]`. -/
def NearTriangulation.degreeAt (nt : NearTriangulation) (v : Nat) : Option Degree :=
  nt.degrees.getD v none

/-- The method `NearTriangulation::setDegree`. -/
def NearTriangulation.setDegree (nt : NearTriangulation) (v : Nat) (degree : Option Degree) :
    NearTriangulation :=
  { nt with degrees := nt.degrees.set v degree }

/-! ## near_triangulation.cpp: Degree::fromString, Degree::toString

A `std::string` is the list of its characters. The two library functions that the source
calls, `std::stoi` and `std::to_string`, are given as the C++ standard describes them, for
an `int` of 32 bits. -/

/-- What `Degree::fromString` can throw: the `std::invalid_argument` and the
`std::out_of_range` of `std::stoi`, and its own `std::runtime_error`. -/
inductive ParseError where
  | invalidArgument
  | outOfRange
  | runtimeError
deriving DecidableEq, Repr

/-- The constant `INT_MIN`. -/
def INT_MIN : Int := -2147483648

/-- The constant `INT_MAX`. -/
def INT_MAX : Int := 2147483647

/-- The library function `isspace`, in the "C" locale. -/
def isSpace (c : Char) : Bool :=
  c = ' ' || c = '\t' || c = '\n' || c = '\x0b' || c = '\x0c' || c = '\r'

/-- The value of a string of decimal digits. -/
def digitsValue (digits : List Char) : Nat :=
  digits.foldl (fun acc c => 10 * acc + (c.toNat - 48)) 0

/-- The library function `std::stoi(str, &i)`, base 10: white space is skipped, an optional
sign and the longest run of decimal digits are read; the result is the value and the
position `i` of the first character not read. It throws when there is no digit and when
the value is not an `int`. -/
def stoi (str : List Char) : Except ParseError (Int × Nat) :=
  let spaces := (str.takeWhile isSpace).length
  let signed := str.drop spaces
  let negative := decide (signed.head? = some '-')
  let sign := if signed.head? = some '-' ∨ signed.head? = some '+' then 1 else 0
  let digits := (signed.drop sign).takeWhile Char.isDigit
  if digits = [] then throw .invalidArgument
  else
    let value : Int := if negative then -(digitsValue digits : Int) else (digitsValue digits : Int)
    if value < INT_MIN ∨ INT_MAX < value then throw .outOfRange
    else pure (value, spaces + sign + digits.length)

/-- The decimal digits of `n`, put before `acc`; the fuel bounds the number of digits. -/
def decimalAux : Nat → Nat → List Char → List Char
  | 0, _, acc => acc
  | fuel + 1, n, acc =>
    if n / 10 = 0 then Nat.digitChar (n % 10) :: acc
    else decimalAux fuel (n / 10) (Nat.digitChar (n % 10) :: acc)

/-- The decimal digits of a natural number. -/
def decimal (n : Nat) : List Char :=
  decimalAux (n + 1) n []

/-- The library function `std::to_string(int)`: the decimal digits, after a minus sign when
the value is negative. -/
def to_string (value : Int) : List Char :=
  if value < 0 then '-' :: decimal (-value).toNat else decimal value.toNat

/-- The function `Degree::fromString`. -/
def Degree.fromString (str : List Char) : Except ParseError Degree := do
  let r ← stoi str
  if r.2 = str.length then pure { lower_deg := r.1, upper_deg := r.1 }
  else if r.2 + 1 = str.length then
    if str.get? r.2 = some '+' then pure { lower_deg := r.1, upper_deg := MAX_DEGREE }
    else if str.get? r.2 = some '-' then pure { lower_deg := MIN_DEGREE, upper_deg := r.1 }
    else throw .runtimeError
  else throw .runtimeError

/-- The method `Degree::toString`; `none` is its `assert(false)`. -/
def Degree.toString (self : Degree) : Option (List Char) :=
  if self.fixed then some (to_string self.lower_deg)
  else if self.upper_deg = MAX_DEGREE then some (to_string self.lower_deg ++ ['+'])
  else if self.lower_deg = MIN_DEGREE then some (to_string self.upper_deg ++ ['-'])
  else none

/-- The value of an arithmetic expression of the type `int`: the mathematical result is
reduced to the 32 bits of an `int`, in two's complement. -/
def wrapInt (x : Int) : Int :=
  (x + 2147483648) % 4294967296 - 2147483648

/-! ## basewheel.hpp -/

/-- The enumeration `Contain`. -/
inductive Contain where
  | Yes
  | Possible
  | No
deriving DecidableEq, Repr

/-- The class `ContainResult`; a `No` result carries the empty vector. -/
structure ContainResult where
  contain : Contain
  occupied : List (Option Nat)
deriving DecidableEq, Repr

/-- The abnormal ends of the matcher. -/
inductive MatchError where
  | outOfFuel
  | assertFailed
  | outOfRange
deriving DecidableEq, Repr

/-! ## basewheel.cpp: containSubgraphWithCorrespondingEdge -/

/-- The read `vec[i]` of a vector of vertex numbers, `-1` being `none`. -/
def slot (vec : List (Option Nat)) (i : Nat) : Option Nat :=
  vec.getD i none

/-- The lambda `match_degree`. -/
def match_degree (wheelgraph subgraph : NearTriangulation) (except_vertices : List Nat)
    (vs vw : Nat) (detect_possible : Bool) : Bool :=
  if vs ∈ except_vertices then true
  else
    match subgraph.degreeAt vs, wheelgraph.degreeAt vw with
    | none, _ => true
    | some _, none => detect_possible
    | some degs, some degw => degs.include degw

/-- The mutable variables of one matching attempt: `occupied`, `located` and the set
`visited_edges_w`. -/
structure MatchState where
  occupied : List (Option Nat)
  located : List (Option Nat)
  visited : List Edge
deriving DecidableEq, Repr

/-- The lambda `correspond`. -/
def correspond (vs vw : Nat) (st : MatchState) : MatchState :=
  { st with occupied := st.occupied.set vw (some vs), located := st.located.set vs (some vw) }

/-- The type of `set_edge_recursive` as seen by its own body. -/
abbrev Recursor := Edge → Edge → MatchState → Except MatchError (Bool × MatchState)

/-- The statement `match_deg = match_deg && set_edge_recursive(...)`: the call is made only
when `match_deg` is still true. -/
def andRecursive (rec : Recursor) (edge_w edge_s : Edge) (cur : Bool × MatchState) :
    Except MatchError (Bool × MatchState) :=
  if cur.1 then rec edge_w edge_s cur.2 else pure (false, cur.2)

/-- The loop variables of the loop over `diagonal_vertices_w`. -/
structure InnerVars where
  match_deg : Bool
  new_match_case : Nat
  vs_match_case : Nat
  st : MatchState

/-- One round of the loop `for (auto vw : diagonal_vertices_w)` in `set_edge_recursive`. -/
def innerStep (rec : Recursor) (wheelgraph subgraph : NearTriangulation)
    (except_vertices : List Nat) (detect_possible : Bool) (edge_w edge_s : Edge) (vs : Nat)
    (acc : InnerVars) (vw : Nat) : Except MatchError InnerVars :=
  if ¬ (slot acc.st.located vs = none ∧ slot acc.st.occupied vw = none)
      ∧ ¬ (slot acc.st.located vs = some vw ∧ slot acc.st.occupied vw = some vs) then
    pure acc
  else
    let new_match_case :=
      if slot acc.st.located vs = none ∧ slot acc.st.occupied vw = none then
        acc.new_match_case + 1
      else acc.new_match_case
    if match_degree wheelgraph subgraph except_vertices vs vw detect_possible = false then
      pure { match_deg := false, new_match_case := new_match_case,
             vs_match_case := acc.vs_match_case + 1, st := acc.st }
    else do
      let r1 ← andRecursive rec (edge_w.1, vw) (edge_s.1, vs)
        (acc.match_deg, correspond vs vw acc.st)
      let r2 ← andRecursive rec (edge_w.2, vw) (edge_s.2, vs) r1
      pure { match_deg := r2.1, new_match_case := new_match_case,
             vs_match_case := acc.vs_match_case + 1, st := r2.2 }

/-- The loop variables of the loop over `diagonal_vertices_s`. -/
structure OuterVars where
  match_deg : Bool
  new_match_case : Nat
  st : MatchState

/-- One round of the loop `for (auto vs : diagonal_vertices_s)`: the loop over
`diagonal_vertices_w`, then `assert(vs_match_case <= 1)`. -/
def outerStep (rec : Recursor) (wheelgraph subgraph : NearTriangulation)
    (except_vertices : List Nat) (detect_possible : Bool) (edge_w edge_s : Edge)
    (diagonal_vertices_w : List Nat) (acc : OuterVars) (vs : Nat) :
    Except MatchError OuterVars := do
  let r ← diagonal_vertices_w.foldlM
    (innerStep rec wheelgraph subgraph except_vertices detect_possible edge_w edge_s vs)
    { match_deg := acc.match_deg, new_match_case := acc.new_match_case,
      vs_match_case := 0, st := acc.st }
  if r.vs_match_case ≤ 1 then
    pure { match_deg := r.match_deg, new_match_case := r.new_match_case, st := r.st }
  else throw .assertFailed

/-- The body of the lambda `set_edge_recursive`, its recursive calls going to `rec`. -/
def setEdgeBody (rec : Recursor) (wheelgraph subgraph : NearTriangulation)
    (except_vertices : List Nat) (detect_possible : Bool) (edge_w edge_s : Edge)
    (st : MatchState) : Except MatchError (Bool × MatchState) :=
  if edge_w ∈ st.visited then pure (true, st)
  else
    match wheelgraph.diagonalAt edge_w, subgraph.diagonalAt edge_s with
    | some diagonal_vertices_w, some diagonal_vertices_s => do
      let r ← diagonal_vertices_s.foldlM
        (outerStep rec wheelgraph subgraph except_vertices detect_possible edge_w edge_s
          diagonal_vertices_w)
        { match_deg := true, new_match_case := 0,
          st := { st with visited := edge_w :: st.visited } }
      if r.new_match_case ≤ 1 then pure (r.match_deg, r.st) else throw .assertFailed
    | _, _ => throw .outOfRange

/-- The lambda `set_edge_recursive`; the fuel bounds the depth of the recursion. -/
def set_edge_recursive (wheelgraph subgraph : NearTriangulation) (except_vertices : List Nat)
    (detect_possible : Bool) : Nat → Recursor
  | 0 => fun _ _ _ => throw .outOfFuel
  | fuel + 1 =>
    setEdgeBody (set_edge_recursive wheelgraph subgraph except_vertices detect_possible fuel)
      wheelgraph subgraph except_vertices detect_possible

/-- The test in the loop of `update_res`: the pattern vertex `v` has no host vertex, or has
one whose degree does not fit. -/
def unsettled (wheelgraph subgraph : NearTriangulation) (except_vertices : List Nat)
    (located : List (Option Nat)) (v : Nat) : Bool :=
  if v ∈ except_vertices then false
  else
    match slot located v with
    | none => true
    | some vw => !match_degree wheelgraph subgraph except_vertices v vw false

/-- The lambda `update_res`: the result appended to `res`. -/
def update_res (wheelgraph subgraph : NearTriangulation) (except_vertices : List Nat)
    (detect_possible : Bool) (match_deg : Bool) (st : MatchState) : ContainResult :=
  if !match_deg then { contain := .No, occupied := [] }
  else if (List.range subgraph.vertex_size).any
      (unsettled wheelgraph subgraph except_vertices st.located) then
    if detect_possible then { contain := .Possible, occupied := st.occupied }
    else { contain := .No, occupied := [] }
  else { contain := .Yes, occupied := st.occupied }

/-- The variables of the three branching loops: `res`, the live `occupied` and `located`,
and the copies `occupied_tmp` and `located_tmp` they are swapped with. -/
structure BranchVars where
  res : List ContainResult
  occupied : List (Option Nat)
  located : List (Option Nat)
  occupied_tmp : List (Option Nat)
  located_tmp : List (Option Nat)

/-- The calls of one branching round: for each pair, the two edges it closes with the
pinned edge, in the order of the source. -/
def branchCalls (pairs : List (Nat × Nat)) (edge_wheelgraph edge_subgraph : Edge) :
    List (Edge × Edge) :=
  pairs.flatMap (fun p =>
    [((edge_wheelgraph.1, p.2), (edge_subgraph.1, p.1)),
     ((edge_wheelgraph.2, p.2), (edge_subgraph.2, p.1))])

/-- The propagation of one branching round: the pairs are corresponded and their calls are
made, each one only while `match_deg` is still true, from an empty `edge_set`. -/
def branchPropagate (rec : Recursor) (pairs : List (Nat × Nat))
    (edge_wheelgraph edge_subgraph : Edge) (occupied located : List (Option Nat)) :
    Except MatchError (Bool × MatchState) :=
  (branchCalls pairs edge_wheelgraph edge_subgraph).foldlM
    (fun cur c => andRecursive rec c.1 c.2 cur)
    (true, pairs.foldl (fun st p => correspond p.1 p.2 st)
      { occupied := occupied, located := located, visited := [] })

/-- One round of a branching loop. A candidate is a list of (pattern vertex, host vertex)
pairs; when a pair fails `match_degree` the round is skipped by `continue`, otherwise the
pairs are propagated, `update_res` runs, and the live vectors are swapped with the
copies. -/
def branchStep (rec : Recursor) (wheelgraph subgraph : NearTriangulation)
    (except_vertices : List Nat) (detect_possible : Bool)
    (edge_wheelgraph edge_subgraph : Edge) (bv : BranchVars) (pairs : List (Nat × Nat)) :
    Except MatchError BranchVars :=
  if pairs.any (fun p =>
      !match_degree wheelgraph subgraph except_vertices p.1 p.2 detect_possible) then
    pure bv
  else do
    let r ← branchPropagate rec pairs edge_wheelgraph edge_subgraph bv.occupied bv.located
    pure { res := bv.res ++
             [update_res wheelgraph subgraph except_vertices detect_possible r.1 r.2]
           occupied := bv.occupied_tmp
           located := bv.located_tmp
           occupied_tmp := r.2.occupied
           located_tmp := r.2.located }

/-- The candidates of the three branching cases, in the order the loops visit them; `none`
for the remaining cases. -/
def branchCandidates (diagonal_vertices_w diagonal_vertices_s : List Nat) :
    Option (List (List (Nat × Nat))) :=
  match diagonal_vertices_s, diagonal_vertices_w with
  | [vs], [vw0, vw1] => some [[(vs, vw0)], [(vs, vw1)]]
  | [vs0, vs1], [vw] => some [[(vs0, vw)], [(vs1, vw)]]
  | [vs0, vs1], [vw0, vw1] => some [[(vs0, vw0), (vs1, vw1)], [(vs1, vw0), (vs0, vw1)]]
  | _, _ => none

/-- The state after `correspond` has been called on the two ends of the pinned edges. -/
def pinnedState (wheelgraph subgraph : NearTriangulation) (edge_wheelgraph edge_subgraph : Edge) :
    MatchState :=
  correspond edge_subgraph.2 edge_wheelgraph.2
    (correspond edge_subgraph.1 edge_wheelgraph.1
      { occupied := List.replicate wheelgraph.vertex_size none
        located := List.replicate subgraph.vertex_size none
        visited := [] })

/-- The part of `containSubgraphWithCorrespondingEdge` after the pinned edges have been
corresponded: the three branching cases, then the remaining cases. -/
def matchPinned (rec : Recursor) (wheelgraph subgraph : NearTriangulation)
    (except_vertices : List Nat) (detect_possible : Bool)
    (edge_wheelgraph edge_subgraph : Edge) : Except MatchError (List ContainResult) :=
  match wheelgraph.diagonalAt edge_wheelgraph, subgraph.diagonalAt edge_subgraph with
  | some diagonal_vertices_wheelgraph, some diagonal_vertices_subgraph =>
    match branchCandidates diagonal_vertices_wheelgraph diagonal_vertices_subgraph with
    | some candidates => do
      let bv ← candidates.foldlM
        (branchStep rec wheelgraph subgraph except_vertices detect_possible
          edge_wheelgraph edge_subgraph)
        { res := []
          occupied := (pinnedState wheelgraph subgraph edge_wheelgraph edge_subgraph).occupied
          located := (pinnedState wheelgraph subgraph edge_wheelgraph edge_subgraph).located
          occupied_tmp :=
            (pinnedState wheelgraph subgraph edge_wheelgraph edge_subgraph).occupied
          located_tmp :=
            (pinnedState wheelgraph subgraph edge_wheelgraph edge_subgraph).located }
      pure bv.res
    | none =>
      if diagonal_vertices_subgraph.length ≤ 2 ∧ diagonal_vertices_wheelgraph.length ≤ 2 then do
        let r ← rec edge_wheelgraph edge_subgraph
          (pinnedState wheelgraph subgraph edge_wheelgraph edge_subgraph)
        pure [update_res wheelgraph subgraph except_vertices detect_possible r.1 r.2]
      else throw .assertFailed
  | _, _ => throw .outOfRange

/-- The function `BaseWheel::containSubgraphWithCorrespondingEdge`, with the fuel of
`set_edge_recursive` as a parameter. -/
def containSubgraphFuel (fuel : Nat) (wheelgraph subgraph : NearTriangulation)
    (edgeid_wheelgraph edgeid_subgraph : Nat) (except_vertices : List Nat)
    (detect_possible : Bool) : Except MatchError (List ContainResult) :=
  match wheelgraph.edges.get? edgeid_wheelgraph, subgraph.edges.get? edgeid_subgraph with
  | some edge_wheelgraph, some edge_subgraph =>
    if match_degree wheelgraph subgraph except_vertices edge_subgraph.1 edge_wheelgraph.1
          detect_possible = false
        ∨ match_degree wheelgraph subgraph except_vertices edge_subgraph.2
          edge_wheelgraph.2 detect_possible = false then
      pure []
    else
      matchPinned
        (set_edge_recursive wheelgraph subgraph except_vertices detect_possible fuel)
        wheelgraph subgraph except_vertices detect_possible edge_wheelgraph edge_subgraph
  | _, _ => throw .outOfRange

/-- The function `BaseWheel::containSubgraphWithCorrespondingEdge` (the spec's `match`):
the recursion gets one unit of fuel more than the host has directed edges. -/
def containSubgraphWithCorrespondingEdge (wheelgraph subgraph : NearTriangulation)
    (edgeid_wheelgraph edgeid_subgraph : Nat) (except_vertices : List Nat)
    (detect_possible : Bool) : Except MatchError (List ContainResult) :=
  containSubgraphFuel (wheelgraph.edges.length + 1) wheelgraph subgraph
    edgeid_wheelgraph edgeid_subgraph except_vertices detect_possible

/-- The function `BaseWheel::numOfSubgraphWithCorrespondingEdge`: the number of `Yes`
results under `detect_possible = false`. -/
def numOfSubgraphWithCorrespondingEdge (wheelgraph subgraph : NearTriangulation)
    (edgeid_wheelgraph edgeid_subgraph : Nat) (except_vertices : List Nat) :
    Except MatchError Nat := do
  let result_list ← containSubgraphWithCorrespondingEdge wheelgraph subgraph
    edgeid_wheelgraph edgeid_subgraph except_vertices false
  pure (result_list.countP (fun res => decide (res.contain = Contain.Yes)))

/-! ## configuration.hpp / rule.hpp -/

/-- The class `Configuration`, without its file name. -/
structure Configuration where
  conf : NearTriangulation
  ring_size : Nat
  inside_edge_id : Nat
  has_cutvertex : Bool
deriving DecidableEq, Repr

/-- The constructor `Configuration::Configuration`: the inside edge is the first edge with
both ends outside the ring when there is a cut vertex, and edge `0` otherwise; `none` when
the assertion `inside_edge_id_ < edges.size()` fails. -/
def Configuration.construct (ring_size : Nat) (has_cutvertex : Bool)
    (conf : NearTriangulation) : Option Configuration :=
  let inside_edge_id :=
    if has_cutvertex then
      conf.edges.findIdx (fun e => decide (ring_size ≤ e.1) && decide (ring_size ≤ e.2))
    else 0
  if inside_edge_id < conf.edges.length then
    some { conf := conf, ring_size := ring_size, inside_edge_id := inside_edge_id
           has_cutvertex := has_cutvertex }
  else none

/-- The expression `std::find(edges.begin(), edges.end(), edge) - edges.begin()`: the
position of the first occurrence of `edge`, or the length of the list. -/
def findEdge (edges : List Edge) (edge : Edge) : Nat :=
  edges.findIdx (fun e => decide (e = edge))

/-- The class `Rule`. -/
structure Rule where
  rule : NearTriangulation
  send_edgeid : Nat
  amount : Int
deriving DecidableEq, Repr

/-- The constructor `Rule::Rule`: `send_edgeid_` is the position of `(from, to)` in the
edge list; `none` when the assertion that the edge is found fails. -/
def Rule.construct (from_ to_ : Nat) (amount : Int) (rule : NearTriangulation) :
    Option Rule :=
  if findEdge rule.edges (from_, to_) ≠ rule.edges.length then
    some { rule := rule, send_edgeid := findEdge rule.edges (from_, to_), amount := amount }
  else none

/-! ## near_triangulation.cpp: divideDegree -/

/-- The loop `while (deg < degree.upper() && deg < max_degree)` of `divideDegree` and the
`push_back` after it; `deg` is the running degree and `degrees` the vector built so far. The
fuel bounds the number of rounds, the loop ends before it is used up. -/
def divideLoop (upper max_degree : Int) : Nat → Int → List Degree → List Degree
  | 0, deg, degrees => degrees ++ [{ lower_deg := deg, upper_deg := upper }]
  | fuel + 1, deg, degrees =>
    if deg < upper ∧ deg < max_degree then
      divideLoop upper max_degree fuel (deg + 1)
        (degrees ++ [{ lower_deg := deg, upper_deg := deg }])
    else degrees ++ [{ lower_deg := deg, upper_deg := upper }]

/-- The function `divideDegree`; `none` when the assertion `deg <= max_degree` fails. -/
def divideDegree (degree : Degree) (max_degree : Int) : Option (List Degree) :=
  if degree.lower_deg ≤ max_degree then
    some (divideLoop degree.upper_deg max_degree (degree.upper_deg - degree.lower_deg).toNat
      degree.lower_deg [])
  else none

/-! ## cartwheel.hpp / cartwheel.cpp: Wheel and CartWheel -/

/-- The class `Wheel`. -/
structure Wheel where
  wheel : NearTriangulation
deriving DecidableEq, Repr

/-- The method `Wheel::setDegree`. -/
def Wheel.setDegree (self : Wheel) (v : Nat) (degree : Option Degree) : Wheel :=
  { self with wheel := self.wheel.setDegree v degree }

/-- The method `Wheel::numNeighbor`: the degree of the hub, which its assertion wants set
and fixed. -/
def Wheel.numNeighbor (self : Wheel) : Except MatchError Int :=
  match self.wheel.degreeAt 0 with
  | some degree => if degree.fixed then pure degree.lower_deg else throw .assertFailed
  | none => throw .assertFailed

/-- The lambda `deg_str` of the methods `toString`: the string of the degree of `u` when it
is set and shown, `?` otherwise; the assertion of `Degree::toString` can fail. -/
def degStr (degrees : List (Option Degree)) (shown : Bool) (u : Nat) :
    Except MatchError (List Char) :=
  match degrees.getD u none with
  | some degree =>
    if shown then
      match degree.toString with
      | some str => pure str
      | none => throw .assertFailed
    else pure ['?']
  | none => pure ['?']

/-- The method `Wheel::toString`: the hub degree, then the degrees of the rim vertices. -/
def Wheel.toString (self : Wheel) : Except MatchError (List Char) := do
  let hub_degree ← self.numNeighbor
  (List.range' 1 hub_degree.toNat).foldlM
    (fun res v => do
      let str ← degStr self.wheel.degrees true v
      pure (res ++ (' ' :: str)))
    (to_string hub_degree)

/-- The class `CartWheel`; an entry of `third_neighbors_` is an `int`, which can be the `-1`
of a missing vertex. -/
structure CartWheel where
  cartwheel : NearTriangulation
  num_neighbor : Nat
  hub_neighbors_neighbors : List (List Nat)
  third_neighbors : List (List Int)
deriving DecidableEq, Repr

/-- The method `CartWheel::setDegree`. -/
def CartWheel.setDegree (self : CartWheel) (v : Nat) (degree : Option Degree) : CartWheel :=
  { self with cartwheel := self.cartwheel.setDegree v degree }

/-- The method `CartWheel::toString(show_degree)`: the numbers of vertices and of edges, the
degrees of the vertices, a degree that is not shown being `?`, then the ends of the edges. -/
def CartWheel.toStringShown (self : CartWheel) (show_degree : List Bool) :
    Except MatchError (List Char) := do
  let res ← (List.range self.cartwheel.vertex_size).foldlM
    (fun res v => do
      let str ← degStr self.cartwheel.degrees (show_degree.getD v false) v
      pure (res ++ str ++ [' ']))
    (to_string self.cartwheel.vertex_size ++ (' ' :: to_string self.cartwheel.edges.length)
      ++ [' '])
  pure (self.cartwheel.edges.foldl
    (fun res e => res ++ to_string e.1 ++ (' ' :: to_string e.2) ++ [' ']) res)

/-- The method `CartWheel::toString()`: every degree is shown. -/
def CartWheel.toString (self : CartWheel) : Except MatchError (List Char) :=
  self.toStringShown (List.replicate self.cartwheel.vertex_size true)

/-- What the templates of `BaseWheel` use of their parameter `WheelLike`: the methods
`nearTriangulation`, `setDegree` and `toString`. -/
structure WheelLike (W : Type) where
  nearTriangulation : W → NearTriangulation
  setDegree : W → Nat → Option Degree → W
  toString : W → Except MatchError (List Char)

/-- The template parameter `Wheel`. -/
def wheelLikeWheel : WheelLike Wheel :=
  { nearTriangulation := fun w => w.wheel, setDegree := Wheel.setDegree
    toString := Wheel.toString }

/-- The template parameter `CartWheel`. -/
def wheelLikeCartWheel : WheelLike CartWheel :=
  { nearTriangulation := fun w => w.cartwheel, setDegree := CartWheel.setDegree
    toString := CartWheel.toString }

/-! ## basewheel.cpp: containConf, containOneofConfs, amountChargeToSend

`containConf` takes a near-triangulation. `containOneofConfs` takes the `WheelLike` itself:
the argument `wheelgraph.toString()` of its call of `spdlog::trace` is evaluated whatever the
log level is, and its assertions can fail. `amountChargeToSend` uses its `WheelLike` through
`nearTriangulation()` only and takes the near-triangulation. -/

/-- The set `ring_vertices` of `containConf`. -/
def ringVertices (conf : Configuration) : List Nat :=
  if conf.has_cutvertex then List.range conf.ring_size else []

/-- The loop of `containConf` over the edge numbers of the host, with its early return. -/
def containConfLoop (wheelgraph : NearTriangulation) (conf : Configuration) :
    List Nat → Except MatchError Bool
  | [] => pure false
  | edgeid_wheelgraph :: rest => do
    let n ← numOfSubgraphWithCorrespondingEdge wheelgraph conf.conf edgeid_wheelgraph
      conf.inside_edge_id (ringVertices conf)
    if n > 0 then pure true else containConfLoop wheelgraph conf rest

/-- The function `BaseWheel::containConf`. -/
def containConf (wheelgraph : NearTriangulation) (conf : Configuration) :
    Except MatchError Bool :=
  containConfLoop wheelgraph conf (List.range wheelgraph.edges.length)

/-- The loop of `containOneofConfs` over the catalog, with its early return. -/
def containOneofConfsLoop (wheelgraph : NearTriangulation) :
    List Configuration → Except MatchError Bool
  | [] => pure false
  | conf :: rest => do
    let found ← containConf wheelgraph conf
    if found then pure true else containOneofConfsLoop wheelgraph rest

/-- The function `BaseWheel::containOneofConfs` (the spec's `containsAnyConfiguration`):
`wheelgraph.toString()` is evaluated for the log, then the catalog is gone through. -/
def containOneofConfs {W : Type} (ops : WheelLike W) (wheelgraph : W)
    (confs : List Configuration) : Except MatchError Bool := do
  let _ ← ops.toString wheelgraph
  containOneofConfsLoop (ops.nearTriangulation wheelgraph) confs

/-- The lambda `is_symmetric` of `amountChargeToSend`, with its assertion that the two
verdicts coincide. -/
def is_symmetric (result_list : List ContainResult) : Except MatchError Bool :=
  match result_list with
  | [r0, r1] =>
    if r0.contain ≠ Contain.No ∧ r1.contain ≠ Contain.No then
      if (List.range r0.occupied.length).any (fun i =>
          xor (decide (slot r0.occupied i ≠ none)) (decide (slot r1.occupied i ≠ none))) then
        pure false
      else if r0.contain = r1.contain then pure true
      else throw .assertFailed
    else pure false
  | _ => pure false

/-- The variables of the loop over the results in `amountChargeToSend`. -/
structure ChargeVars where
  lower : Nat
  upper : Nat
  is_related : List Bool
deriving DecidableEq, Repr

/-- One round of the loop `for (const auto &res : result_list)` of `amountChargeToSend`. -/
def chargeStep (vertex_size : Nat) (acc : ChargeVars) (res : ContainResult) : ChargeVars :=
  match res.contain with
  | .Yes =>
    { lower := acc.lower + 1
      upper := acc.upper + 1
      is_related := (List.range vertex_size).map (fun v =>
        acc.is_related.getD v false || decide (slot res.occupied v ≠ none)) }
  | .Possible => { acc with upper := acc.upper + 1 }
  | .No => acc

/-- The results that `amountChargeToSend` counts: the last one is popped when
`is_symmetric` holds. -/
def dropSymmetric (symmetric : Bool) (result_list : List ContainResult) :
    List ContainResult :=
  if symmetric then result_list.dropLast else result_list

/-- The function `BaseWheel::amountChargeToSend`; the two amounts are products of `int`s. -/
def amountChargeToSend (wheel : NearTriangulation) (from_ to_ : Nat) (rule : Rule) :
    Except MatchError (Int × Int × List Bool) :=
  if findEdge wheel.edges (from_, to_) = wheel.edges.length then throw .assertFailed
  else do
    let result_list ← containSubgraphWithCorrespondingEdge wheel rule.rule
      (findEdge wheel.edges (from_, to_)) rule.send_edgeid [] true
    if result_list.length ≤ 2 then do
      let symmetric ← is_symmetric result_list
      let acc := (dropSymmetric symmetric result_list).foldl (chargeStep wheel.vertex_size)
        { lower := 0, upper := 0, is_related := List.replicate wheel.vertex_size false }
      pure (wrapInt ((acc.lower : Int) * rule.amount),
            wrapInt ((acc.upper : Int) * rule.amount), acc.is_related)
    else throw .assertFailed

/-- Equality of the matcher's outcomes can be decided. -/
instance instDecidableEqOutcome {α : Type} [DecidableEq α] :
    DecidableEq (Except MatchError α) := fun a b =>
  match a, b with
  | .ok x, .ok y =>
    if h : x = y then isTrue (by rw [h]) else isFalse (fun hc => h (Except.ok.inj hc))
  | .error x, .error y =>
    if h : x = y then isTrue (by rw [h]) else isFalse (fun hc => h (Except.error.inj hc))
  | .ok _, .error _ => isFalse (fun hc => by cases hc)
  | .error _, .ok _ => isFalse (fun hc => by cases hc)

/-! ## basewheel.cpp: isIsomorphic, makeUnique -/

/-- The loop of `isIsomorphic` over the edge numbers of `wheel2`; the second match is made
only when the first one has a `Yes` result. -/
def isIsomorphicLoop (wheel1 wheel2 : NearTriangulation) : List Nat → Except MatchError Bool
  | [] => pure false
  | ei :: rest => do
    let n1 ← numOfSubgraphWithCorrespondingEdge wheel1 wheel2 0 ei []
    if n1 > 0 then do
      let n2 ← numOfSubgraphWithCorrespondingEdge wheel2 wheel1 ei 0 []
      if n2 > 0 then pure true else isIsomorphicLoop wheel1 wheel2 rest
    else isIsomorphicLoop wheel1 wheel2 rest

/-- The function `BaseWheel::isIsomorphic`, on the near-triangulations of its arguments. -/
def isIsomorphic (wheel1 wheel2 : NearTriangulation) : Except MatchError Bool :=
  isIsomorphicLoop wheel1 wheel2 (List.range wheel2.edges.length)

/-- The inner loop of `makeUnique`: the value of `add_wheel` after `wheel` has been compared
with the members of `unique_wheels`, up to the first isomorphic one. -/
def addWheel {W : Type} (ops : WheelLike W) (wheel : W) : List W → Except MatchError Bool
  | [] => pure true
  | unique_wheel :: rest => do
    let iso ← isIsomorphic (ops.nearTriangulation wheel) (ops.nearTriangulation unique_wheel)
    if iso then pure false else addWheel ops wheel rest

/-- One round of the outer loop of `makeUnique`. -/
def makeUniqueStep {W : Type} (ops : WheelLike W) (unique_wheels : List W) (wheel : W) :
    Except MatchError (List W) := do
  let add_wheel ← addWheel ops wheel unique_wheels
  if add_wheel then pure (unique_wheels ++ [wheel]) else pure unique_wheels

/-- The function `BaseWheel::makeUnique`: the value it leaves in `wheels`. -/
def makeUnique {W : Type} (ops : WheelLike W) (wheels : List W) : Except MatchError (List W) :=
  wheels.foldlM (makeUniqueStep ops) []

/-! ## basewheel.cpp: searchNoConfGraphs -/

/-- The lambda `set_degree_recursive` of `searchNoConfGraphs`, on the pair of
`temp_wheelgraph` and the output vector `wheelgraphs`; the fuel bounds the depth of the
recursion. -/
def set_degree_recursive {W : Type} (ops : WheelLike W) (possible_degrees : List Degree)
    (confs : List Configuration) (vertex_size : Nat) :
    Nat → Nat → W × List W → Except MatchError (W × List W)
  | 0, _, _ => throw .outOfFuel
  | fuel + 1, v, (temp_wheelgraph, wheelgraphs) => do
    let pruned ←
      (if v % 5 = 0 then containOneofConfs ops temp_wheelgraph confs
       else pure false)
    if pruned then pure (temp_wheelgraph, wheelgraphs)
    else if v = vertex_size then do
      let found ← containOneofConfs ops temp_wheelgraph confs
      if found then pure (temp_wheelgraph, wheelgraphs)
      else pure (temp_wheelgraph, wheelgraphs ++ [temp_wheelgraph])
    else do
      let r ← possible_degrees.foldlM
        (fun cur degree =>
          set_degree_recursive ops possible_degrees confs vertex_size fuel (v + 1)
            (ops.setDegree cur.1 v (some degree), cur.2))
        (temp_wheelgraph, wheelgraphs)
      pure (ops.setDegree r.1 v none, r.2)

/-- The function `BaseWheel::searchNoConfGraphs`; the recursion gets one unit of fuel for
each of the vertices `index, ..., vertex_size`. -/
def searchNoConfGraphs {W : Type} (ops : WheelLike W) (wheelgraph : W) (index : Nat)
    (possible_degrees : List Degree) (confs : List Configuration) :
    Except MatchError (List W) := do
  let found ← containOneofConfs ops wheelgraph confs
  if found then pure []
  else do
    let r ← set_degree_recursive ops possible_degrees confs
      (ops.nearTriangulation wheelgraph).vertex_size
      ((ops.nearTriangulation wheelgraph).vertex_size + 1 - index) index (wheelgraph, [])
    pure r.2

/-! ## basewheel.cpp: decideDegreeBySendCases -/

/-- The statements `edge_id = std::find(...) - edges.begin(); assert(edge_id != edges.size())`. -/
def edgeidOf (edges : List Edge) (edge : Edge) : Except MatchError Nat :=
  if findEdge edges edge ≠ edges.length then pure (findEdge edges edge)
  else throw .assertFailed

/-- The two loops that fill `edgeids`: the numbers of the edges `(v, hub)` and then of the
edges `(hub, v)` for `v = 1, ..., hubdegree`. -/
def sendCaseEdgeids (wheelgraph : CartWheel) : Except MatchError (List Nat) :=
  ((List.range wheelgraph.num_neighbor).map (fun i => (i + 1, 0))
    ++ (List.range wheelgraph.num_neighbor).map (fun i => (0, i + 1))).mapM
    (edgeidOf wheelgraph.cartwheel.edges)

/-- The two loops over `degrees` in `decide_degree_by_rules`: every wheel gets the first
degree at `v`, and for each further degree a copy of every one of them is appended. -/
def branchDegrees (v : Nat) (degrees : List Degree) (wheels : List CartWheel) :
    List CartWheel :=
  match degrees with
  | [] => wheels
  | degree0 :: rest =>
    (wheels.map (fun w => w.setDegree v (some degree0)))
      ++ rest.flatMap (fun degree =>
        (wheels.map (fun w => w.setDegree v (some degree0))).map
          (fun w => w.setDegree v (some degree)))

/-- One round of the loop over the vertices `v` in `decide_degree_by_rules`; the `value()`
of an unset rule degree and the assertion of `divideDegree` end it abnormally. -/
def ruleDegreeStep (wheel : CartWheel) (rule : Rule) (max_degree : Int)
    (result : ContainResult) (wheels : List CartWheel) (v : Nat) :
    Except MatchError (List CartWheel) :=
  match slot result.occupied v with
  | none => pure wheels
  | some vs =>
    if (wheel.cartwheel.degreeAt v).isSome then pure wheels
    else
      match rule.rule.degreeAt vs with
      | none => throw .outOfRange
      | some degree =>
        match divideDegree degree max_degree with
        | none => throw .assertFailed
        | some degrees => pure (branchDegrees v degrees wheels)

/-- One round of the loop over `result_list` in `decide_degree_by_rules`. -/
def ruleResultStep (wheel : CartWheel) (rule : Rule) (max_degree : Int)
    (acc : List CartWheel × List Int) (result : ContainResult) :
    Except MatchError (List CartWheel × List Int) :=
  if result.contain = Contain.No then pure acc
  else do
    let wheels ← (List.range wheel.cartwheel.vertex_size).foldlM
      (ruleDegreeStep wheel rule max_degree result) [wheel]
    pure (acc.1 ++ wheels, acc.2 ++ List.replicate wheels.length rule.amount)

/-- The lambda `decide_degree_by_rules`, given the edge number `edgeids[edgeids_idx]`. -/
def decide_degree_by_rules (rules : List Rule) (max_degree : Int) (wheel : CartWheel)
    (edgeid : Nat) : Except MatchError (List CartWheel × List Int) :=
  rules.foldlM
    (fun acc rule => do
      let result_list ← containSubgraphWithCorrespondingEdge wheel.cartwheel rule.rule
        edgeid rule.send_edgeid [] true
      result_list.foldlM (ruleResultStep wheel rule max_degree) acc)
    ([wheel], [0])

/-- The inner loop of `unique`: the position `j` of the first member of `unique_wheels`
that `wheel` is isomorphic to, where the loop breaks. -/
def uniqueFind (wheel : CartWheel) : List CartWheel → Except MatchError (Option Nat)
  | [] => pure none
  | unique_wheel :: rest => do
    let iso ← isIsomorphic wheel.cartwheel unique_wheel.cartwheel
    if iso then pure (some 0)
    else do
      let r ← uniqueFind wheel rest
      pure (r.map (fun j => j + 1))

/-- One round of the outer loop of `unique`, for the wheel `next.1 = next_wheels[i]` and
the charge `next.2 = next_charges[i]`. -/
def uniqueStep (acc : List CartWheel × List Int) (next : CartWheel × Int) :
    Except MatchError (List CartWheel × List Int) := do
  let found ← uniqueFind next.1 acc.1
  match found with
  | some j => pure (acc.1, acc.2.set j (max next.2 (acc.2.getD j 0)))
  | none => pure (acc.1 ++ [next.1], acc.2 ++ [next.2])

/-- The lambda `unique`; the two vectors it is given have the same length. -/
def unique (next_wheels : List CartWheel) (next_charges : List Int) :
    Except MatchError (List CartWheel × List Int) :=
  (next_wheels.zip next_charges).foldlM uniqueStep ([], [])

/-- The loop over the rules in `prune`: `max_send_l` and `max_send_u` for the edge
`(s, t)`. -/
def maxSend (rules : List Rule) (w : NearTriangulation) (s t : Nat) :
    Except MatchError (Int × Int) :=
  rules.foldlM
    (fun acc rule => do
      let r ← amountChargeToSend w s t rule
      pure (max acc.1 (if r.1 > 0 then rule.amount else 0),
            max acc.2 (if r.2.1 > 0 then rule.amount else 0)))
    (0, 0)

/-- The variables of the loop over `ei` in `prune`. -/
structure PruneVars where
  send_lower : Int
  receive_upper : Int
  stop_search : Bool
deriving DecidableEq, Repr

/-- One round of the loop over `ei` in `prune`; after the `break` nothing more is done. The
sums `receive_upper` and `send_lower` are sums of `int`s. -/
def pruneStep (rules : List Rule) (edges : List Edge) (edgeids : List Nat) (hubdegree : Nat)
    (w : NearTriangulation) (next_charge : Int) (edgeids_idx : Nat)
    (decided_charges : List Int) (acc : PruneVars) (ei : Nat) :
    Except MatchError PruneVars :=
  if acc.stop_search then pure acc
  else
    match edgeids.get? ei with
    | none => throw .outOfRange
    | some edgeid =>
      match edges.get? edgeid with
      | none => throw .outOfRange
      | some edge => do
        let m ← maxSend rules w edge.1 edge.2
        if ei < hubdegree then
          if ei = edgeids_idx then
            if m.1 > next_charge then pure { acc with stop_search := true }
            else pure { acc with receive_upper := wrapInt (acc.receive_upper + next_charge) }
          else if ei < edgeids_idx then
            match decided_charges.get? ei with
            | none => throw .outOfRange
            | some decided =>
              if m.1 > decided then pure { acc with stop_search := true }
              else pure { acc with receive_upper := wrapInt (acc.receive_upper + decided) }
          else pure { acc with receive_upper := wrapInt (acc.receive_upper + m.2) }
        else pure { acc with send_lower := wrapInt (acc.send_lower + m.1) }

/-- The test of `prune` under `charge_bound`: whether the candidate is dropped by one of
the two `continue` statements. Between them `w.toString()` is evaluated for the log, and
`charge` is a difference of `int`s. -/
def chargePruned (rules : List Rule) (edges : List Edge) (edgeids : List Nat)
    (hubdegree : Nat) (threshold : Int) (w : CartWheel) (next_charge : Int)
    (edgeids_idx : Nat) (decided_charges : List Int) : Except MatchError Bool := do
  let r ← (List.range edgeids.length).foldlM
    (pruneStep rules edges edgeids hubdegree w.cartwheel next_charge edgeids_idx
      decided_charges)
    { send_lower := 0, receive_upper := 0, stop_search := false }
  if r.stop_search then pure true
  else do
    let _ ← w.toString
    pure (decide (wrapInt (r.receive_upper - r.send_lower) ≤ threshold))

/-- One round of the loop over `i` in `prune`: under `charge_bound` the test of
`chargePruned`, in which the candidate is printed for the log, then `containOneofConfs`, which
prints it again. -/
def pruneCandidate (rules : List Rule) (confs : List Configuration) (threshold : Int)
    (charge_bound : Bool) (edges : List Edge) (edgeids : List Nat) (hubdegree : Nat)
    (edgeids_idx : Nat) (decided_charges : List Int)
    (acc : List CartWheel × List Int) (next : CartWheel × Int) :
    Except MatchError (List CartWheel × List Int) := do
  let dropped ←
    (if charge_bound then
      chargePruned rules edges edgeids hubdegree threshold next.1 next.2
        edgeids_idx decided_charges
     else pure false)
  if dropped then pure acc
  else do
    let found ← containOneofConfs wheelLikeCartWheel next.1 confs
    if found then pure acc else pure (acc.1 ++ [next.1], acc.2 ++ [next.2])

/-- The lambda `prune`; the two vectors it is given have the same length. -/
def prune (rules : List Rule) (confs : List Configuration) (threshold : Int)
    (charge_bound : Bool) (edges : List Edge) (edgeids : List Nat) (hubdegree : Nat)
    (next_wheels : List CartWheel) (next_charges : List Int) (edgeids_idx : Nat)
    (decided_charges : List Int) : Except MatchError (List CartWheel × List Int) :=
  (next_wheels.zip next_charges).foldlM
    (pruneCandidate rules confs threshold charge_bound edges edgeids hubdegree edgeids_idx
      decided_charges)
    ([], [])

/-- The lambda `decide_degree`, on the output vector `res`; its first argument is
`edgeids.size() - edgeids_idx`, the number of edges still to be looked at. When an edge is
left, `wheel.toString()` is evaluated for the log before anything else. -/
def decide_degree (rules : List Rule) (confs : List Configuration) (max_degree threshold : Int)
    (charge_bound : Bool) (edges : List Edge) (edgeids : List Nat) (hubdegree : Nat) :
    Nat → CartWheel → Nat → List Int → List CartWheel → Except MatchError (List CartWheel)
  | 0, wheel, _, _, res => pure (res ++ [wheel])
  | remaining + 1, wheel, edgeids_idx, decided_charges, res => do
    let _ ← wheel.toString
    match edgeids.get? edgeids_idx with
    | none => throw .outOfRange
    | some edgeid => do
      let next ← decide_degree_by_rules rules max_degree wheel edgeid
      let uniq ← unique next.1 next.2
      let pruned ← prune rules confs threshold charge_bound edges edgeids hubdegree
        uniq.1 uniq.2 edgeids_idx decided_charges
      (pruned.1.zip pruned.2).foldlM
        (fun res candidate =>
          decide_degree rules confs max_degree threshold charge_bound edges edgeids
            hubdegree remaining candidate.1 (edgeids_idx + 1)
            (if edgeids_idx < hubdegree then decided_charges ++ [candidate.2]
             else decided_charges)
            res)
        res

/-- The function `BaseWheel::decideDegreeBySendCases`, instantiated for `CartWheel`. -/
def decideDegreeBySendCases (wheelgraph : CartWheel) (rules : List Rule)
    (confs : List Configuration) (max_degree threshold : Int) (charge_bound : Bool) :
    Except MatchError (List CartWheel) := do
  let edgeids ← sendCaseEdgeids wheelgraph
  decide_degree rules confs max_degree threshold charge_bound wheelgraph.cartwheel.edges
    edgeids wheelgraph.num_neighbor edgeids.length wheelgraph 0 [] []

/-! ## cartwheel.cpp: Wheel::fromHubDegree -/

/-- The method `std::set<int>::insert`, on the increasing list of the members. -/
def setInsert (x : Nat) : List Nat → List Nat
  | [] => [x]
  | y :: s => if x < y then x :: y :: s else if x = y then y :: s else y :: setInsert x s

/-- The statement `VtoV[v].insert(u)`. -/
def insertNeighbor (VtoV : List (List Nat)) (v u : Nat) : List (List Nat) :=
  VtoV.set v (setInsert u (adjacent VtoV v))

/-- One round of the loop `for (int v = 1; v <= hub_degree; v++)` of `Wheel::fromHubDegree`
and of `Wheel::readWheelFile`: the rim edge from `v` to the next rim vertex `u` and the
spoke from the hub `0` to `v`. -/
def wheelStep (hub_degree : Nat) (VtoV : List (List Nat)) (v : Nat) : List (List Nat) :=
  let u := if v = hub_degree then 1 else v + 1
  insertNeighbor (insertNeighbor (insertNeighbor (insertNeighbor VtoV v u) u v) 0 v) v 0

/-- The adjacency `VtoV` that `Wheel::fromHubDegree` and `Wheel::readWheelFile` hand to the
constructor of `NearTriangulation`. -/
def wheelVtoV (hub_degree : Nat) : List (List Nat) :=
  (List.range' 1 hub_degree).foldl (wheelStep hub_degree) (List.replicate (hub_degree + 1) [])

/-- The function `Wheel::fromHubDegree`: the hub has the degree `hub_degree`, no other
degree is set; `none` when the constructor's assertion fails. -/
def Wheel.fromHubDegree (hub_degree : Nat) : Option Wheel :=
  (NearTriangulation.construct (hub_degree + 1) (wheelVtoV hub_degree)
    ((List.replicate (hub_degree + 1) none).set 0
      (some { lower_deg := hub_degree, upper_deg := hub_degree }))).map Wheel.mk

/-! ## cartwheel.cpp: CartWheel::isOvercharged -/

/-- The function `chargeInitial`, in the arithmetic of `int`. -/
def chargeInitial (degree : Int) : Int :=
  wrapInt (10 * wrapInt (6 - degree))

/-- The variables of the loops of `isOvercharged`: `charge_receive`, `charge_send` and
`is_rule_related`. -/
structure OverchargeVars where
  charge_receive : Int
  charge_send : Int
  is_rule_related : List Bool
deriving DecidableEq, Repr

/-- One round of the loop over the rules in `isOvercharged`, for the neighbour
`hub_neighbor`, with its assertion that the lower and upper amounts coincide; the two sums
are sums of `int`s. The string and the sum kept in `degree_charge_of_neighbors` go to the
log only. -/
def overchargeRuleStep (self : CartWheel) (hub_neighbor : Nat) (acc : OverchargeVars)
    (rule : Rule) : Except MatchError OverchargeVars := do
  let receive ← amountChargeToSend self.cartwheel hub_neighbor 0 rule
  let send ← amountChargeToSend self.cartwheel 0 hub_neighbor rule
  if receive.1 = receive.2.1 ∧ send.1 = send.2.1 then
    pure { charge_receive := wrapInt (acc.charge_receive + receive.1)
           charge_send := wrapInt (acc.charge_send + send.1)
           is_rule_related := (List.range self.cartwheel.vertex_size).map (fun i =>
             acc.is_rule_related.getD i false || receive.2.2.getD i false
               || send.2.2.getD i false) }
  else throw .assertFailed

/-- One round of the loop over the neighbours of the hub in `isOvercharged`: the loop over
the rules, then `assert(degrees[hub_neighbor - 1].has_value())` and the
`degrees[hub_neighbor].value().toString()` that is written to the log. -/
def overchargeNeighborStep (self : CartWheel) (rules : List Rule) (acc : OverchargeVars)
    (hub_neighbor : Nat) : Except MatchError OverchargeVars := do
  let r ← rules.foldlM (overchargeRuleStep self hub_neighbor) acc
  if (self.cartwheel.degreeAt (hub_neighbor - 1)).isSome then
    match self.cartwheel.degreeAt hub_neighbor with
    | none => throw .outOfRange
    | some degree =>
      if degree.toString.isSome then pure r else throw .assertFailed
  else throw .assertFailed

/-- The method `CartWheel::isOvercharged`: after the loops, `charge` is computed in the
arithmetic of `int` and `toString()` is evaluated for the log. -/
def CartWheel.isOvercharged (self : CartWheel) (rules : List Rule) :
    Except MatchError (Bool × List Bool) := do
  let r ← (List.range' 1 self.num_neighbor).foldlM (overchargeNeighborStep self rules)
    { charge_receive := 0, charge_send := 0
      is_rule_related := List.replicate self.cartwheel.vertex_size false }
  let charge := wrapInt (wrapInt (chargeInitial self.num_neighbor + r.charge_receive)
    - r.charge_send)
  let _ ← self.toString
  pure (decide (charge > 0), r.is_rule_related)

/-! ## cartwheel.cpp: CartWheel::fromWheel -/

/-- The lambda `add_edge`. -/
def addEdge (VtoV : List (List Nat)) (v u : Nat) : List (List Nat) :=
  insertNeighbor (insertNeighbor VtoV v u) u v

/-- The read `degrees[v].value()`, which throws when the degree is not set. -/
def degreeValue (degrees : List (Option Degree)) (v : Nat) : Except MatchError Degree :=
  match degrees.getD v none with
  | some degree => pure degree
  | none => throw .outOfRange

/-- The statement `hub_neighbors_neighbors[v].push_back(w)`. -/
def pushAt {α : Type} (lists : List (List α)) (v : Nat) (w : α) : List (List α) :=
  lists.set v (lists.getD v [] ++ [w])

/-- The variables of `fromWheel`: `VtoV`, `degrees`, `hub_neighbors_neighbors` and
`second_neighbors`. The lambda `new_vertex` puts an empty row at the end of `VtoV` and an
unset degree at the end of `degrees`; the new vertex is the old length of `VtoV`. -/
structure CartVars where
  VtoV : List (List Nat)
  degrees : List (Option Degree)
  hub_neighbors_neighbors : List (List Nat)
  second_neighbors : List Nat
deriving DecidableEq, Repr

/-- One round of the first loop of `fromWheel`: the rim edge from `v` to the next rim vertex
`u`, the spoke to `v`, and, unless neither `v` nor `u` has a fixed degree, a new vertex
joined to `v` and `u`. The degree of `u` is read only when that of `v` is not fixed. -/
def secondNeighborStep (hub_degree : Nat) (acc : CartVars) (v : Nat) :
    Except MatchError CartVars := do
  let u := if v = hub_degree then 1 else v + 1
  let VtoV := addEdge (addEdge acc.VtoV v u) 0 v
  let degv ← degreeValue acc.degrees v
  let skip ← (if degv.fixed then pure false
    else do
      let degu ← degreeValue acc.degrees u
      pure (!degu.fixed))
  if skip then pure { acc with VtoV := VtoV }
  else
    pure { VtoV := addEdge (addEdge (VtoV ++ [[]]) v VtoV.length) u VtoV.length
           degrees := acc.degrees ++ [none]
           hub_neighbors_neighbors := acc.hub_neighbors_neighbors
           second_neighbors := acc.second_neighbors.set v VtoV.length }

/-- One round of the loop over `count` in the second loop of `fromWheel`, for the rim vertex
`v`; the second component is the variable `first`. -/
def fanStep (v : Nat) (acc : CartVars × Nat) (_count : Nat) : CartVars × Nat :=
  ({ VtoV := addEdge (addEdge (acc.1.VtoV ++ [[]]) v acc.1.VtoV.length) acc.2
       acc.1.VtoV.length
     degrees := acc.1.degrees ++ [none]
     hub_neighbors_neighbors := pushAt acc.1.hub_neighbors_neighbors v acc.1.VtoV.length
     second_neighbors := acc.1.second_neighbors },
   acc.1.VtoV.length)

/-- One round of the second loop of `fromWheel`: for a rim vertex `v` of fixed degree, the
`degv.lower() - 5` new vertices between the second neighbours `first` and `last`. -/
def neighborRingStep (hub_degree : Nat) (acc : CartVars) (v : Nat) :
    Except MatchError CartVars := do
  let degv ← degreeValue acc.degrees v
  if !degv.fixed then pure acc
  else
    let u := if v = 1 then hub_degree else v - 1
    let first := acc.second_neighbors.getD u 0
    let last := acc.second_neighbors.getD v 0
    let r := (List.range (degv.lower_deg - 5).toNat).foldl (fanStep v)
      ({ acc with hub_neighbors_neighbors := pushAt acc.hub_neighbors_neighbors v first },
       first)
    pure { r.1 with
      hub_neighbors_neighbors := pushAt r.1.hub_neighbors_neighbors v last
      VtoV := addEdge r.1.VtoV r.2 last }

/-- The two loops of `fromWheel`, from the vectors it starts with. -/
def fromWheelLoops (hub_degree : Nat) (degrees : List (Option Degree)) :
    Except MatchError CartVars := do
  let s1 ← (List.range' 1 hub_degree).foldlM (secondNeighborStep hub_degree)
    { VtoV := List.replicate (hub_degree + 1) []
      degrees := degrees
      hub_neighbors_neighbors := List.replicate (hub_degree + 1) []
      second_neighbors := List.replicate (hub_degree + 1) 0 }
  (List.range' 1 hub_degree).foldlM (neighborRingStep hub_degree) s1

/-- The function `CartWheel::fromWheel`. A negative hub degree is refused (the source makes
vectors of the length `hub_degree + 1`); the assertion of the constructor of
`NearTriangulation` can fail. -/
def CartWheel.fromWheel (wheel : Wheel) : Except MatchError CartWheel := do
  let hub_degree ← wheel.numNeighbor
  if hub_degree < 0 then throw .outOfRange
  else do
    let s ← fromWheelLoops hub_degree.toNat wheel.wheel.degrees
    match NearTriangulation.construct s.VtoV.length s.VtoV s.degrees with
    | some cartwheel =>
      pure { cartwheel := cartwheel
             num_neighbor := hub_degree.toNat
             hub_neighbors_neighbors := s.hub_neighbors_neighbors
             third_neighbors := List.replicate cartwheel.vertex_size [] }
    | none => throw .assertFailed

/-! ## cartwheel.cpp: CartWheel::extendThirdNeighbor -/

/-- The lambda `get_degree`, with its assertion that the degree is set. -/
def getDegree (degrees : List (Option Degree)) (v : Nat) : Except MatchError Degree :=
  match degrees.getD v none with
  | some degree => pure degree
  | none => throw .assertFailed

/-- An `int` used as a vertex number: a negative one is out of range. -/
def vertexOf (w : Int) : Except MatchError Nat :=
  if w < 0 then throw .outOfRange else pure w.toNat

/-- The variables of `extendThirdNeighbor`: `VtoV`, `degrees`, `third_neighbors` and
`circuit_neighbor`. The lambda `new_vertex` puts an empty row at the end of `VtoV`, an unset
degree at the end of `degrees` and an empty list at the end of `third_neighbors`. -/
structure ThirdVars where
  VtoV : List (List Nat)
  degrees : List (Option Degree)
  third_neighbors : List (List Int)
  circuit_neighbor : List Int
deriving DecidableEq, Repr

/-- The loop over the edges that builds `VtoV` again from the triangles of the cartwheel. -/
def trianglesVtoV (nt : NearTriangulation) : Except MatchError (List (List Nat)) :=
  nt.edges.foldlM
    (fun VtoV edge =>
      match nt.diagonalAt edge with
      | none => throw .outOfRange
      | some diagonal =>
        pure (diagonal.foldl
          (fun VtoV v => addEdge (addEdge (addEdge VtoV v edge.1) v edge.2) edge.1 edge.2)
          VtoV))
    (List.replicate nt.vertex_size [])

/-- One round of the loop that builds `circuit`. -/
def circuitOf (self : CartWheel) (circuit : List Nat) (v : Nat) :
    Except MatchError (List Nat) := do
  let degv ← getDegree self.cartwheel.degrees v
  if !degv.fixed then pure (circuit ++ [v])
  else do
    let ring := self.hub_neighbors_neighbors.getD v []
    let v_after := if v = self.num_neighbor then 1 else v + 1
    let degv_after ← getDegree self.cartwheel.degrees v_after
    if !degv_after.fixed then
      match ring.getLast? with
      | some last => pure (circuit ++ ring.dropLast ++ [last])
      | none => throw .outOfRange
    else pure (circuit ++ ring.dropLast)

/-- One round of the first loop over `cidx` in `extendThirdNeighbor`; `degrees0` is the
copy of the degrees that `get_degree` holds. -/
def circuitNeighborStep (degrees0 : List (Option Degree)) (circuit : List Nat) (deg0 : Degree)
    (acc : ThirdVars) (cidx : Nat) : Except MatchError ThirdVars :=
  match circuit.get? cidx, circuit.get? (if cidx + 1 = circuit.length then 0 else cidx + 1),
      circuit.get? 0 with
  | some v, some u, some c0 => do
    let degv ← getDegree degrees0 v
    let degu ← getDegree degrees0 u
    if cidx + 2 = circuit.length ∧ degu.fixed
        ∧ ((adjacent acc.VtoV u).length : Int) = degu.lower_deg - 1
        ∧ deg0.fixed ∧ ((adjacent acc.VtoV c0).length : Int) = deg0.lower_deg then do
      let w ← vertexOf (acc.circuit_neighbor.getD c0 (-1))
      pure { acc with
        circuit_neighbor := acc.circuit_neighbor.set v (acc.circuit_neighbor.getD c0 (-1))
        VtoV := addEdge (addEdge acc.VtoV v w) u w }
    else if degv.fixed ∧ ((adjacent acc.VtoV v).length : Int) = degv.lower_deg then
      if 0 < cidx then
        match circuit.get? (cidx - 1) with
        | some p => do
          let w ← vertexOf (acc.circuit_neighbor.getD p (-1))
          pure { acc with
            circuit_neighbor := acc.circuit_neighbor.set v (acc.circuit_neighbor.getD p (-1))
            VtoV := addEdge acc.VtoV u w }
        | none => throw .outOfRange
      else throw .assertFailed
    else if degu.fixed ∧ ((adjacent acc.VtoV u).length : Int) = degu.lower_deg then
      if cidx + 1 = circuit.length then do
        let w ← vertexOf (acc.circuit_neighbor.getD c0 (-1))
        pure { acc with
          circuit_neighbor := acc.circuit_neighbor.set v (acc.circuit_neighbor.getD c0 (-1))
          VtoV := addEdge acc.VtoV v w }
      else throw .assertFailed
    else if !degv.fixed ∧ !degu.fixed then pure acc
    else
      pure { VtoV := addEdge (addEdge (acc.VtoV ++ [[]]) u acc.VtoV.length) v acc.VtoV.length
             degrees := acc.degrees ++ [none]
             third_neighbors := acc.third_neighbors ++ [[]]
             circuit_neighbor := acc.circuit_neighbor.set v (acc.VtoV.length : Int) }
  | _, _, _ => throw .outOfRange

/-- One round of the loop over `count` in the second loop over `cidx`, for the circuit
vertex `v`; the second component is the variable `first`. -/
def thirdFanStep (v : Nat) (acc : ThirdVars × Nat) (_count : Nat) : ThirdVars × Nat :=
  ({ VtoV := addEdge (addEdge (acc.1.VtoV ++ [[]]) acc.2 acc.1.VtoV.length) v
       acc.1.VtoV.length
     degrees := acc.1.degrees ++ [none]
     third_neighbors := pushAt (acc.1.third_neighbors ++ [[]]) v (acc.1.VtoV.length : Int)
     circuit_neighbor := acc.1.circuit_neighbor },
   acc.1.VtoV.length)

/-- One round of the second loop over `cidx` in `extendThirdNeighbor`. -/
def thirdRingStep (degrees0 : List (Option Degree)) (circuit : List Nat) (acc : ThirdVars)
    (cidx : Nat) : Except MatchError ThirdVars :=
  match circuit.get? cidx, circuit.get? (if cidx = 0 then circuit.length - 1 else cidx - 1) with
  | some v, some u => do
    let degv ← getDegree degrees0 v
    if !degv.fixed then pure acc
    else
      let first := acc.circuit_neighbor.getD u (-1)
      let last := acc.circuit_neighbor.getD v (-1)
      let acc1 := { acc with third_neighbors := pushAt acc.third_neighbors v first }
      if first = last then pure acc1
      else
        let num_vertex := degv.lower_deg - ((adjacent acc.VtoV v).length : Int)
        if 0 ≤ num_vertex then do
          let f ← vertexOf first
          let l ← vertexOf last
          let r := (List.range num_vertex.toNat).foldl (thirdFanStep v) (acc1, f)
          pure { r.1 with
            third_neighbors := pushAt r.1.third_neighbors v last
            VtoV := addEdge r.1.VtoV r.2 l }
        else throw .assertFailed
  | _, _ => throw .outOfRange

/-- The method `CartWheel::extendThirdNeighbor`: the cartwheel it leaves. -/
def CartWheel.extendThirdNeighbor (self : CartWheel) : Except MatchError CartWheel := do
  let VtoV ← trianglesVtoV self.cartwheel
  let circuit ← (List.range' 1 self.num_neighbor).foldlM (circuitOf self) []
  match circuit.get? 0 with
  | none => throw .outOfRange
  | some c0 => do
    let deg0 ← getDegree self.cartwheel.degrees c0
    let s1 ← (List.range circuit.length).foldlM
      (circuitNeighborStep self.cartwheel.degrees circuit deg0)
      { VtoV := VtoV
        degrees := self.cartwheel.degrees
        third_neighbors := List.replicate self.cartwheel.vertex_size []
        circuit_neighbor := List.replicate self.cartwheel.vertex_size (-1) }
    let s2 ← (List.range circuit.length).foldlM
      (thirdRingStep self.cartwheel.degrees circuit) s1
    match NearTriangulation.construct s2.VtoV.length s2.VtoV s2.degrees with
    | some cartwheel =>
      pure { self with cartwheel := cartwheel, third_neighbors := s2.third_neighbors }
    | none => throw .assertFailed

/-! ## Parsing a degree and writing it again -/

/-- The expression `Degree::fromString(s).toString()`: `none` when `fromString` throws or
`toString` reaches its `assert(false)`. -/
def parseThenPrint (s : List Char) : Option (List Char) :=
  match Degree.fromString s with
  | .ok degree => degree.toString
  | .error _ => none

/-- Equality of the results of `Degree::fromString` can be decided. -/
instance instDecidableEqParsed {α : Type} [DecidableEq α] :
    DecidableEq (Except ParseError α) := fun a b =>
  match a, b with
  | .ok x, .ok y =>
    if h : x = y then isTrue (by rw [h]) else isFalse (fun hc => h (Except.ok.inj hc))
  | .error x, .error y =>
    if h : x = y then isTrue (by rw [h]) else isFalse (fun hc => h (Except.error.inj hc))
  | .ok _, .error _ => isFalse (fun hc => by cases hc)
  | .error _, .ok _ => isFalse (fun hc => by cases hc)

/-! ## Concrete graphs -/

/-- The adjacency of a single edge `0 - 1`. -/
def edgeVtoV : List (List Nat) := [[1], [0]]

/-- The adjacency of the complete graph on four vertices (the wheel with hub degree 3). -/
def k4VtoV : List (List Nat) := [[1, 2, 3], [0, 2, 3], [0, 1, 3], [0, 1, 2]]

/-- The complete graph on four vertices, no degree set. -/
def k4 : NearTriangulation := NearTriangulation.build 4 k4VtoV [none, none, none, none]

/-- The adjacency of the wheel with hub `0` and the rim `1, ..., 6`. -/
def wheel6VtoV : List (List Nat) :=
  [[1, 2, 3, 4, 5, 6], [0, 2, 6], [0, 1, 3], [0, 2, 4], [0, 3, 5], [0, 4, 6], [0, 1, 5]]

/-- The wheel with hub degree 6 whose seven vertices all have degree 6. -/
def wheel6 : NearTriangulation :=
  NearTriangulation.build 7 wheel6VtoV (List.replicate 7 (some { lower_deg := 6, upper_deg := 6 }))

/-- The single edge `0 - 1`, no degree set. -/
def edgeFree : NearTriangulation := NearTriangulation.build 2 edgeVtoV [none, none]

/-- The single edge `0 - 1`, both ends of degree 5. -/
def edgeFive : NearTriangulation :=
  NearTriangulation.build 2 edgeVtoV
    [some { lower_deg := 5, upper_deg := 5 }, some { lower_deg := 5, upper_deg := 5 }]

/-- The single edge `0 - 1`, both ends of degree 7. -/
def edgeSeven : NearTriangulation :=
  NearTriangulation.build 2 edgeVtoV
    [some { lower_deg := 7, upper_deg := 7 }, some { lower_deg := 7, upper_deg := 7 }]

/-- The complete graph on four vertices as a configuration without cut vertex. -/
def k4Conf : Configuration :=
  { conf := k4, ring_size := 0, inside_edge_id := 0, has_cutvertex := false }

/-- The adjacency of the triangle `0 - 1 - 2`. -/
def triangleVtoV : List (List Nat) := [[1, 2], [0, 2], [0, 1]]

/-- The triangle `0 - 1 - 2`, no degree set. -/
def triangle : NearTriangulation := NearTriangulation.build 3 triangleVtoV [none, none, none]

/-- The adjacency of the wheel with hub `0` and the rim `1, ..., 5`. -/
def wheel5VtoV : List (List Nat) :=
  [[1, 2, 3, 4, 5], [0, 2, 5], [0, 1, 3], [0, 2, 4], [0, 3, 5], [0, 1, 4]]

/-- The wheel of `Wheel::fromHubDegree(5)`: the hub has degree 5, no rim degree is set. -/
def wheel5 : NearTriangulation :=
  NearTriangulation.build 6 wheel5VtoV
    [some { lower_deg := 5, upper_deg := 5 }, none, none, none, none, none]

/-- A rule that sends 2 along the edge `(0, 1)` between two vertices of degree 5. -/
def ruleFive : Rule := { rule := edgeFive, send_edgeid := 0, amount := 2 }

/-! ## Further concrete inputs -/

/-- The degree 5. -/
def five : Degree := { lower_deg := 5, upper_deg := 5 }

/-- The degree 6. -/
def six : Degree := { lower_deg := 6, upper_deg := 6 }

/-- The configuration made of one edge whose two ends have degree 5, without cut vertex. -/
def edgeFiveConf : Configuration :=
  { conf := edgeFive, ring_size := 0, inside_edge_id := 0, has_cutvertex := false }

/-- The triangle with the degrees `a`, `b`, `c` at its vertices `0`, `1`, `2`. -/
def triangleOf (a b c : Option Degree) : NearTriangulation :=
  NearTriangulation.build 3 triangleVtoV [a, b, c]

/-- The adjacency of the cartwheel that `CartWheel::fromWheel` makes of the wheel with hub
degree 5 whose rim vertices all have degree 5: the hub `0`, the rim `1, ..., 5` and the
second neighbours `6, ..., 10`. -/
def cart5VtoV : List (List Nat) :=
  [[1, 2, 3, 4, 5], [0, 2, 5, 6, 10], [0, 1, 3, 6, 7], [0, 2, 4, 7, 8], [0, 3, 5, 8, 9],
   [0, 1, 4, 9, 10], [1, 2, 7, 10], [2, 3, 6, 8], [3, 4, 7, 9], [4, 5, 8, 10], [1, 5, 6, 9]]

/-- The degrees of `cart5`: 5 at the hub and on the rim, none at the second neighbours. -/
def cart5Degrees : List (Option Degree) :=
  List.replicate 6 (some five) ++ List.replicate 5 none

/-- The cartwheel of the wheel with hub degree 5 whose rim vertices all have degree 5. -/
def cart5 : CartWheel :=
  { cartwheel := NearTriangulation.build 11 cart5VtoV cart5Degrees
    num_neighbor := 5
    hub_neighbors_neighbors := [[], [10, 6], [6, 7], [7, 8], [8, 9], [9, 10]]
    third_neighbors := List.replicate 11 [] }

/-- The configuration made of one edge whose two ends have degree 7, without cut vertex. -/
def edgeSevenConf : Configuration :=
  { conf := edgeSeven, ring_size := 0, inside_edge_id := 0, has_cutvertex := false }

/-- The degree written `8+`. -/
def eightPlus : Degree := { lower_deg := 8, upper_deg := 1000 }

/-- The cartwheel that `CartWheel::fromWheel` makes of the wheel with hub degree 5 whose rim
vertices all have the degree `8+`: no second neighbour is added. -/
def cartPlus : CartWheel :=
  { cartwheel := NearTriangulation.build 6 wheel5VtoV
      (some five :: List.replicate 5 (some eightPlus))
    num_neighbor := 5
    hub_neighbors_neighbors := [[], [], [], [], [], []]
    third_neighbors := List.replicate 6 [] }

/-- A rule that sends 1 along the edge `(0, 1)` from a vertex of degree `8+` to a vertex of
degree 5. -/
def rulePlus : Rule :=
  { rule := NearTriangulation.build 2 edgeVtoV [some eightPlus, some five]
    send_edgeid := 0, amount := 1 }

/-- The edge numbers that `decideDegreeBySendCases` lists for `cartPlus`: the edges
`(v, 0)` and then the edges `(0, v)` for `v = 1, ..., 5`. -/
def cartPlusEdgeids : List Nat := [5, 8, 11, 14, 17, 0, 1, 2, 3, 4]

/-- The wheel with hub degree 5 whose rim vertices `1, ..., 4` have degree 5 and whose rim
vertex `5` has no degree yet. -/
def wheel5Open : NearTriangulation :=
  NearTriangulation.build 6 wheel5VtoV
    [some five, some five, some five, some five, some five, none]

/-- The adjacency of two triangles `0 - 1 - 2` and `0 - 1 - 3` on the edge `0 - 1`. -/
def diamondVtoV : List (List Nat) := [[1, 2, 3], [0, 2, 3], [0, 1], [0, 1]]

/-- A rule on two triangles that share the send edge `(0, 1)`: the ends of the edge and
the one diagonal vertex `2` have degree 5, the other diagonal vertex `3` has no degree. -/
def ruleOpen : Rule :=
  { rule := NearTriangulation.build 4 diamondVtoV [some five, some five, some five, none]
    send_edgeid := 0, amount := 1 }

/-- The rule `ruleOpen` with the degree 5 at every vertex. -/
def ruleClosed : Rule :=
  { rule := NearTriangulation.build 4 diamondVtoV
      [some five, some five, some five, some five]
    send_edgeid := 0, amount := 1 }

/-- A simple graph on six vertices with five triangles, which is not a wheel: the adjacency
of a near-triangulation used to show what `isIsomorphic` does outside the wheels. -/
def fiveTrianglesVtoV : List (List Nat) :=
  [[1, 2, 3], [0, 2, 4], [0, 1, 3, 4], [0, 2, 4, 5], [1, 2, 3, 5], [3, 4]]

/-- The near-triangulation of `fiveTrianglesVtoV`, no degree set. -/
def fiveTriangles : NearTriangulation :=
  NearTriangulation.build 6 fiveTrianglesVtoV (List.replicate 6 none)

/-- A simple graph on six vertices with four triangles, which is not a wheel: a fan of three
triangles around the vertex `0` and a fourth triangle on the edge `2 - 3`. -/
def fourTrianglesVtoV : List (List Nat) :=
  [[1, 2, 3, 4], [0, 2], [0, 1, 3, 5], [0, 2, 4, 5], [0, 3], [2, 3]]

/-- The near-triangulation of `fourTrianglesVtoV`, no degree set. -/
def fourTriangles : NearTriangulation :=
  NearTriangulation.build 6 fourTrianglesVtoV (List.replicate 6 none)

/-! ## Concrete wheels for `fromWheel` and `extendThirdNeighbor` -/

/-- The wheel with hub degree 5 whose five rim vertices have degree 5. -/
def wheelAllFive : Wheel :=
  { wheel := NearTriangulation.build 6 wheel5VtoV (List.replicate 6 (some five)) }

/-- The calls `setDegree(v, degree)` for every vertex `v` after the rim: the second
neighbours of a cartwheel that `fromWheel` has made get the degree `degree`. -/
def setSecondDegrees (cw : CartWheel) (degree : Degree) : CartWheel :=
  (List.range' (cw.num_neighbor + 1) (cw.cartwheel.vertex_size - (cw.num_neighbor + 1))).foldl
    (fun c v => c.setDegree v (some degree)) cw

/-- The wheel with hub degree 5 whose rim vertex `1` has degree 5 and whose other rim
vertices have the degree `8+`. -/
def wheelOneFive : Wheel :=
  { wheel := NearTriangulation.build 6 wheel5VtoV
      (some five :: some five :: List.replicate 4 (some eightPlus)) }

/-- The wheel with hub degree 3 whose three rim vertices have degree 5. -/
def wheelThreeFive : Wheel :=
  { wheel := NearTriangulation.build 4 (wheelVtoV 3)
      [some { lower_deg := 3, upper_deg := 3 }, some five, some five, some five] }

/-- The wheel with hub degree 5 whose rim vertices have the degrees 5, 6, 7, `8+` and 5. -/
def wheelMixed : Wheel :=
  { wheel := NearTriangulation.build 6 wheel5VtoV
      [some five, some five, some six, some { lower_deg := 7, upper_deg := 7 },
        some eightPlus, some five] }

/-! ## Concrete inputs for the examples of the specification -/

/-- The wheel with hub degree 7 whose seven rim vertices have degree 5, as
`Wheel::readWheelFile` builds it: the hub has the degree 7. -/
def wheel7Five : NearTriangulation :=
  NearTriangulation.build 8 (wheelVtoV 7)
    (some { lower_deg := 7, upper_deg := 7 } :: List.replicate 7 (some five))

/-- The cartwheel without second neighbours on `wheel5Open`: the hub and the rim vertices
`1, ..., 4` have degree 5 and the rim vertex `5` has no degree yet. -/
def cartOpen : CartWheel :=
  { cartwheel := wheel5Open
    num_neighbor := 5
    hub_neighbors_neighbors := [[], [], [], [], [], []]
    third_neighbors := List.replicate 6 [] }

/-! ## Predicates and invariants used by the proofs -/

/-- The computation `x` ends with a value satisfying `Q`, or abnormally with an error
satisfying `E`. -/
def Sat {α : Type} (Q : α → Prop) (E : MatchError → Prop) : Except MatchError α → Prop
  | .ok a => Q a
  | .error e => E e

/-- The number of host edges not yet in the visited set. -/
def unvisited (wheelgraph : NearTriangulation) (visited : List Edge) : Nat :=
  wheelgraph.edges.countP (fun e => decide (e ∉ visited))

/-- Every key of the diagonal map is a directed edge of the graph. -/
def KeysAreEdges (nt : NearTriangulation) : Prop :=
  ∀ e d, nt.diagonalAt e = some d → e ∈ nt.edges

/-- The visited set `v2` comes from `v1` by insertions of new host edges: nothing is lost,
no edge is listed twice, nothing but host edges is added. -/
def Grows (wheelgraph : NearTriangulation) (v1 v2 : List Edge) : Prop :=
  v1 ⊆ v2 ∧ (v1.Nodup → v2.Nodup)
  ∧ ((∀ e, e ∈ v1 → e ∈ wheelgraph.edges) → ∀ e, e ∈ v2 → e ∈ wheelgraph.edges)

/-- What the fuel argument asks of the recursive calls: with fewer than `k` unvisited
host edges a call does not run out of fuel, and it only inserts new host edges into the
visited set. -/
def FuelSpec (wheelgraph : NearTriangulation) (k : Nat) (rec : Recursor) : Prop :=
  ∀ edge_w edge_s st, unvisited wheelgraph st.visited < k →
    Sat (fun r => Grows wheelgraph st.visited r.2.visited) (fun e => e ≠ .outOfFuel)
      (rec edge_w edge_s st)

/-- The vectors have the sizes they were created with. -/
def Sized (wheelgraph subgraph : NearTriangulation) (st : MatchState) : Prop :=
  st.occupied.length = wheelgraph.vertex_size ∧ st.located.length = subgraph.vertex_size

/-- The vectors `located` and `occupied` are inverse to each other. -/
def Inverse (st : MatchState) : Prop :=
  ∀ vs vw, slot st.located vs = some vw ↔ slot st.occupied vw = some vs

/-- The state `st2` keeps every entry that `st1` has set and every visited edge. -/
def Extends (st1 st2 : MatchState) : Prop :=
  (∀ v x, slot st1.occupied v = some x → slot st2.occupied v = some x)
  ∧ (∀ v x, slot st1.located v = some x → slot st2.located v = some x)
  ∧ st1.visited ⊆ st2.visited

/-- The guard of `set_edge_recursive` before `correspond`: both vertices are free, or they
are already matched to each other. -/
def Guard (st : MatchState) (vs vw : Nat) : Prop :=
  (slot st.located vs = none ∧ slot st.occupied vw = none)
  ∨ (slot st.located vs = some vw ∧ slot st.occupied vw = some vs)

/-- The number of host vertices of `l` that no pattern vertex occupies. -/
def freeW (st : MatchState) (l : List Nat) : Nat :=
  l.countP (fun vw => decide (slot st.occupied vw = none))

/-- The number of pattern vertices of `l` that are located nowhere. -/
def freeS (st : MatchState) (l : List Nat) : Nat :=
  l.countP (fun vs => decide (slot st.located vs = none))

/-- What the matcher uses of a near-triangulation built from a simple graph: the diagonal
map is defined exactly on the directed edges, adjacency is symmetric and without loops, and
the diagonal vertices of an edge are its common neighbours, listed once, at most two. -/
structure Triangulated (nt : NearTriangulation) : Prop where
  keys : ∀ e d, nt.diagonalAt e = some d → e ∈ nt.edges
  defined : ∀ e, e ∈ nt.edges → ∃ d, nt.diagonalAt e = some d
  edge_lt : ∀ a b, (a, b) ∈ nt.edges → a < nt.vertex_size ∧ b < nt.vertex_size
  edge_ne : ∀ a b, (a, b) ∈ nt.edges → a ≠ b
  edge_symm : ∀ a b, (a, b) ∈ nt.edges → (b, a) ∈ nt.edges
  diag_iff : ∀ a b d, nt.diagonalAt (a, b) = some d →
    ∀ w, w ∈ d ↔ ((a, w) ∈ nt.edges ∧ (b, w) ∈ nt.edges)
  diag_nodup : ∀ e d, nt.diagonalAt e = some d → d.Nodup
  diag_le_two : ∀ e d, nt.diagonalAt e = some d → d.length ≤ 2

/-- What a call of `set_edge_recursive` on the aligned edges `edge_w` and `edge_s` finds:
consistent vectors, both edges present with their ends matched, at most one pairing of a
free pattern diagonal with a free host diagonal, and fuel for the unvisited host edges. -/
structure CallPre (wheelgraph subgraph : NearTriangulation) (k : Nat) (edge_w edge_s : Edge)
    (st : MatchState) : Prop where
  sized : Sized wheelgraph subgraph st
  inverse : Inverse st
  mem_w : edge_w ∈ wheelgraph.edges
  mem_s : edge_s ∈ subgraph.edges
  occ1 : slot st.occupied edge_w.1 ≠ none
  occ2 : slot st.occupied edge_w.2 ≠ none
  loc1 : slot st.located edge_s.1 ≠ none
  loc2 : slot st.located edge_s.2 ≠ none
  few : ∀ dw ds, wheelgraph.diagonalAt edge_w = some dw → subgraph.diagonalAt edge_s = some ds →
    freeW st dw * freeS st ds ≤ 1
  fuel : unvisited wheelgraph st.visited < k

/-- The state after a call: consistent vectors that keep what was set before. -/
def CallPost (wheelgraph subgraph : NearTriangulation) (st : MatchState)
    (r : Bool × MatchState) : Prop :=
  Sized wheelgraph subgraph r.2 ∧ Inverse r.2 ∧ Extends st r.2

/-- The recursive calls end normally on every state that satisfies `CallPre`. -/
def TotalSpec (wheelgraph subgraph : NearTriangulation) (k : Nat) (rec : Recursor) : Prop :=
  ∀ edge_w edge_s st, CallPre wheelgraph subgraph k edge_w edge_s st →
    Sat (CallPost wheelgraph subgraph st) (fun _ => False) (rec edge_w edge_s st)

/-- The facts that stay fixed while the body of `set_edge_recursive` runs on the aligned
edges `edge_w` and `edge_s`; `st1` is the state right after the insertion into the
visited set. -/
structure BodyCtx (wheelgraph subgraph : NearTriangulation) (k : Nat) (edge_w edge_s : Edge)
    (dw ds : List Nat) (st1 : MatchState) : Prop where
  hostT : Triangulated wheelgraph
  patT : Triangulated subgraph
  hdw : wheelgraph.diagonalAt edge_w = some dw
  hds : subgraph.diagonalAt edge_s = some ds
  occ1 : slot st1.occupied edge_w.1 ≠ none
  occ2 : slot st1.occupied edge_w.2 ≠ none
  loc1 : slot st1.located edge_s.1 ≠ none
  loc2 : slot st1.located edge_s.2 ≠ none
  fuel : unvisited wheelgraph st1.visited < k

/-- The invariant of the loop over `diagonal_vertices_w`, for the pattern diagonal `vs`;
`rest` are the pattern diagonals still to come, `wrest` the host diagonals still to come. -/
structure InnerInv (wheelgraph subgraph : NearTriangulation) (dw : List Nat)
    (st1 : MatchState) (vs : Nat) (rest wrest : List Nat) (acc : InnerVars) : Prop where
  sized : Sized wheelgraph subgraph acc.st
  inverse : Inverse acc.st
  ext : Extends st1 acc.st
  nodup : wrest.Nodup
  sub : ∀ vw, vw ∈ wrest → vw ∈ dw
  countA : acc.new_match_case
      + (if slot acc.st.located vs = none then freeW acc.st wrest else 0)
      + freeW acc.st dw * freeS acc.st rest ≤ 1
  countB : acc.vs_match_case
      + (if slot acc.st.located vs = none then freeW acc.st wrest
         else wrest.countP (fun vw => decide (slot acc.st.located vs = some vw))) ≤ 1

/-- The invariant of the loop over `diagonal_vertices_s`; `rest` are the pattern diagonals
still to come. -/
structure OuterInv (wheelgraph subgraph : NearTriangulation) (dw ds : List Nat)
    (st1 : MatchState) (rest : List Nat) (acc : OuterVars) : Prop where
  sized : Sized wheelgraph subgraph acc.st
  inverse : Inverse acc.st
  ext : Extends st1 acc.st
  sub : ∀ vs, vs ∈ rest → vs ∈ ds
  count : acc.new_match_case + freeW acc.st dw * freeS acc.st rest ≤ 1

/-- The vectors before anything is corresponded. -/
def emptyState (wheelgraph subgraph : NearTriangulation) : MatchState :=
  { occupied := List.replicate wheelgraph.vertex_size none
    located := List.replicate subgraph.vertex_size none
    visited := [] }

/-- What is known of a result that is not built from a failed propagation: it is what
`update_res` makes of a state with consistent vectors that keeps the pinned pairs. -/
def ResultOf (wheelgraph subgraph : NearTriangulation) (ex : List Nat) (dp : Bool)
    (ew es : Edge) (r : ContainResult) : Prop :=
  ∃ md st, r = update_res wheelgraph subgraph ex dp md st
    ∧ Sized wheelgraph subgraph st ∧ Inverse st
    ∧ Extends (pinnedState wheelgraph subgraph ew es) st

/-- A candidate of a branching case: its pattern vertices are distinct diagonals of the
pinned pattern edge and its host vertices distinct diagonals of the pinned host edge. -/
def PairsOk (dw ds : List Nat) (pairs : List (Nat × Nat)) : Prop :=
  (∀ p, p ∈ pairs → p.2 ∈ dw ∧ p.1 ∈ ds)
  ∧ (pairs.map Prod.fst).Nodup ∧ (pairs.map Prod.snd).Nodup

/-- The facts about the pinned edges that stay fixed during a matching attempt. -/
structure PinCtx (wheelgraph subgraph : NearTriangulation) (ew es : Edge)
    (dw ds : List Nat) : Prop where
  hostT : Triangulated wheelgraph
  patT : Triangulated subgraph
  mem_w : ew ∈ wheelgraph.edges
  mem_s : es ∈ subgraph.edges
  hdw : wheelgraph.diagonalAt ew = some dw
  hds : subgraph.diagonalAt es = some ds

/-- The invariant of a branching loop; `rest` are the candidates still to come. -/
structure BranchInv (wheelgraph subgraph : NearTriangulation) (ex : List Nat) (dp : Bool)
    (ew es : Edge) (dw ds : List Nat) (rest : List (List (Nat × Nat))) (bv : BranchVars) :
    Prop where
  live : rest ≠ [] → bv.occupied = (pinnedState wheelgraph subgraph ew es).occupied
    ∧ bv.located = (pinnedState wheelgraph subgraph ew es).located
  copy : 2 ≤ rest.length →
    bv.occupied_tmp = (pinnedState wheelgraph subgraph ew es).occupied
    ∧ bv.located_tmp = (pinnedState wheelgraph subgraph ew es).located
  size : bv.res.length + rest.length ≤ 2
  results : ∀ r, r ∈ bv.res → ResultOf wheelgraph subgraph ex dp ew es r
  cands : ∀ pairs, pairs ∈ rest → PairsOk dw ds pairs

/-- What the types of the constructor's arguments promise: one neighbour set and one degree
per vertex, each `std::set` in increasing order, every neighbour a vertex. -/
def WellFormed (vertex_size : Nat) (VtoV : List (List Nat)) (degrees : List (Option Degree)) :
    Prop :=
  VtoV.length = vertex_size ∧ degrees.length = vertex_size
  ∧ (∀ l ∈ VtoV, l.Sorted (fun a b => a < b)) ∧ (∀ l ∈ VtoV, ∀ u ∈ l, u < vertex_size)

instance (vertex_size : Nat) (VtoV : List (List Nat)) (degrees : List (Option Degree)) :
    Decidable (WellFormed vertex_size VtoV degrees) := by
  unfold WellFormed; infer_instance

/-- The adjacency of a simple undirected graph: no vertex is its own neighbour, and `v` is a
neighbour of `u` whenever `u` is one of `v`. -/
def Simple (VtoV : List (List Nat)) : Prop :=
  (∀ v < VtoV.length, v ∉ adjacent VtoV v)
  ∧ (∀ v < VtoV.length, ∀ u ∈ adjacent VtoV v, v ∈ adjacent VtoV u)

instance (VtoV : List (List Nat)) : Decidable (Simple VtoV) := by
  unfold Simple; infer_instance

/-- A near-triangulation of the program: what the constructor returns, its assertion
holding, on the adjacency of a simple graph. -/
def IsNearTriangulation (nt : NearTriangulation) : Prop :=
  ∃ vertex_size VtoV degrees, WellFormed vertex_size VtoV degrees ∧ Simple VtoV
    ∧ NearTriangulation.construct vertex_size VtoV degrees = some nt

/-! ## The de-duplication and the charge bound, in the words of the specification -/

/-- The merging of one candidate into the kept candidates, as the specification words it:
the candidate is merged into the first kept candidate it is isomorphic to, which keeps its
wheel and gets the maximum of the two amounts; a candidate isomorphic to no kept candidate is
kept, after the others. -/
def mergeInto (iso : CartWheel → CartWheel → Bool) :
    List (CartWheel × Int) → CartWheel × Int → List (CartWheel × Int)
  | [], candidate => [candidate]
  | kept :: rest, candidate =>
    if iso candidate.1 kept.1 then (kept.1, max candidate.2 kept.2) :: rest
    else kept :: mergeInto iso rest candidate

/-- The specification's `uniqueWithCharge`: the candidates are merged in input order. -/
def uniqueWithCharge (iso : CartWheel → CartWheel → Bool)
    (candidates : List (CartWheel × Int)) : List (CartWheel × Int) :=
  candidates.foldl (mergeInto iso) []

/-- The relation that `unique` tests: `isIsomorphic` returns true. -/
def isIsomorphicTrue (a b : CartWheel) : Bool :=
  decide (isIsomorphic a.cartwheel b.cartwheel = .ok true)

/-- The largest amount of a rule whose bound is positive, `bounds` listing one bound per
rule; it is 0 when no rule has a positive bound. -/
def largestPositive (rules : List Rule) (bounds : List Int) : Int :=
  ((rules.zip bounds).filter (fun p => decide (p.2 > 0))).foldl (fun m p => max m p.1.amount) 0

/-- The lower and the upper bound that `amountChargeToSend` gives each rule on the edge
`(s, t)` of `w`. -/
def sendBounds (rules : List Rule) (w : NearTriangulation) (s t : Nat) :
    Except MatchError (List (Int × Int)) :=
  rules.mapM (fun rule => do
    let r ← amountChargeToSend w s t rule
    pure (r.1, r.2.1))

/-- The share of the edge number `ei` of `edgeids` in the optimistic hub charge, as the
specification words it. A neighbour->hub edge (`ei < hubdegree`) brings the committed amount
when it was visited before, the candidate's own amount when it is the current edge, and the
largest amount of a rule with a positive upper bound when it comes later; a hub->neighbour
edge takes away the largest amount of a rule with a positive lower bound. -/
def optimisticShare (rules : List Rule) (edges : List Edge) (edgeids : List Nat)
    (hubdegree : Nat) (w : NearTriangulation) (own : Int) (edgeids_idx : Nat)
    (decided_charges : List Int) (ei : Nat) : Except MatchError Int :=
  if ei < hubdegree ∧ ei < edgeids_idx then
    match decided_charges.get? ei with
    | some committed => pure committed
    | none => throw .outOfRange
  else if ei < hubdegree ∧ ei = edgeids_idx then pure own
  else
    match (edgeids.get? ei).bind (fun edgeid => edges.get? edgeid) with
    | none => throw .outOfRange
    | some edge => do
      let bounds ← sendBounds rules w edge.1 edge.2
      if ei < hubdegree then pure (largestPositive rules (bounds.map Prod.snd))
      else pure (- largestPositive rules (bounds.map Prod.fst))

/-- The optimistic hub charge of a candidate, as the specification words it: the sum of the
shares of all the edges of `edgeids`. -/
def optimisticCharge (rules : List Rule) (edges : List Edge) (edgeids : List Nat)
    (hubdegree : Nat) (w : NearTriangulation) (own : Int) (edgeids_idx : Nat)
    (decided_charges : List Int) : Except MatchError Int := do
  let shares ← (List.range edgeids.length).mapM
    (optimisticShare rules edges edgeids hubdegree w own edgeids_idx decided_charges)
  pure shares.sum

/-- Every way of giving each of the `count` vertices `v, v + 1, ...` one of the candidate
degrees, in the order in which `searchNoConfGraphs` tries them. -/
def assignments {W : Type} (ops : WheelLike W) (possible_degrees : List Degree) :
    Nat → Nat → W → List W
  | 0, _, w => [w]
  | count + 1, v, w =>
    possible_degrees.flatMap (fun degree =>
      assignments ops possible_degrees count (v + 1) (ops.setDegree w v (some degree)))

/-- The wheel contains no configuration of the catalog: `containOneofConfs` returns false. -/
def configurationFree {W : Type} (ops : WheelLike W) (confs : List Configuration) (w : W) :
    Bool :=
  decide (containOneofConfs ops w confs = .ok false)

/-! ## Further predicates used by the proofs -/

/-- What the loop of the branching cases keeps: the live vectors and their copies have the
property, and every result is what `update_res` makes of a state that has it. -/
def BranchKeeps (I : List (Option Nat) → List (Option Nat) → Prop)
    (wheelgraph subgraph : NearTriangulation) (ex : List Nat) (dp : Bool)
    (bv : BranchVars) : Prop :=
  I bv.occupied bv.located ∧ I bv.occupied_tmp bv.located_tmp
  ∧ ∀ r ∈ bv.res, ∃ md st, r = update_res wheelgraph subgraph ex dp md st
      ∧ I st.occupied st.located

/-- Every pair of the vector `occupied` passes `match_degree`. -/
def DegreesFit (wheelgraph subgraph : NearTriangulation) (ex : List Nat) (dp : Bool)
    (occupied : List (Option Nat)) : Prop :=
  ∀ vw vs, slot occupied vw = some vs → match_degree wheelgraph subgraph ex vs vw dp = true

/-- Every vertex of the graph carries a degree. -/
def AllDegreesSet (nt : NearTriangulation) : Prop :=
  ∀ v, v < nt.vertex_size → nt.degreeAt v ≠ none

instance (nt : NearTriangulation) : Decidable (AllDegreesSet nt) := by
  unfold AllDegreesSet; infer_instance

/-- The recursive calls of a second run of the matcher repeat every call of the first run
that returns true. -/
def SimSpec (rec rec2 : Recursor) : Prop :=
  ∀ ew es st st1, rec ew es st = .ok (true, st1) → rec2 ew es st = .ok (true, st1)

/-- The host `wheel2` has the graph of `wheelgraph`, and every pair that passes
`match_degree` on `wheelgraph` under `dp` passes it on `wheel2` under `dp2`, as well as
under the strict test of `update_res`. -/
structure DegreesRefine (wheelgraph wheel2 subgraph : NearTriangulation) (ex : List Nat)
    (dp dp2 : Bool) : Prop where
  size : wheelgraph.vertex_size = wheel2.vertex_size
  edges : wheelgraph.edges = wheel2.edges
  diagonals : wheelgraph.diagonal_vertices = wheel2.diagonal_vertices
  mono : ∀ vs vw, match_degree wheelgraph subgraph ex vs vw dp = true →
    match_degree wheel2 subgraph ex vs vw dp2 = true
  strict : ∀ vs vw, match_degree wheelgraph subgraph ex vs vw false = true →
    match_degree wheel2 subgraph ex vs vw false = true

/-- What the proofs use of the methods of a `WheelLike`: `setDegree` acts on the
near-triangulation as `NearTriangulation::setDegree` does and on nothing else. -/
structure LawfulWheelLike {W : Type} (ops : WheelLike W) : Prop where
  nearTriangulation_setDegree : ∀ w v degree,
    ops.nearTriangulation (ops.setDegree w v degree) = (ops.nearTriangulation w).setDegree v degree
  setDegree_setDegree : ∀ w v a b, ops.setDegree (ops.setDegree w v a) v b = ops.setDegree w v b
  setDegree_unset : ∀ w v, (ops.nearTriangulation w).degreeAt v = none →
    ops.setDegree w v none = w

/-- The configurations of the catalog are what their constructors return: a
near-triangulation with an inside edge among its edges. -/
def CatalogOk (confs : List Configuration) : Prop :=
  ∀ c, c ∈ confs → IsNearTriangulation c.conf ∧ c.inside_edge_id < c.conf.edges.length

/-- The vertices from `v` on have no degree. -/
def UnsetFrom (nt : NearTriangulation) (v : Nat) : Prop :=
  ∀ u, v ≤ u → nt.degreeAt u = none

/-! ## The matcher run on a graph against itself: invariants -/

/-- The pattern vertex `v` is matched to the host vertex of the same number. -/
def Matched (st : MatchState) (v : Nat) : Prop :=
  slot st.located v = some v

/-- A state of the matcher run on a graph against itself in which every matched vertex is
matched to itself. -/
structure IdState (st : MatchState) : Prop where
  loc : ∀ v x, slot st.located v = some x → x = v
  occ : ∀ v x, slot st.occupied v = some x → x = v
  both : ∀ v, slot st.located v = some v ↔ slot st.occupied v = some v

/-- Every visited edge is an edge with matched ends, and every visited edge outside the
edges `stack` that are still being worked on has all its diagonal vertices matched and the
edges to them visited. -/
def Closed (nt : NearTriangulation) (stack : List Edge) (st : MatchState) : Prop :=
  ∀ e, e ∈ st.visited → e ∈ nt.edges ∧ Matched st e.1 ∧ Matched st e.2
    ∧ (e ∉ stack → ∀ d x, nt.diagonalAt e = some d → x ∈ d →
        Matched st x ∧ (e.1, x) ∈ st.visited ∧ (e.2, x) ∈ st.visited)

/-- What a call of `set_edge_recursive` on the edge `e`, aligned with itself, finds. -/
structure IdPre (nt : NearTriangulation) (stack : List Edge) (e : Edge) (st : MatchState) :
    Prop where
  sized : Sized nt nt st
  id : IdState st
  closed : Closed nt stack st
  mem : e ∈ nt.edges
  m1 : Matched st e.1
  m2 : Matched st e.2

/-- What such a call leaves: it returns true, and the edge is visited. -/
def IdPost (nt : NearTriangulation) (stack : List Edge) (e : Edge) (st : MatchState)
    (r : Bool × MatchState) : Prop :=
  r.1 = true ∧ Sized nt nt r.2 ∧ IdState r.2 ∧ Extends st r.2 ∧ Closed nt stack r.2
  ∧ e ∈ r.2.visited

/-- The recursive calls keep the run on the identity. -/
def IdSpec (nt : NearTriangulation) (rec : Recursor) : Prop :=
  ∀ stack e st, IdPre nt stack e st →
    Sat (IdPost nt stack e st) (fun _ => True) (rec e e st)

/-- The edges reached from the first edge of the edge list by going, across a triangle, from
an edge to the two edges that join its ends to a diagonal vertex. -/
inductive TriReach (nt : NearTriangulation) : Edge → Prop
  | first (e : Edge) : nt.edges.get? 0 = some e → TriReach nt e
  | left (e : Edge) (d : List Nat) (x : Nat) :
      TriReach nt e → nt.diagonalAt e = some d → x ∈ d → TriReach nt (e.1, x)
  | right (e : Edge) (d : List Nat) (x : Nat) :
      TriReach nt e → nt.diagonalAt e = some d → x ∈ d → TriReach nt (e.2, x)

/-- The graph has an edge, and every vertex is an end of an edge reached from the first edge
through triangles. -/
def TriConnected (nt : NearTriangulation) : Prop :=
  nt.edges ≠ [] ∧ ∀ v, v < nt.vertex_size → ∃ e, TriReach nt e ∧ (e.1 = v ∨ e.2 = v)

/-- What the loops of a call keep while the run stays on the identity; `st0` is the state
the loops started from. -/
structure IdLoop (nt : NearTriangulation) (stack : List Edge) (st0 st : MatchState) :
    Prop where
  sized : Sized nt nt st
  id : IdState st
  ext : Extends st0 st
  closed : Closed nt stack st

/-- The diagonal vertex `x` of the edge `e` has been dealt with: it is matched and the two
edges that join it to the ends of `e` are visited. -/
def DiagDone (e : Edge) (st : MatchState) (x : Nat) : Prop :=
  Matched st x ∧ (e.1, x) ∈ st.visited ∧ (e.2, x) ∈ st.visited

/-- The list `acc` with the edge `e` added when it is new. -/
def addNew (acc : List Edge) (e : Edge) : List Edge :=
  if e ∈ acc then acc else acc ++ [e]

/-- One round of the search through triangles: the edges that join the ends of an edge of
`acc` to one of its diagonal vertices are added. -/
def triStep (nt : NearTriangulation) (acc : List Edge) : List Edge :=
  (acc.flatMap (fun e =>
    match nt.diagonalAt e with
    | some d => d.flatMap (fun x => [(e.1, x), (e.2, x)])
    | none => [])).foldl addNew acc

/-- The edges found from the first edge in at most `k` rounds of the search. -/
def triReached (nt : NearTriangulation) : Nat → List Edge
  | 0 => (nt.edges.get? 0).toList
  | k + 1 => triStep nt (triReached nt k)

/-- A test for `TriConnected` that can be evaluated: `k` rounds of the search find an edge
at every vertex. -/
def triConnectedWithin (nt : NearTriangulation) (k : Nat) : Bool :=
  !nt.edges.isEmpty
  && (List.range nt.vertex_size).all (fun v =>
    (triReached nt k).any (fun e => e.1 == v || e.2 == v))

/-- The neighbours in a wheel with hub degree `d`: the hub `0` and every rim vertex, and
two rim vertices that follow each other on the cycle `1, ..., d`. -/
def WheelAdj (d w x : Nat) : Prop :=
  (w = 0 ∧ 1 ≤ x ∧ x ≤ d) ∨ (x = 0 ∧ 1 ≤ w ∧ w ≤ d)
  ∨ (1 ≤ w ∧ w ≤ d ∧ 1 ≤ x ∧ x ≤ d
      ∧ (x = w + 1 ∨ w = x + 1 ∨ (w = d ∧ x = 1) ∨ (x = d ∧ w = 1)))

/-- The rows of an adjacency are increasing. -/
def RowsSorted (VtoV : List (List Nat)) : Prop :=
  ∀ l ∈ VtoV, l.Sorted (fun a b => a < b)

/-! ## Predicates for the constructors -/

/-- The adjacency is symmetric: a neighbour `u` of a vertex `v` is a vertex, and `v` is a
neighbour of `u`. -/
def SymmetricAdjacency (vertex_size : Nat) (VtoV : List (List Nat)) : Prop :=
  ∀ v, v < vertex_size → ∀ u ∈ adjacent VtoV v, u < vertex_size ∧ v ∈ adjacent VtoV u

instance (vertex_size : Nat) (VtoV : List (List Nat)) :
    Decidable (SymmetricAdjacency vertex_size VtoV) := by
  unfold SymmetricAdjacency; infer_instance

/-- The lexicographic order of directed edges: by the source vertex, then by the
neighbour. -/
def EdgeLt (e f : Edge) : Prop :=
  e.1 < f.1 ∨ (e.1 = f.1 ∧ e.2 < f.2)

instance (e f : Edge) : Decidable (EdgeLt e f) := by
  unfold EdgeLt; infer_instance

/-- The cartwheel has its spokes: both directed edges between the hub `0` and each of the
neighbours `1, ..., num_neighbor`, which `decideDegreeBySendCases` looks up. -/
def HasSpokes (wheelgraph : CartWheel) : Prop :=
  ∀ i ∈ List.range wheelgraph.num_neighbor,
    (i + 1, 0) ∈ wheelgraph.cartwheel.edges ∧ (0, i + 1) ∈ wheelgraph.cartwheel.edges

instance (wheelgraph : CartWheel) : Decidable (HasSpokes wheelgraph) := by
  unfold HasSpokes; infer_instance

/-! ## The charge of the hub, in the words of the specification -/

/-- The amount that `amountChargeToSend` reports for the edge from `from_` to `to_` under
`rule`: its lower amount, and 0 when it does not return. -/
def reportedAmount (wheel : NearTriangulation) (from_ to_ : Nat) (rule : Rule) : Int :=
  match amountChargeToSend wheel from_ to_ rule with
  | .ok r => r.1
  | .error _ => 0

/-- The sum, over the neighbours `v = 1, ..., d` of the hub and over the rules, of the
amount reported for the edge from `v` to the hub. -/
def receivedCharge (cw : CartWheel) (rules : List Rule) : Int :=
  ((List.range' 1 cw.num_neighbor).map (fun v =>
    (rules.map (reportedAmount cw.cartwheel v 0)).sum)).sum

/-- The sum, over the neighbours `v = 1, ..., d` of the hub and over the rules, of the
amount reported for the edge from the hub to `v`. -/
def sentCharge (cw : CartWheel) (rules : List Rule) : Int :=
  ((List.range' 1 cw.num_neighbor).map (fun v =>
    (rules.map (reportedAmount cw.cartwheel 0 v)).sum)).sum

/-- The call of `amountChargeToSend` returns, with equal lower and upper amounts. -/
def reportsOneAmount (wheel : NearTriangulation) (from_ to_ : Nat) (rule : Rule) : Bool :=
  match amountChargeToSend wheel from_ to_ rule with
  | .ok r => decide (r.1 = r.2.1)
  | .error _ => false

/-- The degree at `v` is set and has a string form. -/
def degreeWritable (wheel : NearTriangulation) (v : Nat) : Bool :=
  match wheel.degreeAt v with
  | some degree => degree.toString.isSome
  | none => false

/-- Every statement of `isOvercharged` that can end it abnormally goes through: for each
neighbour `v` of the hub and each rule the two calls of `amountChargeToSend` return, each
with equal lower and upper amounts, and the degrees at `v - 1` and at `v` are set, the one
at `v` having a string form. -/
def Chargeable (cw : CartWheel) (rules : List Rule) : Prop :=
  ∀ v ∈ List.range' 1 cw.num_neighbor,
    (∀ rule ∈ rules,
      reportsOneAmount cw.cartwheel v 0 rule = true
      ∧ reportsOneAmount cw.cartwheel 0 v rule = true)
    ∧ (cw.cartwheel.degreeAt (v - 1)).isSome = true
    ∧ degreeWritable cw.cartwheel v = true

instance (cw : CartWheel) (rules : List Rule) : Decidable (Chargeable cw rules) := by
  unfold Chargeable; infer_instance

/-! ## The graph that `fromWheel` builds -/

/-- The names of the vertices of a cartwheel: the hub, the rim vertex `v`, and the vertices
around the rim vertex `v`. With `m v` the number of vertices that the second loop of
`fromWheel` adds for `v`, `out v j` with `j < m v` is the `j`-th of them and `out v (m v)` is
the second neighbour of the pair of `v` and the next rim vertex. -/
inductive Tag where
  | hub
  | rim (v : Nat)
  | out (v j : Nat)
deriving DecidableEq, Repr

/-- The rim vertex after `v`: the `u` of the first loop of `fromWheel`. -/
def nextRim (d v : Nat) : Nat := if v = d then 1 else v + 1

/-- The rim vertex before `v`: the `u` of the second loop of `fromWheel`. -/
def prevRim (d v : Nat) : Nat := if v = 1 then d else v - 1

/-- The degree of the vertex `v` is set and fixed. -/
def rimFixed (degrees : List (Option Degree)) (v : Nat) : Bool :=
  match degrees.getD v none with
  | some degree => degree.fixed
  | none => false

/-- The number of rounds of the loop over `count` for the rim vertex `v`: `degv.lower() - 5`
when the degree is fixed and this is positive. -/
def fanCount (degrees : List (Option Degree)) (v : Nat) : Nat :=
  match degrees.getD v none with
  | some degree => if degree.fixed then (degree.lower_deg - 5).toNat else 0
  | none => 0

/-- The edges that `fromWheel` adds, by the names of their ends, for the hub degree `d`,
the rim vertices `v` with `fx v` of fixed degree and the numbers `m v` of added vertices:
the spokes, the rim edges, the edges from a rim vertex to the vertices around it and to the
second neighbour it shares with the rim vertex before it, and the edges between the vertices
that follow each other around a rim vertex of fixed degree. -/
def TagEdge (d : Nat) (fx : Nat → Bool) (m : Nat → Nat) : Tag → Tag → Prop
  | .hub, .rim v => 1 ≤ v ∧ v ≤ d
  | .rim v, .rim u => 1 ≤ v ∧ v ≤ d ∧ u = nextRim d v
  | .rim v, .out u j =>
    1 ≤ u ∧ u ≤ d
      ∧ ((v = u ∧ j < m u)
        ∨ ((v = u ∨ v = nextRim d u) ∧ j = m u
            ∧ (fx u = true ∨ fx (nextRim d u) = true)))
  | .out v j, .out u i =>
    1 ≤ v ∧ v ≤ d
      ∧ ((u = v ∧ i = j + 1 ∧ i ≤ m v)
        ∨ (u = nextRim d v ∧ j = m v ∧ i = 0 ∧ fx u = true))
  | _, _ => False

/-- Two names are the ends of an edge, in one order or the other. -/
def TagAdj (d : Nat) (fx : Nat → Bool) (m : Nat → Nat) (s t : Tag) : Prop :=
  TagEdge d fx m s t ∨ TagEdge d fx m t s

/-- The adjacency `VtoV` with the names `tags` of its vertices: the rows are increasing,
different vertices have different names, and every edge of the adjacency joins two named
vertices whose names are the ends of an edge of `TagAdj`. -/
structure Named (d : Nat) (fx : Nat → Bool) (m : Nat → Nat) (VtoV : List (List Nat))
    (tags : List Tag) : Prop where
  length_eq : tags.length = VtoV.length
  nodup : tags.Nodup
  sorted : RowsSorted VtoV
  sound : ∀ a b, b ∈ adjacent VtoV a →
    ∃ s t, tags[a]? = some s ∧ tags[b]? = some t ∧ TagAdj d fx m s t

/-- The names in use when the first loop of `fromWheel` has done the rim vertices up to
`n1`, the second loop those up to `n2`, and the loop over `count` has made `i` rounds for the
rim vertex `n2 + 1`. -/
def Born (d : Nat) (m : Nat → Nat) (n1 n2 i : Nat) (t : Tag) : Prop :=
  t = Tag.hub ∨ (∃ v, 1 ≤ v ∧ v ≤ d ∧ t = Tag.rim v)
    ∨ (∃ v, 1 ≤ v ∧ v ≤ n1 ∧ t = Tag.out v (m v))
    ∨ (∃ v j, j < m v ∧ (v ≤ n2 ∨ (v = n2 + 1 ∧ j < i)) ∧ t = Tag.out v j)

/-- The invariant of the loops of `fromWheel` on `VtoV` and `second_neighbors`, with the
names `tags` of the vertices made so far. -/
structure CartInv (d : Nat) (degrees0 : List (Option Degree)) (n1 n2 i : Nat)
    (VtoV : List (List Nat)) (second_neighbors : List Nat) (tags : List Tag) : Prop where
  named : Named d (rimFixed degrees0) (fanCount degrees0) VtoV tags
  hub : tags[0]? = some Tag.hub
  rim : ∀ v, 1 ≤ v → v ≤ d → tags[v]? = some (Tag.rim v)
  born : ∀ t ∈ tags, Born d (fanCount degrees0) n1 n2 i t
  second_length : second_neighbors.length = d + 1
  second : ∀ v, 1 ≤ v → v ≤ n1 →
    (rimFixed degrees0 v = true ∨ rimFixed degrees0 (nextRim d v) = true) →
    tags[second_neighbors.getD v 0]? = some (Tag.out v (fanCount degrees0 v))
      ∧ second_neighbors.getD v 0 ∈ adjacent VtoV v
      ∧ second_neighbors.getD v 0 ∈ adjacent VtoV (nextRim d v)

/-- The invariant of the first loop of `fromWheel` when it has done the rim vertices up to
`n`: the graph is named, the degrees of the wheel are still at the front of `degrees`, and
`hub_neighbors_neighbors` is as it was made. -/
def FirstLoopInv (d : Nat) (degrees0 : List (Option Degree)) (n : Nat) (s : CartVars) : Prop :=
  ∃ tags, CartInv d degrees0 n 0 0 s.VtoV s.second_neighbors tags
    ∧ (∃ extra, s.degrees = degrees0 ++ extra)
    ∧ s.hub_neighbors_neighbors = List.replicate (d + 1) []

/-- Every rim vertex `1, ..., d` of the wheel has a degree. -/
def RimDegreesSet (d : Nat) (degrees0 : List (Option Degree)) : Prop :=
  ∀ v ∈ List.range' 1 d, (degrees0.getD v none).isSome = true

instance (d : Nat) (degrees0 : List (Option Degree)) : Decidable (RimDegreesSet d degrees0) := by
  unfold RimDegreesSet
  infer_instance

/-- The lengths of the lists of `hub_neighbors_neighbors` when the second loop of `fromWheel`
has done the rim vertices up to `n`: the list of a rim vertex `v` of fixed degree that has
been done has the `m v` added vertices between two second neighbours, every other list is
empty. -/
def RingLengths (d : Nat) (degrees0 : List (Option Degree)) (n : Nat)
    (hub_neighbors_neighbors : List (List Nat)) : Prop :=
  hub_neighbors_neighbors.length = d + 1
    ∧ ∀ v, (hub_neighbors_neighbors.getD v []).length
        = if 1 ≤ v ∧ v ≤ n ∧ rimFixed degrees0 v = true then fanCount degrees0 v + 2 else 0

/-- The invariant of the second loop of `fromWheel` when it has done the rim vertices up to
`n`. -/
def SecondLoopInv (d : Nat) (degrees0 : List (Option Degree)) (n : Nat) (s : CartVars) :
    Prop :=
  ∃ tags, CartInv d degrees0 d n 0 s.VtoV s.second_neighbors tags
    ∧ (∃ extra, s.degrees = degrees0 ++ extra)
    ∧ RingLengths d degrees0 n s.hub_neighbors_neighbors

/-- The invariant of the loop over `count` for the rim vertex `n + 1` after `i` rounds, on
the variables and the variable `first`: `first` has the name of the vertex before the next
one to add, and the list of the rim vertex has `i + 1` entries. -/
def FanInv (d : Nat) (degrees0 : List (Option Degree)) (n : Nat) (sn : List Nat) (i : Nat)
    (p : CartVars × Nat) : Prop :=
  ∃ tags, CartInv d degrees0 d n i p.1.VtoV p.1.second_neighbors tags
    ∧ (∃ extra, p.1.degrees = degrees0 ++ extra)
    ∧ p.1.second_neighbors = sn
    ∧ p.1.hub_neighbors_neighbors.length = d + 1
    ∧ (∀ v, v ≠ n + 1 → (p.1.hub_neighbors_neighbors.getD v []).length
        = if 1 ≤ v ∧ v ≤ n ∧ rimFixed degrees0 v = true then fanCount degrees0 v + 2 else 0)
    ∧ (p.1.hub_neighbors_neighbors.getD (n + 1) []).length = i + 1
    ∧ tags[p.2]? = some (if i = 0 then
        Tag.out (prevRim d (n + 1)) (fanCount degrees0 (prevRim d (n + 1)))
        else Tag.out (n + 1) (i - 1))

/-- What the assertion of the constructor checks: every directed edge has its diagonal
vertices, and they are at most two. -/
def DiagonalsAtMostTwo (nt : NearTriangulation) : Prop :=
  ∀ e ∈ nt.edges, ∃ diagonal, nt.diagonalAt e = some diagonal ∧ diagonal.length ≤ 2

/-! ## The alternatives of a branching case, in the words of the specification -/

/-- One alternative of a branching case, computed from the state that holds only the
pinned pair: no result when a pair of the alternative fails `match_degree`, otherwise the
result that `update_res` makes of the propagation of the pairs from the pinned state. -/
def branchOutcome (rec : Recursor) (wheelgraph subgraph : NearTriangulation)
    (except_vertices : List Nat) (detect_possible : Bool)
    (edge_wheelgraph edge_subgraph : Edge) (pairs : List (Nat × Nat)) :
    Except MatchError (List ContainResult) :=
  if pairs.any (fun p =>
      !match_degree wheelgraph subgraph except_vertices p.1 p.2 detect_possible) then
    pure []
  else do
    let r ← branchPropagate rec pairs edge_wheelgraph edge_subgraph
      (pinnedState wheelgraph subgraph edge_wheelgraph edge_subgraph).occupied
      (pinnedState wheelgraph subgraph edge_wheelgraph edge_subgraph).located
    pure [update_res wheelgraph subgraph except_vertices detect_possible r.1 r.2]

/-! ## Counting `Yes` results; completions of a partially assigned graph -/

/-- The number of `Yes` results in a list of results, as
`numOfSubgraphWithCorrespondingEdge` and `amountChargeToSend` count them. -/
def countYes (results : List ContainResult) : Nat :=
  results.countP (fun res => decide (res.contain = Contain.Yes))

/-- The graph after the calls `setDegree(v, degree)` for the pairs `(v, degree)` of a list,
in the order of the list. -/
def assignDegrees (nt : NearTriangulation) (assignment : List (Nat × Degree)) :
    NearTriangulation :=
  assignment.foldl (fun g p => g.setDegree p.1 (some p.2)) nt

/-- The list gives degrees to vertices of `nt` that have none, to each of them once: the
graph `assignDegrees nt assignment` then is a completion of `nt`. -/
def Completes (nt : NearTriangulation) (assignment : List (Nat × Degree)) : Prop :=
  (∀ p ∈ assignment, nt.degreeAt p.1 = none) ∧ (assignment.map Prod.fst).Nodup

instance (nt : NearTriangulation) (assignment : List (Nat × Degree)) :
    Decidable (Completes nt assignment) := by
  unfold Completes
  infer_instance

/-! ## The lenient and the strict run of the matcher -/

/-- The entries of `located` in `st1` are kept in `st2`, and the vector keeps its length. -/
def KeepsLocated (st1 st2 : MatchState) : Prop :=
  (∀ v x, slot st1.located v = some x → slot st2.located v = some x)
  ∧ st2.located.length = st1.located.length

/-- Every call of the recursor keeps the entries of `located`. -/
def KeepSpec (rec : Recursor) : Prop :=
  ∀ ew es st r, rec ew es st = .ok r → KeepsLocated st r.2

/-- Every pair of `located` passes `match_degree` under `detect_possible = false`, and
`located` has an entry for every pattern vertex that has an entry in `degrees`. -/
def StrictFit (wheelgraph subgraph : NearTriangulation) (ex : List Nat) (st : MatchState) :
    Prop :=
  (∀ vs vw, slot st.located vs = some vw →
      match_degree wheelgraph subgraph ex vs vw false = true)
    ∧ subgraph.degrees.length ≤ st.located.length

/-- The recursor of the run under `detect_possible = false` repeats every call of the run
under `detect_possible = true` that returns true with a state whose pairs fit strictly. -/
def FitSimSpec (wheelgraph subgraph : NearTriangulation) (ex : List Nat)
    (rec rec2 : Recursor) : Prop :=
  ∀ ew es st st1, rec ew es st = .ok (true, st1) → StrictFit wheelgraph subgraph ex st1 →
    rec2 ew es st = .ok (true, st1)

/-! ## The frame of `decideDegreeBySendCases` -/

/-- The cartwheel `w` has the vertex count, the edge list, the diagonal map, the hub degree
and the neighbour rings of `wheel`, and every degree that is set in `wheel`. -/
def SameFrame (wheel w : CartWheel) : Prop :=
  w.cartwheel.vertex_size = wheel.cartwheel.vertex_size
  ∧ w.cartwheel.edges = wheel.cartwheel.edges
  ∧ w.cartwheel.diagonal_vertices = wheel.cartwheel.diagonal_vertices
  ∧ w.cartwheel.degrees.length = wheel.cartwheel.degrees.length
  ∧ w.num_neighbor = wheel.num_neighbor
  ∧ w.hub_neighbors_neighbors = wheel.hub_neighbors_neighbors
  ∧ w.third_neighbors = wheel.third_neighbors
  ∧ ∀ v degree, wheel.cartwheel.degreeAt v = some degree →
      w.cartwheel.degreeAt v = some degree

/-- The degree `d` is a piece of `divideDegree` applied to the degree of the vertex of
`rule` that occupies the host vertex `v` in `result`. -/
def PieceOf (rule : Rule) (max_degree : Int) (result : ContainResult) (v : Nat)
    (d : Degree) : Prop :=
  ∃ vs degree pieces, slot result.occupied v = some vs
    ∧ rule.rule.degreeAt vs = some degree
    ∧ divideDegree degree max_degree = some pieces ∧ d ∈ pieces

/-- What the loop over the vertices makes of `wheel` for one result of one rule. -/
def ResultOk (rule : Rule) (max_degree : Int) (result : ContainResult) (wheel w : CartWheel) :
    Prop :=
  SameFrame wheel w
    ∧ ∀ v d, wheel.cartwheel.degreeAt v = none → w.cartwheel.degreeAt v = some d →
        PieceOf rule max_degree result v d

/-- The degree `d` is a piece that one of the rules, matched on `wheel` along the edge
number `edgeid` with a result other than `No`, gives to the vertex `v`. -/
def RulePiece (rules : List Rule) (max_degree : Int) (wheel : CartWheel) (edgeid v : Nat)
    (d : Degree) : Prop :=
  ∃ rule results result, rule ∈ rules
    ∧ containSubgraphWithCorrespondingEdge wheel.cartwheel rule.rule edgeid
        rule.send_edgeid [] true = .ok results
    ∧ result ∈ results ∧ result.contain ≠ Contain.No
    ∧ PieceOf rule max_degree result v d

/-- What one round of `decide_degree` makes of `wheel`: the frame is kept and a vertex
without a degree in `wheel` gets nothing but a piece from a rule. -/
def StepOk (rules : List Rule) (max_degree : Int) (wheel : CartWheel) (edgeid : Nat)
    (w : CartWheel) : Prop :=
  SameFrame wheel w
    ∧ ∀ v d, wheel.cartwheel.degreeAt v = none → w.cartwheel.degreeAt v = some d →
        RulePiece rules max_degree wheel edgeid v d

/-- What `decideDegreeBySendCases` makes of `wheelgraph` along the edge numbers `edgeids`:
the frame is kept, and a vertex without a degree in `wheelgraph` gets nothing but a piece
from a rule matched on a cartwheel with the frame of `wheelgraph` in which the vertex has no
degree yet. -/
def SendCaseOk (rules : List Rule) (max_degree : Int) (edgeids : List Nat)
    (wheelgraph w : CartWheel) : Prop :=
  SameFrame wheelgraph w
    ∧ ∀ v d, wheelgraph.cartwheel.degreeAt v = none → w.cartwheel.degreeAt v = some d →
        ∃ wheel edgeid, SameFrame wheelgraph wheel ∧ edgeid ∈ edgeids
          ∧ wheel.cartwheel.degreeAt v = none
          ∧ RulePiece rules max_degree wheel edgeid v d

/-! ## extendThirdNeighbor: the filling of the circuit vertices -/

/-- The number of neighbours of `v` in a near-triangulation: the directed edges that leave
`v`. -/
def NearTriangulation.numNeighbors (nt : NearTriangulation) (v : Nat) : Nat :=
  nt.edges.countP (fun e => decide (e.1 = v))

/-- Every entry of the adjacency is a vertex. -/
def RowsBelow (VtoV : List (List Nat)) : Prop :=
  ∀ a b, b ∈ adjacent VtoV a → b < VtoV.length

/-- The ends of the edges and the diagonal vertices of a near-triangulation are vertices. -/
def InRange (nt : NearTriangulation) : Prop :=
  (∀ e, e ∈ nt.edges → e.1 < nt.vertex_size ∧ e.2 < nt.vertex_size)
    ∧ ∀ e d, nt.diagonalAt e = some d → ∀ w, w ∈ d → w < nt.vertex_size

/-- The invariant of the loops of `extendThirdNeighbor` on a cartwheel with `n0` vertices:
the entries of `VtoV` are vertices, no vertex is lost, and an entry of `circuit_neighbor` is
`-1` or a vertex that `new_vertex` has made. -/
structure ThirdInv (n0 : Nat) (acc : ThirdVars) : Prop where
  rows : RowsBelow acc.VtoV
  size : n0 ≤ acc.VtoV.length
  fresh : ∀ x, acc.circuit_neighbor.getD x (-1) = -1
    ∨ ((n0 : Int) ≤ acc.circuit_neighbor.getD x (-1)
      ∧ acc.circuit_neighbor.getD x (-1) < (acc.VtoV.length : Int))

/-- The circuit vertices at the positions before `k` that have a fixed degree and two
different circuit neighbours have as many neighbours in `VtoV` as their degree says. -/
def Filled (degrees0 : List (Option Degree)) (circuit : List Nat) (circuit_neighbor : List Int)
    (k : Nat) (VtoV : List (List Nat)) : Prop :=
  ∀ cidx v u degree, cidx < k → circuit.get? cidx = some v →
    circuit.get? (if cidx = 0 then circuit.length - 1 else cidx - 1) = some u →
    getDegree degrees0 v = .ok degree → degree.fixed = true →
    circuit_neighbor.getD u (-1) ≠ circuit_neighbor.getD v (-1) →
    ((adjacent VtoV v).length : Int) = degree.lower_deg

/-! ## Concrete inputs for `toString` and for the arithmetic of `int` -/

/-- The degree 7. -/
def seven : Degree := { lower_deg := 7, upper_deg := 7 }

/-- The degree with the lower bound 6 and the upper bound 8, which has none of the forms
`k`, `k+` and `k-`. -/
def sixToEight : Degree := { lower_deg := 6, upper_deg := 8 }

/-- The wheel with hub degree 5 whose rim vertices `1, ..., 4` have degree 5 and whose rim
vertex `5` has the degree from 6 to 8. -/
def wheelSixEight : Wheel :=
  { wheel := NearTriangulation.build 6 wheel5VtoV
      [some five, some five, some five, some five, some five, some sixToEight] }

/-- The wheel with hub degree 5 whose rim vertices `1, 2, 3` have degree 5 and whose rim
vertices `4` and `5` have no degree yet. -/
def wheelOpenFive : Wheel :=
  { wheel := NearTriangulation.build 6 wheel5VtoV
      [some five, some five, some five, some five, none, none] }

/-- The wheel on the graph of `wheelOpenFive` with the degrees `a` and `b` at the rim
vertices `4` and `5`. -/
def wheelClosedFive (a b : Degree) : Wheel :=
  { wheel := NearTriangulation.build 6 wheel5VtoV
      [some five, some five, some five, some five, some a, some b] }

/-- The cartwheel of the wheel with hub degree 5 whose rim vertices have degree 5, its second
neighbour `6` having the degree from 6 to 8. -/
def cartSixEight : CartWheel := cart5.setDegree 6 (some sixToEight)

/-- A rule on the triangle whose three vertices have degree 5, which sends the amount
`2^30` along its edge `(0, 1)`. -/
def ruleBig : Rule :=
  { rule := triangleOf (some five) (some five) (some five), send_edgeid := 0
    amount := 1073741824 }

/-- A rule that sends `3 * 2^29` along the edge `(0, 1)` from a vertex of degree 5 to a
vertex of degree `8+`. -/
def ruleHuge : Rule :=
  { rule := NearTriangulation.build 2 edgeVtoV [some five, some eightPlus]
    send_edgeid := 0, amount := 1610612736 }

/-- A rule that sends `3 * 2^29` along the edge `(0, 1)` from a vertex of degree `8+` to a
vertex of degree 5. -/
def rulePlusHuge : Rule :=
  { rule := NearTriangulation.build 2 edgeVtoV [some eightPlus, some five]
    send_edgeid := 0, amount := 1610612736 }

/-! ## Printed wheels and sums within `int` -/

/-- The call `toString()` on the wheel returns: no assertion fails while the wheel is
printed. -/
def prints {W : Type} (ops : WheelLike W) (w : W) : Bool :=
  match ops.toString w with
  | .ok _ => true
  | .error _ => false

/-- The wheel after the calls `setDegree(v, degree)` for the pairs `(v, degree)` of a list,
in the order of the list. -/
def assignWheelDegrees {W : Type} (ops : WheelLike W) (w : W)
    (assignment : List (Nat × Degree)) : W :=
  assignment.foldl (fun g p => ops.setDegree g p.1 (some p.2)) w

/-- The numbers `x` and `y` have absolute values whose sum is at most `b`. -/
def Within (b x y : Int) : Prop :=
  -b ≤ x + y ∧ x + y ≤ b ∧ -b ≤ x - y ∧ x - y ≤ b

/-! ## Reasoning about computations that may end abnormally -/

theorem Sat_pure {α : Type} {Q : α → Prop} {E : MatchError → Prop} {a : α} (h : Q a) :
    Sat Q E (pure a) := h

theorem Sat_throw {α : Type} {Q : α → Prop} {E : MatchError → Prop} {e : MatchError}
    (h : E e) : Sat Q E (throw e : Except MatchError α) := h

theorem Sat_bind {α β : Type} {P : α → Prop} {Q : β → Prop} {E : MatchError → Prop}
    {x : Except MatchError α} {f : α → Except MatchError β}
    (hx : Sat P E x) (hf : ∀ a, P a → Sat Q E (f a)) : Sat Q E (x >>= f) := by
  cases x with
  | error e => exact hx
  | ok a => exact hf a hx

theorem Sat_mono {α : Type} {P Q : α → Prop} {E1 E : MatchError → Prop}
    {x : Except MatchError α} (hx : Sat P E1 x) (hq : ∀ a, P a → Q a)
    (he : ∀ e, E1 e → E e) : Sat Q E x := by
  cases x with
  | error e => exact he e hx
  | ok a => exact hq a hx

theorem Sat_foldlM {σ β : Type} {E : MatchError → Prop} (f : σ → β → Except MatchError σ)
    (J : List β → σ → Prop)
    (hstep : ∀ b rest s, J (b :: rest) s → Sat (J rest) E (f s b)) :
    ∀ (l : List β) (s : σ), J l s → Sat (J []) E (l.foldlM f s) := by
  intro l
  induction l with
  | nil => intro s hs; exact hs
  | cons b rest ih =>
    intro s hs
    rw [List.foldlM_cons]
    exact Sat_bind (hstep b rest s hs) (fun a ha => ih a ha)

theorem Sat_ok_iff {α : Type} {Q : α → Prop} {x : Except MatchError α} :
    Sat Q (fun _ => False) x ↔ ∃ a, x = .ok a ∧ Q a := by
  cases x with
  | error e => simp [Sat]
  | ok a => simp [Sat]

/-! ## Termination: the visited set grows inside the host's edge list -/

theorem lookup_map_self {α β : Type} [BEq α] [LawfulBEq α] (f : α → β) (l : List α) (a : α) :
    (l.map (fun e => (e, f e))).lookup a = if a ∈ l then some (f a) else none := by
  induction l with
  | nil => simp
  | cons b rest ih =>
    simp only [List.map_cons, List.lookup_cons, List.mem_cons]
    by_cases hab : a = b
    · subst hab; simp
    · have : (a == b) = false := by simpa using hab
      rw [this, ih]; simp [hab]

theorem build_diagonalAt (n : Nat) (VtoV : List (List Nat)) (degs : List (Option Degree))
    (e : Edge) :
    (NearTriangulation.build n VtoV degs).diagonalAt e
      = if e ∈ constructEdges n VtoV then some (constructDiagonal VtoV e) else none := by
  unfold NearTriangulation.diagonalAt NearTriangulation.build
  exact lookup_map_self _ _ _

theorem build_keysAreEdges (n : Nat) (VtoV : List (List Nat)) (degs : List (Option Degree)) :
    KeysAreEdges (NearTriangulation.build n VtoV degs) := by
  intro e d h
  rw [build_diagonalAt] at h
  by_cases he : e ∈ constructEdges n VtoV
  · exact he
  · simp [he] at h

theorem unvisited_mono (wheelgraph : NearTriangulation) {v1 v2 : List Edge}
    (h : v1 ⊆ v2) : unvisited wheelgraph v2 ≤ unvisited wheelgraph v1 := by
  unfold unvisited
  apply List.countP_mono_left
  intro e _ he
  simp only [decide_eq_true_eq] at he ⊢
  exact fun hc => he (h hc)

theorem countP_not_mem_cons_lt (visited : List Edge) (e : Edge) (hv : e ∉ visited) :
    ∀ (l : List Edge), e ∈ l →
      l.countP (fun x => decide (x ∉ e :: visited)) < l.countP (fun x => decide (x ∉ visited))
  | [], he => by simp at he
  | a :: rest, he => by
    have hle : List.countP (fun x => decide (x ∉ e :: visited)) rest
        ≤ List.countP (fun x => decide (x ∉ visited)) rest := by
      apply List.countP_mono_left
      intro x _ hx
      simp only [decide_eq_true_eq, List.mem_cons, not_or] at hx ⊢
      exact hx.2
    rw [List.countP_cons, List.countP_cons]
    by_cases hae : a = e
    · subst hae
      have h1 : decide (a ∉ a :: visited) = false := by simp
      have h2 : decide (a ∉ visited) = true := by simpa using hv
      rw [h1, h2]
      simp only [if_true]
      simp only [Bool.false_eq_true, if_false]
      omega
    · have he1 : e ∈ rest := by
        rcases List.mem_cons.1 he with h | h
        · exact absurd h.symm hae
        · exact h
      have ih := countP_not_mem_cons_lt visited e hv rest he1
      by_cases hav : a ∈ visited
      · have h1 : decide (a ∉ e :: visited) = false := by simp [hav]
        have h2 : decide (a ∉ visited) = false := by simpa using hav
        rw [h1, h2]
        simpa using ih
      · have h1 : decide (a ∉ e :: visited) = true := by simp [hav, hae]
        have h2 : decide (a ∉ visited) = true := by simpa using hav
        rw [h1, h2]
        simpa using ih

theorem unvisited_cons_lt (wheelgraph : NearTriangulation) {visited : List Edge} {e : Edge}
    (he : e ∈ wheelgraph.edges) (hv : e ∉ visited) :
    unvisited wheelgraph (e :: visited) < unvisited wheelgraph visited :=
  countP_not_mem_cons_lt visited e hv wheelgraph.edges he

theorem Grows_refl (wheelgraph : NearTriangulation) (v : List Edge) : Grows wheelgraph v v :=
  ⟨fun _ h => h, fun h => h, fun h => h⟩

theorem Grows_trans {wheelgraph : NearTriangulation} {v1 v2 v3 : List Edge}
    (h12 : Grows wheelgraph v1 v2) (h23 : Grows wheelgraph v2 v3) : Grows wheelgraph v1 v3 :=
  ⟨fun _ h => h23.1 (h12.1 h), fun h => h23.2.1 (h12.2.1 h), fun h => h23.2.2 (h12.2.2 h)⟩

theorem Grows_cons {wheelgraph : NearTriangulation} {v : List Edge} {e : Edge}
    (he : e ∈ wheelgraph.edges) (hv : e ∉ v) : Grows wheelgraph v (e :: v) := by
  refine ⟨fun _ h => List.mem_cons_of_mem _ h, fun h => List.nodup_cons.2 ⟨hv, h⟩, ?_⟩
  intro h x hx
  rcases List.mem_cons.1 hx with rfl | hx
  · exact he
  · exact h x hx

theorem andRecursive_fuel {wheelgraph : NearTriangulation} {k : Nat} {rec : Recursor}
    (hrec : FuelSpec wheelgraph k rec) (edge_w edge_s : Edge) (cur : Bool × MatchState)
    (hk : unvisited wheelgraph cur.2.visited < k) :
    Sat (fun r => Grows wheelgraph cur.2.visited r.2.visited) (fun e => e ≠ .outOfFuel)
      (andRecursive rec edge_w edge_s cur) := by
  unfold andRecursive
  split
  · exact hrec _ _ _ hk
  · exact Sat_pure (Grows_refl _ _)

theorem innerStep_fuel {wheelgraph subgraph : NearTriangulation} {k : Nat} {rec : Recursor}
    (hrec : FuelSpec wheelgraph k rec) (ex : List Nat) (dp : Bool) (edge_w edge_s : Edge)
    (vs vw : Nat) (acc : InnerVars) (hk : unvisited wheelgraph acc.st.visited < k) :
    Sat (fun r => Grows wheelgraph acc.st.visited r.st.visited) (fun e => e ≠ .outOfFuel)
      (innerStep rec wheelgraph subgraph ex dp edge_w edge_s vs acc vw) := by
  unfold innerStep
  split
  · exact Sat_pure (Grows_refl _ _)
  · dsimp only
    split
    · exact Sat_pure (Grows_refl _ _)
    · refine Sat_bind (andRecursive_fuel hrec _ _ _ hk) ?_
      intro r1 h1
      have hk1 : unvisited wheelgraph r1.2.visited < k :=
        lt_of_le_of_lt (unvisited_mono wheelgraph h1.1) hk
      refine Sat_bind (andRecursive_fuel hrec _ _ _ hk1) ?_
      intro r2 h2
      exact Sat_pure (Grows_trans h1 h2)

theorem outerStep_fuel {wheelgraph subgraph : NearTriangulation} {k : Nat} {rec : Recursor}
    (hrec : FuelSpec wheelgraph k rec) (ex : List Nat) (dp : Bool) (edge_w edge_s : Edge)
    (dw : List Nat) (vs : Nat) (acc : OuterVars)
    (hk : unvisited wheelgraph acc.st.visited < k) :
    Sat (fun r => Grows wheelgraph acc.st.visited r.st.visited) (fun e => e ≠ .outOfFuel)
      (outerStep rec wheelgraph subgraph ex dp edge_w edge_s dw acc vs) := by
  unfold outerStep
  refine Sat_bind
    (P := fun (r : InnerVars) => Grows wheelgraph acc.st.visited r.st.visited) ?_ ?_
  · refine Sat_foldlM _
      (fun _ (r : InnerVars) => Grows wheelgraph acc.st.visited r.st.visited) ?_ dw _
      (Grows_refl _ _)
    intro vw _ s hs
    have hks : unvisited wheelgraph s.st.visited < k :=
      lt_of_le_of_lt (unvisited_mono wheelgraph hs.1) hk
    exact Sat_mono (innerStep_fuel hrec ex dp edge_w edge_s vs vw s hks)
      (fun a ha => Grows_trans hs ha) (fun _ h => h)
  · intro r hr
    split
    · exact Sat_pure hr
    · exact Sat_throw (by simp)

theorem setEdgeBody_fuel {wheelgraph subgraph : NearTriangulation}
    (hkeys : KeysAreEdges wheelgraph) {k : Nat} {rec : Recursor}
    (hrec : FuelSpec wheelgraph k rec) (ex : List Nat) (dp : Bool) :
    FuelSpec wheelgraph (k + 1) (setEdgeBody rec wheelgraph subgraph ex dp) := by
  intro edge_w edge_s st hk
  unfold setEdgeBody
  split
  · exact Sat_pure (Grows_refl _ _)
  · rename_i hnot
    split
    · rename_i dw ds hdw hds
      have hmem : edge_w ∈ wheelgraph.edges := hkeys _ _ hdw
      have hlt := unvisited_cons_lt wheelgraph hmem hnot
      have hk1 : unvisited wheelgraph (edge_w :: st.visited) < k := by omega
      refine Sat_bind
        (P := fun (r : OuterVars) => Grows wheelgraph (edge_w :: st.visited) r.st.visited)
        ?_ ?_
      · refine Sat_foldlM _
          (fun _ (r : OuterVars) => Grows wheelgraph (edge_w :: st.visited) r.st.visited)
          ?_ ds _ (Grows_refl _ _)
        intro vs _ s hs
        have hks : unvisited wheelgraph s.st.visited < k :=
          lt_of_le_of_lt (unvisited_mono wheelgraph hs.1) hk1
        exact Sat_mono (outerStep_fuel hrec ex dp edge_w edge_s dw vs s hks)
          (fun a ha => Grows_trans hs ha) (fun _ h => h)
      · intro r hr
        split
        · exact Sat_pure (Grows_trans (Grows_cons hmem hnot) hr)
        · exact Sat_throw (by simp)
    · exact Sat_throw (by simp)

theorem set_edge_recursive_fuel {wheelgraph : NearTriangulation}
    (hkeys : KeysAreEdges wheelgraph) (subgraph : NearTriangulation) (ex : List Nat)
    (dp : Bool) (k : Nat) :
    FuelSpec wheelgraph k (set_edge_recursive wheelgraph subgraph ex dp k) := by
  induction k with
  | zero => intro _ _ st hk; exact absurd hk (Nat.not_lt_zero _)
  | succ k ih => exact setEdgeBody_fuel hkeys ih ex dp

theorem matchPinned_fuel {wheelgraph subgraph : NearTriangulation} {rec : Recursor}
    (hrec : FuelSpec wheelgraph (wheelgraph.edges.length + 1) rec) (ex : List Nat) (dp : Bool)
    (ew es : Edge) :
    Sat (fun _ => True) (fun e => e ≠ .outOfFuel)
      (matchPinned rec wheelgraph subgraph ex dp ew es) := by
  have hcalls : ∀ (calls : List (Edge × Edge)) (cur : Bool × MatchState),
      Sat (fun _ => True) (fun e => e ≠ .outOfFuel)
        (calls.foldlM (fun cur c => andRecursive rec c.1 c.2 cur) cur) := by
    intro calls cur
    have hle : unvisited wheelgraph cur.2.visited < wheelgraph.edges.length + 1 := by
      have : unvisited wheelgraph cur.2.visited ≤ wheelgraph.edges.length :=
        List.countP_le_length _
      omega
    refine Sat_foldlM _ (fun _ _ => True) ?_ calls cur trivial
    intro c _ s _
    have hs : unvisited wheelgraph s.2.visited < wheelgraph.edges.length + 1 := by
      have : unvisited wheelgraph s.2.visited ≤ wheelgraph.edges.length :=
        List.countP_le_length _
      omega
    exact Sat_mono (andRecursive_fuel hrec c.1 c.2 s hs) (fun _ _ => trivial) (fun _ h => h)
  unfold matchPinned
  split
  · split
    · refine Sat_bind (P := fun _ => True) ?_ (fun _ _ => Sat_pure trivial)
      refine Sat_foldlM _ (fun _ _ => True) ?_ _ _ trivial
      intro pairs _ bv _
      unfold branchStep
      split
      · exact Sat_pure trivial
      · exact Sat_bind (P := fun _ => True) (hcalls _ _) (fun _ _ => Sat_pure trivial)
    · split
      · refine Sat_bind (P := fun _ => True) ?_ (fun _ _ => Sat_pure trivial)
        have hs : unvisited wheelgraph (pinnedState wheelgraph subgraph ew es).visited
            < wheelgraph.edges.length + 1 := by
          have : unvisited wheelgraph (pinnedState wheelgraph subgraph ew es).visited
              ≤ wheelgraph.edges.length := List.countP_le_length _
          omega
        exact Sat_mono (hrec ew es _ hs) (fun _ _ => trivial) (fun _ h => h)
      · exact Sat_throw (by simp)
  · exact Sat_throw (by simp)

/-- The matcher never runs out of the fuel it gives to `set_edge_recursive`. -/
theorem match_fuel {wheelgraph : NearTriangulation} (hkeys : KeysAreEdges wheelgraph)
    (subgraph : NearTriangulation) (edgeid_wheelgraph edgeid_subgraph : Nat) (ex : List Nat)
    (dp : Bool) :
    containSubgraphWithCorrespondingEdge wheelgraph subgraph edgeid_wheelgraph
      edgeid_subgraph ex dp ≠ .error .outOfFuel := by
  have key : Sat (fun _ => True) (fun e => e ≠ .outOfFuel)
      (containSubgraphWithCorrespondingEdge wheelgraph subgraph edgeid_wheelgraph
        edgeid_subgraph ex dp) := by
    unfold containSubgraphWithCorrespondingEdge containSubgraphFuel
    split
    · split
      · exact Sat_pure trivial
      · exact matchPinned_fuel (set_edge_recursive_fuel hkeys subgraph ex dp _) ex dp _ _
    · exact Sat_throw (by simp)
  intro hc
  rw [hc] at key
  exact key rfl

/-! ## The correspondence kept by a matching attempt -/

theorem slot_set (l : List (Option Nat)) (i j : Nat) (x : Option Nat) :
    slot (l.set i x) j = if i = j ∧ i < l.length then x else slot l j := by
  unfold slot
  rw [List.getD_eq_getElem?_getD, List.getD_eq_getElem?_getD, List.getElem?_set]
  by_cases hij : i = j
  · subst hij
    by_cases hlt : i < l.length
    · simp [hlt]
    · simp [hlt, List.getElem?_eq_none (not_lt.1 hlt)]
  · simp [hij]

theorem slot_replicate_none (n i : Nat) : slot (List.replicate n none) i = none := by
  unfold slot
  rw [List.getD_eq_getElem?_getD]
  by_cases h : i < n
  · simp [List.getElem?_replicate, h]
  · simp [List.getElem?_replicate, h]

theorem slot_lt_length {l : List (Option Nat)} {i x : Nat} (h : slot l i = some x) :
    i < l.length := by
  by_contra hlt
  unfold slot at h
  rw [List.getD_eq_getElem?_getD, List.getElem?_eq_none (not_lt.1 hlt)] at h
  simp at h

theorem Extends_refl (st : MatchState) : Extends st st :=
  ⟨fun _ _ h => h, fun _ _ h => h, fun _ h => h⟩

theorem Extends_trans {a b c : MatchState} (h1 : Extends a b) (h2 : Extends b c) :
    Extends a c :=
  ⟨fun v x h => h2.1 v x (h1.1 v x h), fun v x h => h2.2.1 v x (h1.2.1 v x h),
   fun _ h => h2.2.2 (h1.2.2 h)⟩

theorem Extends_occupied_ne {a b : MatchState} (h : Extends a b) {v : Nat}
    (hv : slot a.occupied v ≠ none) : slot b.occupied v ≠ none := by
  cases hx : slot a.occupied v with
  | none => exact absurd hx hv
  | some x => rw [h.1 v x hx]; simp

theorem Extends_located_ne {a b : MatchState} (h : Extends a b) {v : Nat}
    (hv : slot a.located v ≠ none) : slot b.located v ≠ none := by
  cases hx : slot a.located v with
  | none => exact absurd hx hv
  | some x => rw [h.2.1 v x hx]; simp

theorem correspond_sized {wheelgraph subgraph : NearTriangulation} {st : MatchState}
    (vs vw : Nat) (h : Sized wheelgraph subgraph st) :
    Sized wheelgraph subgraph (correspond vs vw st) := by
  unfold Sized correspond at *
  simpa using h

theorem correspond_slots {wheelgraph subgraph : NearTriangulation} (st : MatchState)
    {vs vw : Nat} (h : Sized wheelgraph subgraph st) (hvs : vs < subgraph.vertex_size)
    (hvw : vw < wheelgraph.vertex_size) :
    slot (correspond vs vw st).located vs = some vw
    ∧ slot (correspond vs vw st).occupied vw = some vs := by
  unfold correspond
  simp only [slot_set]
  rw [h.1, h.2]
  simp [hvs, hvw]

theorem correspond_inverse {wheelgraph subgraph : NearTriangulation} {st : MatchState}
    {vs vw : Nat} (h : Sized wheelgraph subgraph st) (hinv : Inverse st)
    (hvs : vs < subgraph.vertex_size) (hvw : vw < wheelgraph.vertex_size)
    (hg : Guard st vs vw) : Inverse (correspond vs vw st) := by
  intro a b
  unfold correspond
  simp only [slot_set]
  rw [h.1, h.2]
  simp only [hvs, hvw, and_true]
  by_cases ha : vs = a <;> by_cases hb : vw = b
  · simp [ha, hb]
  · subst ha
    simp only [if_true, hb, if_false]
    constructor
    · intro hc; exact absurd (Option.some.inj hc) hb
    · intro hc
      have := (hinv vs b).2 hc
      rcases hg with ⟨h1, _⟩ | ⟨h1, _⟩
      · rw [h1] at this; simp at this
      · rw [h1] at this; exact absurd (Option.some.inj this) hb
  · subst hb
    simp only [if_true, ha, if_false]
    constructor
    · intro hc
      have := (hinv a vw).1 hc
      rcases hg with ⟨_, h2⟩ | ⟨_, h2⟩
      · rw [h2] at this; simp at this
      · rw [h2] at this; exact absurd (Option.some.inj this) ha
    · intro hc; exact absurd (Option.some.inj hc) ha
  · simp only [ha, hb, if_false]
    exact hinv a b

theorem correspond_extends {st : MatchState} {vs vw : Nat} (hg : Guard st vs vw) :
    Extends st (correspond vs vw st) := by
  refine ⟨?_, ?_, fun _ h => h⟩
  · intro v x hx
    unfold correspond
    simp only [slot_set]
    by_cases hv : vw = v ∧ vw < st.occupied.length
    · rw [if_pos hv]
      obtain ⟨rfl, _⟩ := hv
      rcases hg with ⟨_, h2⟩ | ⟨_, h2⟩
      · rw [h2] at hx; simp at hx
      · rw [h2] at hx; exact hx
    · rw [if_neg hv]; exact hx
  · intro v x hx
    unfold correspond
    simp only [slot_set]
    by_cases hv : vs = v ∧ vs < st.located.length
    · rw [if_pos hv]
      obtain ⟨rfl, _⟩ := hv
      rcases hg with ⟨h1, _⟩ | ⟨h1, _⟩
      · rw [h1] at hx; simp at hx
      · rw [h1] at hx; exact hx
    · rw [if_neg hv]; exact hx

/-! ## Counting the free diagonal vertices -/

theorem freeW_mono {a b : MatchState} (h : Extends a b) (l : List Nat) :
    freeW b l ≤ freeW a l := by
  unfold freeW
  apply List.countP_mono_left
  intro v _ hv
  simp only [decide_eq_true_eq] at hv ⊢
  by_contra hc
  exact Extends_occupied_ne h hc hv

theorem freeS_mono {a b : MatchState} (h : Extends a b) (l : List Nat) :
    freeS b l ≤ freeS a l := by
  unfold freeS
  apply List.countP_mono_left
  intro v _ hv
  simp only [decide_eq_true_eq] at hv ⊢
  by_contra hc
  exact Extends_located_ne h hc hv

theorem countP_le_one_of_taken (p : Nat → Bool) (l : List Nat) (hlen : l.length ≤ 2)
    (c : Nat) (hc : c ∈ l) (hp : p c = false) : l.countP p ≤ 1 := by
  match l, hlen, hc with
  | [a], _, hc =>
    have : c = a := by simpa using hc
    subst this
    simp [List.countP_cons, hp]
  | [a, b], _, hc =>
    have hc : c = a ∨ c = b := by simpa using hc
    rcases hc with rfl | rfl
    · by_cases h : p b = true <;> simp [List.countP_cons, hp, h]
    · by_cases h : p a = true <;> simp [List.countP_cons, hp, h]

theorem freeW_le_one_of_occupied (st : MatchState) (l : List Nat) (hlen : l.length ≤ 2)
    (c : Nat) (hc : c ∈ l) (hocc : slot st.occupied c ≠ none) : freeW st l ≤ 1 :=
  countP_le_one_of_taken _ l hlen c hc (by simpa using hocc)

theorem freeS_le_one_of_located (st : MatchState) (l : List Nat) (hlen : l.length ≤ 2)
    (c : Nat) (hc : c ∈ l) (hloc : slot st.located c ≠ none) : freeS st l ≤ 1 :=
  countP_le_one_of_taken _ l hlen c hc (by simpa using hloc)

/-! ## Near-triangulations of simple graphs -/

theorem freeW_cons (st : MatchState) (vw : Nat) (l : List Nat) :
    freeW st (vw :: l) = freeW st l + (if slot st.occupied vw = none then 1 else 0) := by
  unfold freeW
  rw [List.countP_cons]
  simp

theorem freeS_cons (st : MatchState) (vs : Nat) (l : List Nat) :
    freeS st (vs :: l) = freeS st l + (if slot st.located vs = none then 1 else 0) := by
  unfold freeS
  rw [List.countP_cons]
  simp

theorem andRecursive_total {wheelgraph subgraph : NearTriangulation} {k : Nat}
    {rec : Recursor} (hrec : TotalSpec wheelgraph subgraph k rec) {edge_w edge_s : Edge}
    {c : Bool × MatchState} (hpre : CallPre wheelgraph subgraph k edge_w edge_s c.2) :
    Sat (CallPost wheelgraph subgraph c.2) (fun _ => False)
      (andRecursive rec edge_w edge_s c) := by
  unfold andRecursive
  split
  · exact hrec _ _ _ hpre
  · exact Sat_pure ⟨hpre.sized, hpre.inverse, Extends_refl _⟩

theorem few_of_third {wheelgraph subgraph : NearTriangulation} (hostT : Triangulated wheelgraph)
    (patT : Triangulated subgraph) {st : MatchState} {ew es : Edge} (cw cs : Nat)
    (hcw : ∀ d, wheelgraph.diagonalAt ew = some d → cw ∈ d)
    (hcs : ∀ d, subgraph.diagonalAt es = some d → cs ∈ d)
    (hocc : slot st.occupied cw ≠ none) (hloc : slot st.located cs ≠ none) :
    ∀ dw ds, wheelgraph.diagonalAt ew = some dw → subgraph.diagonalAt es = some ds →
      freeW st dw * freeS st ds ≤ 1 := by
  intro dw ds hdw hds
  have h1 := freeW_le_one_of_occupied st dw (hostT.diag_le_two _ _ hdw) cw (hcw _ hdw) hocc
  have h2 := freeS_le_one_of_located st ds (patT.diag_le_two _ _ hds) cs (hcs _ hds) hloc
  calc freeW st dw * freeS st ds ≤ 1 * 1 := Nat.mul_le_mul h1 h2
    _ = 1 := rfl

theorem callPre_first {wheelgraph subgraph : NearTriangulation} {k : Nat} {edge_w edge_s : Edge}
    {dw ds : List Nat} {st1 : MatchState}
    (ctx : BodyCtx wheelgraph subgraph k edge_w edge_s dw ds st1) {s : MatchState}
    {vs vw : Nat} (hvw : vw ∈ dw) (hvs : vs ∈ ds) (hsz : Sized wheelgraph subgraph s)
    (hinv : Inverse s) (hext : Extends st1 s) (hocc : slot s.occupied vw ≠ none)
    (hloc : slot s.located vs ≠ none) :
    CallPre wheelgraph subgraph k (edge_w.1, vw) (edge_s.1, vs) s := by
  have hw := (ctx.hostT.diag_iff edge_w.1 edge_w.2 dw ctx.hdw vw).1 hvw
  have hs := (ctx.patT.diag_iff edge_s.1 edge_s.2 ds ctx.hds vs).1 hvs
  have hew : (edge_w.1, edge_w.2) ∈ wheelgraph.edges := ctx.hostT.keys _ _ ctx.hdw
  have hes : (edge_s.1, edge_s.2) ∈ subgraph.edges := ctx.patT.keys _ _ ctx.hds
  refine
    { sized := hsz, inverse := hinv, mem_w := hw.1, mem_s := hs.1
      occ1 := Extends_occupied_ne hext ctx.occ1, occ2 := hocc
      loc1 := Extends_located_ne hext ctx.loc1, loc2 := hloc
      few := ?_
      fuel := lt_of_le_of_lt (unvisited_mono wheelgraph hext.2.2) ctx.fuel }
  refine few_of_third ctx.hostT ctx.patT edge_w.2 edge_s.2 ?_ ?_
    (Extends_occupied_ne hext ctx.occ2) (Extends_located_ne hext ctx.loc2)
  · intro d hd
    exact (ctx.hostT.diag_iff _ _ d hd _).2 ⟨hew, ctx.hostT.edge_symm _ _ hw.2⟩
  · intro d hd
    exact (ctx.patT.diag_iff _ _ d hd _).2 ⟨hes, ctx.patT.edge_symm _ _ hs.2⟩

theorem callPre_second {wheelgraph subgraph : NearTriangulation} {k : Nat}
    {edge_w edge_s : Edge} {dw ds : List Nat} {st1 : MatchState}
    (ctx : BodyCtx wheelgraph subgraph k edge_w edge_s dw ds st1) {s : MatchState}
    {vs vw : Nat} (hvw : vw ∈ dw) (hvs : vs ∈ ds) (hsz : Sized wheelgraph subgraph s)
    (hinv : Inverse s) (hext : Extends st1 s) (hocc : slot s.occupied vw ≠ none)
    (hloc : slot s.located vs ≠ none) :
    CallPre wheelgraph subgraph k (edge_w.2, vw) (edge_s.2, vs) s := by
  have hw := (ctx.hostT.diag_iff edge_w.1 edge_w.2 dw ctx.hdw vw).1 hvw
  have hs := (ctx.patT.diag_iff edge_s.1 edge_s.2 ds ctx.hds vs).1 hvs
  have hew : (edge_w.1, edge_w.2) ∈ wheelgraph.edges := ctx.hostT.keys _ _ ctx.hdw
  have hes : (edge_s.1, edge_s.2) ∈ subgraph.edges := ctx.patT.keys _ _ ctx.hds
  refine
    { sized := hsz, inverse := hinv, mem_w := hw.2, mem_s := hs.2
      occ1 := Extends_occupied_ne hext ctx.occ2, occ2 := hocc
      loc1 := Extends_located_ne hext ctx.loc2, loc2 := hloc
      few := ?_
      fuel := lt_of_le_of_lt (unvisited_mono wheelgraph hext.2.2) ctx.fuel }
  refine few_of_third ctx.hostT ctx.patT edge_w.1 edge_s.1 ?_ ?_
    (Extends_occupied_ne hext ctx.occ1) (Extends_located_ne hext ctx.loc1)
  · intro d hd
    exact (ctx.hostT.diag_iff _ _ d hd _).2
      ⟨ctx.hostT.edge_symm _ _ hew, ctx.hostT.edge_symm _ _ hw.1⟩
  · intro d hd
    exact (ctx.patT.diag_iff _ _ d hd _).2
      ⟨ctx.patT.edge_symm _ _ hes, ctx.patT.edge_symm _ _ hs.1⟩

theorem countP_eq_some_zero {loc : Option Nat} {vw : Nat} (hloc : loc = some vw)
    {wrest : List Nat} (hnot : vw ∉ wrest) :
    wrest.countP (fun v => decide (loc = some v)) = 0 := by
  rw [List.countP_eq_zero]
  intro v hv
  simp only [decide_eq_true_eq]
  intro hc
  rw [hloc] at hc
  exact hnot (Option.some.inj hc ▸ hv)

theorem innerStep_total {wheelgraph subgraph : NearTriangulation} {k : Nat} {rec : Recursor}
    (hrec : TotalSpec wheelgraph subgraph k rec) (ex : List Nat) (dp : Bool)
    {edge_w edge_s : Edge} {dw ds : List Nat} {st1 : MatchState}
    (ctx : BodyCtx wheelgraph subgraph k edge_w edge_s dw ds st1) {vs : Nat} (hvs : vs ∈ ds)
    (rest : List Nat) (vw : Nat) (wrest : List Nat) (acc : InnerVars)
    (hJ : InnerInv wheelgraph subgraph dw st1 vs rest (vw :: wrest) acc) :
    Sat (InnerInv wheelgraph subgraph dw st1 vs rest wrest) (fun _ => False)
      (innerStep rec wheelgraph subgraph ex dp edge_w edge_s vs acc vw) := by
  have hvw : vw ∈ dw := hJ.sub vw (List.mem_cons_self _ _)
  have hnot : vw ∉ wrest := (List.nodup_cons.1 hJ.nodup).1
  have hnd : wrest.Nodup := (List.nodup_cons.1 hJ.nodup).2
  have hsub : ∀ v, v ∈ wrest → v ∈ dw := fun v hv => hJ.sub v (List.mem_cons_of_mem _ hv)
  have hA := hJ.countA
  have hB := hJ.countB
  rw [freeW_cons] at hA hB
  rw [List.countP_cons] at hB
  unfold innerStep
  by_cases hF : slot acc.st.located vs = none ∧ slot acc.st.occupied vw = none
  · -- both vertices are free
    rw [if_neg (fun h => h.1 hF)]
    simp only [if_pos hF]
    simp only [hF.1, hF.2, if_true] at hA hB
    by_cases hmd : match_degree wheelgraph subgraph ex vs vw dp = false
    · rw [if_pos hmd]
      refine Sat_pure
        { sized := hJ.sized, inverse := hJ.inverse, ext := hJ.ext, nodup := hnd, sub := hsub
          countA := ?_, countB := ?_ }
      · simp only [hF.1, if_true]; omega
      · simp only [hF.1, if_true]; omega
    · rw [if_neg hmd]
      have hw := (ctx.hostT.diag_iff edge_w.1 edge_w.2 dw ctx.hdw vw).1 hvw
      have hs := (ctx.patT.diag_iff edge_s.1 edge_s.2 ds ctx.hds vs).1 hvs
      have hvwlt := (ctx.hostT.edge_lt _ _ hw.1).2
      have hvslt := (ctx.patT.edge_lt _ _ hs.1).2
      have hg : Guard acc.st vs vw := Or.inl hF
      have hsl := correspond_slots acc.st hJ.sized hvslt hvwlt
      have hext2 := correspond_extends hg
      have pre1 := callPre_first ctx hvw hvs (correspond_sized vs vw hJ.sized)
        (correspond_inverse hJ.sized hJ.inverse hvslt hvwlt hg)
        (Extends_trans hJ.ext hext2) (by rw [hsl.2]; simp) (by rw [hsl.1]; simp)
      refine Sat_bind (andRecursive_total hrec (c := (acc.match_deg, _)) pre1) ?_
      intro r1 h1
      have hloc1 := h1.2.2.2.1 vs vw hsl.1
      have hocc1 := h1.2.2.1 vw vs hsl.2
      have pre2 := callPre_second ctx hvw hvs h1.1 h1.2.1
        (Extends_trans (Extends_trans hJ.ext hext2) h1.2.2) (by rw [hocc1]; simp)
        (by rw [hloc1]; simp)
      refine Sat_bind (andRecursive_total hrec pre2) ?_
      intro r2 h2
      have hloc2 := h2.2.2.2.1 vs vw hloc1
      have hextAll : Extends acc.st r2.2 := Extends_trans (Extends_trans hext2 h1.2.2) h2.2.2
      have hX : freeW r2.2 dw * freeS r2.2 rest ≤ freeW acc.st dw * freeS acc.st rest :=
        Nat.mul_le_mul (freeW_mono hextAll dw) (freeS_mono hextAll rest)
      refine Sat_pure
        { sized := h2.1, inverse := h2.2.1, ext := Extends_trans hJ.ext hextAll, nodup := hnd
          sub := hsub, countA := ?_, countB := ?_ }
      · simp only [hloc2, if_false]
        simp only [reduceCtorEq, if_false]
        omega
      · simp only [hloc2]
        simp only [reduceCtorEq, if_false]
        rw [countP_eq_some_zero rfl hnot]
        omega
  · by_cases hP : slot acc.st.located vs = some vw ∧ slot acc.st.occupied vw = some vs
    · -- the two vertices are already matched to each other
      rw [if_neg (fun h => h.2 hP)]
      simp only [if_neg hF]
      have hne : slot acc.st.located vs ≠ none := by rw [hP.1]; simp
      simp only [if_neg hne] at hA hB
      simp only [hP.1, decide_True, if_true] at hB
      by_cases hmd : match_degree wheelgraph subgraph ex vs vw dp = false
      · rw [if_pos hmd]
        refine Sat_pure
          { sized := hJ.sized, inverse := hJ.inverse, ext := hJ.ext, nodup := hnd
            sub := hsub, countA := ?_, countB := ?_ }
        · simp only [if_neg hne]; omega
        · simp only [hP.1, reduceCtorEq, if_false]; omega
      · rw [if_neg hmd]
        have hw := (ctx.hostT.diag_iff edge_w.1 edge_w.2 dw ctx.hdw vw).1 hvw
        have hs := (ctx.patT.diag_iff edge_s.1 edge_s.2 ds ctx.hds vs).1 hvs
        have hvwlt := (ctx.hostT.edge_lt _ _ hw.1).2
        have hvslt := (ctx.patT.edge_lt _ _ hs.1).2
        have hg : Guard acc.st vs vw := Or.inr hP
        have hsl := correspond_slots acc.st hJ.sized hvslt hvwlt
        have hext2 := correspond_extends hg
        have pre1 := callPre_first ctx hvw hvs (correspond_sized vs vw hJ.sized)
          (correspond_inverse hJ.sized hJ.inverse hvslt hvwlt hg)
          (Extends_trans hJ.ext hext2) (by rw [hsl.2]; simp) (by rw [hsl.1]; simp)
        refine Sat_bind (andRecursive_total hrec (c := (acc.match_deg, _)) pre1) ?_
        intro r1 h1
        have hloc1 := h1.2.2.2.1 vs vw hsl.1
        have hocc1 := h1.2.2.1 vw vs hsl.2
        have pre2 := callPre_second ctx hvw hvs h1.1 h1.2.1
          (Extends_trans (Extends_trans hJ.ext hext2) h1.2.2) (by rw [hocc1]; simp)
          (by rw [hloc1]; simp)
        refine Sat_bind (andRecursive_total hrec pre2) ?_
        intro r2 h2
        have hloc2 := h2.2.2.2.1 vs vw hloc1
        have hextAll : Extends acc.st r2.2 :=
          Extends_trans (Extends_trans hext2 h1.2.2) h2.2.2
        have hX : freeW r2.2 dw * freeS r2.2 rest ≤ freeW acc.st dw * freeS acc.st rest :=
          Nat.mul_le_mul (freeW_mono hextAll dw) (freeS_mono hextAll rest)
        refine Sat_pure
          { sized := h2.1, inverse := h2.2.1, ext := Extends_trans hJ.ext hextAll
            nodup := hnd, sub := hsub, countA := ?_, countB := ?_ }
        · simp only [hloc2]
          simp only [reduceCtorEq, if_false]
          omega
        · simp only [hloc2]
          simp only [reduceCtorEq, if_false]
          rw [countP_eq_some_zero rfl hnot]
          omega
    · -- one of the two is matched elsewhere: `continue`
      rw [if_pos ⟨hF, hP⟩]
      refine Sat_pure
        { sized := hJ.sized, inverse := hJ.inverse, ext := hJ.ext, nodup := hnd, sub := hsub
          countA := ?_, countB := ?_ }
      · by_cases hl : slot acc.st.located vs = none
        · simp only [hl, if_true] at hA ⊢; omega
        · simp only [if_neg hl] at hA ⊢; omega
      · by_cases hl : slot acc.st.located vs = none
        · simp only [hl, if_true] at hB ⊢; omega
        · simp only [if_neg hl] at hB ⊢; omega

theorem countP_eq_some_le_one (loc : Option Nat) :
    ∀ (l : List Nat), l.Nodup → l.countP (fun v => decide (loc = some v)) ≤ 1
  | [], _ => by simp
  | a :: l, hnd => by
    rw [List.countP_cons]
    by_cases h : loc = some a
    · rw [countP_eq_some_zero h (List.nodup_cons.1 hnd).1]
      simp [h]
    · have ih := countP_eq_some_le_one loc l (List.nodup_cons.1 hnd).2
      simp only [h, decide_False, Bool.false_eq_true, if_false]
      omega

theorem outerStep_total {wheelgraph subgraph : NearTriangulation} {k : Nat} {rec : Recursor}
    (hrec : TotalSpec wheelgraph subgraph k rec) (ex : List Nat) (dp : Bool)
    {edge_w edge_s : Edge} {dw ds : List Nat} {st1 : MatchState}
    (ctx : BodyCtx wheelgraph subgraph k edge_w edge_s dw ds st1)
    (vs : Nat) (rest : List Nat) (acc : OuterVars)
    (hJ : OuterInv wheelgraph subgraph dw ds st1 (vs :: rest) acc) :
    Sat (OuterInv wheelgraph subgraph dw ds st1 rest) (fun _ => False)
      (outerStep rec wheelgraph subgraph ex dp edge_w edge_s dw acc vs) := by
  have hvs : vs ∈ ds := hJ.sub vs (List.mem_cons_self _ _)
  have hnd : dw.Nodup := ctx.hostT.diag_nodup _ _ ctx.hdw
  have hC := hJ.count
  rw [freeS_cons, Nat.mul_add] at hC
  unfold outerStep
  refine Sat_bind (P := InnerInv wheelgraph subgraph dw st1 vs rest []) ?_ ?_
  · refine Sat_foldlM _ (fun wrest a => InnerInv wheelgraph subgraph dw st1 vs rest wrest a)
      (fun vw wrest a ha => innerStep_total hrec ex dp ctx hvs rest vw wrest a ha) dw _ ?_
    refine
      { sized := hJ.sized, inverse := hJ.inverse, ext := hJ.ext, nodup := hnd
        sub := fun _ h => h, countA := ?_, countB := ?_ }
    · by_cases hl : slot acc.st.located vs = none
      · simp only [hl, if_true, Nat.mul_one] at hC ⊢; omega
      · simp only [if_neg hl, Nat.mul_zero] at hC ⊢; omega
    · by_cases hl : slot acc.st.located vs = none
      · simp only [hl, if_true, Nat.mul_one] at hC ⊢; omega
      · simp only [if_neg hl]
        have := countP_eq_some_le_one (slot acc.st.located vs) dw hnd
        omega
  · intro r hr
    have hA := hr.countA
    have hB := hr.countB
    have hB1 : r.vs_match_case ≤ 1 := by omega
    rw [if_pos hB1]
    refine Sat_pure
      { sized := hr.sized, inverse := hr.inverse, ext := hr.ext
        sub := fun v hv => hJ.sub v (List.mem_cons_of_mem _ hv), count := ?_ }
    show r.new_match_case + freeW r.st dw * freeS r.st rest ≤ 1
    omega

theorem setEdgeBody_total {wheelgraph subgraph : NearTriangulation}
    (hostT : Triangulated wheelgraph) (patT : Triangulated subgraph) {k : Nat}
    {rec : Recursor} (hrec : TotalSpec wheelgraph subgraph k rec) (ex : List Nat)
    (dp : Bool) :
    TotalSpec wheelgraph subgraph (k + 1) (setEdgeBody rec wheelgraph subgraph ex dp) := by
  intro edge_w edge_s st pre
  unfold setEdgeBody
  by_cases hvis : edge_w ∈ st.visited
  · rw [if_pos hvis]
    exact Sat_pure ⟨pre.sized, pre.inverse, Extends_refl _⟩
  · rw [if_neg hvis]
    obtain ⟨dw, hdw⟩ := hostT.defined _ pre.mem_w
    obtain ⟨ds, hds⟩ := patT.defined _ pre.mem_s
    simp only [hdw, hds]
    have hlt := unvisited_cons_lt wheelgraph pre.mem_w hvis
    have hfuel := pre.fuel
    have ctx : BodyCtx wheelgraph subgraph k edge_w edge_s dw ds
        { st with visited := edge_w :: st.visited } :=
      { hostT := hostT, patT := patT, hdw := hdw, hds := hds, occ1 := pre.occ1
        occ2 := pre.occ2, loc1 := pre.loc1, loc2 := pre.loc2
        fuel := by show unvisited wheelgraph (edge_w :: st.visited) < k; omega }
    have hext1 : Extends st { st with visited := edge_w :: st.visited } :=
      ⟨fun _ _ h => h, fun _ _ h => h, fun _ h => List.mem_cons_of_mem _ h⟩
    refine Sat_bind
      (P := OuterInv wheelgraph subgraph dw ds { st with visited := edge_w :: st.visited } [])
      ?_ ?_
    · refine Sat_foldlM _
        (fun rest a => OuterInv wheelgraph subgraph dw ds
          { st with visited := edge_w :: st.visited } rest a)
        (fun vs rest a ha => outerStep_total hrec ex dp ctx vs rest a ha) ds _ ?_
      exact
        { sized := pre.sized, inverse := pre.inverse, ext := Extends_refl _
          sub := fun _ h => h
          count := by
            have := pre.few dw ds hdw hds
            show 0 + freeW st dw * freeS st ds ≤ 1
            omega }
    · intro r hr
      have hC := hr.count
      have h0 : freeS r.st [] = 0 := rfl
      rw [h0, Nat.mul_zero] at hC
      have h1 : r.new_match_case ≤ 1 := by omega
      rw [if_pos h1]
      exact Sat_pure ⟨hr.sized, hr.inverse, Extends_trans hext1 hr.ext⟩

theorem set_edge_recursive_total {wheelgraph subgraph : NearTriangulation}
    (hostT : Triangulated wheelgraph) (patT : Triangulated subgraph) (ex : List Nat)
    (dp : Bool) (k : Nat) :
    TotalSpec wheelgraph subgraph k (set_edge_recursive wheelgraph subgraph ex dp k) := by
  induction k with
  | zero => intro _ _ st pre; exact absurd pre.fuel (Nat.not_lt_zero _)
  | succ k ih => exact setEdgeBody_total hostT patT ih ex dp

/-! ## The pinned edges and the branching cases -/

theorem emptyState_sized (wheelgraph subgraph : NearTriangulation) :
    Sized wheelgraph subgraph (emptyState wheelgraph subgraph) := by
  simp [Sized, emptyState]

theorem emptyState_inverse (wheelgraph subgraph : NearTriangulation) :
    Inverse (emptyState wheelgraph subgraph) := by
  intro a b
  simp [emptyState, slot_replicate_none]

theorem pinnedState_eq (wheelgraph subgraph : NearTriangulation) (ew es : Edge) :
    pinnedState wheelgraph subgraph ew es
      = correspond es.2 ew.2 (correspond es.1 ew.1 (emptyState wheelgraph subgraph)) := rfl

theorem pinnedState_visited (wheelgraph subgraph : NearTriangulation) (ew es : Edge) :
    (pinnedState wheelgraph subgraph ew es).visited = [] := rfl

theorem pinnedState_sized (wheelgraph subgraph : NearTriangulation) (ew es : Edge) :
    Sized wheelgraph subgraph (pinnedState wheelgraph subgraph ew es) :=
  correspond_sized _ _ (correspond_sized _ _ (emptyState_sized _ _))

theorem pinnedState_occupied (wheelgraph subgraph : NearTriangulation) (ew es : Edge)
    (v : Nat) :
    slot (pinnedState wheelgraph subgraph ew es).occupied v
      = if ew.2 = v ∧ ew.2 < wheelgraph.vertex_size then some es.2
        else if ew.1 = v ∧ ew.1 < wheelgraph.vertex_size then some es.1 else none := by
  simp [pinnedState, correspond, slot_set, slot_replicate_none]

theorem pinnedState_located (wheelgraph subgraph : NearTriangulation) (ew es : Edge)
    (v : Nat) :
    slot (pinnedState wheelgraph subgraph ew es).located v
      = if es.2 = v ∧ es.2 < subgraph.vertex_size then some ew.2
        else if es.1 = v ∧ es.1 < subgraph.vertex_size then some ew.1 else none := by
  simp [pinnedState, correspond, slot_set, slot_replicate_none]

theorem pinnedState_inverse {wheelgraph subgraph : NearTriangulation} {ew es : Edge}
    (hw1 : ew.1 < wheelgraph.vertex_size) (hw2 : ew.2 < wheelgraph.vertex_size)
    (hs1 : es.1 < subgraph.vertex_size) (hs2 : es.2 < subgraph.vertex_size)
    (hwne : ew.1 ≠ ew.2) (hsne : es.1 ≠ es.2) :
    Inverse (pinnedState wheelgraph subgraph ew es) := by
  rw [pinnedState_eq]
  have h1 : Guard (emptyState wheelgraph subgraph) es.1 ew.1 :=
    Or.inl ⟨by simp [emptyState, slot_replicate_none], by simp [emptyState, slot_replicate_none]⟩
  have hinv1 := correspond_inverse (emptyState_sized wheelgraph subgraph)
    (emptyState_inverse wheelgraph subgraph) hs1 hw1 h1
  have hsz1 := correspond_sized es.1 ew.1 (emptyState_sized wheelgraph subgraph)
  refine correspond_inverse hsz1 hinv1 hs2 hw2 (Or.inl ⟨?_, ?_⟩)
  · simp [correspond, emptyState, slot_set, slot_replicate_none, hsne]
  · simp [correspond, emptyState, slot_set, slot_replicate_none, hwne]

theorem unvisited_nil (wheelgraph : NearTriangulation) :
    unvisited wheelgraph [] = wheelgraph.edges.length := by
  unfold unvisited
  rw [List.countP_eq_length]
  intro e _
  simp

theorem freeW_le_length (st : MatchState) (l : List Nat) : freeW st l ≤ l.length :=
  List.countP_le_length _

theorem freeS_le_length (st : MatchState) (l : List Nat) : freeS st l ≤ l.length :=
  List.countP_le_length _

theorem branchCandidates_none {dw ds : List Nat} (h : branchCandidates dw ds = none)
    (hw : dw.length ≤ 2) (hs : ds.length ≤ 2) : dw.length * ds.length ≤ 1 := by
  match dw, ds, hw, hs, h with
  | [], _, _, _, _ => simp
  | _ :: _, [], _, _, _ => simp
  | [_], [_], _, _, _ => simp
  | [_], [_, _], _, _, h => simp [branchCandidates] at h
  | [_, _], [_], _, _, h => simp [branchCandidates] at h
  | [_, _], [_, _], _, _, h => simp [branchCandidates] at h

theorem branchCalls_total {wheelgraph subgraph : NearTriangulation} {k : Nat}
    {rec : Recursor} (hrec : TotalSpec wheelgraph subgraph k rec) {ew es : Edge}
    {dw ds : List Nat} {st0 : MatchState}
    (ctx : BodyCtx wheelgraph subgraph k ew es dw ds st0)
    (hsz : Sized wheelgraph subgraph st0) (hinv : Inverse st0) (pairs : List (Nat × Nat))
    (hpairs : ∀ p, p ∈ pairs → p.2 ∈ dw ∧ p.1 ∈ ds ∧ slot st0.occupied p.2 ≠ none
      ∧ slot st0.located p.1 ≠ none) :
    Sat (CallPost wheelgraph subgraph st0) (fun _ => False)
      ((branchCalls pairs ew es).foldlM (fun cur c => andRecursive rec c.1 c.2 cur)
        (true, st0)) := by
  have hcalls : ∀ c, c ∈ branchCalls pairs ew es → ∀ s, Sized wheelgraph subgraph s →
      Inverse s → Extends st0 s → CallPre wheelgraph subgraph k c.1 c.2 s := by
    intro c hc s hs1 hs2 hs3
    obtain ⟨p, hp, hcp⟩ := List.mem_flatMap.1 hc
    obtain ⟨h1, h2, h3, h4⟩ := hpairs p hp
    simp only [List.mem_cons, List.mem_singleton, List.not_mem_nil, or_false] at hcp
    rcases hcp with rfl | rfl
    · exact callPre_first ctx h1 h2 hs1 hs2 hs3 (Extends_occupied_ne hs3 h3)
        (Extends_located_ne hs3 h4)
    · exact callPre_second ctx h1 h2 hs1 hs2 hs3 (Extends_occupied_ne hs3 h3)
        (Extends_located_ne hs3 h4)
  refine Sat_mono
    (P := fun cur => CallPost wheelgraph subgraph st0 cur
      ∧ ∀ c, c ∈ ([] : List (Edge × Edge)) → c ∈ branchCalls pairs ew es) ?_
    (fun a ha => ha.1) (fun _ h => h)
  refine Sat_foldlM _
    (fun rest cur => CallPost wheelgraph subgraph st0 cur
      ∧ ∀ c, c ∈ rest → c ∈ branchCalls pairs ew es) ?_ _ (true, st0)
    ⟨⟨hsz, hinv, Extends_refl _⟩, fun _ h => h⟩
  intro c rest cur hcur
  have pre := hcalls c (hcur.2 c (List.mem_cons_self _ _)) cur.2 hcur.1.1 hcur.1.2.1
    hcur.1.2.2
  refine Sat_mono (andRecursive_total hrec pre) ?_ (fun _ h => h)
  intro r hr
  exact ⟨⟨hr.1, hr.2.1, Extends_trans hcur.1.2.2 hr.2.2⟩,
    fun c1 h1 => hcur.2 c1 (List.mem_cons_of_mem _ h1)⟩

theorem branchCandidates_some {dw ds : List Nat} {cands : List (List (Nat × Nat))}
    (h : branchCandidates dw ds = some cands) (hw : dw.Nodup) (hs : ds.Nodup) :
    cands.length = 2 ∧ ∀ pairs, pairs ∈ cands → PairsOk dw ds pairs := by
  match dw, ds, h, hw, hs with
  | [vw0, vw1], [vs], h, hw, hs =>
    simp only [branchCandidates, Option.some.injEq] at h
    subst h
    refine ⟨rfl, ?_⟩
    intro pairs hp
    simp only [List.mem_cons, List.mem_singleton, List.not_mem_nil, or_false] at hp
    rcases hp with rfl | rfl <;> simp [PairsOk]
  | [vw], [vs0, vs1], h, hw, hs =>
    simp only [branchCandidates, Option.some.injEq] at h
    subst h
    refine ⟨rfl, ?_⟩
    intro pairs hp
    simp only [List.mem_cons, List.mem_singleton, List.not_mem_nil, or_false] at hp
    rcases hp with rfl | rfl <;> simp [PairsOk]
  | [vw0, vw1], [vs0, vs1], h, hw, hs =>
    simp only [branchCandidates, Option.some.injEq] at h
    subst h
    have hw1 : vw0 ≠ vw1 := by simpa using hw
    have hs1 : vs0 ≠ vs1 := by simpa using hs
    refine ⟨rfl, ?_⟩
    intro pairs hp
    simp only [List.mem_cons, List.mem_singleton, List.not_mem_nil, or_false] at hp
    rcases hp with rfl | rfl
    · simp [PairsOk, hw1, hs1]
    · simp [PairsOk, hw1, Ne.symm hs1]
  | [], _, h, _, _ => simp [branchCandidates] at h
  | [_], [], h, _, _ => simp [branchCandidates] at h
  | [_], [_], h, _, _ => simp [branchCandidates] at h
  | [_], _ :: _ :: _ :: _, h, _, _ => simp [branchCandidates] at h
  | [_, _], [], h, _, _ => simp [branchCandidates] at h
  | [_, _], _ :: _ :: _ :: _, h, _, _ => simp [branchCandidates] at h
  | _ :: _ :: _ :: _, _, h, _, _ => simp [branchCandidates] at h

theorem foldl_correspond_visited (pairs : List (Nat × Nat)) (s : MatchState) :
    (pairs.foldl (fun st p => correspond p.1 p.2 st) s).visited = s.visited := by
  induction pairs generalizing s with
  | nil => rfl
  | cons p rest ih => rw [List.foldl_cons, ih]; rfl

theorem foldl_correspond_ok {wheelgraph subgraph : NearTriangulation} :
    ∀ (pairs : List (Nat × Nat)) (s : MatchState), Sized wheelgraph subgraph s → Inverse s →
      (∀ p, p ∈ pairs → p.1 < subgraph.vertex_size ∧ p.2 < wheelgraph.vertex_size
        ∧ slot s.located p.1 = none ∧ slot s.occupied p.2 = none) →
      (pairs.map Prod.fst).Nodup → (pairs.map Prod.snd).Nodup →
      Sized wheelgraph subgraph (pairs.foldl (fun st p => correspond p.1 p.2 st) s)
      ∧ Inverse (pairs.foldl (fun st p => correspond p.1 p.2 st) s)
      ∧ Extends s (pairs.foldl (fun st p => correspond p.1 p.2 st) s)
      ∧ ∀ p, p ∈ pairs →
          slot (pairs.foldl (fun st p => correspond p.1 p.2 st) s).occupied p.2 ≠ none
          ∧ slot (pairs.foldl (fun st p => correspond p.1 p.2 st) s).located p.1 ≠ none
  | [], s, hsz, hinv, _, _, _ => by
    refine ⟨hsz, hinv, Extends_refl _, ?_⟩
    intro p hp
    simp at hp
  | q :: rest, s, hsz, hinv, hfree, hn1, hn2 => by
    obtain ⟨hq1, hq2, hq3, hq4⟩ := hfree q (List.mem_cons_self _ _)
    have hg : Guard s q.1 q.2 := Or.inl ⟨hq3, hq4⟩
    have hsz1 : Sized wheelgraph subgraph (correspond q.1 q.2 s) := correspond_sized q.1 q.2 hsz
    have hinv1 := correspond_inverse hsz hinv hq1 hq2 hg
    have hext1 := correspond_extends hg
    have hsl := correspond_slots s hsz hq1 hq2
    rw [List.map_cons, List.nodup_cons] at hn1 hn2
    have hfree1 : ∀ p, p ∈ rest → p.1 < subgraph.vertex_size ∧ p.2 < wheelgraph.vertex_size
        ∧ slot (correspond q.1 q.2 s).located p.1 = none
        ∧ slot (correspond q.1 q.2 s).occupied p.2 = none := by
      intro p hp
      obtain ⟨hp1, hp2, hp3, hp4⟩ := hfree p (List.mem_cons_of_mem _ hp)
      have hne1 : q.1 ≠ p.1 := fun hc => hn1.1 (hc ▸ List.mem_map_of_mem Prod.fst hp)
      have hne2 : q.2 ≠ p.2 := fun hc => hn2.1 (hc ▸ List.mem_map_of_mem Prod.snd hp)
      refine ⟨hp1, hp2, ?_, ?_⟩
      · simp [correspond, slot_set, hne1, hp3]
      · simp [correspond, slot_set, hne2, hp4]
    obtain ⟨h1, h2, h3, h4⟩ :=
      foldl_correspond_ok rest (correspond q.1 q.2 s) hsz1 hinv1 hfree1 hn1.2 hn2.2
    rw [List.foldl_cons]
    refine ⟨h1, h2, Extends_trans hext1 h3, ?_⟩
    intro p hp
    rcases List.mem_cons.1 hp with rfl | hp
    · constructor
      · rw [h3.1 _ _ hsl.2]; simp
      · rw [h3.2.1 _ _ hsl.1]; simp
    · exact h4 p hp

theorem PinCtx.pinned_inverse {wheelgraph subgraph : NearTriangulation} {ew es : Edge}
    {dw ds : List Nat} (pin : PinCtx wheelgraph subgraph ew es dw ds) :
    Inverse (pinnedState wheelgraph subgraph ew es) :=
  pinnedState_inverse (pin.hostT.edge_lt ew.1 ew.2 pin.mem_w).1
    (pin.hostT.edge_lt ew.1 ew.2 pin.mem_w).2 (pin.patT.edge_lt es.1 es.2 pin.mem_s).1
    (pin.patT.edge_lt es.1 es.2 pin.mem_s).2 (pin.hostT.edge_ne ew.1 ew.2 pin.mem_w)
    (pin.patT.edge_ne es.1 es.2 pin.mem_s)

theorem PinCtx.pinned_ends {wheelgraph subgraph : NearTriangulation} {ew es : Edge}
    {dw ds : List Nat} (pin : PinCtx wheelgraph subgraph ew es dw ds) :
    slot (pinnedState wheelgraph subgraph ew es).occupied ew.1 = some es.1
    ∧ slot (pinnedState wheelgraph subgraph ew es).occupied ew.2 = some es.2
    ∧ slot (pinnedState wheelgraph subgraph ew es).located es.1 = some ew.1
    ∧ slot (pinnedState wheelgraph subgraph ew es).located es.2 = some ew.2 := by
  have hw := pin.hostT.edge_lt ew.1 ew.2 pin.mem_w
  have hs := pin.patT.edge_lt es.1 es.2 pin.mem_s
  have hwne := pin.hostT.edge_ne ew.1 ew.2 pin.mem_w
  have hsne := pin.patT.edge_ne es.1 es.2 pin.mem_s
  refine ⟨?_, ?_, ?_, ?_⟩
  · rw [pinnedState_occupied]; simp [hw.1, Ne.symm hwne]
  · rw [pinnedState_occupied]; simp [hw.2]
  · rw [pinnedState_located]; simp [hs.1, Ne.symm hsne]
  · rw [pinnedState_located]; simp [hs.2]

theorem PinCtx.bodyCtx {wheelgraph subgraph : NearTriangulation} {ew es : Edge}
    {dw ds : List Nat} (pin : PinCtx wheelgraph subgraph ew es dw ds) {st0 : MatchState}
    (hext : Extends (pinnedState wheelgraph subgraph ew es) st0) (hvis : st0.visited = []) :
    BodyCtx wheelgraph subgraph (wheelgraph.edges.length + 1) ew es dw ds st0 := by
  obtain ⟨h1, h2, h3, h4⟩ := pin.pinned_ends
  exact
    { hostT := pin.hostT, patT := pin.patT, hdw := pin.hdw, hds := pin.hds
      occ1 := by rw [hext.1 _ _ h1]; simp
      occ2 := by rw [hext.1 _ _ h2]; simp
      loc1 := by rw [hext.2.1 _ _ h3]; simp
      loc2 := by rw [hext.2.1 _ _ h4]; simp
      fuel := by rw [hvis, unvisited_nil]; omega }

theorem PinCtx.diagonal_free {wheelgraph subgraph : NearTriangulation} {ew es : Edge}
    {dw ds : List Nat} (pin : PinCtx wheelgraph subgraph ew es dw ds) {vs vw : Nat}
    (hvw : vw ∈ dw) (hvs : vs ∈ ds) :
    vs < subgraph.vertex_size ∧ vw < wheelgraph.vertex_size
    ∧ slot (pinnedState wheelgraph subgraph ew es).located vs = none
    ∧ slot (pinnedState wheelgraph subgraph ew es).occupied vw = none := by
  have hw := (pin.hostT.diag_iff ew.1 ew.2 dw pin.hdw vw).1 hvw
  have hs := (pin.patT.diag_iff es.1 es.2 ds pin.hds vs).1 hvs
  have hw1 := pin.hostT.edge_ne _ _ hw.1
  have hw2 := pin.hostT.edge_ne _ _ hw.2
  have hs1 := pin.patT.edge_ne _ _ hs.1
  have hs2 := pin.patT.edge_ne _ _ hs.2
  refine ⟨(pin.patT.edge_lt _ _ hs.1).2, (pin.hostT.edge_lt _ _ hw.1).2, ?_, ?_⟩
  · rw [pinnedState_located]; simp [hs1, hs2]
  · rw [pinnedState_occupied]; simp [hw1, hw2]

theorem branchPropagate_total {wheelgraph subgraph : NearTriangulation} {rec : Recursor}
    (hrec : TotalSpec wheelgraph subgraph (wheelgraph.edges.length + 1) rec) {ew es : Edge}
    {dw ds : List Nat} (pin : PinCtx wheelgraph subgraph ew es dw ds)
    {pairs : List (Nat × Nat)} (hok : PairsOk dw ds pairs) :
    Sat (fun r => Sized wheelgraph subgraph r.2 ∧ Inverse r.2
        ∧ Extends (pinnedState wheelgraph subgraph ew es) r.2) (fun _ => False)
      (branchPropagate rec pairs ew es (pinnedState wheelgraph subgraph ew es).occupied
        (pinnedState wheelgraph subgraph ew es).located) := by
  unfold branchPropagate
  have hP : ({ occupied := (pinnedState wheelgraph subgraph ew es).occupied
               located := (pinnedState wheelgraph subgraph ew es).located
               visited := [] } : MatchState) = pinnedState wheelgraph subgraph ew es := rfl
  rw [hP]
  obtain ⟨h1, h2, h3, h4⟩ := @foldl_correspond_ok wheelgraph subgraph
    pairs (pinnedState wheelgraph subgraph ew es)
    (pinnedState_sized _ _ _ _) pin.pinned_inverse
    (fun p hp => pin.diagonal_free (hok.1 p hp).1 (hok.1 p hp).2) hok.2.1 hok.2.2
  have ctx := pin.bodyCtx h3
    (by rw [foldl_correspond_visited]; rfl)
  refine Sat_mono (branchCalls_total hrec ctx h1 h2 pairs ?_) ?_ (fun _ h => h)
  · intro p hp
    exact ⟨(hok.1 p hp).1, (hok.1 p hp).2, (h4 p hp).1, (h4 p hp).2⟩
  · intro r hr
    exact ⟨hr.1, hr.2.1, Extends_trans h3 hr.2.2⟩

theorem branchStep_total {wheelgraph subgraph : NearTriangulation} {rec : Recursor}
    (hrec : TotalSpec wheelgraph subgraph (wheelgraph.edges.length + 1) rec) (ex : List Nat)
    (dp : Bool) {ew es : Edge} {dw ds : List Nat}
    (pin : PinCtx wheelgraph subgraph ew es dw ds) (pairs : List (Nat × Nat))
    (rest : List (List (Nat × Nat))) (bv : BranchVars)
    (hJ : BranchInv wheelgraph subgraph ex dp ew es dw ds (pairs :: rest) bv) :
    Sat (BranchInv wheelgraph subgraph ex dp ew es dw ds rest) (fun _ => False)
      (branchStep rec wheelgraph subgraph ex dp ew es bv pairs) := by
  have hsize := hJ.size
  rw [List.length_cons] at hsize
  have hcands : ∀ p, p ∈ rest → PairsOk dw ds p :=
    fun p hp => hJ.cands p (List.mem_cons_of_mem _ hp)
  unfold branchStep
  split
  · refine Sat_pure
      { live := fun _ => hJ.live (by simp)
        copy := fun h => hJ.copy (by rw [List.length_cons]; omega)
        size := by omega
        results := hJ.results
        cands := hcands }
  · obtain ⟨hl1, hl2⟩ := hJ.live (by simp)
    rw [hl1, hl2]
    refine Sat_bind (branchPropagate_total hrec pin (hJ.cands pairs (List.mem_cons_self _ _))) ?_
    intro r hr
    refine Sat_pure
      { live := ?_, copy := ?_, size := ?_, results := ?_, cands := hcands }
    · intro hne
      have : 2 ≤ (pairs :: rest).length := by
        rw [List.length_cons]
        have := List.length_pos.2 hne
        omega
      exact hJ.copy this
    · intro h2
      exfalso
      omega
    · show (bv.res ++ [_]).length + rest.length ≤ 2
      rw [List.length_append, List.length_singleton]
      omega
    · intro x hx
      rcases List.mem_append.1 hx with hx | hx
      · exact hJ.results x hx
      · rw [List.mem_singleton] at hx
        exact ⟨r.1, r.2, hx, hr.1, hr.2.1, hr.2.2⟩

theorem matchPinned_total {wheelgraph subgraph : NearTriangulation} {rec : Recursor}
    (hrec : TotalSpec wheelgraph subgraph (wheelgraph.edges.length + 1) rec) (ex : List Nat)
    (dp : Bool) {ew es : Edge} (hostT : Triangulated wheelgraph)
    (patT : Triangulated subgraph) (hew : ew ∈ wheelgraph.edges) (hes : es ∈ subgraph.edges) :
    Sat (fun rs => rs.length ≤ 2 ∧ ∀ r, r ∈ rs → ResultOf wheelgraph subgraph ex dp ew es r)
      (fun _ => False) (matchPinned rec wheelgraph subgraph ex dp ew es) := by
  obtain ⟨dw, hdw⟩ := hostT.defined _ hew
  obtain ⟨ds, hds⟩ := patT.defined _ hes
  have pin : PinCtx wheelgraph subgraph ew es dw ds :=
    { hostT := hostT, patT := patT, mem_w := hew, mem_s := hes, hdw := hdw, hds := hds }
  unfold matchPinned
  simp only [hdw, hds]
  cases hc : branchCandidates dw ds with
  | some cands =>
    simp only []
    obtain ⟨hlen, hok⟩ := branchCandidates_some hc (hostT.diag_nodup _ _ hdw)
      (patT.diag_nodup _ _ hds)
    refine Sat_bind (P := BranchInv wheelgraph subgraph ex dp ew es dw ds []) ?_ ?_
    · refine Sat_foldlM _
        (fun rest bv => BranchInv wheelgraph subgraph ex dp ew es dw ds rest bv)
        (fun pairs rest bv h => branchStep_total hrec ex dp pin pairs rest bv h) cands _ ?_
      exact
        { live := fun _ => ⟨rfl, rfl⟩
          copy := fun _ => ⟨rfl, rfl⟩
          size := by simp [hlen]
          results := fun r hr => by simp at hr
          cands := hok }
    · intro bv hbv
      exact Sat_pure ⟨by simpa using hbv.size, hbv.results⟩
  | none =>
    simp only []
    have hlw := hostT.diag_le_two _ _ hdw
    have hls := patT.diag_le_two _ _ hds
    rw [if_pos ⟨hls, hlw⟩]
    obtain ⟨h1, h2, h3, h4⟩ := pin.pinned_ends
    have hprod := branchCandidates_none hc hlw hls
    have pre : CallPre wheelgraph subgraph (wheelgraph.edges.length + 1) ew es
        (pinnedState wheelgraph subgraph ew es) :=
      { sized := pinnedState_sized _ _ _ _
        inverse := pin.pinned_inverse
        mem_w := hew, mem_s := hes
        occ1 := by rw [h1]; simp
        occ2 := by rw [h2]; simp
        loc1 := by rw [h3]; simp
        loc2 := by rw [h4]; simp
        few := by
          intro dw1 ds1 hdw1 hds1
          rw [hdw] at hdw1
          rw [hds] at hds1
          obtain rfl := Option.some.inj hdw1
          obtain rfl := Option.some.inj hds1
          calc freeW _ dw * freeS _ ds ≤ dw.length * ds.length :=
                Nat.mul_le_mul (freeW_le_length _ _) (freeS_le_length _ _)
            _ ≤ 1 := hprod
        fuel := by rw [pinnedState_visited, unvisited_nil]; omega }
    refine Sat_bind (hrec _ _ _ pre) ?_
    intro r hr
    refine Sat_pure ⟨by simp, ?_⟩
    intro x hx
    rw [List.mem_singleton] at hx
    exact ⟨r.1, r.2, hx, hr.1, hr.2.1, hr.2.2⟩

/-- On near-triangulations of simple graphs the matcher ends normally: it returns at most
two results, each made by `update_res` from consistent vectors that keep the pinned
pairs. -/
theorem match_total {wheelgraph subgraph : NearTriangulation}
    (hostT : Triangulated wheelgraph) (patT : Triangulated subgraph)
    {edgeid_wheelgraph edgeid_subgraph : Nat} {ew es : Edge}
    (hew : wheelgraph.edges.get? edgeid_wheelgraph = some ew)
    (hes : subgraph.edges.get? edgeid_subgraph = some es) (ex : List Nat) (dp : Bool) :
    Sat (fun rs => rs.length ≤ 2 ∧ ∀ r, r ∈ rs → ResultOf wheelgraph subgraph ex dp ew es r)
      (fun _ => False)
      (containSubgraphWithCorrespondingEdge wheelgraph subgraph edgeid_wheelgraph
        edgeid_subgraph ex dp) := by
  unfold containSubgraphWithCorrespondingEdge containSubgraphFuel
  simp only [hew, hes]
  split
  · exact Sat_pure ⟨by simp, fun r hr => by simp at hr⟩
  · exact matchPinned_total (set_edge_recursive_total hostT patT ex dp _) ex dp hostT patT
      (List.get?_mem hew) (List.get?_mem hes)

/-! ## The constructor on simple graphs -/

theorem mem_constructEdges (n : Nat) (VtoV : List (List Nat)) (a b : Nat) :
    (a, b) ∈ constructEdges n VtoV ↔ a < n ∧ b ∈ adjacent VtoV a := by
  unfold constructEdges
  simp only [List.mem_flatMap, List.mem_range, List.mem_map, Prod.mk.injEq]
  constructor
  · rintro ⟨v, hv, u, hu, rfl, rfl⟩
    exact ⟨hv, hu⟩
  · rintro ⟨ha, hb⟩
    exact ⟨a, ha, b, hb, rfl, rfl⟩

theorem adjacent_mem {VtoV : List (List Nat)} {v : Nat} (hv : v < VtoV.length) :
    adjacent VtoV v ∈ VtoV := by
  unfold adjacent
  rw [List.getD_eq_getElem?_getD, List.getElem?_eq_getElem hv]
  exact List.getElem_mem hv

theorem mem_constructDiagonal (VtoV : List (List Nat)) (e : Edge) (w : Nat) :
    w ∈ constructDiagonal VtoV e ↔ w ∈ adjacent VtoV e.1 ∧ w ∈ adjacent VtoV e.2 := by
  unfold constructDiagonal
  simp [List.mem_filter]

theorem construct_eq_some {n : Nat} {VtoV : List (List Nat)} {degs : List (Option Degree)}
    {nt : NearTriangulation} (h : NearTriangulation.construct n VtoV degs = some nt) :
    nt = NearTriangulation.build n VtoV degs
    ∧ (NearTriangulation.build n VtoV degs).diagonalAssertion = true := by
  unfold NearTriangulation.construct at h
  split at h
  · rename_i hb
    exact ⟨(Option.some.inj h).symm, hb⟩
  · simp at h

theorem triangulated_of_construct {n : Nat} {VtoV : List (List Nat)}
    {degs : List (Option Degree)} {nt : NearTriangulation} (hwf : WellFormed n VtoV degs)
    (hsimple : Simple VtoV) (h : NearTriangulation.construct n VtoV degs = some nt) :
    Triangulated nt := by
  obtain ⟨rfl, hassert⟩ := construct_eq_some h
  obtain ⟨hlen, _, hsorted, hrange⟩ := hwf
  have hedges : (NearTriangulation.build n VtoV degs).edges = constructEdges n VtoV := rfl
  have hvs : (NearTriangulation.build n VtoV degs).vertex_size = n := rfl
  have hlt : ∀ a b, (a, b) ∈ constructEdges n VtoV → a < n ∧ b < n := by
    intro a b hab
    obtain ⟨ha, hb⟩ := (mem_constructEdges n VtoV a b).1 hab
    exact ⟨ha, hrange _ (adjacent_mem (by omega)) b hb⟩
  have hdiag : ∀ e d, (NearTriangulation.build n VtoV degs).diagonalAt e = some d →
      e ∈ constructEdges n VtoV ∧ d = constructDiagonal VtoV e := by
    intro e d hd
    rw [build_diagonalAt] at hd
    by_cases he : e ∈ constructEdges n VtoV
    · rw [if_pos he] at hd
      exact ⟨he, (Option.some.inj hd).symm⟩
    · rw [if_neg he] at hd
      simp at hd
  refine
    { keys := build_keysAreEdges n VtoV degs
      defined := ?_, edge_lt := ?_, edge_ne := ?_, edge_symm := ?_, diag_iff := ?_
      diag_nodup := ?_, diag_le_two := ?_ }
  · intro e he
    rw [hedges] at he
    exact ⟨constructDiagonal VtoV e, by rw [build_diagonalAt, if_pos he]⟩
  · intro a b hab
    rw [hvs]
    exact hlt a b hab
  · intro a b hab hc
    subst hc
    obtain ⟨ha, hb⟩ := (mem_constructEdges n VtoV a a).1 hab
    exact hsimple.1 a (by omega) hb
  · intro a b hab
    obtain ⟨ha, hb⟩ := (mem_constructEdges n VtoV a b).1 hab
    exact (mem_constructEdges n VtoV b a).2
      ⟨(hlt a b hab).2, hsimple.2 a (by omega) b hb⟩
  · intro a b d hd w
    obtain ⟨he, rfl⟩ := hdiag _ _ hd
    obtain ⟨ha, hb⟩ := hlt a b he
    rw [mem_constructDiagonal, hedges, mem_constructEdges, mem_constructEdges]
    simp [ha, hb]
  · intro e d hd
    obtain ⟨he, rfl⟩ := hdiag _ _ hd
    obtain ⟨ha, _⟩ := hlt e.1 e.2 he
    unfold constructDiagonal
    exact (hsorted _ (adjacent_mem (by omega))).nodup.filter _
  · intro e d hd
    obtain ⟨he, rfl⟩ := hdiag _ _ hd
    unfold NearTriangulation.diagonalAssertion at hassert
    rw [List.all_eq_true] at hassert
    have hmem : (e, constructDiagonal VtoV e)
        ∈ (NearTriangulation.build n VtoV degs).diagonal_vertices :=
      List.mem_map.2 ⟨e, he, rfl⟩
    simpa using hassert _ hmem

theorem IsNearTriangulation.triangulated {nt : NearTriangulation}
    (h : IsNearTriangulation nt) : Triangulated nt := by
  obtain ⟨n, VtoV, degs, hwf, hsimple, hc⟩ := h
  exact triangulated_of_construct hwf hsimple hc

theorem IsNearTriangulation.keysAreEdges {nt : NearTriangulation}
    (h : IsNearTriangulation nt) : KeysAreEdges nt :=
  h.triangulated.keys

/-! ## Results of the matcher -/

theorem Sat_trivial {α : Type} (x : Except MatchError α) :
    Sat (fun _ => True) (fun _ => True) x := by
  cases x <;> exact trivial

theorem branchCandidates_length {dw ds : List Nat} {cands : List (List (Nat × Nat))}
    (h : branchCandidates dw ds = some cands) : cands.length = 2 := by
  unfold branchCandidates at h
  split at h <;> first | (cases h; rfl) | (simp at h)

/-- Whatever the graphs, a normal end of the matcher gives at most two results. -/
theorem match_length_le_two (wheelgraph subgraph : NearTriangulation)
    (edgeid_wheelgraph edgeid_subgraph : Nat) (ex : List Nat) (dp : Bool) :
    Sat (fun rs => rs.length ≤ 2) (fun _ => True)
      (containSubgraphWithCorrespondingEdge wheelgraph subgraph edgeid_wheelgraph
        edgeid_subgraph ex dp) := by
  unfold containSubgraphWithCorrespondingEdge containSubgraphFuel
  split
  · split
    · exact Sat_pure (by simp)
    · unfold matchPinned
      split
      · split
        · rename_i cands hc
          have hlen := branchCandidates_length hc
          refine Sat_bind (P := fun (bv : BranchVars) => bv.res.length ≤ 2) ?_
            (fun bv hbv => Sat_pure hbv)
          refine Sat_mono (Sat_foldlM _
            (fun rest (bv : BranchVars) => bv.res.length + rest.length ≤ 2) ?_ cands _
            (by simp [hlen])) (fun bv hbv => by simpa using hbv) (fun _ h => h)
          intro pairs rest bv hbv
          rw [List.length_cons] at hbv
          unfold branchStep
          split
          · exact Sat_pure (by omega)
          · refine Sat_bind (Sat_trivial _) ?_
            intro r _
            refine Sat_pure ?_
            show (bv.res ++ [_]).length + rest.length ≤ 2
            rw [List.length_append, List.length_singleton]
            omega
        · split
          · exact Sat_bind (Sat_trivial _) (fun r _ => Sat_pure (by simp))
          · exact Sat_throw trivial
      · exact Sat_throw trivial
  · exact Sat_throw trivial

theorem match_ok_edges {wheelgraph subgraph : NearTriangulation}
    {edgeid_wheelgraph edgeid_subgraph : Nat} {ex : List Nat} {dp : Bool}
    {rs : List ContainResult}
    (h : containSubgraphWithCorrespondingEdge wheelgraph subgraph edgeid_wheelgraph
      edgeid_subgraph ex dp = .ok rs) :
    ∃ ew es, wheelgraph.edges.get? edgeid_wheelgraph = some ew
      ∧ subgraph.edges.get? edgeid_subgraph = some es := by
  unfold containSubgraphWithCorrespondingEdge containSubgraphFuel at h
  split at h
  · rename_i ew es hew hes
    exact ⟨ew, es, hew, hes⟩
  · cases h

theorem update_res_not_no {wheelgraph subgraph : NearTriangulation} {ex : List Nat}
    {dp md : Bool} {st : MatchState}
    (h : (update_res wheelgraph subgraph ex dp md st).contain ≠ Contain.No) :
    (update_res wheelgraph subgraph ex dp md st).occupied = st.occupied := by
  unfold update_res at h ⊢
  split
  · rename_i hmd; simp [hmd] at h
  · split
    · split
      · rfl
      · rename_i h1 h2 h3; simp [h1, h2, h3] at h
    · rfl

theorem update_res_yes {wheelgraph subgraph : NearTriangulation} {ex : List Nat}
    {dp md : Bool} {st : MatchState}
    (h : (update_res wheelgraph subgraph ex dp md st).contain = Contain.Yes) :
    ∀ v, v < subgraph.vertex_size → unsettled wheelgraph subgraph ex st.located v = false := by
  unfold update_res at h
  split at h
  · cases h
  · split at h
    · split at h <;> cases h
    · rename_i hany
      intro v hv
      rw [Bool.not_eq_true, List.any_eq_false] at hany
      have := hany v (List.mem_range.2 hv)
      simpa using this

theorem unsettled_false {wheelgraph subgraph : NearTriangulation} {ex : List Nat}
    {located : List (Option Nat)} {v : Nat}
    (h : unsettled wheelgraph subgraph ex located v = false) (hex : v ∉ ex) :
    ∃ vw, slot located v = some vw ∧ match_degree wheelgraph subgraph ex v vw false = true := by
  unfold unsettled at h
  rw [if_neg hex] at h
  split at h
  · cases h
  · rename_i vw hvw
    exact ⟨vw, hvw, by simpa using h⟩

theorem match_degree_strict {wheelgraph subgraph : NearTriangulation} {ex : List Nat}
    {vs vw : Nat} (h : match_degree wheelgraph subgraph ex vs vw false = true)
    (hex : vs ∉ ex) (degs : Degree) (hd : subgraph.degreeAt vs = some degs) :
    ∃ degw, wheelgraph.degreeAt vw = some degw ∧ degs.include degw = true := by
  unfold match_degree at h
  rw [if_neg hex, hd] at h
  cases hw : wheelgraph.degreeAt vw with
  | none => rw [hw] at h; cases h
  | some degw => rw [hw] at h; exact ⟨degw, rfl, h⟩

/-- On near-triangulations the matcher ends normally, and every result is made by
`update_res` from consistent vectors that keep the pinned pairs. -/
theorem match_results {wheelgraph subgraph : NearTriangulation}
    (hhost : IsNearTriangulation wheelgraph) (hpat : IsNearTriangulation subgraph)
    {edgeid_wheelgraph edgeid_subgraph : Nat} {ew es : Edge}
    (hew : wheelgraph.edges.get? edgeid_wheelgraph = some ew)
    (hes : subgraph.edges.get? edgeid_subgraph = some es) (ex : List Nat) (dp : Bool) :
    ∃ rs, containSubgraphWithCorrespondingEdge wheelgraph subgraph edgeid_wheelgraph
        edgeid_subgraph ex dp = .ok rs
      ∧ rs.length ≤ 2 ∧ ∀ r, r ∈ rs → ResultOf wheelgraph subgraph ex dp ew es r :=
  Sat_ok_iff.1 (match_total hhost.triangulated hpat.triangulated hew hes ex dp)

theorem get?_of_lt {l : List Edge} {i : Nat} (h : i < l.length) : ∃ e, l.get? i = some e :=
  ⟨l[i], by rw [List.get?_eq_getElem?, List.getElem?_eq_getElem h]⟩

theorem match_total_of_lt {wheelgraph subgraph : NearTriangulation}
    (hhost : IsNearTriangulation wheelgraph) (hpat : IsNearTriangulation subgraph)
    (edgeid_wheelgraph edgeid_subgraph : Nat)
    (hew : edgeid_wheelgraph < wheelgraph.edges.length)
    (hes : edgeid_subgraph < subgraph.edges.length) (ex : List Nat) (dp : Bool) :
    ∃ rs, containSubgraphWithCorrespondingEdge wheelgraph subgraph edgeid_wheelgraph
        edgeid_subgraph ex dp = .ok rs ∧ rs.length ≤ 2 := by
  obtain ⟨ew, hew1⟩ := get?_of_lt hew
  obtain ⟨es, hes1⟩ := get?_of_lt hes
  obtain ⟨rs, hrs, hlen, _⟩ := match_results hhost hpat hew1 hes1 ex dp
  exact ⟨rs, hrs, hlen⟩

theorem wheel6_isNearTriangulation : IsNearTriangulation wheel6 :=
  ⟨7, wheel6VtoV, List.replicate 7 (some { lower_deg := 6, upper_deg := 6 }),
    by decide, by decide, by decide⟩

theorem k4_isNearTriangulation : IsNearTriangulation k4 :=
  ⟨4, k4VtoV, [none, none, none, none], by decide, by decide, by decide⟩

theorem edgeFree_isNearTriangulation : IsNearTriangulation edgeFree :=
  ⟨2, edgeVtoV, [none, none], by decide, by decide, by decide⟩

theorem edgeFive_isNearTriangulation : IsNearTriangulation edgeFive :=
  ⟨2, edgeVtoV,
    [some { lower_deg := 5, upper_deg := 5 }, some { lower_deg := 5, upper_deg := 5 }],
    by decide, by decide, by decide⟩

theorem edgeSeven_isNearTriangulation : IsNearTriangulation edgeSeven :=
  ⟨2, edgeVtoV,
    [some { lower_deg := 7, upper_deg := 7 }, some { lower_deg := 7, upper_deg := 7 }],
    by decide, by decide, by decide⟩

/-! ## The claims -/

/-- C1: on near-triangulations, every `Yes` result of `containSubgraphWithCorrespondingEdge`
has an `occupied` vector in which each pattern vertex outside the ignore set is recorded at
some host vertex; the degree check with `detect_possible = false` passes there, so a pattern
vertex that carries a degree sits on a host vertex whose degree is set and is included in
the pattern vertex's range. -/
theorem C1_yes_result_covers_pattern {wheelgraph subgraph : NearTriangulation}
    (hhost : IsNearTriangulation wheelgraph) (hpat : IsNearTriangulation subgraph)
    (edgeid_wheelgraph edgeid_subgraph : Nat) (except_vertices : List Nat)
    (detect_possible : Bool) (results : List ContainResult)
    (hres : containSubgraphWithCorrespondingEdge wheelgraph subgraph edgeid_wheelgraph
      edgeid_subgraph except_vertices detect_possible = .ok results)
    (r : ContainResult) (hr : r ∈ results) (hyes : r.contain = Contain.Yes)
    (v : Nat) (hv : v < subgraph.vertex_size) (hex : v ∉ except_vertices) :
    ∃ vw, slot r.occupied vw = some v
      ∧ match_degree wheelgraph subgraph except_vertices v vw false = true
      ∧ ∀ degs, subgraph.degreeAt v = some degs →
          ∃ degw, wheelgraph.degreeAt vw = some degw ∧ degs.include degw = true := by
  obtain ⟨ew, es, hew, hes⟩ := match_ok_edges hres
  obtain ⟨rs, hrs, _, hall⟩ := match_results hhost hpat hew hes except_vertices detect_possible
  rw [hres] at hrs
  obtain rfl := Except.ok.inj hrs
  obtain ⟨md, st, rfl, _, hinv, _⟩ := hall r hr
  have hocc := update_res_not_no (by rw [hyes]; simp)
  obtain ⟨vw, hloc, hmd⟩ := unsettled_false (update_res_yes hyes v hv) hex
  refine ⟨vw, ?_, hmd, fun degs hd => match_degree_strict hmd hex degs hd⟩
  rw [hocc]
  exact (hinv v vw).1 hloc

theorem C1_witness :
    ∃ vw, slot [some 0, some 1, some 6, some 5, some 4, some 3, some 2] vw = some 3
      ∧ match_degree wheel6 wheel6 [] 3 vw false = true
      ∧ ∀ degs, wheel6.degreeAt 3 = some degs →
          ∃ degw, wheel6.degreeAt vw = some degw ∧ degs.include degw = true :=
  C1_yes_result_covers_pattern wheel6_isNearTriangulation wheel6_isNearTriangulation 0 0 []
    false
    [{ contain := .Yes, occupied := [some 0, some 1, some 2, some 3, some 4, some 5, some 6] },
     { contain := .Yes, occupied := [some 0, some 1, some 6, some 5, some 4, some 3, some 2] }]
    (by decide!)
    { contain := .Yes, occupied := [some 0, some 1, some 6, some 5, some 4, some 3, some 2] }
    (by decide) rfl 3 (by decide) (by decide)

/-- C2: the degree check `match_degree` passes when the pattern vertex is in the ignore set
or has no degree; otherwise, when the host vertex has no degree, it passes exactly when
`detect_possible` is true; otherwise it is `patternDeg.include(hostDeg)`, which holds
exactly when `patternDeg.lo <= hostDeg.lo` and `hostDeg.hi <= patternDeg.hi`. -/
theorem C2_match_degree_table (wheelgraph subgraph : NearTriangulation)
    (except_vertices : List Nat) (pv hv : Nat) (detect_possible : Bool) :
    (pv ∈ except_vertices →
      match_degree wheelgraph subgraph except_vertices pv hv detect_possible = true)
    ∧ (subgraph.degreeAt pv = none →
      match_degree wheelgraph subgraph except_vertices pv hv detect_possible = true)
    ∧ (∀ patternDeg, pv ∉ except_vertices → subgraph.degreeAt pv = some patternDeg →
        wheelgraph.degreeAt hv = none →
        match_degree wheelgraph subgraph except_vertices pv hv detect_possible
          = detect_possible)
    ∧ (∀ patternDeg hostDeg, pv ∉ except_vertices → subgraph.degreeAt pv = some patternDeg →
        wheelgraph.degreeAt hv = some hostDeg →
        match_degree wheelgraph subgraph except_vertices pv hv detect_possible
          = patternDeg.include hostDeg
        ∧ (patternDeg.include hostDeg = true ↔
            patternDeg.lower_deg ≤ hostDeg.lower_deg
            ∧ hostDeg.upper_deg ≤ patternDeg.upper_deg)) := by
  refine ⟨?_, ?_, ?_, ?_⟩
  · intro h
    unfold match_degree
    rw [if_pos h]
  · intro h
    unfold match_degree
    rw [h]
    split <;> rfl
  · intro patternDeg hex hp hw
    unfold match_degree
    rw [if_neg hex, hp, hw]
  · intro patternDeg hostDeg hex hp hw
    unfold match_degree
    rw [if_neg hex, hp, hw]
    exact ⟨rfl, by simp [Degree.include]⟩

/-- C3: the matcher returns a list of 0, 1 or 2 results. Whatever the graphs, a call that
returns gives at most two results; and for host and pattern near-triangulations (each edge
with at most two diagonal vertices) and every pair of pinned edges, ignore set and
`detect_possible` flag, the call does return. -/
theorem C3_match_returns_at_most_two (wheelgraph subgraph : NearTriangulation)
    (edgeid_wheelgraph edgeid_subgraph : Nat) (except_vertices : List Nat)
    (detect_possible : Bool) :
    (∀ results, containSubgraphWithCorrespondingEdge wheelgraph subgraph edgeid_wheelgraph
        edgeid_subgraph except_vertices detect_possible = .ok results →
      results.length ≤ 2)
    ∧ (IsNearTriangulation wheelgraph → IsNearTriangulation subgraph →
        edgeid_wheelgraph < wheelgraph.edges.length →
        edgeid_subgraph < subgraph.edges.length →
        ∃ results, containSubgraphWithCorrespondingEdge wheelgraph subgraph
            edgeid_wheelgraph edgeid_subgraph except_vertices detect_possible = .ok results
          ∧ results.length ≤ 2) := by
  constructor
  · intro results h
    have key := match_length_le_two wheelgraph subgraph edgeid_wheelgraph edgeid_subgraph
      except_vertices detect_possible
    rw [h] at key
    exact key
  · intro hhost hpat hew hes
    exact match_total_of_lt hhost hpat edgeid_wheelgraph edgeid_subgraph hew hes
      except_vertices detect_possible

theorem C3_witness :
    ∃ results, containSubgraphWithCorrespondingEdge wheel6 k4 7 3 [2] true = .ok results
      ∧ results.length ≤ 2 :=
  (C3_match_returns_at_most_two wheel6 k4 7 3 [2] true).2 wheel6_isNearTriangulation
    k4_isNearTriangulation (by decide) (by decide)

/-- C4: when the degree check fails for the sources or for the targets of the pinned edges,
the matcher returns the empty list. -/
theorem C4_failed_pin_returns_empty (wheelgraph subgraph : NearTriangulation)
    (edgeid_wheelgraph edgeid_subgraph : Nat) (except_vertices : List Nat)
    (detect_possible : Bool) (edge_wheelgraph edge_subgraph : Edge)
    (hew : wheelgraph.edges.get? edgeid_wheelgraph = some edge_wheelgraph)
    (hes : subgraph.edges.get? edgeid_subgraph = some edge_subgraph)
    (hfail :
      match_degree wheelgraph subgraph except_vertices edge_subgraph.1 edge_wheelgraph.1
        detect_possible = false
      ∨ match_degree wheelgraph subgraph except_vertices edge_subgraph.2 edge_wheelgraph.2
        detect_possible = false) :
    containSubgraphWithCorrespondingEdge wheelgraph subgraph edgeid_wheelgraph
      edgeid_subgraph except_vertices detect_possible = .ok [] := by
  unfold containSubgraphWithCorrespondingEdge containSubgraphFuel
  simp only [hew, hes]
  rw [if_pos hfail]
  rfl

theorem C4_witness :
    containSubgraphWithCorrespondingEdge edgeFive edgeSeven 0 0 [] true = .ok [] :=
  C4_failed_pin_returns_empty edgeFive edgeSeven 0 0 [] true (0, 1) (0, 1) rfl rfl
    (Or.inl (by decide))

/-- C5: for host and pattern near-triangulations (simple graphs in which each edge has at
most two diagonal vertices) no assertion fails in the matcher, whatever the pinned edges,
the ignore set and the flag: `vs_match_case <= 1` and `new_match_case <= 1` hold on every
aligned edge pair that the propagation reaches. -/
theorem C5_assertions_never_fail {wheelgraph subgraph : NearTriangulation}
    (hhost : IsNearTriangulation wheelgraph) (hpat : IsNearTriangulation subgraph)
    (edgeid_wheelgraph edgeid_subgraph : Nat) (except_vertices : List Nat)
    (detect_possible : Bool) :
    containSubgraphWithCorrespondingEdge wheelgraph subgraph edgeid_wheelgraph
      edgeid_subgraph except_vertices detect_possible ≠ .error .assertFailed := by
  intro hc
  cases hw : wheelgraph.edges.get? edgeid_wheelgraph with
  | none =>
    unfold containSubgraphWithCorrespondingEdge containSubgraphFuel at hc
    simp only [hw] at hc
    cases hc
  | some ew =>
    cases hs : subgraph.edges.get? edgeid_subgraph with
    | none =>
      unfold containSubgraphWithCorrespondingEdge containSubgraphFuel at hc
      simp only [hw, hs] at hc
      cases hc
    | some es =>
      obtain ⟨rs, hrs, _⟩ := match_results hhost hpat hw hs except_vertices detect_possible
      rw [hc] at hrs
      cases hrs

theorem C5_witness :
    containSubgraphWithCorrespondingEdge wheel6 wheel6 0 9 [] true
      ≠ .error .assertFailed :=
  C5_assertions_never_fail wheel6_isNearTriangulation wheel6_isNearTriangulation 0 9 [] true

/-- C6 fails as stated: matching the triangle onto itself along the edge `(0, 1)` with the
pattern vertex `2` ignored gives a `Yes` result whose `occupied` records the ignored vertex
`2` at the host vertex `2` (written by the propagation); and matching the single edge onto
itself with the pinned pattern vertex `0` ignored records `0` at the host vertex `0`
(written when the edges are pinned). -/
theorem C6_counterexample :
    (containSubgraphWithCorrespondingEdge triangle triangle 0 0 [2] false
        = .ok [{ contain := .Yes, occupied := [some 0, some 1, some 2] }]
      ∧ slot [some 0, some 1, some 2] 2 = some 2 ∧ 2 ∈ [2])
    ∧ (containSubgraphWithCorrespondingEdge edgeFree edgeFree 0 0 [0] false
        = .ok [{ contain := .Yes, occupied := [some 0, some 1] }]
      ∧ slot [some 0, some 1] 0 = some 0 ∧ 0 ∈ [0]) := by
  decide!

/-- C6 as amended: on near-triangulations every `Yes` or `Possible` result records the two
ends of the pinned pattern edge at the two ends of the pinned host edge, whether or not they
belong to the ignore set; belonging to the ignore set only makes `match_degree` pass and
exempts the vertex from the test of `update_res`. -/
theorem C6_ignored_vertices_are_recorded {wheelgraph subgraph : NearTriangulation}
    (hhost : IsNearTriangulation wheelgraph) (hpat : IsNearTriangulation subgraph)
    (edgeid_wheelgraph edgeid_subgraph : Nat) (except_vertices : List Nat)
    (detect_possible : Bool) (edge_wheelgraph edge_subgraph : Edge)
    (hew : wheelgraph.edges.get? edgeid_wheelgraph = some edge_wheelgraph)
    (hes : subgraph.edges.get? edgeid_subgraph = some edge_subgraph)
    (results : List ContainResult)
    (hres : containSubgraphWithCorrespondingEdge wheelgraph subgraph edgeid_wheelgraph
      edgeid_subgraph except_vertices detect_possible = .ok results)
    (r : ContainResult) (hr : r ∈ results) (hne : r.contain ≠ Contain.No) :
    slot r.occupied edge_wheelgraph.1 = some edge_subgraph.1
    ∧ slot r.occupied edge_wheelgraph.2 = some edge_subgraph.2
    ∧ (∀ vs, vs ∈ except_vertices → ∀ vw flag,
        match_degree wheelgraph subgraph except_vertices vs vw flag = true)
    ∧ (∀ vs, vs ∈ except_vertices → ∀ located,
        unsettled wheelgraph subgraph except_vertices located vs = false) := by
  obtain ⟨rs, hrs, _, hall⟩ := match_results hhost hpat hew hes except_vertices detect_possible
  rw [hres] at hrs
  obtain rfl := Except.ok.inj hrs
  obtain ⟨md, st, rfl, _, _, hext⟩ := hall r hr
  have hocc := update_res_not_no hne
  obtain ⟨dw, hdw⟩ := hhost.triangulated.defined _ (List.get?_mem hew)
  obtain ⟨ds, hds⟩ := hpat.triangulated.defined _ (List.get?_mem hes)
  have pin : PinCtx wheelgraph subgraph edge_wheelgraph edge_subgraph dw ds :=
    { hostT := hhost.triangulated, patT := hpat.triangulated
      mem_w := List.get?_mem hew, mem_s := List.get?_mem hes, hdw := hdw, hds := hds }
  obtain ⟨h1, h2, _, _⟩ := pin.pinned_ends
  refine ⟨?_, ?_, ?_, ?_⟩
  · rw [hocc]; exact hext.1 _ _ h1
  · rw [hocc]; exact hext.1 _ _ h2
  · intro vs hvs vw flag
    unfold match_degree
    rw [if_pos hvs]
  · intro vs hvs located
    unfold unsettled
    rw [if_pos hvs]

theorem C6_witness :
    slot [some 0, some 1] 0 = some 0 ∧ slot [some 0, some 1] 1 = some 1
    ∧ (∀ vs, vs ∈ [0] → ∀ vw flag, match_degree edgeFree edgeFree [0] vs vw flag = true)
    ∧ (∀ vs, vs ∈ [0] → ∀ located, unsettled edgeFree edgeFree [0] located vs = false) :=
  C6_ignored_vertices_are_recorded edgeFree_isNearTriangulation edgeFree_isNearTriangulation
    0 0 [0] false (0, 1) (0, 1) rfl rfl [{ contain := .Yes, occupied := [some 0, some 1] }]
    (by decide!) { contain := .Yes, occupied := [some 0, some 1] } (by decide) (by decide)

/-- C7: the matcher terminates on every host that the constructor builds and on every
pattern. The matcher never exhausts the fuel it passes on (one unit more than the host has
directed edges); a call of `set_edge_recursive` on an already visited host edge returns at
once without any change; and a call whose fuel exceeds the number of unvisited host edges
does not exhaust it and leaves a visited set that only gained host edges, none listed
twice, so that the calls that do work are at most as many as the directed host edges. -/
theorem C7_match_terminates (vertex_size : Nat) (VtoV : List (List Nat))
    (degrees : List (Option Degree)) (subgraph : NearTriangulation)
    (edgeid_wheelgraph edgeid_subgraph : Nat) (except_vertices : List Nat)
    (detect_possible : Bool) :
    containSubgraphWithCorrespondingEdge (NearTriangulation.build vertex_size VtoV degrees)
        subgraph edgeid_wheelgraph edgeid_subgraph except_vertices detect_possible
      ≠ .error .outOfFuel
    ∧ (∀ fuel edge_w edge_s st, edge_w ∈ st.visited →
        set_edge_recursive (NearTriangulation.build vertex_size VtoV degrees) subgraph
          except_vertices detect_possible (fuel + 1) edge_w edge_s st = .ok (true, st))
    ∧ (∀ fuel edge_w edge_s st,
        unvisited (NearTriangulation.build vertex_size VtoV degrees) st.visited < fuel →
        set_edge_recursive (NearTriangulation.build vertex_size VtoV degrees) subgraph
            except_vertices detect_possible fuel edge_w edge_s st ≠ .error .outOfFuel
        ∧ ∀ r,
          set_edge_recursive (NearTriangulation.build vertex_size VtoV degrees) subgraph
            except_vertices detect_possible fuel edge_w edge_s st = .ok r →
          st.visited ⊆ r.2.visited
          ∧ (st.visited.Nodup → r.2.visited.Nodup)
          ∧ ((∀ e, e ∈ st.visited →
                e ∈ (NearTriangulation.build vertex_size VtoV degrees).edges) →
              (∀ e, e ∈ r.2.visited →
                e ∈ (NearTriangulation.build vertex_size VtoV degrees).edges)
              ∧ (st.visited.Nodup → r.2.visited.length
                ≤ (NearTriangulation.build vertex_size VtoV degrees).edges.length))) := by
  have hkeys := build_keysAreEdges vertex_size VtoV degrees
  refine ⟨match_fuel hkeys subgraph _ _ _ _, ?_, ?_⟩
  · intro fuel edge_w edge_s st hvis
    show setEdgeBody _ _ _ _ _ edge_w edge_s st = _
    unfold setEdgeBody
    rw [if_pos hvis]
    rfl
  · intro fuel edge_w edge_s st hfuel
    have key := set_edge_recursive_fuel hkeys subgraph except_vertices detect_possible fuel
      edge_w edge_s st hfuel
    constructor
    · intro hc
      rw [hc] at key
      exact key rfl
    · intro r hr
      rw [hr] at key
      refine ⟨key.1, key.2.1, fun hsub => ⟨key.2.2 hsub, fun hnd => ?_⟩⟩
      exact (List.subperm_of_subset (key.2.1 hnd) (fun e he => key.2.2 hsub e he)).length_le

/-! ## The configuration filter -/

theorem containConfLoop_spec {wheelgraph : NearTriangulation} (conf : Configuration)
    (hmatch : ∀ e, e < wheelgraph.edges.length →
      ∃ rs, containSubgraphWithCorrespondingEdge wheelgraph conf.conf e conf.inside_edge_id
        (ringVertices conf) false = .ok rs) :
    ∀ (l : List Nat), (∀ e, e ∈ l → e < wheelgraph.edges.length) →
      ∃ b, containConfLoop wheelgraph conf l = .ok b
        ∧ (b = true ↔ ∃ e, e ∈ l ∧ ∃ rs,
            containSubgraphWithCorrespondingEdge wheelgraph conf.conf e conf.inside_edge_id
              (ringVertices conf) false = .ok rs
            ∧ ∃ r, r ∈ rs ∧ r.contain = Contain.Yes)
  | [], _ => ⟨false, rfl, by simp⟩
  | e :: rest, hl => by
    obtain ⟨rs, hrs⟩ := hmatch e (hl e (List.mem_cons_self _ _))
    obtain ⟨b, hb, hiff⟩ := containConfLoop_spec conf hmatch rest
      (fun x hx => hl x (List.mem_cons_of_mem _ hx))
    have hnum : numOfSubgraphWithCorrespondingEdge wheelgraph conf.conf e conf.inside_edge_id
        (ringVertices conf)
        = .ok (rs.countP (fun res => decide (res.contain = Contain.Yes))) := by
      unfold numOfSubgraphWithCorrespondingEdge
      rw [hrs]
      rfl
    by_cases hpos : rs.countP (fun res => decide (res.contain = Contain.Yes)) > 0
    · refine ⟨true, ?_, ?_⟩
      · unfold containConfLoop
        rw [hnum]
        show (if _ > 0 then _ else _) = _
        rw [if_pos hpos]
        rfl
      · obtain ⟨r, hr, hyes⟩ := List.countP_pos_iff.1 hpos
        simp only [true_iff]
        exact ⟨e, List.mem_cons_self _ _, rs, hrs, r, hr, by simpa using hyes⟩
    · refine ⟨b, ?_, ?_⟩
      · unfold containConfLoop
        rw [hnum]
        show (if _ > 0 then _ else _) = _
        rw [if_neg hpos]
        exact hb
      · rw [hiff]
        constructor
        · rintro ⟨x, hx, h⟩
          exact ⟨x, List.mem_cons_of_mem _ hx, h⟩
        · rintro ⟨x, hx, rs1, hrs1, r, hr, hyes⟩
          rcases List.mem_cons.1 hx with rfl | hx
          · exfalso
            rw [hrs] at hrs1
            obtain rfl := Except.ok.inj hrs1
            exact hpos (List.countP_pos_iff.2 ⟨r, hr, by simpa using hyes⟩)
          · exact ⟨x, hx, rs1, hrs1, r, hr, hyes⟩

theorem containConf_spec {wheelgraph : NearTriangulation} (conf : Configuration)
    (hmatch : ∀ e, e < wheelgraph.edges.length →
      ∃ rs, containSubgraphWithCorrespondingEdge wheelgraph conf.conf e conf.inside_edge_id
        (ringVertices conf) false = .ok rs) :
    ∃ b, containConf wheelgraph conf = .ok b
      ∧ (b = true ↔ ∃ e, e < wheelgraph.edges.length ∧ ∃ rs,
          containSubgraphWithCorrespondingEdge wheelgraph conf.conf e conf.inside_edge_id
            (ringVertices conf) false = .ok rs
          ∧ ∃ r, r ∈ rs ∧ r.contain = Contain.Yes) := by
  obtain ⟨b, hb, hiff⟩ := containConfLoop_spec conf hmatch
    (List.range wheelgraph.edges.length) (fun e he => List.mem_range.1 he)
  refine ⟨b, hb, ?_⟩
  rw [hiff]
  constructor
  · rintro ⟨e, he, h⟩
    exact ⟨e, List.mem_range.1 he, h⟩
  · rintro ⟨e, he, h⟩
    exact ⟨e, List.mem_range.2 he, h⟩

theorem containOneofConfs_spec {wheelgraph : NearTriangulation} :
    ∀ (confs : List Configuration),
      (∀ c, c ∈ confs → ∀ e, e < wheelgraph.edges.length →
        ∃ rs, containSubgraphWithCorrespondingEdge wheelgraph c.conf e c.inside_edge_id
          (ringVertices c) false = .ok rs) →
      ∃ b, containOneofConfsLoop wheelgraph confs = .ok b
        ∧ (b = true ↔ ∃ c, c ∈ confs ∧ ∃ e, e < wheelgraph.edges.length ∧ ∃ rs,
            containSubgraphWithCorrespondingEdge wheelgraph c.conf e c.inside_edge_id
              (ringVertices c) false = .ok rs
            ∧ ∃ r, r ∈ rs ∧ r.contain = Contain.Yes)
  | [], _ => ⟨false, rfl, by simp⟩
  | conf :: rest, hm => by
    obtain ⟨b1, hb1, hiff1⟩ := containConf_spec conf (hm conf (List.mem_cons_self _ _))
    obtain ⟨b, hb, hiff⟩ := containOneofConfs_spec rest
      (fun c hc => hm c (List.mem_cons_of_mem _ hc))
    cases b1 with
    | true =>
      refine ⟨true, ?_, ?_⟩
      · unfold containOneofConfsLoop
        rw [hb1]
        rfl
      · simp only [true_iff]
        exact ⟨conf, List.mem_cons_self _ _, hiff1.1 rfl⟩
    | false =>
      refine ⟨b, ?_, ?_⟩
      · unfold containOneofConfsLoop
        rw [hb1]
        exact hb
      · rw [hiff]
        constructor
        · rintro ⟨c, hc, h⟩
          exact ⟨c, List.mem_cons_of_mem _ hc, h⟩
        · rintro ⟨c, hc, h⟩
          rcases List.mem_cons.1 hc with rfl | hc
          · have := hiff1.2 h
            cases this
          · exact ⟨c, hc, h⟩

/-- On a wheel that `toString` prints, `containOneofConfs` is the loop over the catalog. -/
theorem containOneofConfs_of_print {W : Type} (ops : WheelLike W) (wheelgraph : W)
    (confs : List Configuration) {str : List Char} (hprint : ops.toString wheelgraph = .ok str) :
    containOneofConfs ops wheelgraph confs
      = containOneofConfsLoop (ops.nearTriangulation wheelgraph) confs := by
  unfold containOneofConfs
  rw [hprint]
  rfl

/-- When `containOneofConfs` returns, `toString` has printed the wheel and the loop over the
catalog has returned the same value. -/
theorem containOneofConfs_eq_ok {W : Type} (ops : WheelLike W) (wheelgraph : W)
    (confs : List Configuration) (found : Bool) :
    containOneofConfs ops wheelgraph confs = .ok found ↔
      (∃ str, ops.toString wheelgraph = .ok str)
      ∧ containOneofConfsLoop (ops.nearTriangulation wheelgraph) confs = .ok found := by
  unfold containOneofConfs
  cases hp : ops.toString wheelgraph with
  | error e =>
    constructor
    · intro h; cases h
    · rintro ⟨⟨str, h⟩, _⟩; cases h
  | ok str =>
    constructor
    · intro h; exact ⟨⟨str, rfl⟩, h⟩
    · rintro ⟨_, h⟩; exact h

/-- C8 fails as stated: the wheel with hub degree 5 whose rim vertex 5 has the degree from 6
to 8 is a near-triangulation, and the configuration made of one edge between two vertices of
degree 5 matches it with a `Yes` result on its edge number 0, yet `containOneofConfs` does not
return true on it, and it does not return false on the empty catalog: the assertion of
`Degree::toString` fails when the wheel is printed for the log. -/
theorem C8_counterexample :
    IsNearTriangulation (wheelLikeWheel.nearTriangulation wheelSixEight)
    ∧ (∃ results,
        containSubgraphWithCorrespondingEdge (wheelLikeWheel.nearTriangulation wheelSixEight)
          edgeFiveConf.conf 0 edgeFiveConf.inside_edge_id
          (if edgeFiveConf.has_cutvertex then List.range edgeFiveConf.ring_size else [])
          false = .ok results
        ∧ ∃ r, r ∈ results ∧ r.contain = Contain.Yes)
    ∧ containOneofConfs wheelLikeWheel wheelSixEight [edgeFiveConf] = .error .assertFailed
    ∧ containOneofConfs wheelLikeWheel wheelSixEight [] = .error .assertFailed := by
  refine ⟨⟨6, wheel5VtoV, [some five, some five, some five, some five, some five,
    some sixToEight], by decide, by decide, by decide⟩, ?_, by decide!, by decide!⟩
  exact ⟨[{ contain := .Yes, occupied := [some 0, some 1, none, none, none, none] }],
    by decide!, _, List.mem_singleton.2 rfl, rfl⟩

/-- C8 as amended: on a wheel that `toString` prints, a near-triangulation, and a catalog of
configurations, `containOneofConfs` (the spec's `containsAnyConfiguration`) returns, and it
returns true exactly when, for some configuration of the catalog and some directed edge of
the wheel, matching the configuration with its inside edge pinned onto that edge under
`detect_possible = false`, ignoring the ring vertices `0..r-1` when the configuration has a
cut vertex and no vertex otherwise, gives a `Yes` result; and it returns false for the empty
catalog. -/
theorem C8_containOneofConfs_iff_on_printed_wheel {W : Type} (ops : WheelLike W)
    (wheelgraph : W) (hprint : ∃ str, ops.toString wheelgraph = .ok str)
    (hhost : IsNearTriangulation (ops.nearTriangulation wheelgraph))
    (confs : List Configuration)
    (hconfs : ∀ c, c ∈ confs →
      IsNearTriangulation c.conf ∧ c.inside_edge_id < c.conf.edges.length) :
    (∃ found, containOneofConfs ops wheelgraph confs = .ok found
      ∧ (found = true ↔ ∃ c, c ∈ confs ∧ ∃ e,
          e < (ops.nearTriangulation wheelgraph).edges.length ∧ ∃ results,
          containSubgraphWithCorrespondingEdge (ops.nearTriangulation wheelgraph) c.conf e
            c.inside_edge_id
            (if c.has_cutvertex then List.range c.ring_size else []) false = .ok results
          ∧ ∃ r, r ∈ results ∧ r.contain = Contain.Yes))
    ∧ containOneofConfs ops wheelgraph [] = .ok false := by
  obtain ⟨str, hstr⟩ := hprint
  rw [containOneofConfs_of_print ops wheelgraph confs hstr,
    containOneofConfs_of_print ops wheelgraph [] hstr]
  refine ⟨?_, rfl⟩
  refine containOneofConfs_spec confs ?_
  intro c hc e he
  obtain ⟨rs, hrs, _⟩ := match_total_of_lt hhost (hconfs c hc).1 e c.inside_edge_id he
    (hconfs c hc).2 (ringVertices c) false
  exact ⟨rs, hrs⟩

theorem C8_witness :
    (∃ found, containOneofConfs wheelLikeWheel wheelAllFive [edgeFiveConf] = .ok found
      ∧ (found = true ↔ ∃ c, c ∈ [edgeFiveConf] ∧ ∃ e,
          e < (wheelLikeWheel.nearTriangulation wheelAllFive).edges.length ∧ ∃ results,
          containSubgraphWithCorrespondingEdge (wheelLikeWheel.nearTriangulation wheelAllFive)
            c.conf e c.inside_edge_id
            (if c.has_cutvertex then List.range c.ring_size else []) false = .ok results
          ∧ ∃ r, r ∈ results ∧ r.contain = Contain.Yes))
    ∧ containOneofConfs wheelLikeWheel wheelAllFive [] = .ok false :=
  C8_containOneofConfs_iff_on_printed_wheel wheelLikeWheel wheelAllFive
    ⟨['5', ' ', '5', ' ', '5', ' ', '5', ' ', '5', ' ', '5'], by decide!⟩
    ⟨6, wheel5VtoV, List.replicate 6 (some five), by decide, by decide, by decide⟩
    [edgeFiveConf]
    (fun c hc => by
      rw [List.mem_singleton] at hc
      subst hc
      exact ⟨edgeFive_isNearTriangulation, by decide⟩)

/-! ## The charge sent along an edge -/

theorem findEdge_le_length (edges : List Edge) (edge : Edge) :
    findEdge edges edge ≤ edges.length :=
  List.findIdx_le_length _

theorem findEdge_lt_length (edges : List Edge) (edge : Edge) :
    findEdge edges edge < edges.length ↔ edge ∈ edges := by
  unfold findEdge
  rw [List.findIdx_lt_length]
  simp

theorem findEdge_get (edges : List Edge) (edge : Edge) (h : edge ∈ edges) :
    edges.get? (findEdge edges edge) = some edge := by
  have hlt := (findEdge_lt_length edges edge).2 h
  rw [List.get?_eq_getElem?, List.getElem?_eq_getElem hlt]
  have := List.findIdx_getElem (w := hlt)
  exact congrArg some (by simpa using this)

theorem foldl_chargeStep_counts (vertex_size : Nat) :
    ∀ (l : List ContainResult) (acc : ChargeVars),
      (l.foldl (chargeStep vertex_size) acc).lower
        = acc.lower + l.countP (fun r => decide (r.contain = Contain.Yes))
      ∧ (l.foldl (chargeStep vertex_size) acc).upper
        = acc.upper + l.countP (fun r => decide (r.contain ≠ Contain.No))
  | [], acc => by simp
  | r :: rest, acc => by
    obtain ⟨h1, h2⟩ := foldl_chargeStep_counts vertex_size rest (chargeStep vertex_size acc r)
    rw [List.foldl_cons, h1, h2, List.countP_cons, List.countP_cons]
    unfold chargeStep
    cases hc : r.contain <;> simp <;> omega

theorem getD_map_range (vertex_size : Nat) (f : Nat → Bool) (v : Nat) (hv : v < vertex_size) :
    ((List.range vertex_size).map f).getD v false = f v := by
  rw [List.getD_eq_getElem?_getD, List.getElem?_map, List.getElem?_range hv]
  rfl

theorem foldl_chargeStep_related (vertex_size : Nat) :
    ∀ (l : List ContainResult) (acc : ChargeVars), acc.is_related.length = vertex_size →
      (l.foldl (chargeStep vertex_size) acc).is_related.length = vertex_size
      ∧ ∀ v, v < vertex_size →
        ((l.foldl (chargeStep vertex_size) acc).is_related.getD v false = true ↔
          acc.is_related.getD v false = true
          ∨ ∃ r, r ∈ l ∧ r.contain = Contain.Yes ∧ slot r.occupied v ≠ none)
  | [], acc, hacc => by simp [hacc]
  | r :: rest, acc, hacc => by
    have hlen : (chargeStep vertex_size acc r).is_related.length = vertex_size := by
      unfold chargeStep
      cases hc : r.contain <;> simp [hacc]
    obtain ⟨h1, h2⟩ :=
      foldl_chargeStep_related vertex_size rest (chargeStep vertex_size acc r) hlen
    rw [List.foldl_cons]
    refine ⟨h1, ?_⟩
    intro v hv
    rw [h2 v hv]
    have hstep : (chargeStep vertex_size acc r).is_related.getD v false = true ↔
        acc.is_related.getD v false = true
        ∨ (r.contain = Contain.Yes ∧ slot r.occupied v ≠ none) := by
      unfold chargeStep
      cases hc : r.contain
      · simp only [getD_map_range vertex_size _ v hv]
        simp
      · simp
      · simp
    rw [hstep]
    constructor
    · rintro (h | ⟨x, hx, h⟩)
      · rcases h with h | h
        · exact Or.inl h
        · exact Or.inr ⟨r, List.mem_cons_self _ _, h⟩
      · exact Or.inr ⟨x, List.mem_cons_of_mem _ hx, h⟩
    · rintro (h | ⟨x, hx, h⟩)
      · exact Or.inl (Or.inl h)
      · rcases List.mem_cons.1 hx with rfl | hx
        · exact Or.inl (Or.inr h)
        · exact Or.inr ⟨x, hx, h⟩

/-- An `int` expression whose mathematical value fits in an `int` has that value. -/
theorem wrapInt_of_fits (x : Int) (hlo : INT_MIN ≤ x) (hhi : x ≤ INT_MAX) : wrapInt x = x := by
  unfold wrapInt
  unfold INT_MIN at hlo
  unfold INT_MAX at hhi
  omega

theorem wrapInt_of_bounds (x : Int) (hlo : -2147483648 ≤ x) (hhi : x ≤ 2147483647) :
    wrapInt x = x := by
  unfold wrapInt
  omega

/-- The value of an `int` expression is an `int`. -/
theorem wrapInt_fits (x : Int) : INT_MIN ≤ wrapInt x ∧ wrapInt x ≤ INT_MAX := by
  unfold wrapInt INT_MIN INT_MAX
  omega

/-- What `amountChargeToSend` returns, step by step. -/
theorem amountChargeToSend_eq_ok (wheel : NearTriangulation) (from_ to_ : Nat) (rule : Rule)
    (out : Int × Int × List Bool) :
    amountChargeToSend wheel from_ to_ rule = .ok out ↔
      (from_, to_) ∈ wheel.edges
      ∧ ∃ results symmetric,
        containSubgraphWithCorrespondingEdge wheel rule.rule
          (findEdge wheel.edges (from_, to_)) rule.send_edgeid [] true = .ok results
        ∧ is_symmetric results = .ok symmetric
        ∧ out = (wrapInt ((((dropSymmetric symmetric results).foldl
              (chargeStep wheel.vertex_size)
              { lower := 0, upper := 0
                is_related := List.replicate wheel.vertex_size false }).lower : Int)
              * rule.amount),
            wrapInt ((((dropSymmetric symmetric results).foldl
              (chargeStep wheel.vertex_size)
              { lower := 0, upper := 0
                is_related := List.replicate wheel.vertex_size false }).upper : Int)
              * rule.amount),
            ((dropSymmetric symmetric results).foldl (chargeStep wheel.vertex_size)
              { lower := 0, upper := 0
                is_related := List.replicate wheel.vertex_size false }).is_related) := by
  unfold amountChargeToSend
  by_cases hidx : findEdge wheel.edges (from_, to_) = wheel.edges.length
  · rw [if_pos hidx]
    have hnot : (from_, to_) ∉ wheel.edges := by
      intro hmem
      have := (findEdge_lt_length wheel.edges (from_, to_)).2 hmem
      omega
    constructor
    · intro h; cases h
    · intro h; exact absurd h.1 hnot
  · rw [if_neg hidx]
    have hmem : (from_, to_) ∈ wheel.edges := by
      apply (findEdge_lt_length wheel.edges (from_, to_)).1
      have := findEdge_le_length wheel.edges (from_, to_)
      omega
    have hlen := match_length_le_two wheel rule.rule (findEdge wheel.edges (from_, to_))
      rule.send_edgeid [] true
    cases hm : containSubgraphWithCorrespondingEdge wheel rule.rule
        (findEdge wheel.edges (from_, to_)) rule.send_edgeid [] true with
    | error e =>
      constructor
      · intro h; cases h
      · rintro ⟨_, rs, sym, h, _⟩; cases h
    | ok rs =>
      rw [hm] at hlen
      have hlen2 : rs.length ≤ 2 := hlen
      show (if rs.length ≤ 2 then _ else _) = _ ↔ _
      rw [if_pos hlen2]
      cases hs : is_symmetric rs with
      | error e =>
        constructor
        · intro h; cases h
        · rintro ⟨_, rs1, sym, h1, h2, _⟩
          obtain rfl := Except.ok.inj h1
          rw [hs] at h2
          cases h2
      | ok sym =>
        constructor
        · intro h
          exact ⟨hmem, rs, sym, rfl, hs, (Except.ok.inj h).symm⟩
        · rintro ⟨_, rs1, sym1, h1, h2, h3⟩
          obtain rfl := Except.ok.inj h1
          rw [hs] at h2
          obtain rfl := Except.ok.inj h2
          rw [h3]
          rfl

theorem dropSymmetric_length_le (symmetric : Bool) (result_list : List ContainResult) :
    (dropSymmetric symmetric result_list).length ≤ result_list.length := by
  unfold dropSymmetric
  split
  · rw [List.length_dropLast]; omega
  · exact Nat.le_refl _

/-- What `amountChargeToSend` returns, by the numbers of results: `lower` and `upper` are the
`int` products of the amount and the numbers of `Yes` results and of results other than
`No`, and at most two results are counted. -/
theorem amountChargeToSend_counts (wheel : NearTriangulation) (from_ to_ : Nat) (rule : Rule)
    (lower upper : Int) :
    (∃ related, amountChargeToSend wheel from_ to_ rule = .ok (lower, upper, related)) ↔
      (from_, to_) ∈ wheel.edges
      ∧ ∃ results symmetric,
        containSubgraphWithCorrespondingEdge wheel rule.rule
          (findEdge wheel.edges (from_, to_)) rule.send_edgeid [] true = .ok results
        ∧ is_symmetric results = .ok symmetric
        ∧ (dropSymmetric symmetric results).length ≤ 2
        ∧ lower = wrapInt (rule.amount
            * ((dropSymmetric symmetric results).countP
                (fun r => decide (r.contain = Contain.Yes)) : Nat))
        ∧ upper = wrapInt (rule.amount
            * ((dropSymmetric symmetric results).countP
                (fun r => decide (r.contain ≠ Contain.No)) : Nat)) := by
  constructor
  · rintro ⟨related, h⟩
    obtain ⟨hmem, rs, sym, h1, h2, h3⟩ := (amountChargeToSend_eq_ok _ _ _ _ _).1 h
    obtain ⟨c1, c2⟩ := foldl_chargeStep_counts wheel.vertex_size (dropSymmetric sym rs)
      { lower := 0, upper := 0, is_related := List.replicate wheel.vertex_size false }
    simp only [Prod.mk.injEq] at h3
    have hlen := match_length_le_two wheel rule.rule (findEdge wheel.edges (from_, to_))
      rule.send_edgeid [] true
    rw [h1] at hlen
    have hlen2 : rs.length ≤ 2 := hlen
    refine ⟨hmem, rs, sym, h1, h2, Nat.le_trans (dropSymmetric_length_le sym rs) hlen2, ?_, ?_⟩
    · rw [h3.1, c1, Int.mul_comm]; simp
    · rw [h3.2.1, c2, Int.mul_comm]; simp
  · rintro ⟨hmem, rs, sym, h1, h2, _, h3, h4⟩
    obtain ⟨c1, c2⟩ := foldl_chargeStep_counts wheel.vertex_size (dropSymmetric sym rs)
      { lower := 0, upper := 0, is_related := List.replicate wheel.vertex_size false }
    refine ⟨((dropSymmetric sym rs).foldl (chargeStep wheel.vertex_size)
      { lower := 0, upper := 0
        is_related := List.replicate wheel.vertex_size false }).is_related,
      (amountChargeToSend_eq_ok _ _ _ _ _).2 ⟨hmem, rs, sym, h1, h2, ?_⟩⟩
    simp only [Prod.mk.injEq, and_true]
    constructor
    · rw [h3, c1, Int.mul_comm]; simp
    · rw [h4, c2, Int.mul_comm]; simp

/-- The `int` product of an amount and a number of results, at most two, is the product when
the double of the amount is an `int`. -/
theorem wrapInt_amount_mul (amount : Int) (count : Nat) (hcount : count ≤ 2)
    (hlo : INT_MIN ≤ 2 * amount) (hhi : 2 * amount ≤ INT_MAX) :
    wrapInt (amount * (count : Int)) = amount * (count : Int) := by
  unfold INT_MIN at hlo
  unfold INT_MAX at hhi
  have h3 : count = 0 ∨ count = 1 ∨ count = 2 := by omega
  rcases h3 with rfl | rfl | rfl
  · apply wrapInt_of_fits <;> simp [INT_MIN, INT_MAX]
  · apply wrapInt_of_fits <;> simp only [INT_MIN, INT_MAX, Nat.cast_one, Int.mul_one] <;> omega
  · apply wrapInt_of_fits <;> simp only [INT_MIN, INT_MAX, Nat.cast_ofNat] <;> omega

/-- C9 fails as stated: on the wheel with hub degree 5 whose rim vertices have degree 5, for
the spoke `(0, 1)` and the rule that sends `2^30` along the edge `(0, 1)` of the triangle
whose vertices have degree 5, the match gives two `Yes` results, which are not symmetric
duplicates, and `amountChargeToSend` returns `lower = upper = -2^31`, not `2^30 * 2`: the
products `lower * rule.amount()` and `upper * rule.amount()` are products of `int`s. -/
theorem C9_counterexample :
    containSubgraphWithCorrespondingEdge wheelAllFive.wheel ruleBig.rule
        (findEdge wheelAllFive.wheel.edges (0, 1)) ruleBig.send_edgeid [] true
        = .ok [{ contain := .Yes, occupied := [some 0, some 1, some 2, none, none, none] },
               { contain := .Yes, occupied := [some 0, some 1, none, none, none, some 2] }]
      ∧ is_symmetric
          [{ contain := .Yes, occupied := [some 0, some 1, some 2, none, none, none] },
           { contain := .Yes, occupied := [some 0, some 1, none, none, none, some 2] }]
        = .ok false
      ∧ amountChargeToSend wheelAllFive.wheel 0 1 ruleBig
        = .ok (-2147483648, -2147483648, [true, true, true, false, false, true])
      ∧ ruleBig.amount * 2 = 2147483648 := by
  decide!

/-- C9 as amended: for a rule whose amount, doubled, is still an `int` (at most two results
are counted), `amountChargeToSend(wheel, from, to, rule)` returns exactly when `(from, to)`
is a directed edge of the wheel, the match of the rule's send edge onto that edge (no ignored
vertices, `detect_possible = true`) ends normally and the assertion of `is_symmetric` holds;
it then returns `lower = rule.amount * (number of Yes results)` and
`upper = rule.amount * (number of non-No results)`, counted after one of two symmetric
duplicates has been dropped. -/
theorem C9_amount_lower_upper_within_int (wheel : NearTriangulation) (from_ to_ : Nat)
    (rule : Rule) (lower upper : Int)
    (hfit : INT_MIN ≤ 2 * rule.amount ∧ 2 * rule.amount ≤ INT_MAX) :
    (∃ related, amountChargeToSend wheel from_ to_ rule = .ok (lower, upper, related)) ↔
      (from_, to_) ∈ wheel.edges
      ∧ wheel.edges.get? (findEdge wheel.edges (from_, to_)) = some (from_, to_)
      ∧ ∃ results symmetric,
        containSubgraphWithCorrespondingEdge wheel rule.rule
          (findEdge wheel.edges (from_, to_)) rule.send_edgeid [] true = .ok results
        ∧ is_symmetric results = .ok symmetric
        ∧ lower = rule.amount
            * ((dropSymmetric symmetric results).countP
                (fun r => decide (r.contain = Contain.Yes)) : Nat)
        ∧ upper = rule.amount
            * ((dropSymmetric symmetric results).countP
                (fun r => decide (r.contain ≠ Contain.No)) : Nat) := by
  have hget : (from_, to_) ∈ wheel.edges →
      wheel.edges.get? (findEdge wheel.edges (from_, to_)) = some (from_, to_) := by
    intro hmem
    exact findEdge_get wheel.edges (from_, to_) hmem
  rw [amountChargeToSend_counts]
  constructor
  · rintro ⟨hmem, rs, sym, h1, h2, hlen, h3, h4⟩
    refine ⟨hmem, hget hmem, rs, sym, h1, h2, ?_, ?_⟩
    · rw [h3]
      exact wrapInt_amount_mul _ _ (Nat.le_trans (List.countP_le_length _) hlen) hfit.1 hfit.2
    · rw [h4]
      exact wrapInt_amount_mul _ _ (Nat.le_trans (List.countP_le_length _) hlen) hfit.1 hfit.2
  · rintro ⟨hmem, _, rs, sym, h1, h2, h3, h4⟩
    have hlen := match_length_le_two wheel rule.rule (findEdge wheel.edges (from_, to_))
      rule.send_edgeid [] true
    rw [h1] at hlen
    have hlen2 : (dropSymmetric sym rs).length ≤ 2 :=
      Nat.le_trans (dropSymmetric_length_le sym rs) hlen
    refine ⟨hmem, rs, sym, h1, h2, hlen2, ?_, ?_⟩
    · rw [h3]
      exact (wrapInt_amount_mul _ _ (Nat.le_trans (List.countP_le_length _) hlen2)
        hfit.1 hfit.2).symm
    · rw [h4]
      exact (wrapInt_amount_mul _ _ (Nat.le_trans (List.countP_le_length _) hlen2)
        hfit.1 hfit.2).symm

theorem C9_witness :
    (∃ related, amountChargeToSend wheelAllFive.wheel 0 1
        { rule := ruleBig.rule, send_edgeid := 0, amount := 3 } = .ok (6, 6, related)) ↔
      (0, 1) ∈ wheelAllFive.wheel.edges
      ∧ wheelAllFive.wheel.edges.get? (findEdge wheelAllFive.wheel.edges (0, 1)) = some (0, 1)
      ∧ ∃ results symmetric,
        containSubgraphWithCorrespondingEdge wheelAllFive.wheel ruleBig.rule
          (findEdge wheelAllFive.wheel.edges (0, 1)) 0 [] true = .ok results
        ∧ is_symmetric results = .ok symmetric
        ∧ (6 : Int) = 3
            * ((dropSymmetric symmetric results).countP
                (fun r => decide (r.contain = Contain.Yes)) : Nat)
        ∧ (6 : Int) = 3
            * ((dropSymmetric symmetric results).countP
                (fun r => decide (r.contain ≠ Contain.No)) : Nat) :=
  C9_amount_lower_upper_within_int wheelAllFive.wheel 0 1
    { rule := ruleBig.rule, send_edgeid := 0, amount := 3 } 6 6 (by decide)

/-- C10 fails as stated: on the wheel with hub degree 5 and no rim degree set, for the rim
edge `(1, 2)` and a rule that asks for degree 5 at both ends of its send edge, the one
result is `Possible` and occupies the wheel vertices `1` and `2`, yet `related` is false
everywhere. -/
theorem C10_counterexample :
    containSubgraphWithCorrespondingEdge wheel5 ruleFive.rule
        (findEdge wheel5.edges (1, 2)) ruleFive.send_edgeid [] true
        = .ok [{ contain := .Possible
                 occupied := [none, some 0, some 1, none, none, none] }]
      ∧ amountChargeToSend wheel5 1 2 ruleFive
        = .ok (0, 2, [false, false, false, false, false, false]) := by
  decide!

/-- C10 as amended: in the triple returned by `amountChargeToSend`, `related` has one entry
per wheel vertex and `related[v]` is true exactly when some `Yes` result of the match
(after one of two symmetric duplicates has been dropped) occupies the wheel vertex `v`; a
`Possible` result does not mark any vertex. -/
theorem C10_related_iff_yes_result (wheel : NearTriangulation) (from_ to_ : Nat)
    (rule : Rule) (lower upper : Int) (related : List Bool)
    (h : amountChargeToSend wheel from_ to_ rule = .ok (lower, upper, related)) :
    ∃ results symmetric,
      containSubgraphWithCorrespondingEdge wheel rule.rule
        (findEdge wheel.edges (from_, to_)) rule.send_edgeid [] true = .ok results
      ∧ is_symmetric results = .ok symmetric
      ∧ related.length = wheel.vertex_size
      ∧ ∀ v, v < wheel.vertex_size →
        (related.getD v false = true ↔
          ∃ r, r ∈ dropSymmetric symmetric results ∧ r.contain = Contain.Yes
            ∧ slot r.occupied v ≠ none) := by
  obtain ⟨_, rs, sym, h1, h2, h3⟩ := (amountChargeToSend_eq_ok _ _ _ _ _).1 h
  obtain ⟨c1, c2⟩ := foldl_chargeStep_related wheel.vertex_size (dropSymmetric sym rs)
    { lower := 0, upper := 0, is_related := List.replicate wheel.vertex_size false }
    (by simp)
  simp only [Prod.mk.injEq] at h3
  refine ⟨rs, sym, h1, h2, ?_, ?_⟩
  · rw [h3.2.2]; exact c1
  · intro v hv
    rw [h3.2.2, c2 v hv]
    have hinit : (List.replicate wheel.vertex_size false).getD v false = false := by
      rw [List.getD_eq_getElem?_getD]
      simp [List.getElem?_replicate, hv]
    simp [hinit]

theorem C10_witness :
    ∃ results symmetric,
      containSubgraphWithCorrespondingEdge k4 k4 (findEdge k4.edges (0, 1)) 0 [] true
        = .ok results
      ∧ is_symmetric results = .ok symmetric
      ∧ [true, true, true, true].length = k4.vertex_size
      ∧ ∀ v, v < k4.vertex_size →
        ([true, true, true, true].getD v false = true ↔
          ∃ r, r ∈ dropSymmetric symmetric results ∧ r.contain = Contain.Yes
            ∧ slot r.occupied v ≠ none) :=
  C10_related_iff_yes_result k4 0 1 { rule := k4, send_edgeid := 0, amount := 2 } 2 2
    [true, true, true, true] (by decide!)

/-! ## Computations that may end abnormally: further lemmas -/

theorem Sat_true_iff {α : Type} {Q : α → Prop} {x : Except MatchError α} :
    Sat Q (fun _ => True) x ↔ ∀ a, x = .ok a → Q a := by
  cases x with
  | error e => simp [Sat]
  | ok a => simp [Sat]

/-! ## makeUnique -/

theorem makeUniqueStep_ok {W : Type} {ops : WheelLike W} {acc acc2 : List W} {wheel : W}
    (h : makeUniqueStep ops acc wheel = .ok acc2) :
    (addWheel ops wheel acc = .ok true ∧ acc2 = acc ++ [wheel])
    ∨ (addWheel ops wheel acc = .ok false ∧ acc2 = acc) := by
  unfold makeUniqueStep at h
  cases hadd : addWheel ops wheel acc with
  | error e => rw [hadd] at h; cases h
  | ok b =>
    rw [hadd] at h
    cases b with
    | true => left; simp [bind, Except.bind, pure, Except.pure] at h; exact ⟨rfl, h.symm⟩
    | false => right; simp [bind, Except.bind, pure, Except.pure] at h; exact ⟨rfl, h.symm⟩

theorem makeUnique_fixed_of_fold {W : Type} (ops : WheelLike W) :
    ∀ (wheels acc out : List W), List.foldlM (makeUniqueStep ops) [] acc = .ok acc →
      List.foldlM (makeUniqueStep ops) acc wheels = .ok out →
      List.foldlM (makeUniqueStep ops) [] out = .ok out := by
  intro wheels
  induction wheels with
  | nil =>
    intro acc out hacc h
    simp [List.foldlM, pure, Except.pure] at h
    rw [← h]; exact hacc
  | cons w ws ih =>
    intro acc out hacc h
    rw [List.foldlM_cons] at h
    cases hstep : makeUniqueStep ops acc w with
    | error e => rw [hstep] at h; cases h
    | ok acc2 =>
      rw [hstep] at h
      refine ih acc2 out ?_ h
      rcases makeUniqueStep_ok hstep with ⟨hadd, rfl⟩ | ⟨_, rfl⟩
      · rw [List.foldlM_append, hacc]
        simp only [bind, Except.bind, List.foldlM, hstep]
        rfl
      · exact hacc

/-- C15: `makeUnique` is idempotent: applied to the list it has left, it returns that same
list, with the same members in the same order. -/
theorem C15_makeUnique_idempotent {W : Type} (ops : WheelLike W) (wheels out : List W)
    (h : makeUnique ops wheels = .ok out) : makeUnique ops out = .ok out :=
  makeUnique_fixed_of_fold ops wheels [] out rfl h

/-- C15 at the list `wheel5, k4, wheel5`, which `makeUnique` reduces to `wheel5, k4`. -/
theorem C15_witness :
    makeUnique wheelLikeWheel [⟨wheel5⟩, ⟨k4⟩, ⟨wheel5⟩] = .ok [⟨wheel5⟩, ⟨k4⟩]
    ∧ makeUnique wheelLikeWheel [⟨wheel5⟩, ⟨k4⟩] = .ok [⟨wheel5⟩, ⟨k4⟩] :=
  ⟨by decide!,
   C15_makeUnique_idempotent wheelLikeWheel [⟨wheel5⟩, ⟨k4⟩, ⟨wheel5⟩] [⟨wheel5⟩, ⟨k4⟩]
     (by decide!)⟩

/-! ## searchNoConfGraphs -/

theorem set_degree_recursive_free {W : Type} (ops : WheelLike W)
    (possible_degrees : List Degree) (confs : List Configuration) (vertex_size : Nat) :
    ∀ (fuel v : Nat) (cur : W × List W),
      (∀ w ∈ cur.2, containOneofConfs ops w confs = .ok false) →
      Sat (fun r => ∀ w ∈ r.2, containOneofConfs ops w confs = .ok false)
        (fun _ => True)
        (set_degree_recursive ops possible_degrees confs vertex_size fuel v cur) := by
  intro fuel
  induction fuel with
  | zero => intro v cur _; exact trivial
  | succ fuel ih =>
    rintro v ⟨temp, ws⟩ hws
    unfold set_degree_recursive
    refine Sat_bind (P := fun _ => True) (Sat_trivial _) ?_
    intro pruned _
    by_cases hp : pruned = true
    · rw [if_pos hp]; exact Sat_pure hws
    · rw [if_neg hp]
      by_cases hv : v = vertex_size
      · rw [if_pos hv]
        cases hc : containOneofConfs ops temp confs with
        | error e => exact trivial
        | ok found =>
          cases found with
          | true => exact Sat_pure hws
          | false =>
            refine Sat_pure ?_
            intro w hw
            rcases List.mem_append.1 hw with h | h
            · exact hws w h
            · rw [List.mem_singleton.1 h]; exact hc
      · rw [if_neg hv]
        refine Sat_bind (P := fun r =>
          ∀ w ∈ r.2, containOneofConfs ops w confs = .ok false) ?_ ?_
        · exact Sat_foldlM _
            (fun _ (s : W × List W) =>
              ∀ w ∈ s.2, containOneofConfs ops w confs = .ok false)
            (fun b rest s hs => ih (v + 1) (ops.setDegree s.1 v (some b), s.2) hs)
            possible_degrees (temp, ws) hws
        · intro r hr; exact Sat_pure hr

/-- C18: every wheel that `searchNoConfGraphs` emits is one on which `containOneofConfs`
returns false for the catalog of the search. -/
theorem C18_emitted_wheels_are_configuration_free {W : Type} (ops : WheelLike W)
    (wheelgraph : W) (index : Nat) (possible_degrees : List Degree)
    (confs : List Configuration) (out : List W)
    (h : searchNoConfGraphs ops wheelgraph index possible_degrees confs = .ok out) :
    ∀ w ∈ out, containOneofConfs ops w confs = .ok false := by
  unfold searchNoConfGraphs at h
  cases hc : containOneofConfs ops wheelgraph confs with
  | error e => rw [hc] at h; cases h
  | ok found =>
    rw [hc] at h
    cases found with
    | true =>
      simp [bind, Except.bind, pure, Except.pure] at h
      rw [h]; intro w hw; cases hw
    | false =>
      have hs := set_degree_recursive_free ops possible_degrees confs
        (ops.nearTriangulation wheelgraph).vertex_size
        ((ops.nearTriangulation wheelgraph).vertex_size + 1 - index) index (wheelgraph, [])
        (by intro w hw; cases hw)
      cases hr : set_degree_recursive ops possible_degrees confs
        (ops.nearTriangulation wheelgraph).vertex_size
        ((ops.nearTriangulation wheelgraph).vertex_size + 1 - index) index (wheelgraph, []) with
      | error e => rw [hr] at h; simp [bind, Except.bind] at h
      | ok r =>
        rw [hr] at h hs
        simp [bind, Except.bind, pure, Except.pure] at h
        rw [← h]; exact hs

/-- C18 at the wheel with hub degree 5 whose rim vertices `1, 2, 3` have degree 5, the
degrees 5 and 7 being tried at the rim vertices `4` and `5` against the configuration of two
adjacent vertices of degree 7: the three wheels emitted are those without two neighbours of
degree 7. -/
theorem C18_witness :
    searchNoConfGraphs wheelLikeWheel wheelOpenFive 4 [five, seven] [edgeSevenConf]
      = .ok [wheelClosedFive five five, wheelClosedFive five seven, wheelClosedFive seven five]
    ∧ ∀ w ∈ [wheelClosedFive five five, wheelClosedFive five seven,
          wheelClosedFive seven five],
        containOneofConfs wheelLikeWheel w [edgeSevenConf] = .ok false :=
  ⟨by decide!,
   C18_emitted_wheels_are_configuration_free wheelLikeWheel wheelOpenFive 4 [five, seven]
     [edgeSevenConf] _ (by decide!)⟩

/-! ## decideDegreeBySendCases: what `prune` lets through -/

theorem pruneCandidate_free (rules : List Rule) (confs : List Configuration) (threshold : Int)
    (charge_bound : Bool) (edges : List Edge) (edgeids : List Nat) (hubdegree : Nat)
    (edgeids_idx : Nat) (decided_charges : List Int)
    (acc : List CartWheel × List Int) (next : CartWheel × Int)
    (hacc : ∀ w ∈ acc.1, containOneofConfs wheelLikeCartWheel w confs = .ok false) :
    Sat (fun r => ∀ w ∈ r.1, containOneofConfs wheelLikeCartWheel w confs = .ok false) (fun _ => True)
      (pruneCandidate rules confs threshold charge_bound edges edgeids hubdegree edgeids_idx
        decided_charges acc next) := by
  unfold pruneCandidate
  refine Sat_bind (P := fun _ => True) (Sat_trivial _) ?_
  intro dropped _
  by_cases hd : dropped = true
  · rw [if_pos hd]; exact Sat_pure hacc
  · rw [if_neg hd]
    cases hc : containOneofConfs wheelLikeCartWheel next.1 confs with
    | error e => exact trivial
    | ok found =>
      cases found with
      | true => exact Sat_pure hacc
      | false =>
        refine Sat_pure ?_
        intro w hw
        rcases List.mem_append.1 hw with h | h
        · exact hacc w h
        · rw [List.mem_singleton.1 h]; exact hc

theorem prune_free (rules : List Rule) (confs : List Configuration) (threshold : Int)
    (charge_bound : Bool) (edges : List Edge) (edgeids : List Nat) (hubdegree : Nat)
    (next_wheels : List CartWheel) (next_charges : List Int) (edgeids_idx : Nat)
    (decided_charges : List Int) :
    Sat (fun r => ∀ w ∈ r.1, containOneofConfs wheelLikeCartWheel w confs = .ok false) (fun _ => True)
      (prune rules confs threshold charge_bound edges edgeids hubdegree next_wheels
        next_charges edgeids_idx decided_charges) :=
  Sat_foldlM _
    (fun _ (r : List CartWheel × List Int) =>
      ∀ w ∈ r.1, containOneofConfs wheelLikeCartWheel w confs = .ok false)
    (fun b _ s hs => pruneCandidate_free rules confs threshold charge_bound edges edgeids
      hubdegree edgeids_idx decided_charges s b hs)
    _ _ (by intro w hw; cases hw)

theorem mem_fst_of_mem_zip {α β : Type} {l1 : List α} {l2 : List β} {p : α × β}
    (h : p ∈ l1.zip l2) : p.1 ∈ l1 := by
  obtain ⟨a, b⟩ := p
  exact (List.of_mem_zip h).1

theorem decide_degree_free (rules : List Rule) (confs : List Configuration)
    (max_degree threshold : Int) (charge_bound : Bool) (edges : List Edge)
    (edgeids : List Nat) (hubdegree : Nat) :
    ∀ (remaining : Nat) (wheel : CartWheel) (edgeids_idx : Nat) (decided_charges : List Int)
      (res : List CartWheel),
      (0 < remaining ∨ containOneofConfs wheelLikeCartWheel wheel confs = .ok false) →
      (∀ w ∈ res, containOneofConfs wheelLikeCartWheel w confs = .ok false) →
      Sat (fun r => ∀ w ∈ r, containOneofConfs wheelLikeCartWheel w confs = .ok false)
        (fun _ => True)
        (decide_degree rules confs max_degree threshold charge_bound edges edgeids hubdegree
          remaining wheel edgeids_idx decided_charges res) := by
  intro remaining
  induction remaining with
  | zero =>
    intro wheel idx decided res hw hres
    rcases hw with hw | hw
    · exact absurd hw (Nat.lt_irrefl 0)
    · unfold decide_degree
      refine Sat_pure ?_
      intro w hmem
      rcases List.mem_append.1 hmem with h | h
      · exact hres w h
      · rw [List.mem_singleton.1 h]; exact hw
  | succ remaining ih =>
    intro wheel idx decided res _ hres
    unfold decide_degree
    refine Sat_bind (P := fun _ => True) (Sat_trivial _) ?_
    intro _ _
    cases hget : edgeids.get? idx with
    | none => exact trivial
    | some edgeid =>
      simp only []
      refine Sat_bind (P := fun _ => True) (Sat_trivial _) ?_
      intro next _
      refine Sat_bind (P := fun _ => True) (Sat_trivial _) ?_
      intro uniq _
      refine Sat_bind (prune_free rules confs threshold charge_bound edges edgeids hubdegree
        uniq.1 uniq.2 idx decided) ?_
      intro pruned hpruned
      refine Sat_mono (Sat_foldlM _
        (fun (rest : List (CartWheel × Int)) (r : List CartWheel) =>
          (∀ w ∈ r, containOneofConfs wheelLikeCartWheel w confs = .ok false)
          ∧ ∀ c ∈ rest, containOneofConfs wheelLikeCartWheel c.1 confs = .ok false)
        ?_ _ _ ⟨hres, fun c hc => hpruned c.1 (mem_fst_of_mem_zip hc)⟩)
        (fun a ha => ha.1) (fun _ h => h)
      intro b rest s hs
      refine Sat_mono (ih b.1 (idx + 1) _ s
        (Or.inr (hs.2 b (List.mem_cons_self _ _))) hs.1) ?_ (fun _ h => h)
      intro a ha
      exact ⟨ha, fun c hc => hs.2 c (List.mem_cons_of_mem _ hc)⟩

theorem mapM_ok_length {α β : Type} (f : α → Except MatchError β) :
    ∀ (l : List α) (r : List β), l.mapM f = .ok r → r.length = l.length := by
  intro l
  induction l with
  | nil =>
    intro r h
    rw [List.mapM_nil] at h
    cases h; rfl
  | cons a l ih =>
    intro r h
    rw [List.mapM_cons] at h
    cases hfa : f a with
    | error e => rw [hfa] at h; cases h
    | ok b =>
      cases hl : l.mapM f with
      | error e => rw [hfa, hl] at h; cases h
      | ok bs =>
        rw [hfa, hl] at h
        cases h
        simp [ih bs hl]

theorem sendCaseEdgeids_length {wheelgraph : CartWheel} {edgeids : List Nat}
    (h : sendCaseEdgeids wheelgraph = .ok edgeids) :
    edgeids.length = 2 * wheelgraph.num_neighbor := by
  have := mapM_ok_length _ _ _ h
  simp at this
  omega

/-- C19: for a cartwheel with hub degree at least 1, whatever the rules, the catalog,
`max_degree`, the threshold and `charge_bound` are, `containOneofConfs` returns false on
every cartwheel that `decideDegreeBySendCases` emits. -/
theorem C19_emitted_cartwheels_are_configuration_free (wheelgraph : CartWheel)
    (rules : List Rule) (confs : List Configuration) (max_degree threshold : Int)
    (charge_bound : Bool) (out : List CartWheel) (hd : 1 ≤ wheelgraph.num_neighbor)
    (h : decideDegreeBySendCases wheelgraph rules confs max_degree threshold charge_bound
      = .ok out) :
    ∀ w ∈ out, containOneofConfs wheelLikeCartWheel w confs = .ok false := by
  unfold decideDegreeBySendCases at h
  cases he : sendCaseEdgeids wheelgraph with
  | error e => rw [he] at h; cases h
  | ok edgeids =>
    rw [he] at h
    have hlen := sendCaseEdgeids_length he
    have hs := decide_degree_free rules confs max_degree threshold charge_bound
      wheelgraph.cartwheel.edges edgeids wheelgraph.num_neighbor edgeids.length wheelgraph 0
      [] [] (Or.inl (by omega)) (by intro w hw; cases hw)
    have h2 : decide_degree rules confs max_degree threshold charge_bound
        wheelgraph.cartwheel.edges edgeids wheelgraph.num_neighbor edgeids.length wheelgraph
        0 [] [] = .ok out := h
    rw [h2] at hs
    exact hs

/-- C19 at the cartwheel of the wheel with hub degree 5 whose rim vertices all have the
degree `8+`, with the rule that sends 1 from a vertex of degree `8+` to one of degree 5, the
catalog made of two adjacent vertices of degree 7, and the threshold 4 with `charge_bound`:
the cartwheel itself is the one that is emitted. -/
theorem C19_witness :
    decideDegreeBySendCases cartPlus [rulePlus] [edgeSevenConf] 8 4 true = .ok [cartPlus]
    ∧ ∀ w ∈ [cartPlus], containOneofConfs wheelLikeCartWheel w [edgeSevenConf] = .ok false := by
  have h : decideDegreeBySendCases cartPlus [rulePlus] [edgeSevenConf] 8 4 true
      = .ok [cartPlus] := by decide!
  have hd : 1 ≤ cartPlus.num_neighbor := by decide!
  exact ⟨h, C19_emitted_cartwheels_are_configuration_free cartPlus [rulePlus] [edgeSevenConf]
    8 4 true [cartPlus] hd h⟩

/-! ## unique -/

theorem uniqueFind_spec (w : CartWheel) (c : Int) :
    ∀ (ws : List CartWheel) (cs : List Int) (found : Option Nat), ws.length = cs.length →
      uniqueFind w ws = .ok found →
      mergeInto isIsomorphicTrue (ws.zip cs) (w, c)
        = match found with
          | some j => ws.zip (cs.set j (max c (cs.getD j 0)))
          | none => ws.zip cs ++ [(w, c)] := by
  intro ws
  induction ws with
  | nil =>
    intro cs found hlen h
    cases cs with
    | cons _ _ => cases hlen
    | nil =>
      unfold uniqueFind at h
      cases h
      rfl
  | cons k ws ih =>
    intro cs found hlen h
    cases cs with
    | nil => cases hlen
    | cons ck cs =>
      have hlen2 : ws.length = cs.length := by simpa using hlen
      unfold uniqueFind at h
      cases hiso : isIsomorphic w.cartwheel k.cartwheel with
      | error e => rw [hiso] at h; cases h
      | ok b =>
        rw [hiso] at h
        cases b with
        | true =>
          simp only [bind, Except.bind, if_true, pure, Except.pure] at h
          cases h
          simp only [List.zip_cons_cons, mergeInto, isIsomorphicTrue, hiso, decide_True,
            if_true, List.set_cons_zero, List.getD_cons_zero]
          rfl
        | false =>
          simp only [bind, Except.bind, Bool.false_eq_true, if_false] at h
          cases hr : uniqueFind w ws with
          | error e => rw [hr] at h; cases h
          | ok r =>
            rw [hr] at h
            simp only [pure, Except.pure] at h
            cases h
            have := ih cs r hlen2 hr
            cases r with
            | none =>
              simp only [Option.map] at this ⊢
              simp only [List.zip_cons_cons, mergeInto, isIsomorphicTrue, hiso, reduceCtorEq,
                Except.ok.injEq, Bool.false_eq_true, decide_False, if_false,
                List.cons_append]
              exact congrArg (List.cons (k, ck)) this
            | some j =>
              simp only [Option.map] at this ⊢
              simp only [List.zip_cons_cons, mergeInto, isIsomorphicTrue, hiso, reduceCtorEq,
                Except.ok.injEq, Bool.false_eq_true, decide_False, if_false,
                List.set_cons_succ, List.getD_cons_succ]
              exact congrArg (List.cons (k, ck)) this

theorem uniqueStep_spec (acc r : List CartWheel × List Int) (next : CartWheel × Int)
    (hlen : acc.1.length = acc.2.length) (h : uniqueStep acc next = .ok r) :
    r.1.length = r.2.length
    ∧ r.1.zip r.2 = mergeInto isIsomorphicTrue (acc.1.zip acc.2) next := by
  unfold uniqueStep at h
  cases hf : uniqueFind next.1 acc.1 with
  | error e => rw [hf] at h; cases h
  | ok found =>
    rw [hf] at h
    have hspec := uniqueFind_spec next.1 next.2 acc.1 acc.2 found hlen hf
    cases found with
    | some j =>
      simp only [bind, Except.bind, pure, Except.pure] at h
      cases h
      refine ⟨by simp [hlen], ?_⟩
      rw [hspec]
    | none =>
      simp only [bind, Except.bind, pure, Except.pure] at h
      cases h
      refine ⟨by simp [hlen], ?_⟩
      rw [hspec]
      simp only []
      rw [List.zip_append hlen]
      rfl

theorem unique_fold_spec :
    ∀ (l : List (CartWheel × Int)) (acc r : List CartWheel × List Int),
      acc.1.length = acc.2.length → l.foldlM uniqueStep acc = .ok r →
      r.1.length = r.2.length
      ∧ r.1.zip r.2 = l.foldl (mergeInto isIsomorphicTrue) (acc.1.zip acc.2) := by
  intro l
  induction l with
  | nil =>
    intro acc r hlen h
    simp only [List.foldlM, pure, Except.pure] at h
    cases h
    exact ⟨hlen, rfl⟩
  | cons x l ih =>
    intro acc r hlen h
    rw [List.foldlM_cons] at h
    cases hs : uniqueStep acc x with
    | error e => rw [hs] at h; cases h
    | ok acc2 =>
      rw [hs] at h
      have h2 := uniqueStep_spec acc acc2 x hlen hs
      have h3 := ih acc2 r h2.1 h
      refine ⟨h3.1, ?_⟩
      rw [h3.2, h2.2]
      rfl

/-- C16: the lambda `unique` of `decideDegreeBySendCases` returns what the specification's
`uniqueWithCharge` describes: the candidates are taken in input order, each one is merged
into the first kept candidate that `isIsomorphic` finds it isomorphic to, which then carries
the maximum of the amounts merged into it, and a candidate isomorphic to no kept candidate
is kept as the first of its group; the two vectors returned have the same length. -/
theorem C16_unique_keeps_first_with_maximum (next_wheels : List CartWheel)
    (next_charges : List Int) (unique_wheels : List CartWheel) (unique_charges : List Int)
    (h : unique next_wheels next_charges = .ok (unique_wheels, unique_charges)) :
    unique_wheels.length = unique_charges.length
    ∧ unique_wheels.zip unique_charges
      = uniqueWithCharge isIsomorphicTrue (next_wheels.zip next_charges) :=
  unique_fold_spec (next_wheels.zip next_charges) ([], []) (unique_wheels, unique_charges)
    rfl h

/-- C16 at three candidates, the cartwheel `cartPlus` with the amounts 0 and 3 around the
cartwheel `cart5` with the amount 1: the two copies of `cartPlus` are merged with the
amount 3. -/
theorem C16_witness :
    unique [cartPlus, cart5, cartPlus] [0, 1, 3] = .ok ([cartPlus, cart5], [3, 1])
    ∧ [cartPlus, cart5].length = [(3 : Int), 1].length
    ∧ [cartPlus, cart5].zip [(3 : Int), 1]
      = uniqueWithCharge isIsomorphicTrue ([cartPlus, cart5, cartPlus].zip [0, 1, 3]) := by
  have h : unique [cartPlus, cart5, cartPlus] [0, 1, 3]
      = .ok ([cartPlus, cart5], [3, 1]) := by decide!
  exact ⟨h, C16_unique_keeps_first_with_maximum [cartPlus, cart5, cartPlus] [0, 1, 3]
    [cartPlus, cart5] [3, 1] h⟩

/-! ## prune: the charge bound -/

theorem maxSend_fold_spec (w : NearTriangulation) (s t : Nat) :
    ∀ (rules : List Rule) (acc res : Int × Int), 0 ≤ acc.1 → 0 ≤ acc.2 →
      rules.foldlM
        (fun (acc : Int × Int) rule => do
          let r ← amountChargeToSend w s t rule
          pure (max acc.1 (if r.1 > 0 then rule.amount else 0),
                max acc.2 (if r.2.1 > 0 then rule.amount else 0)))
        acc = .ok res →
      ∃ bounds, sendBounds rules w s t = .ok bounds
        ∧ res.1 = ((rules.zip (bounds.map Prod.fst)).filter (fun p => decide (p.2 > 0))).foldl
            (fun m p => max m p.1.amount) acc.1
        ∧ res.2 = ((rules.zip (bounds.map Prod.snd)).filter (fun p => decide (p.2 > 0))).foldl
            (fun m p => max m p.1.amount) acc.2 := by
  intro rules
  induction rules with
  | nil =>
    intro acc res _ _ h
    simp only [List.foldlM, pure, Except.pure] at h
    cases h
    exact ⟨[], rfl, rfl, rfl⟩
  | cons rule rules ih =>
    intro acc res h1 h2 h
    rw [List.foldlM_cons] at h
    cases hr : amountChargeToSend w s t rule with
    | error e => rw [hr] at h; cases h
    | ok r =>
      rw [hr] at h
      simp only [bind, Except.bind, pure, Except.pure] at h
      obtain ⟨bounds, hb, e1, e2⟩ := ih _ res (le_max_of_le_left h1) (le_max_of_le_left h2) h
      refine ⟨(r.1, r.2.1) :: bounds, ?_, ?_, ?_⟩
      · unfold sendBounds at hb ⊢
        rw [List.mapM_cons, hr, hb]
        rfl
      · rw [e1]
        simp only [List.map_cons, List.zip_cons_cons, List.filter_cons]
        by_cases hp : r.1 > 0
        · simp only [hp, decide_True, if_true, List.foldl_cons]
        · simp only [hp, decide_False, Bool.false_eq_true, if_false, max_eq_left h1]
      · rw [e2]
        simp only [List.map_cons, List.zip_cons_cons, List.filter_cons]
        by_cases hp : r.2.1 > 0
        · simp only [hp, decide_True, if_true, List.foldl_cons]
        · simp only [hp, decide_False, Bool.false_eq_true, if_false, max_eq_left h2]

theorem maxSend_spec {rules : List Rule} {w : NearTriangulation} {s t : Nat} {m : Int × Int}
    (h : maxSend rules w s t = .ok m) :
    ∃ bounds, sendBounds rules w s t = .ok bounds
      ∧ m.1 = largestPositive rules (bounds.map Prod.fst)
      ∧ m.2 = largestPositive rules (bounds.map Prod.snd) :=
  maxSend_fold_spec w s t rules (0, 0) m (le_refl _) (le_refl _) h

theorem foldl_max_within (bound : Int) :
    ∀ (l : List (Rule × Int)) (m : Int), 0 ≤ m → m ≤ bound →
      (∀ p ∈ l, p.1.amount ≤ bound) →
      0 ≤ l.foldl (fun m p => max m p.1.amount) m
      ∧ l.foldl (fun m p => max m p.1.amount) m ≤ bound
  | [], m, h0, h1, _ => ⟨h0, h1⟩
  | p :: l, m, h0, h1, hl => by
    rw [List.foldl_cons]
    exact foldl_max_within bound l _ (le_max_of_le_left h0)
      (max_le h1 (hl p (List.mem_cons_self _ _)))
      (fun q hq => hl q (List.mem_cons_of_mem _ hq))

/-- The largest amount of a rule with a positive bound lies between 0 and a bound on the
amounts of the rules. -/
theorem largestPositive_within {rules : List Rule} {bound : Int} (hbound : 0 ≤ bound)
    (hrules : ∀ rule ∈ rules, rule.amount ≤ bound) (bounds : List Int) :
    0 ≤ largestPositive rules bounds ∧ largestPositive rules bounds ≤ bound := by
  unfold largestPositive
  refine foldl_max_within bound _ 0 (le_refl _) hbound ?_
  intro p hp
  have hz := (List.mem_filter.1 hp).1
  obtain ⟨q1, q2⟩ := p
  exact hrules q1 (List.of_mem_zip hz).1

theorem pruneStep_spec {rules : List Rule} {edges : List Edge} {edgeids : List Nat}
    {hubdegree : Nat} {w : NearTriangulation} {own : Int} {idx : Nat} {decided : List Int}
    {acc acc1 : PruneVars} {ei : Nat} {bound sofar : Int}
    (hbound : 0 ≤ bound) (hmax : sofar + bound ≤ INT_MAX)
    (hrules : ∀ rule ∈ rules, rule.amount ≤ bound)
    (hown : -bound ≤ own ∧ own ≤ bound)
    (hdecided : ∀ c ∈ decided, -bound ≤ c ∧ c ≤ bound)
    (hacc : Within sofar acc.receive_upper acc.send_lower)
    (h : pruneStep rules edges edgeids hubdegree w own idx decided acc ei = .ok acc1)
    (hstop : acc1.stop_search = false) :
    acc.stop_search = false
    ∧ Within (sofar + bound) acc1.receive_upper acc1.send_lower
    ∧ ∃ share, optimisticShare rules edges edgeids hubdegree w own idx decided ei = .ok share
      ∧ acc1.receive_upper - acc1.send_lower = acc.receive_upper - acc.send_lower + share := by
  have hfit : ∀ x y z : Int, Within sofar x y → -bound ≤ z → z ≤ bound →
      wrapInt (x + z) = x + z ∧ wrapInt (y + z) = y + z := by
    intro x y z hxy hz1 hz2
    unfold Within at hxy
    unfold INT_MAX at hmax
    constructor <;> apply wrapInt_of_bounds <;> omega
  unfold pruneStep at h
  cases hs : acc.stop_search with
  | true =>
    rw [hs] at h
    simp only [if_true, pure, Except.pure] at h
    cases h
    rw [hs] at hstop
    cases hstop
  | false =>
    refine ⟨rfl, ?_⟩
    rw [hs] at h
    simp only [Bool.false_eq_true, if_false] at h
    cases h1 : edgeids.get? ei with
    | none => rw [h1] at h; cases h
    | some edgeid =>
      rw [h1] at h
      simp only [] at h
      cases h2 : edges.get? edgeid with
      | none => rw [h2] at h; cases h
      | some edge =>
        rw [h2] at h
        simp only [] at h
        cases hm : maxSend rules w edge.1 edge.2 with
        | error e => rw [hm] at h; cases h
        | ok m =>
          rw [hm] at h
          simp only [bind, Except.bind] at h
          obtain ⟨bounds, hb, e1, e2⟩ := maxSend_spec hm
          have hm1 := largestPositive_within hbound hrules (bounds.map Prod.fst)
          have hm2 := largestPositive_within hbound hrules (bounds.map Prod.snd)
          rw [← e1] at hm1
          rw [← e2] at hm2
          have hedge : (edgeids.get? ei).bind (fun edgeid => edges.get? edgeid) = some edge := by
            rw [h1]; exact h2
          unfold optimisticShare
          by_cases hlt : ei < hubdegree
          · rw [if_pos hlt] at h
            by_cases heq : ei = idx
            · rw [if_pos heq] at h
              have hn : ¬ (ei < hubdegree ∧ ei < idx) := fun hc => by omega
              rw [if_neg hn, if_pos ⟨hlt, heq⟩]
              by_cases hgt : m.1 > own
              · rw [if_pos hgt] at h
                simp only [pure, Except.pure] at h
                cases h
                cases hstop
              · rw [if_neg hgt] at h
                simp only [pure, Except.pure] at h
                cases h
                have hw := (hfit _ _ own hacc hown.1 hown.2).1
                simp only []
                rw [hw]
                refine ⟨?_, own, rfl, by ring⟩
                unfold Within at hacc ⊢
                omega
            · rw [if_neg heq] at h
              by_cases hlt2 : ei < idx
              · rw [if_pos hlt2] at h
                rw [if_pos ⟨hlt, hlt2⟩]
                cases hd : decided.get? ei with
                | none => rw [hd] at h; cases h
                | some d =>
                  rw [hd] at h
                  simp only [] at h
                  by_cases hgt : m.1 > d
                  · rw [if_pos hgt] at h
                    simp only [pure, Except.pure] at h
                    cases h
                    cases hstop
                  · rw [if_neg hgt] at h
                    simp only [pure, Except.pure] at h
                    cases h
                    have hdd := hdecided d (List.get?_mem hd)
                    have hw := (hfit _ _ d hacc hdd.1 hdd.2).1
                    simp only []
                    rw [hw]
                    refine ⟨?_, d, rfl, by ring⟩
                    unfold Within at hacc ⊢
                    omega
              · rw [if_neg hlt2] at h
                simp only [pure, Except.pure] at h
                cases h
                have hn : ¬ (ei < hubdegree ∧ ei < idx) := fun hc => hlt2 hc.2
                have hn2 : ¬ (ei < hubdegree ∧ ei = idx) := fun hc => heq hc.2
                rw [if_neg hn, if_neg hn2, hedge]
                simp only [hb, bind, Except.bind, if_pos hlt]
                have hw := (hfit _ _ m.2 hacc (by omega) hm2.2).1
                rw [hw]
                refine ⟨?_, _, rfl, by rw [e2]; ring⟩
                unfold Within at hacc ⊢
                omega
          · rw [if_neg hlt] at h
            simp only [pure, Except.pure] at h
            cases h
            have hn : ¬ (ei < hubdegree ∧ ei < idx) := fun hc => hlt hc.1
            have hn2 : ¬ (ei < hubdegree ∧ ei = idx) := fun hc => hlt hc.1
            rw [if_neg hn, if_neg hn2, hedge]
            simp only [hb, bind, Except.bind, if_neg hlt]
            have hw := (hfit _ _ m.1 hacc (by omega) hm1.2).2
            rw [hw]
            refine ⟨?_, _, rfl, by rw [e1]; ring⟩
            unfold Within at hacc ⊢
            omega

theorem pruneStep_fold_spec {rules : List Rule} {edges : List Edge} {edgeids : List Nat}
    {hubdegree : Nat} {w : NearTriangulation} {own : Int} {idx : Nat} {decided : List Int}
    {bound : Int} (hbound : 0 ≤ bound)
    (hrules : ∀ rule ∈ rules, rule.amount ≤ bound)
    (hown : -bound ≤ own ∧ own ≤ bound)
    (hdecided : ∀ c ∈ decided, -bound ≤ c ∧ c ≤ bound) :
    ∀ (l : List Nat) (acc r : PruneVars) (sofar : Int), 0 ≤ sofar →
      sofar + (l.length : Int) * bound ≤ INT_MAX →
      Within sofar acc.receive_upper acc.send_lower →
      l.foldlM (pruneStep rules edges edgeids hubdegree w own idx decided) acc = .ok r →
      r.stop_search = false →
      acc.stop_search = false
      ∧ Within (sofar + (l.length : Int) * bound) r.receive_upper r.send_lower
      ∧ ∃ shares, l.mapM (optimisticShare rules edges edgeids hubdegree w own idx decided)
            = .ok shares
        ∧ r.receive_upper - r.send_lower
            = acc.receive_upper - acc.send_lower + shares.sum := by
  intro l
  induction l with
  | nil =>
    intro acc r sofar _ _ hacc h hstop
    simp only [List.foldlM, pure, Except.pure] at h
    cases h
    refine ⟨hstop, ?_, [], rfl, by simp⟩
    simpa using hacc
  | cons ei l ih =>
    intro acc r sofar hsofar hmax hacc h hstop
    rw [List.foldlM_cons] at h
    have hlen : ((ei :: l).length : Int) * bound = bound + (l.length : Int) * bound := by
      rw [List.length_cons]; push_cast; ring
    rw [hlen] at hmax ⊢
    have hnn : 0 ≤ (l.length : Int) * bound := Int.mul_nonneg (Int.ofNat_nonneg _) hbound
    cases hs : pruneStep rules edges edgeids hubdegree w own idx decided acc ei with
    | error e => rw [hs] at h; cases h
    | ok acc1 =>
      rw [hs] at h
      have hstop1 : acc1.stop_search = false := by
        cases hc : acc1.stop_search with
        | false => rfl
        | true =>
          exfalso
          have hkeep : ∀ (l : List Nat) (a b : PruneVars), a.stop_search = true →
              l.foldlM (pruneStep rules edges edgeids hubdegree w own idx decided) a = .ok b →
              b.stop_search = true := by
            intro l
            induction l with
            | nil =>
              intro a b ha hab
              simp only [List.foldlM, pure, Except.pure] at hab
              cases hab; exact ha
            | cons x l ihl =>
              intro a b ha hab
              rw [List.foldlM_cons] at hab
              have hx : pruneStep rules edges edgeids hubdegree w own idx decided a x
                  = .ok a := by
                unfold pruneStep
                rw [ha]
                rfl
              rw [hx] at hab
              exact ihl a b ha hab
          have := hkeep l acc1 r hc h
          rw [this] at hstop
          cases hstop
      obtain ⟨hstop0, hacc1, share, hshare, hstep⟩ := pruneStep_spec hbound
        (by omega) hrules hown hdecided hacc hs hstop1
      obtain ⟨_, hr, shares, hsh, hsum⟩ := ih acc1 r (sofar + bound) (by omega) (by omega)
        hacc1 h hstop
      refine ⟨hstop0, ?_, share :: shares, ?_, ?_⟩
      · have he : sofar + (bound + (l.length : Int) * bound)
            = sofar + bound + (l.length : Int) * bound := by ring
        rw [he]; exact hr
      · rw [List.mapM_cons, hshare, hsh]; rfl
      · rw [hsum, hstep, List.sum_cons]; ring

theorem chargePruned_spec {rules : List Rule} {edges : List Edge} {edgeids : List Nat}
    {hubdegree : Nat} {threshold : Int} {w : CartWheel} {own : Int} {idx : Nat}
    {decided : List Int} {bound : Int} (hbound : 0 ≤ bound)
    (hmax : (edgeids.length : Int) * bound ≤ INT_MAX)
    (hrules : ∀ rule ∈ rules, rule.amount ≤ bound)
    (hown : -bound ≤ own ∧ own ≤ bound)
    (hdecided : ∀ c ∈ decided, -bound ≤ c ∧ c ≤ bound)
    (h : chargePruned rules edges edgeids hubdegree threshold w own idx decided = .ok false) :
    ∃ charge, optimisticCharge rules edges edgeids hubdegree w.cartwheel own idx decided
        = .ok charge
      ∧ threshold < charge := by
  unfold chargePruned at h
  cases hf : (List.range edgeids.length).foldlM
      (pruneStep rules edges edgeids hubdegree w.cartwheel own idx decided)
      { send_lower := 0, receive_upper := 0, stop_search := false } with
  | error e => rw [hf] at h; cases h
  | ok r =>
    rw [hf] at h
    simp only [bind, Except.bind] at h
    cases hstop : r.stop_search with
    | true =>
      rw [hstop] at h
      simp only [if_true, pure, Except.pure] at h
      cases h
    | false =>
      rw [hstop] at h
      simp only [Bool.false_eq_true, if_false] at h
      cases hp : w.toString with
      | error e => rw [hp] at h; cases h
      | ok str =>
        rw [hp] at h
        simp only [pure, Except.pure, Except.ok.injEq, decide_eq_false_iff_not, not_le] at h
        obtain ⟨_, hr, shares, hsh, hsum⟩ := pruneStep_fold_spec hbound hrules hown hdecided
          (List.range edgeids.length) _ r 0 (le_refl _)
          (by rw [List.length_range]; omega)
          (by unfold Within; simp) hf hstop
        rw [List.length_range] at hr
        refine ⟨shares.sum, ?_, ?_⟩
        · unfold optimisticCharge
          rw [hsh]; rfl
        · have hw : wrapInt (r.receive_upper - r.send_lower)
              = r.receive_upper - r.send_lower := by
            unfold Within at hr
            unfold INT_MAX at hmax
            apply wrapInt_of_bounds <;> omega
          rw [hw] at h
          simp only [sub_zero, zero_add] at hsum
          omega

theorem pruneCandidate_charge {rules : List Rule} {confs : List Configuration}
    {threshold : Int} {edges : List Edge} {edgeids : List Nat} {hubdegree idx : Nat}
    {decided : List Int} {acc r : List CartWheel × List Int} {next : CartWheel × Int}
    {bound : Int} (hbound : 0 ≤ bound)
    (hmax : (edgeids.length : Int) * bound ≤ INT_MAX)
    (hrules : ∀ rule ∈ rules, rule.amount ≤ bound)
    (hown : -bound ≤ next.2 ∧ next.2 ≤ bound)
    (hdecided : ∀ c ∈ decided, -bound ≤ c ∧ c ≤ bound)
    (h : pruneCandidate rules confs threshold true edges edgeids hubdegree idx decided acc next
      = .ok r) :
    r = acc
    ∨ (r = (acc.1 ++ [next.1], acc.2 ++ [next.2])
      ∧ ∃ charge, optimisticCharge rules edges edgeids hubdegree next.1.cartwheel next.2 idx
          decided = .ok charge ∧ threshold < charge) := by
  unfold pruneCandidate at h
  simp only [if_true] at h
  cases hc : chargePruned rules edges edgeids hubdegree threshold next.1 next.2 idx
      decided with
  | error e => rw [hc] at h; cases h
  | ok dropped =>
    rw [hc] at h
    cases dropped with
    | true =>
      simp only [bind, Except.bind, if_true, pure, Except.pure] at h
      cases h
      exact Or.inl rfl
    | false =>
      simp only [bind, Except.bind, Bool.false_eq_true, if_false] at h
      cases hf : containOneofConfs wheelLikeCartWheel next.1 confs with
      | error e => rw [hf] at h; cases h
      | ok found =>
        rw [hf] at h
        cases found with
        | true =>
          simp only [if_true, pure, Except.pure] at h
          cases h
          exact Or.inl rfl
        | false =>
          simp only [Bool.false_eq_true, if_false, pure, Except.pure] at h
          cases h
          exact Or.inr ⟨rfl, chargePruned_spec hbound hmax hrules hown hdecided hc⟩

theorem mem_snd_of_mem_zip {α β : Type} {l1 : List α} {l2 : List β} {p : α × β}
    (h : p ∈ l1.zip l2) : p.2 ∈ l2 := by
  obtain ⟨a, b⟩ := p
  exact (List.of_mem_zip h).2

theorem prune_charge (rules : List Rule) (confs : List Configuration)
    (threshold : Int) (edges : List Edge) (edgeids : List Nat) (hubdegree idx : Nat)
    (decided : List Int) (next_wheels : List CartWheel) (next_charges : List Int)
    (bound : Int) (hbound : 0 ≤ bound)
    (hmax : (edgeids.length : Int) * bound ≤ INT_MAX)
    (hrules : ∀ rule ∈ rules, rule.amount ≤ bound)
    (hnext : ∀ c ∈ next_charges, -bound ≤ c ∧ c ≤ bound)
    (hdecided : ∀ c ∈ decided, -bound ≤ c ∧ c ≤ bound) :
    Sat (fun r => r.1.length = r.2.length ∧ ∀ c ∈ r.1.zip r.2,
        c ∈ next_wheels.zip next_charges
        ∧ ∃ charge, optimisticCharge rules edges edgeids hubdegree c.1.cartwheel c.2 idx
            decided = .ok charge ∧ threshold < charge)
      (fun _ => True)
      (prune rules confs threshold true edges edgeids hubdegree next_wheels next_charges idx
        decided) := by
  unfold prune
  refine Sat_mono (Sat_foldlM _
    (fun (rest : List (CartWheel × Int)) (r : List CartWheel × List Int) =>
      (∀ x ∈ rest, x ∈ next_wheels.zip next_charges)
      ∧ r.1.length = r.2.length ∧ ∀ c ∈ r.1.zip r.2,
        c ∈ next_wheels.zip next_charges
        ∧ ∃ charge, optimisticCharge rules edges edgeids hubdegree c.1.cartwheel c.2 idx
            decided = .ok charge ∧ threshold < charge)
    ?_ _ _ ⟨fun _ h => h, rfl, by intro c hc; cases hc⟩) (fun a ha => ha.2) (fun _ h => h)
  intro x rest acc hJ
  rw [Sat_true_iff]
  intro r hr
  have hrest : ∀ y ∈ rest, y ∈ next_wheels.zip next_charges :=
    fun y hy => hJ.1 y (List.mem_cons_of_mem _ hy)
  have hx0 := hnext x.2 (mem_snd_of_mem_zip (hJ.1 x (List.mem_cons_self _ _)))
  rcases pruneCandidate_charge hbound hmax hrules hx0 hdecided hr with rfl | ⟨rfl, hx⟩
  · exact ⟨hrest, hJ.2⟩
  · refine ⟨hrest, by simp [hJ.2.1], ?_⟩
    intro c hc
    rw [List.zip_append hJ.2.1] at hc
    rcases List.mem_append.1 hc with h | h
    · exact hJ.2.2 c h
    · have hcx : c = x := by simpa using h
      rw [hcx]
      exact ⟨hJ.1 x (List.mem_cons_self _ _), hx⟩

/-- C20 fails as stated: with the rule that sends `3 * 2^29` from a vertex of degree 5 to one
of degree `8+`, `prune` keeps the cartwheel `cartPlus`, offered for the first edge with the
amount 0 against the threshold 4, although its optimistic hub charge is `-5 * 3 * 2^29`:
the sum `send_lower` of the five amounts is a sum of `int`s, whose value is `-2^29`. -/
theorem C20_counterexample :
    prune [ruleHuge] [] 4 true cartPlus.cartwheel.edges cartPlusEdgeids 5 [cartPlus] [0] 0 []
      = .ok ([cartPlus], [0])
    ∧ optimisticCharge [ruleHuge] cartPlus.cartwheel.edges cartPlusEdgeids 5
        cartPlus.cartwheel 0 0 [] = .ok (-8053063680) := by
  decide!

/-- C20 as amended: when the sums of `prune` stay within `int` (the rule amounts are at most
`bound`, the amounts of the candidates and the committed amounts lie between `-bound` and
`bound`, and `edgeids.size() * bound` is at most `INT_MAX`), with `charge_bound` on, every
candidate that `prune` lets through, and that `decide_degree` then recurses on, is one of the
candidates it was given and has an optimistic hub charge above the threshold: the sum, over
the edges of `edgeids`, of the committed amount, the candidate's own amount or the largest
amount of a rule with a positive upper bound for the neighbour->hub edges, minus the largest
amount of a rule with a positive lower bound for the hub->neighbour edges. So a candidate
whose optimistic charge is at most the threshold is discarded. -/
theorem C20_prune_keeps_only_charge_above_threshold_within_int (rules : List Rule)
    (confs : List Configuration) (threshold : Int) (edges : List Edge) (edgeids : List Nat)
    (hubdegree : Nat) (next_wheels : List CartWheel) (next_charges : List Int)
    (edgeids_idx : Nat) (decided_charges : List Int) (pruned_wheels : List CartWheel)
    (pruned_charges : List Int) (bound : Int) (hbound : 0 ≤ bound)
    (hmax : (edgeids.length : Int) * bound ≤ INT_MAX)
    (hrules : ∀ rule ∈ rules, rule.amount ≤ bound)
    (hnext : ∀ c ∈ next_charges, -bound ≤ c ∧ c ≤ bound)
    (hdecided : ∀ c ∈ decided_charges, -bound ≤ c ∧ c ≤ bound)
    (h : prune rules confs threshold true edges edgeids hubdegree next_wheels next_charges
      edgeids_idx decided_charges = .ok (pruned_wheels, pruned_charges)) :
    ∀ c ∈ pruned_wheels.zip pruned_charges,
      c ∈ next_wheels.zip next_charges
      ∧ ∃ charge, optimisticCharge rules edges edgeids hubdegree c.1.cartwheel c.2 edgeids_idx
          decided_charges = .ok charge ∧ threshold < charge := by
  have hs := prune_charge rules confs threshold edges edgeids hubdegree edgeids_idx
    decided_charges next_wheels next_charges bound hbound hmax hrules hnext hdecided
  rw [h] at hs
  exact hs.2

/-- C20 at the cartwheel `cartPlus`, offered for the first edge with the amounts 1 and 0,
the rule sending 1 from a vertex of degree `8+` to one of degree 5, and the threshold 4: the
candidate with the amount 1 has the optimistic charge 5 and is kept, the candidate with
the amount 0 has the optimistic charge 4 and is discarded. -/
theorem C20_witness :
    prune [rulePlus] [edgeSevenConf] 4 true cartPlus.cartwheel.edges cartPlusEdgeids 5
        [cartPlus, cartPlus] [1, 0] 0 [] = .ok ([cartPlus], [1])
    ∧ optimisticCharge [rulePlus] cartPlus.cartwheel.edges cartPlusEdgeids 5
        cartPlus.cartwheel 0 0 [] = .ok 4
    ∧ ∀ c ∈ [cartPlus].zip [(1 : Int)],
        c ∈ [cartPlus, cartPlus].zip [(1 : Int), 0]
        ∧ ∃ charge, optimisticCharge [rulePlus] cartPlus.cartwheel.edges cartPlusEdgeids 5
            c.1.cartwheel c.2 0 [] = .ok charge ∧ 4 < charge := by
  have h : prune [rulePlus] [edgeSevenConf] 4 true cartPlus.cartwheel.edges cartPlusEdgeids 5
      [cartPlus, cartPlus] [1, 0] 0 [] = .ok ([cartPlus], [1]) := by decide!
  exact ⟨h, by decide!,
    C20_prune_keeps_only_charge_above_threshold_within_int [rulePlus] [edgeSevenConf] 4
      cartPlus.cartwheel.edges cartPlusEdgeids 5 [cartPlus, cartPlus] [1, 0] 0 []
      [cartPlus] [1] 1 (by decide) (by decide) (by decide) (by decide) (by decide) h⟩

/-! ## Properties of the two vectors that every step of the matcher keeps -/

theorem andRecursive_keeps {I : List (Option Nat) → List (Option Nat) → Prop} {rec : Recursor}
    (hrec : ∀ ew es st, I st.occupied st.located →
      Sat (fun r => I r.2.occupied r.2.located) (fun _ => True) (rec ew es st))
    (ew es : Edge) (cur : Bool × MatchState) (h : I cur.2.occupied cur.2.located) :
    Sat (fun r => I r.2.occupied r.2.located) (fun _ => True) (andRecursive rec ew es cur) := by
  unfold andRecursive
  split
  · exact hrec _ _ _ h
  · exact Sat_pure h

theorem innerStep_keeps {I : List (Option Nat) → List (Option Nat) → Prop} {rec : Recursor}
    {wheelgraph subgraph : NearTriangulation} {ex : List Nat} {dp : Bool}
    (hcorr : ∀ st vs vw, I st.occupied st.located →
      match_degree wheelgraph subgraph ex vs vw dp = true →
      I (correspond vs vw st).occupied (correspond vs vw st).located)
    (hrec : ∀ ew es st, I st.occupied st.located →
      Sat (fun r => I r.2.occupied r.2.located) (fun _ => True) (rec ew es st))
    (ew es : Edge) (vs : Nat) (acc : InnerVars) (vw : Nat)
    (h : I acc.st.occupied acc.st.located) :
    Sat (fun (r : InnerVars) => I r.st.occupied r.st.located) (fun _ => True)
      (innerStep rec wheelgraph subgraph ex dp ew es vs acc vw) := by
  unfold innerStep
  by_cases hg : ¬ (slot acc.st.located vs = none ∧ slot acc.st.occupied vw = none)
      ∧ ¬ (slot acc.st.located vs = some vw ∧ slot acc.st.occupied vw = some vs)
  · rw [if_pos hg]; exact Sat_pure h
  · rw [if_neg hg]
    dsimp only []
    by_cases hmd : match_degree wheelgraph subgraph ex vs vw dp = false
    · rw [if_pos hmd]; exact Sat_pure h
    · rw [if_neg hmd]
      have hmd2 : match_degree wheelgraph subgraph ex vs vw dp = true := by
        cases hm : match_degree wheelgraph subgraph ex vs vw dp with
        | true => rfl
        | false => exact absurd hm hmd
      refine Sat_bind (andRecursive_keeps hrec _ _ (acc.match_deg, correspond vs vw acc.st)
        (hcorr _ _ _ h hmd2)) ?_
      intro r1 h1
      refine Sat_bind (andRecursive_keeps hrec _ _ r1 h1) ?_
      intro r2 h2
      exact Sat_pure h2

theorem outerStep_keeps {I : List (Option Nat) → List (Option Nat) → Prop} {rec : Recursor}
    {wheelgraph subgraph : NearTriangulation} {ex : List Nat} {dp : Bool}
    (hcorr : ∀ st vs vw, I st.occupied st.located →
      match_degree wheelgraph subgraph ex vs vw dp = true →
      I (correspond vs vw st).occupied (correspond vs vw st).located)
    (hrec : ∀ ew es st, I st.occupied st.located →
      Sat (fun r => I r.2.occupied r.2.located) (fun _ => True) (rec ew es st))
    (ew es : Edge) (dw : List Nat) (acc : OuterVars) (vs : Nat)
    (h : I acc.st.occupied acc.st.located) :
    Sat (fun (r : OuterVars) => I r.st.occupied r.st.located) (fun _ => True)
      (outerStep rec wheelgraph subgraph ex dp ew es dw acc vs) := by
  unfold outerStep
  refine Sat_bind (P := fun (r : InnerVars) => I r.st.occupied r.st.located) ?_ ?_
  · exact Sat_foldlM _ (fun _ (r : InnerVars) => I r.st.occupied r.st.located)
      (fun vw _ a ha => innerStep_keeps hcorr hrec ew es vs a vw ha) dw _ h
  · intro r hr
    split
    · exact Sat_pure hr
    · exact trivial

theorem setEdgeBody_keeps {I : List (Option Nat) → List (Option Nat) → Prop} {rec : Recursor}
    {wheelgraph subgraph : NearTriangulation} {ex : List Nat} {dp : Bool}
    (hcorr : ∀ st vs vw, I st.occupied st.located →
      match_degree wheelgraph subgraph ex vs vw dp = true →
      I (correspond vs vw st).occupied (correspond vs vw st).located)
    (hrec : ∀ ew es st, I st.occupied st.located →
      Sat (fun r => I r.2.occupied r.2.located) (fun _ => True) (rec ew es st))
    (ew es : Edge) (st : MatchState) (h : I st.occupied st.located) :
    Sat (fun r => I r.2.occupied r.2.located) (fun _ => True)
      (setEdgeBody rec wheelgraph subgraph ex dp ew es st) := by
  unfold setEdgeBody
  split
  · exact Sat_pure h
  · split
    · rename_i dw ds _ _
      refine Sat_bind (P := fun (r : OuterVars) => I r.st.occupied r.st.located) ?_ ?_
      · exact Sat_foldlM _ (fun _ (r : OuterVars) => I r.st.occupied r.st.located)
          (fun vs _ a ha => outerStep_keeps hcorr hrec ew es dw a vs ha) ds _ h
      · intro r hr
        split
        · exact Sat_pure hr
        · exact trivial
    · exact trivial

theorem set_edge_recursive_keeps {I : List (Option Nat) → List (Option Nat) → Prop}
    {wheelgraph subgraph : NearTriangulation} {ex : List Nat} {dp : Bool}
    (hcorr : ∀ st vs vw, I st.occupied st.located →
      match_degree wheelgraph subgraph ex vs vw dp = true →
      I (correspond vs vw st).occupied (correspond vs vw st).located) :
    ∀ (fuel : Nat) (ew es : Edge) (st : MatchState), I st.occupied st.located →
      Sat (fun r => I r.2.occupied r.2.located) (fun _ => True)
        (set_edge_recursive wheelgraph subgraph ex dp fuel ew es st) := by
  intro fuel
  induction fuel with
  | zero => intro _ _ _ _; exact trivial
  | succ fuel ih =>
    intro ew es st h
    exact setEdgeBody_keeps hcorr ih ew es st h

theorem foldl_correspond_keeps {I : List (Option Nat) → List (Option Nat) → Prop}
    {wheelgraph subgraph : NearTriangulation} {ex : List Nat} {dp : Bool}
    (hcorr : ∀ st vs vw, I st.occupied st.located →
      match_degree wheelgraph subgraph ex vs vw dp = true →
      I (correspond vs vw st).occupied (correspond vs vw st).located) :
    ∀ (pairs : List (Nat × Nat)) (st : MatchState), I st.occupied st.located →
      (∀ p ∈ pairs, match_degree wheelgraph subgraph ex p.1 p.2 dp = true) →
      I (pairs.foldl (fun st p => correspond p.1 p.2 st) st).occupied
        (pairs.foldl (fun st p => correspond p.1 p.2 st) st).located := by
  intro pairs
  induction pairs with
  | nil => intro st h _; exact h
  | cons p pairs ih =>
    intro st h hp
    rw [List.foldl_cons]
    exact ih _ (hcorr _ _ _ h (hp p (List.mem_cons_self _ _)))
      (fun q hq => hp q (List.mem_cons_of_mem _ hq))

theorem branchPropagate_keeps {I : List (Option Nat) → List (Option Nat) → Prop}
    {rec : Recursor} {wheelgraph subgraph : NearTriangulation} {ex : List Nat} {dp : Bool}
    (hcorr : ∀ st vs vw, I st.occupied st.located →
      match_degree wheelgraph subgraph ex vs vw dp = true →
      I (correspond vs vw st).occupied (correspond vs vw st).located)
    (hrec : ∀ ew es st, I st.occupied st.located →
      Sat (fun r => I r.2.occupied r.2.located) (fun _ => True) (rec ew es st))
    (pairs : List (Nat × Nat)) (ew es : Edge) (occupied located : List (Option Nat))
    (h : I occupied located)
    (hp : ∀ p ∈ pairs, match_degree wheelgraph subgraph ex p.1 p.2 dp = true) :
    Sat (fun r => I r.2.occupied r.2.located) (fun _ => True)
      (branchPropagate rec pairs ew es occupied located) := by
  unfold branchPropagate
  exact Sat_foldlM _ (fun _ (r : Bool × MatchState) => I r.2.occupied r.2.located)
    (fun c _ cur hcur => andRecursive_keeps hrec c.1 c.2 cur hcur) _ _
    (foldl_correspond_keeps hcorr pairs
      { occupied := occupied, located := located, visited := [] } h hp)

theorem branchStep_keeps {I : List (Option Nat) → List (Option Nat) → Prop}
    {rec : Recursor} {wheelgraph subgraph : NearTriangulation} {ex : List Nat} {dp : Bool}
    (hcorr : ∀ st vs vw, I st.occupied st.located →
      match_degree wheelgraph subgraph ex vs vw dp = true →
      I (correspond vs vw st).occupied (correspond vs vw st).located)
    (hrec : ∀ ew es st, I st.occupied st.located →
      Sat (fun r => I r.2.occupied r.2.located) (fun _ => True) (rec ew es st))
    (ew es : Edge) (bv : BranchVars) (pairs : List (Nat × Nat))
    (h : BranchKeeps I wheelgraph subgraph ex dp bv) :
    Sat (BranchKeeps I wheelgraph subgraph ex dp) (fun _ => True)
      (branchStep rec wheelgraph subgraph ex dp ew es bv pairs) := by
  unfold branchStep
  by_cases hany : pairs.any (fun p => !match_degree wheelgraph subgraph ex p.1 p.2 dp) = true
  · rw [if_pos hany]; exact Sat_pure h
  · rw [if_neg hany]
    have hp : ∀ p ∈ pairs, match_degree wheelgraph subgraph ex p.1 p.2 dp = true := by
      intro p hp
      rw [Bool.not_eq_true, List.any_eq_false] at hany
      have := hany p hp
      simpa using this
    refine Sat_bind (branchPropagate_keeps hcorr hrec pairs ew es bv.occupied bv.located
      h.1 hp) ?_
    intro r hr
    refine Sat_pure ⟨h.2.1, hr, ?_⟩
    intro x hx
    rcases List.mem_append.1 hx with hx | hx
    · exact h.2.2 x hx
    · exact ⟨r.1, r.2, List.mem_singleton.1 hx, hr⟩

theorem matchPinned_keeps {I : List (Option Nat) → List (Option Nat) → Prop}
    {rec : Recursor} {wheelgraph subgraph : NearTriangulation} {ex : List Nat} {dp : Bool}
    (hcorr : ∀ st vs vw, I st.occupied st.located →
      match_degree wheelgraph subgraph ex vs vw dp = true →
      I (correspond vs vw st).occupied (correspond vs vw st).located)
    (hrec : ∀ ew es st, I st.occupied st.located →
      Sat (fun r => I r.2.occupied r.2.located) (fun _ => True) (rec ew es st))
    (ew es : Edge)
    (hpin : I (pinnedState wheelgraph subgraph ew es).occupied
      (pinnedState wheelgraph subgraph ew es).located) :
    Sat (fun rs => ∀ r ∈ rs, ∃ md st, r = update_res wheelgraph subgraph ex dp md st
        ∧ I st.occupied st.located) (fun _ => True)
      (matchPinned rec wheelgraph subgraph ex dp ew es) := by
  unfold matchPinned
  split
  · rename_i dw ds _ _
    split
    · rename_i candidates _
      refine Sat_bind (P := BranchKeeps I wheelgraph subgraph ex dp) ?_ ?_
      · exact Sat_foldlM _ (fun _ bv => BranchKeeps I wheelgraph subgraph ex dp bv)
          (fun pairs _ bv hbv => branchStep_keeps hcorr hrec ew es bv pairs hbv) _ _
          ⟨hpin, hpin, by intro r hr; cases hr⟩
      · intro bv hbv
        exact Sat_pure hbv.2.2
    · split
      · refine Sat_bind (hrec ew es _ hpin) ?_
        intro r hr
        refine Sat_pure ?_
        intro x hx
        exact ⟨r.1, r.2, List.mem_singleton.1 hx, hr⟩
      · exact trivial
  · exact trivial

theorem match_keeps {I : List (Option Nat) → List (Option Nat) → Prop}
    {wheelgraph subgraph : NearTriangulation} {ex : List Nat} {dp : Bool}
    (hcorr : ∀ st vs vw, I st.occupied st.located →
      match_degree wheelgraph subgraph ex vs vw dp = true →
      I (correspond vs vw st).occupied (correspond vs vw st).located)
    (hempty : I (List.replicate wheelgraph.vertex_size none)
      (List.replicate subgraph.vertex_size none))
    (edgeid_wheelgraph edgeid_subgraph : Nat) :
    Sat (fun rs => ∀ r ∈ rs, ∃ md st, r = update_res wheelgraph subgraph ex dp md st
        ∧ I st.occupied st.located) (fun _ => True)
      (containSubgraphWithCorrespondingEdge wheelgraph subgraph edgeid_wheelgraph
        edgeid_subgraph ex dp) := by
  unfold containSubgraphWithCorrespondingEdge containSubgraphFuel
  split
  · rename_i ew es _ _
    by_cases hpins : match_degree wheelgraph subgraph ex es.1 ew.1 dp = false
        ∨ match_degree wheelgraph subgraph ex es.2 ew.2 dp = false
    · rw [if_pos hpins]
      refine Sat_pure ?_
      intro r hr; cases hr
    · rw [if_neg hpins]
      have h1 : match_degree wheelgraph subgraph ex es.1 ew.1 dp = true := by
        cases hm : match_degree wheelgraph subgraph ex es.1 ew.1 dp with
        | true => rfl
        | false => exact absurd (Or.inl hm) hpins
      have h2 : match_degree wheelgraph subgraph ex es.2 ew.2 dp = true := by
        cases hm : match_degree wheelgraph subgraph ex es.2 ew.2 dp with
        | true => rfl
        | false => exact absurd (Or.inr hm) hpins
      refine matchPinned_keeps hcorr
        (fun ew es st h => set_edge_recursive_keeps hcorr _ ew es st h) ew es ?_
      unfold pinnedState
      exact hcorr _ _ _ (hcorr _ _ _ hempty h1) h2
  · exact trivial

/-! ## The verdicts of two results with the same support -/

theorem correspond_degreesFit {wheelgraph subgraph : NearTriangulation} {ex : List Nat}
    {dp : Bool} (st : MatchState) (vs vw : Nat)
    (h : DegreesFit wheelgraph subgraph ex dp st.occupied)
    (hmd : match_degree wheelgraph subgraph ex vs vw dp = true) :
    DegreesFit wheelgraph subgraph ex dp (correspond vs vw st).occupied := by
  intro w s hws
  unfold correspond at hws
  simp only [] at hws
  rw [slot_set] at hws
  by_cases hc : vw = w ∧ vw < st.occupied.length
  · rw [if_pos hc] at hws
    cases hws
    rw [← hc.1]; exact hmd
  · rw [if_neg hc] at hws
    exact h w s hws

/-- Every result of the matcher is what `update_res` makes of a state all of whose pairs
pass `match_degree`. -/
theorem match_degreesFit (wheelgraph subgraph : NearTriangulation) (ex : List Nat) (dp : Bool)
    (edgeid_wheelgraph edgeid_subgraph : Nat) :
    Sat (fun rs => ∀ r ∈ rs, ∃ md st, r = update_res wheelgraph subgraph ex dp md st
        ∧ DegreesFit wheelgraph subgraph ex dp st.occupied) (fun _ => True)
      (containSubgraphWithCorrespondingEdge wheelgraph subgraph edgeid_wheelgraph
        edgeid_subgraph ex dp) :=
  match_keeps (I := fun occ _ => DegreesFit wheelgraph subgraph ex dp occ)
    (fun st vs vw h hmd => correspond_degreesFit st vs vw h hmd)
    (by intro w s h; rw [slot_replicate_none] at h; cases h)
    edgeid_wheelgraph edgeid_subgraph

theorem update_res_contain_yes {wheelgraph subgraph : NearTriangulation} {ex : List Nat}
    {dp : Bool} {st : MatchState}
    (h : ∀ v, v < subgraph.vertex_size → unsettled wheelgraph subgraph ex st.located v = false) :
    (update_res wheelgraph subgraph ex dp true st).contain = Contain.Yes := by
  unfold update_res
  have hany : (List.range subgraph.vertex_size).any
      (unsettled wheelgraph subgraph ex st.located) = false := by
    rw [List.any_eq_false]
    intro v hv
    rw [h v (List.mem_range.1 hv)]
    simp
  simp [hany]

theorem update_res_md {wheelgraph subgraph : NearTriangulation} {ex : List Nat}
    {dp md : Bool} {st : MatchState}
    (h : (update_res wheelgraph subgraph ex dp md st).contain ≠ Contain.No) : md = true := by
  cases md with
  | true => rfl
  | false => simp [update_res] at h

theorem match_degree_possible_eq {wheelgraph subgraph : NearTriangulation} {vs vw : Nat}
    (hs : subgraph.degreeAt vs ≠ none) (hw : wheelgraph.degreeAt vw ≠ none) :
    match_degree wheelgraph subgraph [] vs vw false
      = match_degree wheelgraph subgraph [] vs vw true := by
  unfold match_degree
  cases h1 : subgraph.degreeAt vs with
  | none => exact absurd h1 hs
  | some ds =>
    cases h2 : wheelgraph.degreeAt vw with
    | none => exact absurd h2 hw
    | some dw => rfl

theorem settled_of_same_support {wheelgraph subgraph : NearTriangulation}
    {st0 st1 : MatchState}
    (hi0 : Inverse st0) (hs1 : Sized wheelgraph subgraph st1) (hi1 : Inverse st1)
    (hdeg : AllDegreesSet subgraph)
    (hfit : DegreesFit wheelgraph subgraph [] true st1.occupied)
    (hsupp : ∀ i, slot st0.occupied i ≠ none → slot st1.occupied i ≠ none)
    (hyes : ∀ v, v < subgraph.vertex_size →
      unsettled wheelgraph subgraph [] st0.located v = false) :
    ∀ v, v < subgraph.vertex_size → unsettled wheelgraph subgraph [] st1.located v = false := by
  -- the pattern vertex that `st1` puts where `st0` puts `v`
  let g : Nat → Nat := fun v => (slot st1.occupied ((slot st0.located v).getD 0)).getD 0
  have key : ∀ v, v < subgraph.vertex_size → ∃ w, slot st0.located v = some w
      ∧ match_degree wheelgraph subgraph [] v w false = true
      ∧ slot st1.occupied w = some (g v) ∧ slot st1.located (g v) = some w := by
    intro v hv
    obtain ⟨w, hw, hmd⟩ := unsettled_false (hyes v hv) (List.not_mem_nil v)
    have h0 : slot st0.occupied w = some v := (hi0 v w).1 hw
    have h1 : slot st1.occupied w ≠ none := hsupp w (by rw [h0]; simp)
    obtain ⟨v1, hv1⟩ := Option.ne_none_iff_exists'.1 h1
    have hg : g v = v1 := by simp only [g, hw, hv1, Option.getD_some]
    exact ⟨w, hw, hmd, by rw [hg]; exact hv1, by rw [hg]; exact (hi1 v1 w).2 hv1⟩
  have hmaps : ∀ v ∈ Finset.range subgraph.vertex_size, g v ∈ Finset.range subgraph.vertex_size := by
    intro v hv
    obtain ⟨w, _, _, _, h4⟩ := key v (Finset.mem_range.1 hv)
    have := slot_lt_length h4
    rw [hs1.2] at this
    exact Finset.mem_range.2 this
  have hinj : Set.InjOn g (Finset.range subgraph.vertex_size : Set Nat) := by
    intro a ha b hb hab
    obtain ⟨wa, ha1, _, _, ha4⟩ := key a (Finset.mem_range.1 (Finset.mem_coe.1 ha))
    obtain ⟨wb, hb1, _, _, hb4⟩ := key b (Finset.mem_range.1 (Finset.mem_coe.1 hb))
    rw [hab, hb4] at ha4
    have hw : wb = wa := Option.some.inj ha4
    rw [hw] at hb1
    have h1 := (hi0 a wa).1 ha1
    have h2 := (hi0 b wa).1 hb1
    rw [h1] at h2
    exact Option.some.inj h2
  have himg : (Finset.range subgraph.vertex_size).image g = Finset.range subgraph.vertex_size := by
    apply Finset.eq_of_subset_of_card_le
    · intro x hx
      obtain ⟨v, hv, rfl⟩ := Finset.mem_image.1 hx
      exact hmaps v hv
    · rw [Finset.card_image_of_injOn hinj]
  intro v1 hv1
  have hmem : v1 ∈ (Finset.range subgraph.vertex_size).image g := by
    rw [himg]; exact Finset.mem_range.2 hv1
  obtain ⟨v, hv, rfl⟩ := Finset.mem_image.1 hmem
  obtain ⟨w, hw, hmd, h3, h4⟩ := key v (Finset.mem_range.1 hv)
  have hdv := hdeg v (Finset.mem_range.1 hv)
  obtain ⟨dv, hdv2⟩ := Option.ne_none_iff_exists'.1 hdv
  obtain ⟨dw, hdw, _⟩ := match_degree_strict hmd (List.not_mem_nil v) dv hdv2
  have hfit1 := hfit w (g v) h3
  rw [← match_degree_possible_eq (hdeg (g v) hv1) (by rw [hdw]; simp)] at hfit1
  unfold unsettled
  rw [if_neg (List.not_mem_nil _), h4]
  simp [hfit1]

/-- Two results of `update_res` under `detect_possible`, neither of them `No`, made of
consistent states with the same occupied host vertices, carry the same verdict when every
pattern vertex has a degree. -/
theorem same_support_same_verdict {wheelgraph subgraph : NearTriangulation}
    {md0 md1 : Bool} {st0 st1 : MatchState}
    (hs0 : Sized wheelgraph subgraph st0) (hi0 : Inverse st0)
    (hs1 : Sized wheelgraph subgraph st1) (hi1 : Inverse st1)
    (hdeg : AllDegreesSet subgraph)
    (hfit0 : DegreesFit wheelgraph subgraph [] true st0.occupied)
    (hfit1 : DegreesFit wheelgraph subgraph [] true st1.occupied)
    (hsupp : ∀ i, slot st0.occupied i ≠ none ↔ slot st1.occupied i ≠ none)
    (hn0 : (update_res wheelgraph subgraph [] true md0 st0).contain ≠ Contain.No)
    (hn1 : (update_res wheelgraph subgraph [] true md1 st1).contain ≠ Contain.No) :
    (update_res wheelgraph subgraph [] true md0 st0).contain
      = (update_res wheelgraph subgraph [] true md1 st1).contain := by
  have e0 := update_res_md hn0
  have e1 := update_res_md hn1
  subst e0 e1
  have h01 : (update_res wheelgraph subgraph [] true true st0).contain = Contain.Yes →
      (update_res wheelgraph subgraph [] true true st1).contain = Contain.Yes := fun h =>
    update_res_contain_yes (settled_of_same_support hi0 hs1 hi1 hdeg hfit1
      (fun i hi => (hsupp i).1 hi) (update_res_yes h))
  have h10 : (update_res wheelgraph subgraph [] true true st1).contain = Contain.Yes →
      (update_res wheelgraph subgraph [] true true st0).contain = Contain.Yes := fun h =>
    update_res_contain_yes (settled_of_same_support hi1 hs0 hi0 hdeg hfit0
      (fun i hi => (hsupp i).2 hi) (update_res_yes h))
  cases c0 : (update_res wheelgraph subgraph [] true true st0).contain with
  | No => exact absurd c0 hn0
  | Yes => exact (h01 c0).symm
  | Possible =>
    cases c1 : (update_res wheelgraph subgraph [] true true st1).contain with
    | No => exact absurd c1 hn1
    | Yes => rw [h10 c1] at c0; cases c0
    | Possible => rfl

/-- For a wheel and a rule that are near-triangulations, every vertex of the rule carrying a
degree (as in every rule read from a rule file), whenever the match made under
`detect_possible` returns two results that are both not `No` and occupy the same host
vertices, the two results carry the same verdict; so `is_symmetric` returns without its
assertion failing. -/
theorem is_symmetric_of_degrees_set {wheel : NearTriangulation} {rule : Rule}
    (hwheel : IsNearTriangulation wheel) (hrule : IsNearTriangulation rule.rule)
    (hdeg : AllDegreesSet rule.rule) (edgeid : Nat) (result_list : List ContainResult)
    (h : containSubgraphWithCorrespondingEdge wheel rule.rule edgeid rule.send_edgeid [] true
      = .ok result_list) :
    (∀ r0 r1, result_list = [r0, r1] → r0.contain ≠ Contain.No → r1.contain ≠ Contain.No →
      (∀ i, i < r0.occupied.length → (slot r0.occupied i ≠ none ↔ slot r1.occupied i ≠ none)) →
      r0.contain = r1.contain)
    ∧ ∃ symmetric, is_symmetric result_list = .ok symmetric := by
  obtain ⟨ew, es, hew, hes⟩ := match_ok_edges h
  obtain ⟨rs, hrs, _, hres⟩ := match_results hwheel hrule hew hes [] true
  rw [h] at hrs
  cases hrs
  have hfit := match_degreesFit wheel rule.rule [] true edgeid rule.send_edgeid
  rw [h] at hfit
  have main : ∀ r0 r1, r0 ∈ result_list → r1 ∈ result_list → r0.contain ≠ Contain.No →
      r1.contain ≠ Contain.No →
      (∀ i, i < r0.occupied.length → (slot r0.occupied i ≠ none ↔ slot r1.occupied i ≠ none)) →
      r0.contain = r1.contain := by
    intro r0 r1 hm0 hm1 hn0 hn1 hsupp
    obtain ⟨md0, st0, e0, hs0, hi0, _⟩ := hres r0 hm0
    obtain ⟨md1, st1, e1, hs1, hi1, _⟩ := hres r1 hm1
    obtain ⟨md0', st0', e0', hf0⟩ := hfit r0 hm0
    obtain ⟨md1', st1', e1', hf1⟩ := hfit r1 hm1
    have o0 : r0.occupied = st0.occupied := by rw [e0] at hn0 ⊢; exact update_res_not_no hn0
    have o1 : r1.occupied = st1.occupied := by rw [e1] at hn1 ⊢; exact update_res_not_no hn1
    have o0' : r0.occupied = st0'.occupied := by rw [e0'] at hn0 ⊢; exact update_res_not_no hn0
    have o1' : r1.occupied = st1'.occupied := by rw [e1'] at hn1 ⊢; exact update_res_not_no hn1
    rw [← o0', o0] at hf0
    rw [← o1', o1] at hf1
    have hsupp2 : ∀ i, slot st0.occupied i ≠ none ↔ slot st1.occupied i ≠ none := by
      intro i
      rw [← o0, ← o1]
      by_cases hi : i < r0.occupied.length
      · exact hsupp i hi
      · have hlen : r1.occupied.length = r0.occupied.length := by
          rw [o0, o1, hs0.1, hs1.1]
        have h0 : slot r0.occupied i = none := by
          cases hc : slot r0.occupied i with
          | none => rfl
          | some x => exact absurd (slot_lt_length hc) hi
        have h1 : slot r1.occupied i = none := by
          cases hc : slot r1.occupied i with
          | none => rfl
          | some x => exact absurd (hlen ▸ slot_lt_length hc) hi
        rw [h0, h1]
    rw [e0] at hn0
    rw [e1] at hn1
    rw [e0, e1]
    exact same_support_same_verdict hs0 hi0 hs1 hi1 hdeg hf0 hf1 hsupp2 hn0 hn1
  refine ⟨?_, ?_⟩
  · intro r0 r1 hl
    exact main r0 r1 (by rw [hl]; simp) (by rw [hl]; simp)
  · rcases result_list with _ | ⟨r0, _ | ⟨r1, _ | ⟨r2, rest⟩⟩⟩
    · exact ⟨false, rfl⟩
    · exact ⟨false, rfl⟩
    · unfold is_symmetric
      dsimp only []
      by_cases hn : r0.contain ≠ Contain.No ∧ r1.contain ≠ Contain.No
      · rw [if_pos hn]
        by_cases hany : (List.range r0.occupied.length).any (fun i =>
            xor (decide (slot r0.occupied i ≠ none)) (decide (slot r1.occupied i ≠ none)))
            = true
        · rw [if_pos hany]; exact ⟨false, rfl⟩
        · rw [if_neg hany]
          have hsupp : ∀ i, i < r0.occupied.length →
              (slot r0.occupied i ≠ none ↔ slot r1.occupied i ≠ none) := by
            intro i hi
            rw [Bool.not_eq_true, List.any_eq_false] at hany
            have := hany i (List.mem_range.2 hi)
            by_cases a : slot r0.occupied i = none <;> by_cases b : slot r1.occupied i = none
              <;> simp [a, b] at this ⊢
          rw [if_pos (main r0 r1 (by simp) (by simp) hn.1 hn.2 hsupp)]
          exact ⟨true, rfl⟩
      · rw [if_neg hn]; exact ⟨false, rfl⟩
    · exact ⟨false, rfl⟩

/-- At the wheel with hub degree 5 whose rim vertex `5` has no degree yet, the edge `(0, 1)`
and the rule on two triangles with degree 5 everywhere, the two results occupy the same host
vertices and are both `Possible`. -/
theorem is_symmetric_of_degrees_set_example :
    containSubgraphWithCorrespondingEdge wheel5Open ruleClosed.rule
        (findEdge wheel5Open.edges (0, 1)) ruleClosed.send_edgeid [] true
      = .ok [{ contain := .Possible
               occupied := [some 0, some 1, some 2, none, none, some 3] },
             { contain := .Possible
               occupied := [some 0, some 1, some 3, none, none, some 2] }]
    ∧ (∀ r0 r1,
        [({ contain := .Possible
            occupied := [some 0, some 1, some 2, none, none, some 3] } : ContainResult),
         { contain := .Possible, occupied := [some 0, some 1, some 3, none, none, some 2] }]
          = [r0, r1] →
        r0.contain ≠ Contain.No → r1.contain ≠ Contain.No →
        (∀ i, i < r0.occupied.length →
          (slot r0.occupied i ≠ none ↔ slot r1.occupied i ≠ none)) →
        r0.contain = r1.contain)
    ∧ ∃ symmetric, is_symmetric
        [{ contain := .Possible, occupied := [some 0, some 1, some 2, none, none, some 3] },
         { contain := .Possible, occupied := [some 0, some 1, some 3, none, none, some 2] }]
        = .ok symmetric := by
  have h : containSubgraphWithCorrespondingEdge wheel5Open ruleClosed.rule
      (findEdge wheel5Open.edges (0, 1)) ruleClosed.send_edgeid [] true
      = .ok [{ contain := .Possible
               occupied := [some 0, some 1, some 2, none, none, some 3] },
             { contain := .Possible
               occupied := [some 0, some 1, some 3, none, none, some 2] }] := by decide!
  exact ⟨h, is_symmetric_of_degrees_set
    ⟨6, wheel5VtoV, [some five, some five, some five, some five, some five, none],
      by decide, by decide, by decide⟩
    ⟨4, diamondVtoV, [some five, some five, some five, some five],
      by decide, by decide, by decide⟩
    (by decide) (findEdge wheel5Open.edges (0, 1)) _ h⟩

/-! ## A second run of the matcher on a host that accepts more pairs -/

theorem foldlM_sim {σ β : Type} (md : σ → Bool) (f g : σ → β → Except MatchError σ)
    (hstep : ∀ a x a1, f a x = .ok a1 → md a1 = true → md a = true ∧ g a x = .ok a1) :
    ∀ (l : List β) (a r : σ), l.foldlM f a = .ok r → md r = true →
      md a = true ∧ l.foldlM g a = .ok r := by
  intro l
  induction l with
  | nil =>
    intro a r h hr
    simp only [List.foldlM, pure, Except.pure] at h ⊢
    cases h
    exact ⟨hr, rfl⟩
  | cons x l ih =>
    intro a r h hr
    rw [List.foldlM_cons] at h ⊢
    cases hfa : f a x with
    | error e => rw [hfa] at h; cases h
    | ok a1 =>
      rw [hfa] at h
      obtain ⟨h1, h2⟩ := ih a1 r h hr
      obtain ⟨h3, h4⟩ := hstep a x a1 hfa h1
      rw [h4]
      exact ⟨h3, h2⟩

theorem andRecursive_sim {rec rec2 : Recursor} (hrec : SimSpec rec rec2) (ew es : Edge)
    (cur r : Bool × MatchState) (h : andRecursive rec ew es cur = .ok r) (hr : r.1 = true) :
    cur.1 = true ∧ andRecursive rec2 ew es cur = .ok r := by
  unfold andRecursive at h ⊢
  by_cases hc : cur.1 = true
  · rw [if_pos hc] at h ⊢
    obtain ⟨b, st1⟩ := r
    simp only at hr
    subst hr
    exact ⟨hc, hrec _ _ _ _ h⟩
  · rw [if_neg hc] at h
    simp only [pure, Except.pure] at h
    cases h
    cases hr

theorem innerStep_sim {rec rec2 : Recursor} {wheelgraph wheel2 subgraph : NearTriangulation}
    {ex : List Nat} {dp dp2 : Bool}
    (href : DegreesRefine wheelgraph wheel2 subgraph ex dp dp2) (hrec : SimSpec rec rec2)
    (ew es : Edge) (vs : Nat) (acc : InnerVars) (vw : Nat) (acc1 : InnerVars)
    (h : innerStep rec wheelgraph subgraph ex dp ew es vs acc vw = .ok acc1)
    (hmd : acc1.match_deg = true) :
    acc.match_deg = true
    ∧ innerStep rec2 wheel2 subgraph ex dp2 ew es vs acc vw = .ok acc1 := by
  unfold innerStep at h ⊢
  by_cases hg : ¬ (slot acc.st.located vs = none ∧ slot acc.st.occupied vw = none)
      ∧ ¬ (slot acc.st.located vs = some vw ∧ slot acc.st.occupied vw = some vs)
  · rw [if_pos hg] at h ⊢
    simp only [pure, Except.pure] at h
    cases h
    exact ⟨hmd, rfl⟩
  · rw [if_neg hg] at h ⊢
    dsimp only [] at h ⊢
    by_cases hd : match_degree wheelgraph subgraph ex vs vw dp = false
    · rw [if_pos hd] at h
      simp only [pure, Except.pure] at h
      cases h
      cases hmd
    · rw [if_neg hd] at h
      have hd1 : match_degree wheelgraph subgraph ex vs vw dp = true := by
        cases hm : match_degree wheelgraph subgraph ex vs vw dp with
        | true => rfl
        | false => exact absurd hm hd
      have hd2 := href.mono vs vw hd1
      rw [if_neg (by rw [hd2]; simp)]
      cases h1 : andRecursive rec (ew.1, vw) (es.1, vs) (acc.match_deg, correspond vs vw acc.st)
        with
      | error e => rw [h1] at h; cases h
      | ok r1 =>
        rw [h1] at h
        simp only [bind, Except.bind] at h
        cases h2 : andRecursive rec (ew.2, vw) (es.2, vs) r1 with
        | error e => rw [h2] at h; cases h
        | ok r2 =>
          rw [h2] at h
          simp only [pure, Except.pure] at h
          cases h
          simp only at hmd
          obtain ⟨hr1, h2'⟩ := andRecursive_sim hrec _ _ r1 r2 h2 hmd
          obtain ⟨hacc, h1'⟩ := andRecursive_sim hrec _ _ _ r1 h1 hr1
          refine ⟨hacc, ?_⟩
          rw [h1']
          simp only [bind, Except.bind]
          rw [h2']
          rfl

theorem outerStep_sim {rec rec2 : Recursor} {wheelgraph wheel2 subgraph : NearTriangulation}
    {ex : List Nat} {dp dp2 : Bool}
    (href : DegreesRefine wheelgraph wheel2 subgraph ex dp dp2) (hrec : SimSpec rec rec2)
    (ew es : Edge) (dw : List Nat) (acc : OuterVars) (vs : Nat) (acc1 : OuterVars)
    (h : outerStep rec wheelgraph subgraph ex dp ew es dw acc vs = .ok acc1)
    (hmd : acc1.match_deg = true) :
    acc.match_deg = true
    ∧ outerStep rec2 wheel2 subgraph ex dp2 ew es dw acc vs = .ok acc1 := by
  unfold outerStep at h ⊢
  cases hf : dw.foldlM (innerStep rec wheelgraph subgraph ex dp ew es vs)
      { match_deg := acc.match_deg, new_match_case := acc.new_match_case,
        vs_match_case := 0, st := acc.st } with
  | error e => rw [hf] at h; cases h
  | ok r =>
    rw [hf] at h
    simp only [bind, Except.bind] at h
    by_cases hc : r.vs_match_case ≤ 1
    · rw [if_pos hc] at h
      simp only [pure, Except.pure] at h
      cases h
      simp only at hmd
      obtain ⟨h1, h2⟩ := foldlM_sim (fun (a : InnerVars) => a.match_deg) _
        (innerStep rec2 wheel2 subgraph ex dp2 ew es vs)
        (fun a x a1 ha hm => innerStep_sim href hrec ew es vs a x a1 ha hm) dw _ r hf hmd
      refine ⟨h1, ?_⟩
      rw [h2]
      simp only [bind, Except.bind, if_pos hc]
      rfl
    · rw [if_neg hc] at h
      cases h

theorem diagonalAt_refine {wheelgraph wheel2 subgraph : NearTriangulation} {ex : List Nat}
    {dp dp2 : Bool} (href : DegreesRefine wheelgraph wheel2 subgraph ex dp dp2) (e : Edge) :
    wheel2.diagonalAt e = wheelgraph.diagonalAt e := by
  unfold NearTriangulation.diagonalAt
  rw [href.diagonals]

theorem setEdgeBody_sim {rec rec2 : Recursor} {wheelgraph wheel2 subgraph : NearTriangulation}
    {ex : List Nat} {dp dp2 : Bool}
    (href : DegreesRefine wheelgraph wheel2 subgraph ex dp dp2) (hrec : SimSpec rec rec2) :
    SimSpec (setEdgeBody rec wheelgraph subgraph ex dp)
      (setEdgeBody rec2 wheel2 subgraph ex dp2) := by
  intro ew es st st1 h
  unfold setEdgeBody at h ⊢
  rw [diagonalAt_refine href]
  by_cases hv : ew ∈ st.visited
  · rw [if_pos hv] at h ⊢
    exact h
  · rw [if_neg hv] at h ⊢
    cases hdw : wheelgraph.diagonalAt ew with
    | none => rw [hdw] at h; cases h
    | some dw =>
      cases hds : subgraph.diagonalAt es with
      | none => rw [hdw, hds] at h; cases h
      | some ds =>
        rw [hdw, hds] at h
        simp only [] at h ⊢
        cases hf : ds.foldlM (outerStep rec wheelgraph subgraph ex dp ew es dw)
            { match_deg := true, new_match_case := 0,
              st := { st with visited := ew :: st.visited } } with
        | error e => rw [hf] at h; cases h
        | ok r =>
          rw [hf] at h
          simp only [bind, Except.bind] at h
          by_cases hc : r.new_match_case ≤ 1
          · rw [if_pos hc] at h
            simp only [pure, Except.pure, Except.ok.injEq, Prod.mk.injEq] at h
            obtain ⟨_, h2⟩ := foldlM_sim (fun (a : OuterVars) => a.match_deg) _
              (outerStep rec2 wheel2 subgraph ex dp2 ew es dw)
              (fun a x a1 ha hm => outerStep_sim href hrec ew es dw a x a1 ha hm) ds _ r hf h.1
            rw [h2]
            simp only [bind, Except.bind, if_pos hc, pure, Except.pure, h.1, h.2]
          · rw [if_neg hc] at h
            cases h

theorem set_edge_recursive_sim {wheelgraph wheel2 subgraph : NearTriangulation}
    {ex : List Nat} {dp dp2 : Bool}
    (href : DegreesRefine wheelgraph wheel2 subgraph ex dp dp2) :
    ∀ fuel, SimSpec (set_edge_recursive wheelgraph subgraph ex dp fuel)
      (set_edge_recursive wheel2 subgraph ex dp2 fuel) := by
  intro fuel
  induction fuel with
  | zero => intro ew es st st1 h; cases h
  | succ fuel ih => exact setEdgeBody_sim href ih

theorem branchPropagate_sim {rec rec2 : Recursor} (hrec : SimSpec rec rec2)
    (pairs : List (Nat × Nat)) (ew es : Edge) (occupied located : List (Option Nat))
    (st1 : MatchState)
    (h : branchPropagate rec pairs ew es occupied located = .ok (true, st1)) :
    branchPropagate rec2 pairs ew es occupied located = .ok (true, st1) := by
  unfold branchPropagate at h ⊢
  exact (foldlM_sim (fun (a : Bool × MatchState) => a.1) _
    (fun cur c => andRecursive rec2 c.1 c.2 cur)
    (fun a x a1 ha hm => andRecursive_sim hrec x.1 x.2 a a1 ha hm) _ _ _ h rfl).2

/-- One round of a branching loop leaves the results as they are or appends the result of
its own propagation from the live vectors. -/
theorem branchStep_res {rec : Recursor} {wheelgraph subgraph : NearTriangulation}
    {ex : List Nat} {dp : Bool} {ew es : Edge} {bv bv1 : BranchVars} {pairs : List (Nat × Nat)}
    (h : branchStep rec wheelgraph subgraph ex dp ew es bv pairs = .ok bv1) :
    bv1.res = bv.res
    ∨ ((∀ p ∈ pairs, match_degree wheelgraph subgraph ex p.1 p.2 dp = true)
      ∧ ∃ r, branchPropagate rec pairs ew es bv.occupied bv.located = .ok r
        ∧ bv1.res = bv.res ++ [update_res wheelgraph subgraph ex dp r.1 r.2]) := by
  unfold branchStep at h
  by_cases hany : pairs.any (fun p => !match_degree wheelgraph subgraph ex p.1 p.2 dp) = true
  · rw [if_pos hany] at h
    simp only [pure, Except.pure] at h
    cases h
    exact Or.inl rfl
  · rw [if_neg hany] at h
    have hp : ∀ p ∈ pairs, match_degree wheelgraph subgraph ex p.1 p.2 dp = true := by
      intro p hp
      rw [Bool.not_eq_true, List.any_eq_false] at hany
      have := hany p hp
      simpa using this
    cases hr : branchPropagate rec pairs ew es bv.occupied bv.located with
    | error e => rw [hr] at h; cases h
    | ok r =>
      rw [hr] at h
      simp only [bind, Except.bind, pure, Except.pure] at h
      cases h
      exact Or.inr ⟨hp, r, rfl, rfl⟩

/-- One round of a branching loop, when the copies equal the live vectors: the live vectors
stay what they were, and the results grow by at most the result of this round. -/
theorem branchStep_cases {rec : Recursor} {wheelgraph subgraph : NearTriangulation}
    {ex : List Nat} {dp : Bool} {ew es : Edge} {bv bv1 : BranchVars} {pairs : List (Nat × Nat)}
    (h : branchStep rec wheelgraph subgraph ex dp ew es bv pairs = .ok bv1)
    (ho : bv.occupied_tmp = bv.occupied) (hl : bv.located_tmp = bv.located) :
    bv1.occupied = bv.occupied ∧ bv1.located = bv.located
    ∧ (bv1.res = bv.res
      ∨ ((∀ p ∈ pairs, match_degree wheelgraph subgraph ex p.1 p.2 dp = true)
        ∧ ∃ r, branchPropagate rec pairs ew es bv.occupied bv.located = .ok r
          ∧ bv1.res = bv.res ++ [update_res wheelgraph subgraph ex dp r.1 r.2])) := by
  unfold branchStep at h
  by_cases hany : pairs.any (fun p => !match_degree wheelgraph subgraph ex p.1 p.2 dp) = true
  · rw [if_pos hany] at h
    simp only [pure, Except.pure] at h
    cases h
    exact ⟨rfl, rfl, Or.inl rfl⟩
  · rw [if_neg hany] at h
    have hp : ∀ p ∈ pairs, match_degree wheelgraph subgraph ex p.1 p.2 dp = true := by
      intro p hp
      rw [Bool.not_eq_true, List.any_eq_false] at hany
      have := hany p hp
      simpa using this
    cases hr : branchPropagate rec pairs ew es bv.occupied bv.located with
    | error e => rw [hr] at h; cases h
    | ok r =>
      rw [hr] at h
      simp only [bind, Except.bind, pure, Except.pure] at h
      cases h
      exact ⟨ho, hl, Or.inr ⟨hp, r, rfl, rfl⟩⟩

theorem update_res_yes_refine {wheelgraph wheel2 subgraph : NearTriangulation}
    {ex : List Nat} {dp dp2 : Bool}
    (href : DegreesRefine wheelgraph wheel2 subgraph ex dp dp2) {md : Bool} {st : MatchState}
    (hyes : (update_res wheelgraph subgraph ex dp md st).contain = Contain.Yes) :
    md = true ∧ (update_res wheel2 subgraph ex dp2 true st).contain = Contain.Yes := by
  refine ⟨update_res_md (by rw [hyes]; simp), update_res_contain_yes ?_⟩
  intro v hv
  have hu := update_res_yes hyes v hv
  unfold unsettled at hu ⊢
  by_cases hex : v ∈ ex
  · rw [if_pos hex]
  · rw [if_neg hex] at hu ⊢
    cases hs : slot st.located v with
    | none => rw [hs] at hu; cases hu
    | some vw =>
      rw [hs] at hu
      simp only [Bool.not_eq_false'] at hu
      simp [href.strict v vw hu]

/-- When the first run of `branchStep` adds a `Yes` result, the second run adds one too. -/
theorem branchStep_yes_sim {rec rec2 : Recursor}
    {wheelgraph wheel2 subgraph : NearTriangulation} {ex : List Nat} {dp dp2 : Bool}
    (href : DegreesRefine wheelgraph wheel2 subgraph ex dp dp2) (hrec : SimSpec rec rec2)
    {ew es : Edge} {pairs : List (Nat × Nat)} {occupied located : List (Option Nat)}
    {r : Bool × MatchState}
    (hp : ∀ p ∈ pairs, match_degree wheelgraph subgraph ex p.1 p.2 dp = true)
    (hr : branchPropagate rec pairs ew es occupied located = .ok r)
    (hyes : (update_res wheelgraph subgraph ex dp r.1 r.2).contain = Contain.Yes)
    {bv bv1 : BranchVars} (hbo : bv.occupied = occupied) (hbl : bv.located = located)
    (h2 : branchStep rec2 wheel2 subgraph ex dp2 ew es bv pairs = .ok bv1) :
    ∃ x ∈ bv1.res, x.contain = Contain.Yes := by
  obtain ⟨hmd, hyes2⟩ := update_res_yes_refine href hyes
  obtain ⟨b, st1⟩ := r
  simp only at hmd
  subst hmd
  have hr2 := branchPropagate_sim hrec pairs ew es occupied located st1 hr
  unfold branchStep at h2
  have hany : ¬ pairs.any (fun p => !match_degree wheel2 subgraph ex p.1 p.2 dp2) = true := by
    rw [Bool.not_eq_true, List.any_eq_false]
    intro p hpm
    simp [href.mono p.1 p.2 (hp p hpm)]
  rw [if_neg hany, hbo, hbl, hr2] at h2
  simp only [bind, Except.bind, pure, Except.pure] at h2
  cases h2
  exact ⟨update_res wheel2 subgraph ex dp2 true st1, by simp, hyes2⟩

theorem pinnedState_refine {wheelgraph wheel2 subgraph : NearTriangulation} {ex : List Nat}
    {dp dp2 : Bool} (href : DegreesRefine wheelgraph wheel2 subgraph ex dp dp2) (ew es : Edge) :
    pinnedState wheel2 subgraph ew es = pinnedState wheelgraph subgraph ew es := by
  unfold pinnedState
  rw [href.size]

theorem matchPinned_yes_sim {rec rec2 : Recursor}
    {wheelgraph wheel2 subgraph : NearTriangulation} {ex : List Nat} {dp dp2 : Bool}
    (href : DegreesRefine wheelgraph wheel2 subgraph ex dp dp2) (hrec : SimSpec rec rec2)
    (ew es : Edge) (rs rs2 : List ContainResult)
    (h : matchPinned rec wheelgraph subgraph ex dp ew es = .ok rs)
    (hyes : ∃ r ∈ rs, r.contain = Contain.Yes)
    (h2 : matchPinned rec2 wheel2 subgraph ex dp2 ew es = .ok rs2) :
    ∃ r ∈ rs2, r.contain = Contain.Yes := by
  unfold matchPinned at h h2
  rw [diagonalAt_refine href, pinnedState_refine href] at h2
  cases hdw : wheelgraph.diagonalAt ew with
  | none => rw [hdw] at h; cases h
  | some dw =>
    cases hds : subgraph.diagonalAt es with
    | none => rw [hdw, hds] at h; cases h
    | some ds =>
      rw [hdw, hds] at h h2
      simp only [] at h h2
      cases hc : branchCandidates dw ds with
      | some cands =>
        rw [hc] at h h2
        simp only [] at h h2
        have hlen := branchCandidates_length hc
        obtain ⟨c1, c2, rfl⟩ : ∃ c1 c2, cands = [c1, c2] := by
          match cands, hlen with
          | [c1, c2], _ => exact ⟨c1, c2, rfl⟩
        simp only [List.foldlM_cons, List.foldlM_nil, bind_assoc] at h h2
        cases ha : branchStep rec wheelgraph subgraph ex dp ew es
            { res := []
              occupied := (pinnedState wheelgraph subgraph ew es).occupied
              located := (pinnedState wheelgraph subgraph ew es).located
              occupied_tmp := (pinnedState wheelgraph subgraph ew es).occupied
              located_tmp := (pinnedState wheelgraph subgraph ew es).located } c1 with
        | error e => rw [ha] at h; cases h
        | ok b1 =>
          rw [ha] at h
          simp only [bind, Except.bind] at h
          cases hb : branchStep rec wheelgraph subgraph ex dp ew es b1 c2 with
          | error e => rw [hb] at h; cases h
          | ok b2 =>
            rw [hb] at h
            simp only [pure, Except.pure] at h
            cases h
            cases ha2 : branchStep rec2 wheel2 subgraph ex dp2 ew es
                { res := []
                  occupied := (pinnedState wheelgraph subgraph ew es).occupied
                  located := (pinnedState wheelgraph subgraph ew es).located
                  occupied_tmp := (pinnedState wheelgraph subgraph ew es).occupied
                  located_tmp := (pinnedState wheelgraph subgraph ew es).located } c1 with
            | error e => rw [ha2] at h2; cases h2
            | ok b1' =>
              rw [ha2] at h2
              simp only [bind, Except.bind] at h2
              cases hb2 : branchStep rec2 wheel2 subgraph ex dp2 ew es b1' c2 with
              | error e => rw [hb2] at h2; cases h2
              | ok b2' =>
                rw [hb2] at h2
                simp only [pure, Except.pure] at h2
                cases h2
                obtain ⟨l1, l2, hres1⟩ := branchStep_cases ha rfl rfl
                obtain ⟨l1', l2', hres1'⟩ := branchStep_cases ha2 rfl rfl
                have hres2 := branchStep_res hb
                have hres2' := branchStep_res hb2
                obtain ⟨r, hr, hry⟩ := hyes
                -- a `Yes` result of the first round
                have first : (∃ x ∈ b1.res, x.contain = Contain.Yes) →
                    ∃ x ∈ b2'.res, x.contain = Contain.Yes := by
                  rintro ⟨x, hx, hxy⟩
                  rcases hres1 with e | ⟨hp, r1, hr1, e⟩
                  · rw [e] at hx; cases hx
                  · rw [e] at hx
                    simp only [List.nil_append, List.mem_singleton] at hx
                    subst hx
                    obtain ⟨y, hy, hyy⟩ := branchStep_yes_sim href hrec hp hr1 hxy rfl rfl ha2
                    rcases hres2' with e2 | ⟨_, r2, _, e2⟩
                    · exact ⟨y, by rw [e2]; exact hy, hyy⟩
                    · exact ⟨y, by rw [e2]; exact List.mem_append_left _ hy, hyy⟩
                rcases hres2 with e | ⟨hp, r2, hr2, e⟩
                · rw [e] at hr
                  exact first ⟨r, hr, hry⟩
                · rw [e] at hr
                  rcases List.mem_append.1 hr with hr | hr
                  · exact first ⟨r, hr, hry⟩
                  · rw [List.mem_singleton] at hr
                    subst hr
                    rw [l1, l2] at hr2
                    exact branchStep_yes_sim href hrec hp hr2 hry l1' l2' hb2
      | none =>
        rw [hc] at h h2
        simp only [] at h h2
        by_cases hl : ds.length ≤ 2 ∧ dw.length ≤ 2
        · rw [if_pos hl] at h h2
          cases hr : rec ew es (pinnedState wheelgraph subgraph ew es) with
          | error e => rw [hr] at h; cases h
          | ok r =>
            rw [hr] at h
            simp only [bind, Except.bind, pure, Except.pure] at h
            cases h
            obtain ⟨x, hx, hxy⟩ := hyes
            rw [List.mem_singleton] at hx
            subst hx
            obtain ⟨hmd, hyes2⟩ := update_res_yes_refine href hxy
            obtain ⟨b, st1⟩ := r
            simp only at hmd
            subst hmd
            rw [hrec _ _ _ _ hr] at h2
            simp only [bind, Except.bind, pure, Except.pure] at h2
            cases h2
            exact ⟨_, by simp, hyes2⟩
        · rw [if_neg hl] at h
          cases h
/-- A `Yes` result of the matcher persists on a host with the same graph that accepts
more pairs. -/
theorem match_yes_sim {wheelgraph wheel2 subgraph : NearTriangulation} {ex : List Nat}
    {dp dp2 : Bool} (href : DegreesRefine wheelgraph wheel2 subgraph ex dp dp2)
    (edgeid_wheelgraph edgeid_subgraph : Nat) (rs rs2 : List ContainResult)
    (h : containSubgraphWithCorrespondingEdge wheelgraph subgraph edgeid_wheelgraph
      edgeid_subgraph ex dp = .ok rs)
    (hyes : ∃ r ∈ rs, r.contain = Contain.Yes)
    (h2 : containSubgraphWithCorrespondingEdge wheel2 subgraph edgeid_wheelgraph
      edgeid_subgraph ex dp2 = .ok rs2) :
    ∃ r ∈ rs2, r.contain = Contain.Yes := by
  unfold containSubgraphWithCorrespondingEdge containSubgraphFuel at h h2
  rw [← href.edges] at h2
  cases hew : wheelgraph.edges.get? edgeid_wheelgraph with
  | none => rw [hew] at h; cases h
  | some ew =>
    cases hes : subgraph.edges.get? edgeid_subgraph with
    | none => rw [hew, hes] at h; cases h
    | some es =>
      rw [hew, hes] at h h2
      simp only [] at h h2
      by_cases hpins : match_degree wheelgraph subgraph ex es.1 ew.1 dp = false
          ∨ match_degree wheelgraph subgraph ex es.2 ew.2 dp = false
      · rw [if_pos hpins] at h
        simp only [pure, Except.pure] at h
        cases h
        obtain ⟨r, hr, _⟩ := hyes
        cases hr
      · rw [if_neg hpins] at h
        have h1 : match_degree wheelgraph subgraph ex es.1 ew.1 dp = true := by
          cases hm : match_degree wheelgraph subgraph ex es.1 ew.1 dp with
          | true => rfl
          | false => exact absurd (Or.inl hm) hpins
        have h3 : match_degree wheelgraph subgraph ex es.2 ew.2 dp = true := by
          cases hm : match_degree wheelgraph subgraph ex es.2 ew.2 dp with
          | true => rfl
          | false => exact absurd (Or.inr hm) hpins
        have hpins2 : ¬ (match_degree wheel2 subgraph ex es.1 ew.1 dp2 = false
            ∨ match_degree wheel2 subgraph ex es.2 ew.2 dp2 = false) := by
          rw [href.mono _ _ h1, href.mono _ _ h3]
          simp
        rw [if_neg hpins2] at h2
        exact matchPinned_yes_sim href (set_edge_recursive_sim href _) ew es rs rs2 h hyes h2

/-! ## Setting a degree that was unset -/

theorem degreeAt_setDegree (nt : NearTriangulation) (v u : Nat) (d : Option Degree) :
    (nt.setDegree v d).degreeAt u
      = if v = u ∧ v < nt.degrees.length then d else nt.degreeAt u := by
  unfold NearTriangulation.setDegree NearTriangulation.degreeAt
  simp only []
  rw [List.getD_eq_getElem?_getD, List.getD_eq_getElem?_getD, List.getElem?_set]
  by_cases hvu : v = u
  · subst hvu
    by_cases hlt : v < nt.degrees.length
    · simp [hlt]
    · simp [hlt, List.getElem?_eq_none (not_lt.1 hlt)]
  · simp [hvu]

theorem setDegree_setDegree (nt : NearTriangulation) (v : Nat) (a b : Option Degree) :
    (nt.setDegree v a).setDegree v b = nt.setDegree v b := by
  unfold NearTriangulation.setDegree
  simp [List.set_set]

theorem setDegree_unset (nt : NearTriangulation) (v : Nat) (h : nt.degreeAt v = none) :
    nt.setDegree v none = nt := by
  unfold NearTriangulation.setDegree
  unfold NearTriangulation.degreeAt at h
  have : nt.degrees.set v none = nt.degrees := by
    apply List.ext_getElem?
    intro i
    rw [List.getElem?_set]
    by_cases hvi : v = i
    · subst hvi
      rw [List.getD_eq_getElem?_getD] at h
      by_cases hlt : v < nt.degrees.length
      · rw [if_pos rfl, if_pos hlt]
        rw [List.getElem?_eq_getElem hlt] at h ⊢
        simp only [Option.getD_some] at h
        rw [h]
      · rw [if_pos rfl, if_neg hlt, List.getElem?_eq_none (not_lt.1 hlt)]
    · rw [if_neg hvi]
  rw [this]

theorem wheelLikeWheel_lawful : LawfulWheelLike wheelLikeWheel :=
  { nearTriangulation_setDegree := fun _ _ _ => rfl
    setDegree_setDegree := fun w v a b => by
      show Wheel.setDegree (Wheel.setDegree w v a) v b = Wheel.setDegree w v b
      unfold Wheel.setDegree
      simp [setDegree_setDegree]
    setDegree_unset := fun w v h => by
      show Wheel.setDegree w v none = w
      unfold Wheel.setDegree
      have h2 : w.wheel.degreeAt v = none := h
      rw [setDegree_unset _ _ h2] }

theorem wheelLikeCartWheel_lawful : LawfulWheelLike wheelLikeCartWheel :=
  { nearTriangulation_setDegree := fun _ _ _ => rfl
    setDegree_setDegree := fun w v a b => by
      show CartWheel.setDegree (CartWheel.setDegree w v a) v b = CartWheel.setDegree w v b
      unfold CartWheel.setDegree
      simp [setDegree_setDegree]
    setDegree_unset := fun w v h => by
      show CartWheel.setDegree w v none = w
      unfold CartWheel.setDegree
      have h2 : w.cartwheel.degreeAt v = none := h
      rw [setDegree_unset _ _ h2] }

theorem isNearTriangulation_setDegree {nt : NearTriangulation} (h : IsNearTriangulation nt)
    (v : Nat) (d : Option Degree) : IsNearTriangulation (nt.setDegree v d) := by
  obtain ⟨n, VtoV, degs, hwf, hsimple, hc⟩ := h
  obtain ⟨rfl, hassert⟩ := construct_eq_some hc
  refine ⟨n, VtoV, degs.set v d, ⟨hwf.1, by rw [List.length_set]; exact hwf.2.1, hwf.2.2⟩,
    hsimple, ?_⟩
  unfold NearTriangulation.construct
  have hb : (NearTriangulation.build n VtoV (degs.set v d)).diagonalAssertion = true := hassert
  rw [if_pos hb]
  rfl

theorem isNearTriangulation_degrees_length {nt : NearTriangulation}
    (h : IsNearTriangulation nt) : nt.degrees.length = nt.vertex_size := by
  obtain ⟨n, VtoV, degs, hwf, _, hc⟩ := h
  obtain ⟨rfl, _⟩ := construct_eq_some hc
  exact hwf.2.1

theorem setDegree_refine {wheelgraph subgraph : NearTriangulation} (ex : List Nat) {v : Nat}
    (hv : wheelgraph.degreeAt v = none) (d : Option Degree) :
    DegreesRefine wheelgraph (wheelgraph.setDegree v d) subgraph ex false false := by
  have key : ∀ vs vw, match_degree wheelgraph subgraph ex vs vw false = true →
      match_degree (wheelgraph.setDegree v d) subgraph ex vs vw false = true := by
    intro vs vw h
    unfold match_degree at h ⊢
    by_cases hex : vs ∈ ex
    · rw [if_pos hex]
    · rw [if_neg hex] at h ⊢
      cases hs : subgraph.degreeAt vs with
      | none => rfl
      | some ds =>
        rw [hs] at h
        cases hw : wheelgraph.degreeAt vw with
        | none => rw [hw] at h; cases h
        | some dw =>
          rw [hw] at h
          have hne : ¬ (v = vw ∧ v < wheelgraph.degrees.length) := by
            rintro ⟨rfl, _⟩
            rw [hv] at hw
            cases hw
          rw [degreeAt_setDegree, if_neg hne, hw]
          exact h
  exact { size := rfl, edges := rfl, diagonals := rfl, mono := key, strict := key }

theorem containOneofConfs_total {wheelgraph : NearTriangulation}
    (hhost : IsNearTriangulation wheelgraph) {confs : List Configuration}
    (hconfs : CatalogOk confs) :
    ∃ b, containOneofConfsLoop wheelgraph confs = .ok b
      ∧ (b = true ↔ ∃ c, c ∈ confs ∧ ∃ e, e < wheelgraph.edges.length ∧ ∃ rs,
          containSubgraphWithCorrespondingEdge wheelgraph c.conf e c.inside_edge_id
            (ringVertices c) false = .ok rs
          ∧ ∃ r, r ∈ rs ∧ r.contain = Contain.Yes) := by
  refine containOneofConfs_spec confs ?_
  intro c hc e he
  obtain ⟨rs, hrs, _⟩ := match_total_of_lt hhost (hconfs c hc).1 e c.inside_edge_id he
    (hconfs c hc).2 (ringVertices c) false
  exact ⟨rs, hrs⟩

/-- A host that contains a configuration still contains it after one of its unset degrees
has been set. -/
theorem containOneofConfs_setDegree {wheelgraph : NearTriangulation}
    (hhost : IsNearTriangulation wheelgraph) {confs : List Configuration}
    (hconfs : CatalogOk confs) {v : Nat} (hv : wheelgraph.degreeAt v = none)
    (d : Option Degree) (h : containOneofConfsLoop wheelgraph confs = .ok true) :
    containOneofConfsLoop (wheelgraph.setDegree v d) confs = .ok true := by
  obtain ⟨b, hb, hiff⟩ := containOneofConfs_total hhost hconfs
  rw [h] at hb
  cases hb
  obtain ⟨c, hc, e, he, rs, hrs, hyes⟩ := hiff.1 rfl
  obtain ⟨b2, hb2, hiff2⟩ := containOneofConfs_total (isNearTriangulation_setDegree hhost v d) hconfs
  have he2 : e < (wheelgraph.setDegree v d).edges.length := he
  obtain ⟨rs2, hrs2, _⟩ := match_total_of_lt (isNearTriangulation_setDegree hhost v d) (hconfs c hc).1 e
    c.inside_edge_id he2 (hconfs c hc).2 (ringVertices c) false
  have hyes2 := match_yes_sim (setDegree_refine (ringVertices c) hv d) e c.inside_edge_id
    rs rs2 hrs hyes hrs2
  have : b2 = true := hiff2.2 ⟨c, hc, e, he2, rs2, hrs2, hyes2⟩
  rw [this] at hb2
  exact hb2

theorem unsetFrom_setDegree {nt : NearTriangulation} {v : Nat} (h : UnsetFrom nt v)
    (d : Option Degree) : UnsetFrom (nt.setDegree v d) (v + 1) := by
  intro u hu
  rw [degreeAt_setDegree, if_neg (by omega)]
  exact h u (by omega)

/-- Every way of completing a wheel that contains a configuration contains one. -/
theorem assignments_contain {W : Type} {ops : WheelLike W} (hops : LawfulWheelLike ops)
    {confs : List Configuration} (hconfs : CatalogOk confs) (possible_degrees : List Degree) :
    ∀ (count v : Nat) (w : W), IsNearTriangulation (ops.nearTriangulation w) →
      UnsetFrom (ops.nearTriangulation w) v →
      containOneofConfsLoop (ops.nearTriangulation w) confs = .ok true →
      ∀ c ∈ assignments ops possible_degrees count v w,
        containOneofConfsLoop (ops.nearTriangulation c) confs = .ok true := by
  intro count
  induction count with
  | zero =>
    intro v w _ _ h c hc
    unfold assignments at hc
    rw [List.mem_singleton.1 hc]
    exact h
  | succ count ih =>
    intro v w hnt hun h c hc
    unfold assignments at hc
    obtain ⟨d, _, hcd⟩ := List.mem_flatMap.1 hc
    refine ih (v + 1) (ops.setDegree w v (some d)) ?_ ?_ ?_ c hcd
    · rw [hops.nearTriangulation_setDegree]; exact isNearTriangulation_setDegree hnt v _
    · rw [hops.nearTriangulation_setDegree]; exact unsetFrom_setDegree hun _
    · rw [hops.nearTriangulation_setDegree]
      exact containOneofConfs_setDegree hnt hconfs (hun v (le_refl v)) _ h

theorem filter_free_eq_nil {W : Type} {ops : WheelLike W} {confs : List Configuration}
    {l : List W}
    (h : ∀ c ∈ l, containOneofConfsLoop (ops.nearTriangulation c) confs = .ok true) :
    l.filter (configurationFree ops confs) = [] := by
  rw [List.filter_eq_nil_iff]
  intro c hc
  unfold configurationFree
  intro hfree
  have h2 := ((containOneofConfs_eq_ok ops c confs false).1 (of_decide_eq_true hfree)).2
  rw [h c hc] at h2
  cases h2

theorem prints_eq_true {W : Type} {ops : WheelLike W} {w : W} (h : prints ops w = true) :
    ∃ str, ops.toString w = .ok str := by
  unfold prints at h
  cases hp : ops.toString w with
  | ok str => exact ⟨str, rfl⟩
  | error e => rw [hp] at h; cases h

theorem assignments_succ_subset {W : Type} (ops : WheelLike W) (possible_degrees : List Degree)
    (count v : Nat) (w x : W) (d : Degree) (hd : d ∈ possible_degrees)
    (hx : x ∈ assignments ops possible_degrees count (v + 1) (ops.setDegree w v (some d))) :
    x ∈ assignments ops possible_degrees (count + 1) v w := by
  show x ∈ possible_degrees.flatMap _
  exact List.mem_flatMap.2 ⟨d, hd, hx⟩

/-- The wheels that `set_degree_recursive` can come to print: every wheel made of `w` by
giving a candidate degree to each of the first `k` vertices from `v` on, for `k` up to
`count`. -/
theorem printed_of_child {W : Type} {ops : WheelLike W} {possible_degrees : List Degree}
    {count v : Nat} {w : W}
    (hprint : ∀ k, k ≤ count + 1 → ∀ x ∈ assignments ops possible_degrees k v w,
      prints ops x = true) (d : Degree) (hd : d ∈ possible_degrees) :
    ∀ k, k ≤ count → ∀ x ∈ assignments ops possible_degrees k (v + 1)
      (ops.setDegree w v (some d)), prints ops x = true := by
  intro k hk x hx
  exact hprint (k + 1) (by omega) x (assignments_succ_subset ops possible_degrees k v w x d hd hx)

theorem set_degree_recursive_exact {W : Type} {ops : WheelLike W} (hops : LawfulWheelLike ops)
    {confs : List Configuration} (hconfs : CatalogOk confs) (possible_degrees : List Degree)
    (vertex_size : Nat) :
    ∀ (count v : Nat) (temp : W) (acc : List W), v + count = vertex_size →
      IsNearTriangulation (ops.nearTriangulation temp) →
      UnsetFrom (ops.nearTriangulation temp) v →
      (∀ k, k ≤ count → ∀ x ∈ assignments ops possible_degrees k v temp,
        prints ops x = true) →
      set_degree_recursive ops possible_degrees confs vertex_size (count + 1) v (temp, acc)
        = .ok (temp, acc ++ (assignments ops possible_degrees count v temp).filter
            (configurationFree ops confs)) := by
  intro count
  induction count with
  | zero =>
    intro v temp acc hv hnt hun hprint
    have hvV : v = vertex_size := by omega
    obtain ⟨str, hstr⟩ := prints_eq_true (hprint 0 (le_refl _) temp (List.mem_singleton.2 rfl))
    have hco := containOneofConfs_of_print ops temp confs hstr
    obtain ⟨b, hb, _⟩ := containOneofConfs_total hnt hconfs
    have hP : ∃ p, (if v % 5 = 0 then containOneofConfsLoop (ops.nearTriangulation temp) confs
        else pure false) = .ok p ∧ (p = true → b = true) := by
      by_cases h5 : v % 5 = 0
      · rw [if_pos h5]; exact ⟨b, hb, id⟩
      · rw [if_neg h5]; exact ⟨false, rfl, by intro h; cases h⟩
    obtain ⟨p, hp, hpb⟩ := hP
    unfold set_degree_recursive
    rw [hco, hp]
    simp only [bind, Except.bind, assignments]
    cases p with
    | true =>
      have hbt := hpb rfl
      subst hbt
      simp [configurationFree, hco, hb, pure, Except.pure]
    | false =>
      simp only [Bool.false_eq_true, if_false, if_pos hvV, hb]
      cases b with
      | true => simp [configurationFree, hco, hb, pure, Except.pure]
      | false => simp [configurationFree, hco, hb, pure, Except.pure]
  | succ count ih =>
    intro v temp acc hv hnt hun hprint
    have hvV : v ≠ vertex_size := by omega
    obtain ⟨str, hstr⟩ := prints_eq_true (hprint 0 (Nat.zero_le _) temp
      (List.mem_singleton.2 rfl))
    have hco := containOneofConfs_of_print ops temp confs hstr
    obtain ⟨b, hb, _⟩ := containOneofConfs_total hnt hconfs
    have hP : ∃ p, (if v % 5 = 0 then containOneofConfsLoop (ops.nearTriangulation temp) confs
        else pure false) = .ok p ∧ (p = true → b = true) := by
      by_cases h5 : v % 5 = 0
      · rw [if_pos h5]; exact ⟨b, hb, id⟩
      · rw [if_neg h5]; exact ⟨false, rfl, by intro h; cases h⟩
    obtain ⟨p, hp, hpb⟩ := hP
    unfold set_degree_recursive
    rw [hco, hp]
    simp only [bind, Except.bind]
    cases p with
    | true =>
      have hbt := hpb rfl
      subst hbt
      rw [filter_free_eq_nil
        (assignments_contain hops hconfs possible_degrees (count + 1) v temp hnt hun hb)]
      simp [pure, Except.pure]
    | false =>
      simp only [Bool.false_eq_true, if_false, if_neg hvV]
      have hloop := Sat_foldlM (E := fun _ => False)
        (fun (cur : W × List W) degree =>
          set_degree_recursive ops possible_degrees confs vertex_size (count + 1) (v + 1)
            (ops.setDegree cur.1 v (some degree), cur.2))
        (fun rest cur =>
          (∀ d ∈ rest, d ∈ possible_degrees)
          ∧ (cur.1 = temp ∨ ∃ d, cur.1 = ops.setDegree temp v (some d))
          ∧ cur.2 ++ (rest.flatMap (fun degree =>
                assignments ops possible_degrees count (v + 1)
                  (ops.setDegree temp v (some degree)))).filter (configurationFree ops confs)
            = acc ++ (possible_degrees.flatMap (fun degree =>
                assignments ops possible_degrees count (v + 1)
                  (ops.setDegree temp v (some degree)))).filter (configurationFree ops confs))
        (by
          intro d rest cur hJ
          have hset : ops.setDegree cur.1 v (some d) = ops.setDegree temp v (some d) := by
            rcases hJ.2.1 with h | ⟨d1, h⟩
            · rw [h]
            · rw [h, hops.setDegree_setDegree]
          dsimp only []
          rw [hset]
          rw [ih (v + 1) (ops.setDegree temp v (some d)) cur.2 (by omega)
            (by rw [hops.nearTriangulation_setDegree]; exact isNearTriangulation_setDegree hnt v _)
            (by rw [hops.nearTriangulation_setDegree]; exact unsetFrom_setDegree hun _)
            (printed_of_child hprint d (hJ.1 d (List.mem_cons_self _ _)))]
          refine Sat_pure ⟨fun x hx => hJ.1 x (List.mem_cons_of_mem _ hx), Or.inr ⟨d, rfl⟩, ?_⟩
          rw [← hJ.2.2]
          simp [List.flatMap_cons, List.filter_append, List.append_assoc])
        possible_degrees (temp, acc) ⟨fun _ h => h, Or.inl rfl, rfl⟩
      obtain ⟨r, hr, hJ⟩ := Sat_ok_iff.1 hloop
      rw [hr]
      have h1 : ops.setDegree r.1 v none = temp := by
        rcases hJ.2.1 with h | ⟨d1, h⟩
        · rw [h]; exact hops.setDegree_unset temp v (hun v (le_refl v))
        · rw [h, hops.setDegree_setDegree]
          exact hops.setDegree_unset temp v (hun v (le_refl v))
      have h2 := hJ.2.2
      simp only [List.flatMap_nil, List.filter_nil, List.append_nil] at h2
      simp only [pure, Except.pure, h1, h2, assignments]

/-- C17 fails as stated: for the wheel with hub degree 5 whose rim vertices `1, 2, 3` have
degree 5 and whose rim vertices `4` and `5` have no degree yet, the candidate degrees 5 and
the degree from 6 to 8, and the empty catalog, `searchNoConfGraphs` emits nothing, although
the wheel with the degree 5 at `4` and at `5` is an assignment that contains no
configuration: the search ends abnormally when it prints an assignment that carries the
degree from 6 to 8, in the assertion of `Degree::toString`. -/
theorem C17_counterexample :
    searchNoConfGraphs wheelLikeWheel wheelOpenFive 4 [five, sixToEight] []
      = .error .assertFailed
    ∧ wheelClosedFive five five ∈ assignments wheelLikeWheel [five, sixToEight] 2 4 wheelOpenFive
    ∧ containOneofConfs wheelLikeWheel (wheelClosedFive five five) [] = .ok false := by
  decide!

/-- C17 as amended: for a wheel that is a near-triangulation and whose vertices
`index, ..., V - 1` have no degree yet (`index <= V`), candidate degrees with which `toString`
prints the wheel and every wheel made of it by giving candidate degrees to the vertices
`index, ..., index + k - 1`, and a catalog of configurations as their constructor makes
them, `searchNoConfGraphs` returns exactly the assignments of a candidate degree to each of
the vertices `index, ..., V - 1` on which `containOneofConfs` is false, each one once, in the
order of the search: the checks made on the input and at the vertices divisible by 5 discard
no such assignment. -/
theorem C17_searchNoConfGraphs_exact_on_printed_wheels {W : Type} (ops : WheelLike W)
    (hops : LawfulWheelLike ops) (wheelgraph : W) (index : Nat)
    (possible_degrees : List Degree) (confs : List Configuration)
    (hnt : IsNearTriangulation (ops.nearTriangulation wheelgraph)) (hconfs : CatalogOk confs)
    (hindex : index ≤ (ops.nearTriangulation wheelgraph).vertex_size)
    (hunset : ∀ v, index ≤ v → v < (ops.nearTriangulation wheelgraph).vertex_size →
      (ops.nearTriangulation wheelgraph).degreeAt v = none)
    (hprint : ∀ k, k ≤ (ops.nearTriangulation wheelgraph).vertex_size - index →
      ∀ w ∈ assignments ops possible_degrees k index wheelgraph, prints ops w = true) :
    searchNoConfGraphs ops wheelgraph index possible_degrees confs
      = .ok ((assignments ops possible_degrees
          ((ops.nearTriangulation wheelgraph).vertex_size - index) index wheelgraph).filter
          (configurationFree ops confs)) := by
  have hun : UnsetFrom (ops.nearTriangulation wheelgraph) index := by
    intro v hv
    by_cases hlt : v < (ops.nearTriangulation wheelgraph).vertex_size
    · exact hunset v hv hlt
    · unfold NearTriangulation.degreeAt
      rw [List.getD_eq_getElem?_getD, List.getElem?_eq_none (by rw [isNearTriangulation_degrees_length hnt]; omega)]
      rfl
  obtain ⟨str, hstr⟩ := prints_eq_true (hprint 0 (Nat.zero_le _) wheelgraph
    (List.mem_singleton.2 rfl))
  have hco := containOneofConfs_of_print ops wheelgraph confs hstr
  obtain ⟨b, hb, _⟩ := containOneofConfs_total hnt hconfs
  unfold searchNoConfGraphs
  rw [hco, hb]
  simp only [bind, Except.bind]
  cases b with
  | true =>
    rw [filter_free_eq_nil (assignments_contain hops hconfs possible_degrees _ index
      wheelgraph hnt hun hb)]
    rfl
  | false =>
    simp only [Bool.false_eq_true, if_false]
    have hfuel : (ops.nearTriangulation wheelgraph).vertex_size + 1 - index
        = ((ops.nearTriangulation wheelgraph).vertex_size - index) + 1 := by omega
    rw [hfuel, set_degree_recursive_exact hops hconfs possible_degrees _ _ index wheelgraph []
      (by omega) hnt hun hprint]
    simp [pure, Except.pure]

/-- C17 at the wheel with hub degree 5 whose rim vertices `1, 2, 3` have degree 5, the
degrees 5 and 7 being tried at the rim vertices `4` and `5` against the configuration of two
adjacent vertices of degree 7: of the four assignments, the three without two neighbours of
degree 7 are emitted. -/
theorem C17_witness :
    searchNoConfGraphs wheelLikeWheel wheelOpenFive 4 [five, seven] [edgeSevenConf]
      = .ok ((assignments wheelLikeWheel [five, seven]
          ((wheelLikeWheel.nearTriangulation wheelOpenFive).vertex_size - 4) 4
            wheelOpenFive).filter
          (configurationFree wheelLikeWheel [edgeSevenConf]))
    ∧ (assignments wheelLikeWheel [five, seven] 2 4 wheelOpenFive).filter
          (configurationFree wheelLikeWheel [edgeSevenConf])
      = [wheelClosedFive five five, wheelClosedFive five seven, wheelClosedFive seven five] :=
  ⟨C17_searchNoConfGraphs_exact_on_printed_wheels wheelLikeWheel wheelLikeWheel_lawful
      wheelOpenFive 4 [five, seven] [edgeSevenConf]
      ⟨6, wheel5VtoV, [some five, some five, some five, some five, none, none],
        by decide, by decide, by decide⟩
      (by
        intro c hc
        rw [List.mem_singleton.1 hc]
        exact ⟨edgeSeven_isNearTriangulation, by decide⟩)
      (by decide)
      (by
        intro v h1 h2
        have h3 : v < 6 := h2
        interval_cases v <;> rfl)
      (by decide!),
   by decide!⟩

/-! ## The matcher run on a graph against itself -/

theorem match_degree_self (nt : NearTriangulation) (ex : List Nat) (v : Nat) (dp : Bool) :
    match_degree nt nt ex v v dp = true := by
  unfold match_degree
  split
  · rfl
  · cases h : nt.degreeAt v with
    | none => rfl
    | some d => simp [Degree.include]

theorem idState_guard {st : MatchState} (h : IdState st) (v : Nat) : Guard st v v := by
  cases hl : slot st.located v with
  | none =>
    left
    refine ⟨hl, ?_⟩
    cases ho : slot st.occupied v with
    | none => rfl
    | some x =>
      exfalso
      have hx := h.occ v x ho
      subst hx
      rw [(h.both x).2 ho] at hl
      cases hl
  | some x =>
    right
    have hx := h.loc v x hl
    subst hx
    exact ⟨hl, (h.both x).1 hl⟩

theorem idState_correspond {nt : NearTriangulation} {st : MatchState} (h : IdState st)
    (hs : Sized nt nt st) (v : Nat) : IdState (correspond v v st) := by
  have e1 : ∀ u, slot (correspond v v st).located u
      = if v = u ∧ v < nt.vertex_size then some v else slot st.located u := by
    intro u; unfold correspond; simp only [slot_set, hs.2]
  have e2 : ∀ u, slot (correspond v v st).occupied u
      = if v = u ∧ v < nt.vertex_size then some v else slot st.occupied u := by
    intro u; unfold correspond; simp only [slot_set, hs.1]
  refine ⟨?_, ?_, ?_⟩
  · intro u x hx
    rw [e1] at hx
    by_cases hc : v = u ∧ v < nt.vertex_size
    · rw [if_pos hc] at hx; cases hx; exact hc.1
    · rw [if_neg hc] at hx; exact h.loc u x hx
  · intro u x hx
    rw [e2] at hx
    by_cases hc : v = u ∧ v < nt.vertex_size
    · rw [if_pos hc] at hx; cases hx; exact hc.1
    · rw [if_neg hc] at hx; exact h.occ u x hx
  · intro u
    rw [e1, e2]
    by_cases hc : v = u ∧ v < nt.vertex_size
    · rw [if_pos hc, if_pos hc, hc.1]
    · rw [if_neg hc, if_neg hc]; exact h.both u

theorem matched_mono {st st1 : MatchState} {v : Nat} (h : Matched st v) (hext : Extends st st1) :
    Matched st1 v :=
  hext.2.1 v v h

theorem matched_correspond {nt : NearTriangulation} {st : MatchState} (hs : Sized nt nt st)
    {v : Nat} (hv : v < nt.vertex_size) : Matched (correspond v v st) v :=
  (correspond_slots st hs hv hv).1

theorem closed_mono_vectors {nt : NearTriangulation} {stack : List Edge} {st st1 : MatchState}
    (h : Closed nt stack st) (hext : Extends st st1) (hv : st1.visited = st.visited) :
    Closed nt stack st1 := by
  intro e he
  rw [hv] at he
  obtain ⟨h1, h2, h3, h4⟩ := h e he
  refine ⟨h1, matched_mono h2 hext, matched_mono h3 hext, ?_⟩
  intro hns d x hd hx
  obtain ⟨a, b, c⟩ := h4 hns d x hd hx
  rw [hv]
  exact ⟨matched_mono a hext, b, c⟩

theorem closed_push {nt : NearTriangulation} {stack : List Edge} {st : MatchState} {e : Edge}
    (h : Closed nt stack st) (hmem : e ∈ nt.edges) (h1 : Matched st e.1)
    (h2 : Matched st e.2) :
    Closed nt (e :: stack) { st with visited := e :: st.visited } := by
  intro e1 he1
  rcases List.mem_cons.1 he1 with rfl | he1
  · exact ⟨hmem, h1, h2, fun hn => absurd (List.mem_cons_self _ _) hn⟩
  · obtain ⟨a, b, c, d⟩ := h e1 he1
    refine ⟨a, b, c, ?_⟩
    intro hns dd x hd hx
    obtain ⟨p, q, r⟩ := d (fun hc => hns (List.mem_cons_of_mem _ hc)) dd x hd hx
    exact ⟨p, List.mem_cons_of_mem _ q, List.mem_cons_of_mem _ r⟩

theorem closed_pop {nt : NearTriangulation} {stack : List Edge} {st : MatchState} {e : Edge}
    (h : Closed nt (e :: stack) st)
    (he : ∀ d x, nt.diagonalAt e = some d → x ∈ d →
      Matched st x ∧ (e.1, x) ∈ st.visited ∧ (e.2, x) ∈ st.visited) :
    Closed nt stack st := by
  intro e1 he1
  obtain ⟨a, b, c, d⟩ := h e1 he1
  refine ⟨a, b, c, ?_⟩
  intro hns dd x hd hx
  by_cases heq : e1 = e
  · subst heq; exact he dd x hd hx
  · exact d (fun hc => by
      rcases List.mem_cons.1 hc with h1 | h1
      · exact heq h1
      · exact hns h1) dd x hd hx

theorem idState_visited {st : MatchState} (h : IdState st) (v : List Edge) :
    IdState { st with visited := v } :=
  ⟨h.loc, h.occ, h.both⟩

theorem idState_empty (nt : NearTriangulation) : IdState (emptyState nt nt) := by
  refine ⟨?_, ?_, ?_⟩
  · intro v x hx
    unfold emptyState at hx
    rw [slot_replicate_none] at hx
    cases hx
  · intro v x hx
    unfold emptyState at hx
    rw [slot_replicate_none] at hx
    cases hx
  · intro v
    unfold emptyState
    simp only [slot_replicate_none]

theorem innerStep_id_skip {rec : Recursor} {nt : NearTriangulation} {ex : List Nat} {dp : Bool}
    {e : Edge} {vs vw : Nat} {acc : InnerVars} (hid : IdState acc.st) (hne : vw ≠ vs)
    (hm : Matched acc.st vw ∨ Matched acc.st vs) :
    innerStep rec nt nt ex dp e e vs acc vw = pure acc := by
  unfold innerStep
  rw [if_pos]
  rcases hm with hm | hm
  · have ho := (hid.both vw).1 hm
    refine ⟨?_, ?_⟩
    · rintro ⟨_, h2⟩
      rw [ho] at h2
      cases h2
    · rintro ⟨_, h2⟩
      rw [ho] at h2
      cases h2
      exact hne rfl
  · unfold Matched at hm
    refine ⟨?_, ?_⟩
    · rintro ⟨h1, _⟩
      rw [hm] at h1
      cases h1
    · rintro ⟨h1, _⟩
      rw [hm] at h1
      cases h1
      exact hne rfl

theorem innerStep_id_skip_all {rec : Recursor} {nt : NearTriangulation} {ex : List Nat}
    {dp : Bool} {e : Edge} {vs : Nat} {acc : InnerVars} (hid : IdState acc.st) :
    ∀ (l : List Nat), (∀ vw ∈ l, vw ≠ vs ∧ (Matched acc.st vw ∨ Matched acc.st vs)) →
      l.foldlM (innerStep rec nt nt ex dp e e vs) acc = pure acc := by
  intro l
  induction l with
  | nil => intro _; rfl
  | cons vw l ih =>
    intro h
    rw [List.foldlM_cons,
      innerStep_id_skip hid (h vw (List.mem_cons_self _ _)).1 (h vw (List.mem_cons_self _ _)).2,
      pure_bind]
    exact ih (fun x hx => h x (List.mem_cons_of_mem _ hx))

theorem diagDone_mono {e : Edge} {st st1 : MatchState} {x : Nat} (h : DiagDone e st x)
    (hext : Extends st st1) : DiagDone e st1 x :=
  ⟨matched_mono h.1 hext, hext.2.2 h.2.1, hext.2.2 h.2.2⟩

theorem idLoop_trans {nt : NearTriangulation} {stack : List Edge} {st0 st st1 : MatchState}
    (h0 : Extends st0 st) (h : IdLoop nt stack st st1) : IdLoop nt stack st0 st1 :=
  ⟨h.sized, h.id, Extends_trans h0 h.ext, h.closed⟩

theorem andRecursive_id {rec : Recursor} {nt : NearTriangulation} (hrec : IdSpec nt rec)
    (stack : List Edge) (e : Edge) (cur : Bool × MatchState) (hmd : cur.1 = true)
    (hpre : IdPre nt stack e cur.2) :
    Sat (IdPost nt stack e cur.2) (fun _ => True) (andRecursive rec e e cur) := by
  unfold andRecursive
  rw [if_pos hmd]
  exact hrec stack e cur.2 hpre

theorem innerStep_id_match {rec : Recursor} {nt : NearTriangulation} {ex : List Nat}
    {dp : Bool} (hrec : IdSpec nt rec) (T : Triangulated nt) {stack : List Edge} {e : Edge}
    {d : List Nat} {vs : Nat} {acc : InnerVars} (hd : nt.diagonalAt e = some d) (hvs : vs ∈ d)
    (hmd : acc.match_deg = true) (hs : Sized nt nt acc.st) (hid : IdState acc.st)
    (hcl : Closed nt stack acc.st) (h1 : Matched acc.st e.1) (h2 : Matched acc.st e.2) :
    Sat (fun (r : InnerVars) => r.match_deg = true ∧ IdLoop nt stack acc.st r.st
        ∧ DiagDone e r.st vs) (fun _ => True)
      (innerStep rec nt nt ex dp e e vs acc vs) := by
  obtain ⟨he1, he2⟩ := (T.diag_iff e.1 e.2 d hd vs).1 hvs
  have hlt : vs < nt.vertex_size := (T.edge_lt _ _ he1).2
  have hg : Guard acc.st vs vs := idState_guard hid vs
  have hext : Extends acc.st (correspond vs vs acc.st) := correspond_extends hg
  unfold innerStep
  rw [if_neg (fun hc => by
    rcases hg with hg | hg
    · exact hc.1 hg
    · exact hc.2 hg)]
  dsimp only []
  rw [if_neg (by rw [match_degree_self]; exact Bool.noConfusion)]
  refine Sat_bind (andRecursive_id hrec stack (e.1, vs)
    (acc.match_deg, correspond vs vs acc.st) hmd
    ⟨correspond_sized vs vs hs, idState_correspond hid hs vs,
      closed_mono_vectors hcl hext rfl, he1, matched_mono h1 hext,
      matched_correspond hs hlt⟩) ?_
  rintro r1 ⟨hr1, hs1, hid1, hext1, hcl1, hv1⟩
  have hx1 : Extends acc.st r1.2 := Extends_trans hext hext1
  refine Sat_bind (andRecursive_id hrec stack (e.2, vs) r1 hr1
    ⟨hs1, hid1, hcl1, he2, matched_mono h2 hx1,
      matched_mono (matched_correspond hs hlt) hext1⟩) ?_
  rintro r2 ⟨hr2, hs2, hid2, hext2, hcl2, hv2⟩
  exact Sat_pure ⟨hr2, ⟨hs2, hid2, Extends_trans hx1 hext2, hcl2⟩,
    matched_mono (matched_correspond hs hlt) (Extends_trans hext1 hext2), hext2.2.2 hv1, hv2⟩

theorem innerLoop_id {rec : Recursor} {nt : NearTriangulation} {ex : List Nat}
    {dp : Bool} (hrec : IdSpec nt rec) (T : Triangulated nt) {stack : List Edge} {e : Edge}
    {d : List Nat} {vs : Nat} (acc : InnerVars) (hd : nt.diagonalAt e = some d)
    (pre post : List Nat) (hdeq : d = pre ++ vs :: post) (hpre : ∀ x ∈ pre, Matched acc.st x)
    (hmd : acc.match_deg = true) (hs : Sized nt nt acc.st) (hid : IdState acc.st)
    (hcl : Closed nt stack acc.st) (h1 : Matched acc.st e.1) (h2 : Matched acc.st e.2) :
    Sat (fun (r : InnerVars) => r.match_deg = true ∧ IdLoop nt stack acc.st r.st
        ∧ DiagDone e r.st vs) (fun _ => True)
      (d.foldlM (innerStep rec nt nt ex dp e e vs) acc) := by
  have hnd : (pre ++ vs :: post).Nodup := hdeq ▸ T.diag_nodup e d hd
  have hvs : vs ∈ d := by rw [hdeq]; simp
  have hnpre : ∀ x ∈ pre, x ≠ vs := by
    intro x hx hc
    subst hc
    exact (List.nodup_append.1 hnd).2.2 hx (List.mem_cons_self _ _)
  have hnpost : ∀ x ∈ post, x ≠ vs := by
    intro x hx hc
    subst hc
    exact (List.nodup_cons.1 (List.nodup_append.1 hnd).2.1).1 hx
  rw [hdeq, List.foldlM_append,
    innerStep_id_skip_all hid pre (fun x hx => ⟨hnpre x hx, Or.inl (hpre x hx)⟩), pure_bind,
    List.foldlM_cons]
  refine Sat_bind (innerStep_id_match hrec T hd hvs hmd hs hid hcl h1 h2) ?_
  rintro r ⟨hr, hl, hdone⟩
  rw [innerStep_id_skip_all hl.id post (fun x hx => ⟨hnpost x hx, Or.inr hdone.1⟩)]
  exact Sat_pure ⟨hr, hl, hdone⟩

theorem outerStep_id {rec : Recursor} {nt : NearTriangulation} {ex : List Nat}
    {dp : Bool} (hrec : IdSpec nt rec) (T : Triangulated nt) {stack : List Edge} {e : Edge}
    {d : List Nat} {vs : Nat} {acc : OuterVars} (hd : nt.diagonalAt e = some d)
    (pre post : List Nat) (hdeq : d = pre ++ vs :: post) (hpre : ∀ x ∈ pre, Matched acc.st x)
    (hmd : acc.match_deg = true) (hs : Sized nt nt acc.st) (hid : IdState acc.st)
    (hcl : Closed nt stack acc.st) (h1 : Matched acc.st e.1) (h2 : Matched acc.st e.2) :
    Sat (fun (r : OuterVars) => r.match_deg = true ∧ IdLoop nt stack acc.st r.st
        ∧ DiagDone e r.st vs) (fun _ => True)
      (outerStep rec nt nt ex dp e e d acc vs) := by
  unfold outerStep
  refine Sat_bind (innerLoop_id hrec T
    { match_deg := acc.match_deg, new_match_case := acc.new_match_case, vs_match_case := 0,
      st := acc.st } hd pre post hdeq hpre hmd hs hid hcl h1 h2) ?_
  intro r hr
  split
  · exact Sat_pure hr
  · exact trivial

theorem outerLoop_id {rec : Recursor} {nt : NearTriangulation} {ex : List Nat}
    {dp : Bool} (hrec : IdSpec nt rec) (T : Triangulated nt) (stack : List Edge) {e : Edge}
    {d : List Nat} (hd : nt.diagonalAt e = some d) (st0 : MatchState) (acc : OuterVars)
    (hmd : acc.match_deg = true) (hl : IdLoop nt stack st0 acc.st)
    (h1 : Matched st0 e.1) (h2 : Matched st0 e.2) :
    Sat (fun (r : OuterVars) => r.match_deg = true ∧ IdLoop nt stack st0 r.st
        ∧ ∀ x ∈ d, DiagDone e r.st x) (fun _ => True)
      (d.foldlM (outerStep rec nt nt ex dp e e d) acc) := by
  refine Sat_mono (Sat_foldlM (E := fun _ => True) (outerStep rec nt nt ex dp e e d)
    (fun rest (r : OuterVars) => ∃ pre, d = pre ++ rest ∧ r.match_deg = true
      ∧ IdLoop nt stack st0 r.st ∧ ∀ x ∈ pre, DiagDone e r.st x) ?_ d acc
    ⟨[], rfl, hmd, hl, fun x hx => by cases hx⟩) ?_ (fun _ h => h)
  · rintro vs rest r ⟨pre, hdeq, hr, hlr, hdone⟩
    refine Sat_mono (outerStep_id hrec T hd pre rest hdeq (fun x hx => (hdone x hx).1) hr
      hlr.sized hlr.id hlr.closed (matched_mono h1 hlr.ext) (matched_mono h2 hlr.ext)) ?_
      (fun _ h => h)
    rintro r1 ⟨hr1, hl1, hd1⟩
    refine ⟨pre ++ [vs], by rw [hdeq, List.append_assoc]; rfl, hr1, idLoop_trans hlr.ext hl1,
      ?_⟩
    intro x hx
    rcases List.mem_append.1 hx with hx | hx
    · exact diagDone_mono (hdone x hx) hl1.ext
    · rw [List.mem_singleton] at hx
      subst hx
      exact hd1
  · rintro r ⟨pre, hdeq, hr, hlr, hdone⟩
    rw [List.append_nil] at hdeq
    subst hdeq
    exact ⟨hr, hlr, hdone⟩

theorem setEdgeBody_id {rec : Recursor} {nt : NearTriangulation} {ex : List Nat}
    {dp : Bool} (hrec : IdSpec nt rec) (T : Triangulated nt) (stack : List Edge) (e : Edge)
    (st : MatchState) (hpre : IdPre nt stack e st) :
    Sat (IdPost nt stack e st) (fun _ => True) (setEdgeBody rec nt nt ex dp e e st) := by
  unfold setEdgeBody
  by_cases hv : e ∈ st.visited
  · rw [if_pos hv]
    exact Sat_pure ⟨rfl, hpre.sized, hpre.id, Extends_refl st, hpre.closed, hv⟩
  · rw [if_neg hv]
    obtain ⟨d, hd⟩ := T.defined e hpre.mem
    rw [hd]
    dsimp only []
    have hext : Extends st { st with visited := e :: st.visited } :=
      ⟨fun _ _ h => h, fun _ _ h => h, List.subset_cons_self _ _⟩
    refine Sat_bind (outerLoop_id hrec T (e :: stack) hd
      { st with visited := e :: st.visited }
      { match_deg := true, new_match_case := 0, st := { st with visited := e :: st.visited } }
      rfl ⟨hpre.sized, idState_visited hpre.id _, Extends_refl _,
        closed_push hpre.closed hpre.mem hpre.m1 hpre.m2⟩ hpre.m1 hpre.m2) ?_
    rintro r ⟨hr, hl, hdone⟩
    split
    · refine Sat_pure ⟨hr, hl.sized, hl.id, Extends_trans hext hl.ext, ?_, ?_⟩
      · refine closed_pop hl.closed ?_
        intro d1 x hd1 hx
        rw [hd] at hd1
        cases hd1
        exact hdone x hx
      · exact hl.ext.2.2 (List.mem_cons_self _ _)
    · exact trivial

theorem set_edge_recursive_id {nt : NearTriangulation} (T : Triangulated nt) (ex : List Nat)
    (dp : Bool) : ∀ fuel, IdSpec nt (set_edge_recursive nt nt ex dp fuel) := by
  intro fuel
  induction fuel with
  | zero => intro _ _ _ _; exact trivial
  | succ fuel ih =>
    intro stack e st hpre
    exact setEdgeBody_id ih T stack e st hpre

theorem pinnedState_idPre {nt : NearTriangulation} (T : Triangulated nt) {e0 : Edge}
    (he0 : e0 ∈ nt.edges) : IdPre nt [] e0 (pinnedState nt nt e0 e0) := by
  have hlt := T.edge_lt e0.1 e0.2 he0
  have hs0 := emptyState_sized nt nt
  have hid0 := idState_empty nt
  have hs1 : Sized nt nt (correspond e0.1 e0.1 (emptyState nt nt)) :=
    correspond_sized e0.1 e0.1 hs0
  have hid1 := idState_correspond hid0 hs0 e0.1
  have hid2 := idState_correspond hid1 hs1 e0.2
  rw [pinnedState_eq]
  refine ⟨correspond_sized _ _ hs1, hid2, ?_, he0, ?_, ?_⟩
  · intro e he
    exact absurd he (List.not_mem_nil _)
  · exact matched_mono (matched_correspond hs0 hlt.1)
      (correspond_extends (idState_guard hid1 e0.2))
  · exact matched_correspond hs1 hlt.2

theorem reach_visited {nt : NearTriangulation} {st : MatchState} (hcl : Closed nt [] st)
    {e0 : Edge} (h0 : nt.edges.get? 0 = some e0) (hv : e0 ∈ st.visited) :
    ∀ e, TriReach nt e → e ∈ st.visited := by
  intro e he
  induction he with
  | first e h =>
    rw [h0] at h
    cases h
    exact hv
  | left e d x _ hd hx ih =>
    exact ((hcl e ih).2.2.2 (List.not_mem_nil _) d x hd hx).2.1
  | right e d x _ hd hx ih =>
    exact ((hcl e ih).2.2.2 (List.not_mem_nil _) d x hd hx).2.2

theorem all_matched {nt : NearTriangulation} {st : MatchState} (hc : TriConnected nt)
    (hcl : Closed nt [] st) {e0 : Edge} (h0 : nt.edges.get? 0 = some e0)
    (hv : e0 ∈ st.visited) : ∀ v, v < nt.vertex_size → Matched st v := by
  intro v hlt
  obtain ⟨e, hr, he⟩ := hc.2 v hlt
  have h := hcl e (reach_visited hcl h0 hv e hr)
  rcases he with rfl | rfl
  · exact h.2.1
  · exact h.2.2.1

theorem update_res_id_yes {nt : NearTriangulation} {ex : List Nat} {dp : Bool}
    {st : MatchState} (h : ∀ v, v < nt.vertex_size → Matched st v) :
    (update_res nt nt ex dp true st).contain = Contain.Yes := by
  apply update_res_contain_yes
  intro v hv
  unfold unsettled
  split
  · rfl
  · rw [show slot st.located v = some v from h v hv]
    simp [match_degree_self]

theorem calls_id {rec : Recursor} {nt : NearTriangulation} (hrec : IdSpec nt rec) :
    ∀ (calls : List Edge) (cur : Bool × MatchState), cur.1 = true → Sized nt nt cur.2 →
      IdState cur.2 → Closed nt [] cur.2 →
      (∀ c ∈ calls, c ∈ nt.edges ∧ Matched cur.2 c.1 ∧ Matched cur.2 c.2) →
      Sat (fun r => r.1 = true ∧ Sized nt nt r.2 ∧ IdState r.2 ∧ Extends cur.2 r.2
          ∧ Closed nt [] r.2 ∧ ∀ c ∈ calls, c ∈ r.2.visited) (fun _ => True)
        ((calls.map (fun c => (c, c))).foldlM (fun cur c => andRecursive rec c.1 c.2 cur)
          cur) := by
  intro calls
  induction calls with
  | nil =>
    intro cur hmd hs hid hcl _
    exact Sat_pure ⟨hmd, hs, hid, Extends_refl _, hcl, fun c hc => absurd hc (List.not_mem_nil _)⟩
  | cons c calls ih =>
    intro cur hmd hs hid hcl hc
    rw [List.map_cons, List.foldlM_cons]
    obtain ⟨hm, h1, h2⟩ := hc c (List.mem_cons_self _ _)
    refine Sat_bind (andRecursive_id hrec [] c cur hmd ⟨hs, hid, hcl, hm, h1, h2⟩) ?_
    rintro r1 ⟨hr1, hs1, hid1, hext1, hcl1, hv1⟩
    refine Sat_mono (ih r1 hr1 hs1 hid1 hcl1 (fun x hx => ?_)) ?_ (fun _ h => h)
    · obtain ⟨a, b, c⟩ := hc x (List.mem_cons_of_mem _ hx)
      exact ⟨a, matched_mono b hext1, matched_mono c hext1⟩
    · rintro r ⟨hr, hs2, hid2, hext2, hcl2, hv2⟩
      refine ⟨hr, hs2, hid2, Extends_trans hext1 hext2, hcl2, ?_⟩
      intro x hx
      rcases List.mem_cons.1 hx with rfl | hx
      · exact hext2.2.2 hv1
      · exact hv2 x hx

theorem branchPropagate_id {rec : Recursor} {nt : NearTriangulation} (hrec : IdSpec nt rec)
    (T : Triangulated nt) {e0 : Edge} {d : List Nat} {a b : Nat} (he0 : e0 ∈ nt.edges)
    (hd : nt.diagonalAt e0 = some d) (ha : a ∈ d) (hb : b ∈ d) :
    Sat (fun r => r.1 = true ∧ Closed nt [] r.2 ∧ e0 ∈ r.2.visited) (fun _ => True)
      (branchPropagate rec [(a, a), (b, b)] e0 e0 (pinnedState nt nt e0 e0).occupied
        (pinnedState nt nt e0 e0).located) := by
  obtain ⟨hs, hid, hcl, _, h1, h2⟩ := pinnedState_idPre T he0
  obtain ⟨ha1, ha2⟩ := (T.diag_iff e0.1 e0.2 d hd a).1 ha
  obtain ⟨hb1, hb2⟩ := (T.diag_iff e0.1 e0.2 d hd b).1 hb
  have hsa : Sized nt nt (correspond a a (pinnedState nt nt e0 e0)) := correspond_sized a a hs
  have hida := idState_correspond hid hs a
  have hidb := idState_correspond hida hsa b
  have hxa : Extends (pinnedState nt nt e0 e0) (correspond a a (pinnedState nt nt e0 e0)) :=
    correspond_extends (idState_guard hid a)
  have hxb : Extends (correspond a a (pinnedState nt nt e0 e0))
      (correspond b b (correspond a a (pinnedState nt nt e0 e0))) :=
    correspond_extends (idState_guard hida b)
  have hma := matched_mono (matched_correspond hs (T.edge_lt _ _ ha1).2) hxb
  have hmb := matched_correspond hsa (T.edge_lt _ _ hb1).2
  have hm1 := matched_mono (matched_mono h1 hxa) hxb
  have hm2 := matched_mono (matched_mono h2 hxa) hxb
  have hcl2 : Closed nt [] (correspond b b (correspond a a (pinnedState nt nt e0 e0))) :=
    closed_mono_vectors (closed_mono_vectors hcl hxa rfl) hxb rfl
  have hcalls := calls_id hrec [(e0.1, a), (e0.2, a), (e0.1, b), (e0.2, b)]
    (true, correspond b b (correspond a a (pinnedState nt nt e0 e0))) rfl
    (correspond_sized b b hsa) hidb hcl2 (by
      intro c hc
      simp only [List.mem_cons, List.mem_singleton, List.not_mem_nil, or_false] at hc
      rcases hc with rfl | rfl | rfl | rfl
      · exact ⟨ha1, hm1, hma⟩
      · exact ⟨ha2, hm2, hma⟩
      · exact ⟨hb1, hm1, hmb⟩
      · exact ⟨hb2, hm2, hmb⟩)
  refine Sat_mono hcalls ?_ (fun _ h => h)
  rintro r ⟨hr, _, _, _, hclr, hv⟩
  refine ⟨hr, hclr, ?_⟩
  have hva := hv (e0.1, a) (List.mem_cons_self _ _)
  obtain ⟨d1, hd1⟩ := T.defined (e0.1, a) ha1
  have hx : e0.2 ∈ d1 :=
    (T.diag_iff e0.1 a d1 hd1 e0.2).2 ⟨he0, T.edge_symm _ _ ha2⟩
  exact ((hclr (e0.1, a) hva).2.2.2 (List.not_mem_nil _) d1 e0.2 hd1 hx).2.1

theorem branchStep_keeps_yes {rec : Recursor} {wheelgraph subgraph : NearTriangulation}
    {ex : List Nat} {dp : Bool} {ew es : Edge} {bv : BranchVars} {pairs : List (Nat × Nat)}
    (h : ∃ r ∈ bv.res, r.contain = Contain.Yes) :
    Sat (fun (bv1 : BranchVars) => ∃ r ∈ bv1.res, r.contain = Contain.Yes) (fun _ => True)
      (branchStep rec wheelgraph subgraph ex dp ew es bv pairs) := by
  cases hb : branchStep rec wheelgraph subgraph ex dp ew es bv pairs with
  | error e => exact trivial
  | ok bv1 =>
    obtain ⟨r, hr, hy⟩ := h
    rcases branchStep_res hb with e | ⟨_, r1, _, e⟩
    · exact ⟨r, by rw [e]; exact hr, hy⟩
    · exact ⟨r, by rw [e]; exact List.mem_append_left _ hr, hy⟩

theorem matchPinned_id {rec : Recursor} {nt : NearTriangulation} {ex : List Nat} {dp : Bool}
    (hrec : IdSpec nt rec) (T : Triangulated nt) (hc : TriConnected nt) {e0 : Edge}
    (h0 : nt.edges.get? 0 = some e0) :
    Sat (fun rs => ∃ r ∈ rs, r.contain = Contain.Yes) (fun _ => True)
      (matchPinned rec nt nt ex dp e0 e0) := by
  have he0 : e0 ∈ nt.edges := List.get?_mem h0
  obtain ⟨d, hd⟩ := T.defined e0 he0
  have single : Sat (fun rs => ∃ r ∈ rs, r.contain = Contain.Yes) (fun _ => True)
      (do
        let r ← rec e0 e0 (pinnedState nt nt e0 e0)
        pure [update_res nt nt ex dp r.1 r.2]) := by
    refine Sat_bind (hrec [] e0 _ (pinnedState_idPre T he0)) ?_
    rintro ⟨md, st⟩ ⟨hr, _, _, _, hcl, hv⟩
    simp only at hr
    subst hr
    exact Sat_pure ⟨_, List.mem_singleton_self _, update_res_id_yes (all_matched hc hcl h0 hv)⟩
  unfold matchPinned
  rw [hd]
  dsimp only []
  rcases d with _ | ⟨a, _ | ⟨b, _ | ⟨c, rest⟩⟩⟩
  · simp only [branchCandidates]
    rw [if_pos (by simp)]
    exact single
  · simp only [branchCandidates]
    rw [if_pos (by simp)]
    exact single
  · simp only [branchCandidates, List.foldlM_cons, List.foldlM_nil]
    refine Sat_bind (P := fun (bv : BranchVars) => ∃ r ∈ bv.res, r.contain = Contain.Yes)
      (Sat_bind (P := fun (bv : BranchVars) => ∃ r ∈ bv.res, r.contain = Contain.Yes) ?_
        (fun bv hbv => Sat_bind (branchStep_keeps_yes hbv) (fun bv1 h1 => Sat_pure h1))) ?_
    · unfold branchStep
      rw [if_neg (by simp [match_degree_self])]
      refine Sat_bind (branchPropagate_id hrec T he0 hd (List.mem_cons_self _ _)
        (List.mem_cons_of_mem _ (List.mem_cons_self _ _))) ?_
      rintro ⟨md, st⟩ ⟨hr, hcl, hv⟩
      simp only at hr
      subst hr
      exact Sat_pure ⟨update_res nt nt ex dp true st, by simp,
        update_res_id_yes (all_matched hc hcl h0 hv)⟩
    · intro bv hbv
      exact Sat_pure hbv
  · exact absurd (T.diag_le_two e0 _ hd) (by simp)

theorem match_self_yes {nt : NearTriangulation} (hnt : IsNearTriangulation nt)
    (hc : TriConnected nt) (ex : List Nat) (dp : Bool) :
    ∃ rs, containSubgraphWithCorrespondingEdge nt nt 0 0 ex dp = .ok rs
      ∧ ∃ r ∈ rs, r.contain = Contain.Yes := by
  have hlen : 0 < nt.edges.length := List.length_pos.2 hc.1
  obtain ⟨rs, hrs, _⟩ := match_total_of_lt hnt hnt 0 0 hlen hlen ex dp
  refine ⟨rs, hrs, ?_⟩
  obtain ⟨e0, h0⟩ := get?_of_lt hlen
  have T := hnt.triangulated
  have hsat : Sat (fun rs => ∃ r ∈ rs, r.contain = Contain.Yes) (fun _ => True)
      (containSubgraphWithCorrespondingEdge nt nt 0 0 ex dp) := by
    unfold containSubgraphWithCorrespondingEdge containSubgraphFuel
    rw [h0]
    dsimp only []
    rw [if_neg (by simp [match_degree_self])]
    exact matchPinned_id (set_edge_recursive_id T ex dp _) T hc h0
  rw [hrs] at hsat
  exact hsat

theorem numOf_self_pos {nt : NearTriangulation} (hnt : IsNearTriangulation nt)
    (hc : TriConnected nt) :
    ∃ n, numOfSubgraphWithCorrespondingEdge nt nt 0 0 [] = .ok n ∧ 0 < n := by
  obtain ⟨rs, hrs, r, hr, hy⟩ := match_self_yes hnt hc [] false
  refine ⟨rs.countP (fun res => decide (res.contain = Contain.Yes)), ?_, ?_⟩
  · unfold numOfSubgraphWithCorrespondingEdge
    rw [hrs]
    rfl
  · exact List.countP_pos_iff.2 ⟨r, hr, by simpa using hy⟩

theorem isIsomorphic_self {nt : NearTriangulation} (hnt : IsNearTriangulation nt)
    (hc : TriConnected nt) : isIsomorphic nt nt = .ok true := by
  obtain ⟨n, hn, hpos⟩ := numOf_self_pos hnt hc
  obtain ⟨k, hk⟩ : ∃ k, nt.edges.length = k + 1 :=
    ⟨nt.edges.length - 1, by have := List.length_pos.2 hc.1; omega⟩
  unfold isIsomorphic
  rw [hk, List.range_succ_eq_map]
  unfold isIsomorphicLoop
  rw [hn]
  simp only [bind, Except.bind]
  rw [if_pos hpos, if_pos hpos]
  rfl

/-! ## The evaluated test for connection through triangles -/

theorem mem_foldl_addNew (l acc : List Edge) (x : Edge) (h : x ∈ l.foldl addNew acc) :
    x ∈ acc ∨ x ∈ l := by
  induction l generalizing acc with
  | nil => exact Or.inl h
  | cons e l ih =>
    rw [List.foldl_cons] at h
    rcases ih _ h with h1 | h1
    · unfold addNew at h1
      split at h1
      · exact Or.inl h1
      · rcases List.mem_append.1 h1 with h2 | h2
        · exact Or.inl h2
        · rw [List.mem_singleton] at h2
          subst h2
          exact Or.inr (List.mem_cons_self _ _)
    · exact Or.inr (List.mem_cons_of_mem _ h1)

theorem triReached_sound (nt : NearTriangulation) :
    ∀ k e, e ∈ triReached nt k → TriReach nt e := by
  intro k
  induction k with
  | zero =>
    intro e he
    unfold triReached at he
    cases h0 : nt.edges.get? 0 with
    | none => rw [h0] at he; cases he
    | some e0 =>
      rw [h0] at he
      simp only [Option.toList, List.mem_singleton] at he
      subst he
      exact TriReach.first e h0
  | succ k ih =>
    intro e he
    unfold triReached triStep at he
    rcases mem_foldl_addNew _ _ _ he with h | h
    · exact ih e h
    · rw [List.mem_flatMap] at h
      obtain ⟨e1, he1, h⟩ := h
      cases hd : nt.diagonalAt e1 with
      | none => rw [hd] at h; cases h
      | some d =>
        rw [hd] at h
        simp only [List.mem_flatMap, List.mem_cons, List.mem_singleton, List.not_mem_nil,
          or_false] at h
        obtain ⟨x, hx, rfl | rfl⟩ := h
        · exact TriReach.left e1 d x (ih e1 he1) hd hx
        · exact TriReach.right e1 d x (ih e1 he1) hd hx

theorem triConnected_of_within {nt : NearTriangulation} (k : Nat)
    (h : triConnectedWithin nt k = true) : TriConnected nt := by
  unfold triConnectedWithin at h
  rw [Bool.and_eq_true] at h
  refine ⟨?_, ?_⟩
  · intro hc
    rw [hc] at h
    simp at h
  · intro v hv
    have := List.all_eq_true.1 h.2 v (List.mem_range.2 hv)
    rw [List.any_eq_true] at this
    obtain ⟨e, he, hev⟩ := this
    refine ⟨e, triReached_sound nt k e he, ?_⟩
    simpa using hev

/-- C13: `isIsomorphic` is reflexive. For every near-triangulation `w` that the constructor
builds from a simple graph and whose vertices are all reached from its first edge by going
across triangles, `isIsomorphic(w, w)` returns true, whatever degrees are set or unset on the
vertices of `w`. The wheels and the cartwheels are graphs of this kind; for the wheels of
every hub degree from 2 on this is `wheel_isIsomorphic_self`. -/
theorem C13_isIsomorphic_reflexive (w : NearTriangulation) (hw : IsNearTriangulation w)
    (hc : TriConnected w) : isIsomorphic w w = .ok true :=
  isIsomorphic_self hw hc

/-- C13 at the cartwheel of the wheel with hub degree 5 and rim degrees 5, whose second
neighbours have no degree. -/
theorem C13_witness :
    IsNearTriangulation cart5.cartwheel ∧ TriConnected cart5.cartwheel
      ∧ isIsomorphic cart5.cartwheel cart5.cartwheel = .ok true :=
  have hw : IsNearTriangulation cart5.cartwheel :=
    ⟨11, cart5VtoV, cart5Degrees, by decide!, by decide!, by decide!⟩
  have hc : TriConnected cart5.cartwheel := triConnected_of_within 4 (by decide!)
  ⟨hw, hc, C13_isIsomorphic_reflexive cart5.cartwheel hw hc⟩

/-! ## The graphs of the wheels -/

theorem mem_setInsert (x y : Nat) (s : List Nat) : y ∈ setInsert x s ↔ y = x ∨ y ∈ s := by
  induction s with
  | nil => simp [setInsert]
  | cons z s ih =>
    unfold setInsert
    split
    · simp
    · split
      · rename_i h
        subst h
        simp
      · rw [List.mem_cons, ih, List.mem_cons]
        tauto

theorem setInsert_sorted (x : Nat) (s : List Nat) (h : s.Sorted (fun a b => a < b)) :
    (setInsert x s).Sorted (fun a b => a < b) := by
  induction s with
  | nil => simp [setInsert]
  | cons z s ih =>
    rw [List.sorted_cons] at h
    unfold setInsert
    split
    · rename_i hlt
      rw [List.sorted_cons]
      refine ⟨?_, List.sorted_cons.2 h⟩
      intro b hb
      rcases List.mem_cons.1 hb with rfl | hb
      · exact hlt
      · exact lt_trans hlt (h.1 b hb)
    · split
      · exact List.sorted_cons.2 h
      · rename_i h1 h2
        rw [List.sorted_cons]
        refine ⟨?_, ih h.2⟩
        intro b hb
        rcases (mem_setInsert x b s).1 hb with rfl | hb
        · omega
        · exact h.1 b hb

theorem adjacent_set (VtoV : List (List Nat)) (i j : Nat) (l : List Nat) :
    adjacent (VtoV.set i l) j = if i = j ∧ i < VtoV.length then l else adjacent VtoV j := by
  unfold adjacent
  rw [List.getD_eq_getElem?_getD, List.getD_eq_getElem?_getD, List.getElem?_set]
  by_cases hij : i = j
  · subst hij
    by_cases hlt : i < VtoV.length
    · simp [hlt]
    · simp [hlt, List.getElem?_eq_none (not_lt.1 hlt)]
  · simp [hij]

theorem adjacent_mem_or_nil (VtoV : List (List Nat)) (v : Nat) :
    adjacent VtoV v ∈ VtoV ∨ adjacent VtoV v = [] := by
  unfold adjacent
  rw [List.getD_eq_getElem?_getD]
  cases h : VtoV[v]? with
  | none => right; rfl
  | some l => left; exact List.getElem?_mem h

theorem length_insertNeighbor (VtoV : List (List Nat)) (v u : Nat) :
    (insertNeighbor VtoV v u).length = VtoV.length := by
  unfold insertNeighbor
  rw [List.length_set]

theorem mem_adjacent_insertNeighbor (VtoV : List (List Nat)) (v u w x : Nat) :
    x ∈ adjacent (insertNeighbor VtoV v u) w
      ↔ x ∈ adjacent VtoV w ∨ (v = w ∧ v < VtoV.length ∧ x = u) := by
  unfold insertNeighbor
  rw [adjacent_set]
  by_cases h : v = w ∧ v < VtoV.length
  · rw [if_pos h, mem_setInsert]
    obtain ⟨rfl, hlt⟩ := h
    tauto
  · rw [if_neg h]
    tauto

theorem rowsSorted_insertNeighbor {VtoV : List (List Nat)} (h : RowsSorted VtoV) (v u : Nat) :
    RowsSorted (insertNeighbor VtoV v u) := by
  intro l hl
  unfold insertNeighbor at hl
  rcases List.mem_or_eq_of_mem_set hl with hl | rfl
  · exact h l hl
  · apply setInsert_sorted
    rcases adjacent_mem_or_nil VtoV v with hm | hm
    · exact h _ hm
    · rw [hm]; exact List.sorted_nil

theorem length_wheelStep (d : Nat) (VtoV : List (List Nat)) (v : Nat) :
    (wheelStep d VtoV v).length = VtoV.length := by
  unfold wheelStep
  simp only [length_insertNeighbor]

theorem rowsSorted_wheelStep (d : Nat) {VtoV : List (List Nat)} (h : RowsSorted VtoV)
    (v : Nat) : RowsSorted (wheelStep d VtoV v) := by
  unfold wheelStep
  exact rowsSorted_insertNeighbor (rowsSorted_insertNeighbor (rowsSorted_insertNeighbor
    (rowsSorted_insertNeighbor h _ _) _ _) _ _) _ _

theorem mem_adjacent_wheelStep (d : Nat) (VtoV : List (List Nat)) (v w x : Nat)
    (hlen : VtoV.length = d + 1) (h1 : 1 ≤ v) (hd : v ≤ d) :
    x ∈ adjacent (wheelStep d VtoV v) w
      ↔ x ∈ adjacent VtoV w
        ∨ (w = v ∧ x = (if v = d then 1 else v + 1))
        ∨ (w = (if v = d then 1 else v + 1) ∧ x = v) ∨ (w = 0 ∧ x = v) ∨ (w = v ∧ x = 0) := by
  unfold wheelStep
  simp only [mem_adjacent_insertNeighbor, length_insertNeighbor, hlen]
  have hu : (if v = d then 1 else v + 1) < d + 1 := by split <;> omega
  constructor
  · rintro ((((h | ⟨rfl, _, rfl⟩) | ⟨rfl, _, rfl⟩) | ⟨rfl, _, rfl⟩) | ⟨rfl, _, rfl⟩)
    · exact Or.inl h
    · exact Or.inr (Or.inl ⟨rfl, rfl⟩)
    · exact Or.inr (Or.inr (Or.inl ⟨rfl, rfl⟩))
    · exact Or.inr (Or.inr (Or.inr (Or.inl ⟨rfl, rfl⟩)))
    · exact Or.inr (Or.inr (Or.inr (Or.inr ⟨rfl, rfl⟩)))
  · rintro (h | ⟨rfl, rfl⟩ | ⟨rfl, rfl⟩ | ⟨rfl, rfl⟩ | ⟨rfl, rfl⟩)
    · exact Or.inl (Or.inl (Or.inl (Or.inl h)))
    · exact Or.inl (Or.inl (Or.inl (Or.inr ⟨rfl, by omega, rfl⟩)))
    · exact Or.inl (Or.inl (Or.inr ⟨rfl, hu, rfl⟩))
    · exact Or.inl (Or.inr ⟨rfl, by omega, rfl⟩)
    · exact Or.inr ⟨rfl, by omega, rfl⟩

theorem foldl_wheelStep (d : Nat) :
    ∀ (l : List Nat) (VtoV : List (List Nat)), VtoV.length = d + 1 → RowsSorted VtoV →
      (∀ v ∈ l, 1 ≤ v ∧ v ≤ d) →
      (l.foldl (wheelStep d) VtoV).length = d + 1
      ∧ RowsSorted (l.foldl (wheelStep d) VtoV)
      ∧ ∀ w x, x ∈ adjacent (l.foldl (wheelStep d) VtoV) w
          ↔ x ∈ adjacent VtoV w
            ∨ ∃ v ∈ l, (w = v ∧ x = (if v = d then 1 else v + 1))
              ∨ (w = (if v = d then 1 else v + 1) ∧ x = v) ∨ (w = 0 ∧ x = v)
              ∨ (w = v ∧ x = 0) := by
  intro l
  induction l with
  | nil =>
    intro VtoV hlen hs _
    exact ⟨hlen, hs, fun w x => by simp⟩
  | cons v l ih =>
    intro VtoV hlen hs hl
    rw [List.foldl_cons]
    obtain ⟨hv1, hvd⟩ := hl v (List.mem_cons_self _ _)
    obtain ⟨a, b, c⟩ := ih (wheelStep d VtoV v) (by rw [length_wheelStep, hlen])
      (rowsSorted_wheelStep d hs v) (fun u hu => hl u (List.mem_cons_of_mem _ hu))
    refine ⟨a, b, ?_⟩
    intro w x
    rw [c, mem_adjacent_wheelStep d VtoV v w x hlen hv1 hvd]
    constructor
    · rintro ((h | h) | ⟨u, hu, h⟩)
      · exact Or.inl h
      · exact Or.inr ⟨v, List.mem_cons_self _ _, h⟩
      · exact Or.inr ⟨u, List.mem_cons_of_mem _ hu, h⟩
    · rintro (h | ⟨u, hu, h⟩)
      · exact Or.inl (Or.inl h)
      · rcases List.mem_cons.1 hu with rfl | hu
        · exact Or.inl (Or.inr h)
        · exact Or.inr ⟨u, hu, h⟩

theorem adjacent_replicate_nil (n v : Nat) : adjacent (List.replicate n []) v = [] := by
  unfold adjacent
  rw [List.getD_eq_getElem?_getD]
  by_cases h : v < n
  · simp [List.getElem?_replicate, h]
  · simp [List.getElem?_replicate, h]

theorem wheelVtoV_spec (d : Nat) :
    (wheelVtoV d).length = d + 1 ∧ RowsSorted (wheelVtoV d)
    ∧ ∀ w x, x ∈ adjacent (wheelVtoV d) w ↔ WheelAdj d w x := by
  obtain ⟨a, b, c⟩ := foldl_wheelStep d (List.range' 1 d) (List.replicate (d + 1) [])
    (by simp) (by intro l hl; rw [List.eq_of_mem_replicate hl]; exact List.sorted_nil)
    (by intro v hv; rw [List.mem_range'_1] at hv; omega)
  refine ⟨a, b, ?_⟩
  intro w x
  unfold wheelVtoV
  rw [c, adjacent_replicate_nil]
  unfold WheelAdj
  simp only [List.not_mem_nil, false_or, List.mem_range'_1]
  constructor
  · rintro ⟨v, hv, h⟩
    by_cases hvd : v = d
    · simp only [hvd, if_true] at h
      omega
    · simp only [hvd, if_false] at h
      omega
  · intro h
    rcases h with ⟨rfl, h1, h2⟩ | ⟨rfl, h1, h2⟩ | ⟨h1, h2, h3, h4, h5⟩
    · exact ⟨x, by omega, Or.inr (Or.inr (Or.inl ⟨rfl, rfl⟩))⟩
    · exact ⟨w, by omega, Or.inr (Or.inr (Or.inr ⟨rfl, rfl⟩))⟩
    · rcases h5 with h5 | h5 | h5 | h5
      · refine ⟨w, by omega, Or.inl ⟨rfl, ?_⟩⟩
        rw [if_neg (by omega)]; exact h5
      · refine ⟨x, by omega, Or.inr (Or.inl ⟨?_, rfl⟩)⟩
        rw [if_neg (by omega)]; exact h5
      · refine ⟨w, by omega, Or.inl ⟨rfl, ?_⟩⟩
        rw [if_pos h5.1]; exact h5.2
      · refine ⟨x, by omega, Or.inr (Or.inl ⟨?_, rfl⟩)⟩
        rw [if_pos h5.1]; exact h5.2

theorem wheel_wellFormed (d : Nat) (degrees : List (Option Degree))
    (hl : degrees.length = d + 1) : WellFormed (d + 1) (wheelVtoV d) degrees := by
  obtain ⟨a, b, c⟩ := wheelVtoV_spec d
  refine ⟨a, hl, b, ?_⟩
  intro l hmem u hu
  obtain ⟨i, hi, rfl⟩ := List.getElem_of_mem hmem
  have key : (wheelVtoV d)[i] = adjacent (wheelVtoV d) i := by
    unfold adjacent
    rw [List.getD_eq_getElem?_getD, List.getElem?_eq_getElem hi]
    rfl
  rw [key, c] at hu
  unfold WheelAdj at hu
  omega

theorem wheel_simple (d : Nat) (h2 : 2 ≤ d) : Simple (wheelVtoV d) := by
  obtain ⟨a, b, c⟩ := wheelVtoV_spec d
  refine ⟨?_, ?_⟩
  · intro v _ hv
    rw [c] at hv
    unfold WheelAdj at hv
    omega
  · intro v _ u hu
    rw [c] at hu ⊢
    unfold WheelAdj at hu ⊢
    omega

theorem wheel_common (d a b : Nat) (h2 : 2 ≤ d) (hab : WheelAdj d a b) :
    ∃ p q, ∀ x, WheelAdj d a x → WheelAdj d b x → x = p ∨ x = q := by
  unfold WheelAdj at hab ⊢
  rcases hab with ⟨rfl, h1, h2⟩ | ⟨rfl, h1, h2⟩ | ⟨h1, h2, h3, h4, h5⟩
  · by_cases hbd : b = d
    · by_cases hb1 : b = 1
      · exact ⟨1, d, fun x ha hb => by omega⟩
      · exact ⟨1, b - 1, fun x ha hb => by omega⟩
    · by_cases hb1 : b = 1
      · exact ⟨b + 1, d, fun x ha hb => by omega⟩
      · exact ⟨b + 1, b - 1, fun x ha hb => by omega⟩
  · by_cases hbd : a = d
    · by_cases hb1 : a = 1
      · exact ⟨1, d, fun x ha hb => by omega⟩
      · exact ⟨1, a - 1, fun x ha hb => by omega⟩
    · by_cases hb1 : a = 1
      · exact ⟨a + 1, d, fun x ha hb => by omega⟩
      · exact ⟨a + 1, a - 1, fun x ha hb => by omega⟩
  · exact ⟨0, 6 - a - b, fun x ha hb => by omega⟩

theorem wheel_diagonal_le_two (d a b : Nat) (h2 : 2 ≤ d) (hab : WheelAdj d a b) :
    (constructDiagonal (wheelVtoV d) (a, b)).length ≤ 2 := by
  obtain ⟨_, hs, c⟩ := wheelVtoV_spec d
  have hnd : (constructDiagonal (wheelVtoV d) (a, b)).Nodup := by
    unfold constructDiagonal
    apply List.Nodup.filter
    rcases adjacent_mem_or_nil (wheelVtoV d) a with hm | hm
    · exact (hs _ hm).nodup
    · rw [hm]; exact List.nodup_nil
  obtain ⟨p, q, key⟩ := wheel_common d a b h2 hab
  have hsub : constructDiagonal (wheelVtoV d) (a, b) ⊆ [p, q] := by
    intro x hx
    rw [mem_constructDiagonal, c, c] at hx
    rcases key x hx.1 hx.2 with rfl | rfl <;> simp
  exact (List.subperm_of_subset hnd hsub).length_le

theorem wheel_construct (d : Nat) (degrees : List (Option Degree)) (h2 : 2 ≤ d) :
    NearTriangulation.construct (d + 1) (wheelVtoV d) degrees
      = some (NearTriangulation.build (d + 1) (wheelVtoV d) degrees) := by
  obtain ⟨_, _, c⟩ := wheelVtoV_spec d
  unfold NearTriangulation.construct
  rw [if_pos]
  unfold NearTriangulation.diagonalAssertion NearTriangulation.build
  rw [List.all_eq_true]
  intro p hp
  simp only [List.mem_map] at hp
  obtain ⟨⟨a, b⟩, he, rfl⟩ := hp
  rw [mem_constructEdges, c] at he
  simpa using wheel_diagonal_le_two d a b h2 he.2

theorem wheel_isNearTriangulation (d : Nat) (degrees : List (Option Degree)) (h2 : 2 ≤ d)
    (hl : degrees.length = d + 1) :
    IsNearTriangulation (NearTriangulation.build (d + 1) (wheelVtoV d) degrees) :=
  ⟨d + 1, wheelVtoV d, degrees, wheel_wellFormed d degrees hl, wheel_simple d h2,
    wheel_construct d degrees h2⟩

theorem wheel_mem_edges (d : Nat) (degrees : List (Option Degree)) (a b : Nat) :
    (a, b) ∈ (NearTriangulation.build (d + 1) (wheelVtoV d) degrees).edges
      ↔ WheelAdj d a b := by
  obtain ⟨_, _, c⟩ := wheelVtoV_spec d
  show (a, b) ∈ constructEdges (d + 1) (wheelVtoV d) ↔ _
  rw [mem_constructEdges, c]
  unfold WheelAdj
  omega

theorem triReach_step {nt : NearTriangulation} (T : Triangulated nt) {a b x : Nat}
    (hr : TriReach nt (a, b)) (he : (a, b) ∈ nt.edges) (h1 : (a, x) ∈ nt.edges)
    (h2 : (b, x) ∈ nt.edges) : TriReach nt (a, x) ∧ TriReach nt (b, x) := by
  obtain ⟨d, hd⟩ := T.defined (a, b) he
  have hx : x ∈ d := (T.diag_iff a b d hd x).2 ⟨h1, h2⟩
  exact ⟨TriReach.left (a, b) d x hr hd hx, TriReach.right (a, b) d x hr hd hx⟩

theorem wheel_triConnected (d : Nat) (degrees : List (Option Degree)) (h2 : 2 ≤ d)
    (hl : degrees.length = d + 1) :
    TriConnected (NearTriangulation.build (d + 1) (wheelVtoV d) degrees) := by
  have T := (wheel_isNearTriangulation d degrees h2 hl).triangulated
  have hE := wheel_mem_edges d degrees
  have h01 : (0, 1) ∈ (NearTriangulation.build (d + 1) (wheelVtoV d) degrees).edges := by
    rw [hE]; unfold WheelAdj; omega
  have hne : (NearTriangulation.build (d + 1) (wheelVtoV d) degrees).edges ≠ [] :=
    List.ne_nil_of_mem h01
  refine ⟨hne, ?_⟩
  obtain ⟨⟨a, b⟩, h0⟩ := get?_of_lt (List.length_pos.2 hne)
  have hr0 := TriReach.first (a, b) h0
  have he0 := List.get?_mem h0
  have hab := (hE a b).1 he0
  have step : ∀ a b x, TriReach (NearTriangulation.build (d + 1) (wheelVtoV d) degrees) (a, b) →
      WheelAdj d a b → WheelAdj d a x → WheelAdj d b x →
      TriReach (NearTriangulation.build (d + 1) (wheelVtoV d) degrees) (a, x)
      ∧ TriReach (NearTriangulation.build (d + 1) (wheelVtoV d) degrees) (b, x) :=
    fun a b x hr h1 h2 h3 => triReach_step T hr ((hE a b).2 h1) ((hE a x).2 h2) ((hE b x).2 h3)
  -- a spoke is reached
  have spoke : ∃ k, 1 ≤ k ∧ k ≤ d
      ∧ TriReach (NearTriangulation.build (d + 1) (wheelVtoV d) degrees) (0, k) := by
    have fromRim : ∀ r, 1 ≤ r → r ≤ d →
        TriReach (NearTriangulation.build (d + 1) (wheelVtoV d) degrees) (r, 0) →
        ∃ k, 1 ≤ k ∧ k ≤ d
          ∧ TriReach (NearTriangulation.build (d + 1) (wheelVtoV d) degrees) (0, k) := by
      intro r hr1 hr2 hr
      by_cases hrd : r = d
      · exact ⟨1, by omega, by omega, (step r 0 1 hr (by unfold WheelAdj; omega)
          (by unfold WheelAdj; omega) (by unfold WheelAdj; omega)).2⟩
      · exact ⟨r + 1, by omega, by omega, (step r 0 (r + 1) hr (by unfold WheelAdj; omega)
          (by unfold WheelAdj; omega) (by unfold WheelAdj; omega)).2⟩
    have hab2 := hab
    unfold WheelAdj at hab2
    rcases hab2 with ⟨rfl, h1, h3⟩ | ⟨rfl, h1, h3⟩ | ⟨h1, h3, h4, h5, _⟩
    · exact ⟨b, h1, h3, hr0⟩
    · exact fromRim a h1 h3 hr0
    · exact fromRim b h4 h5 (step a b 0 hr0 hab (by unfold WheelAdj; omega)
        (by unfold WheelAdj; omega)).2
  have up : ∀ j, 1 ≤ j → j < d →
      TriReach (NearTriangulation.build (d + 1) (wheelVtoV d) degrees) (0, j) →
      TriReach (NearTriangulation.build (d + 1) (wheelVtoV d) degrees) (0, j + 1) :=
    fun j h1 h3 hr => (step 0 j (j + 1) hr (by unfold WheelAdj; omega)
      (by unfold WheelAdj; omega) (by unfold WheelAdj; omega)).1
  have climb : ∀ j, 1 ≤ j →
      TriReach (NearTriangulation.build (d + 1) (wheelVtoV d) degrees) (0, j) →
      ∀ m, j + m ≤ d →
        TriReach (NearTriangulation.build (d + 1) (wheelVtoV d) degrees) (0, j + m) := by
    intro j h1 hr m
    induction m with
    | zero => intro _; exact hr
    | succ m ih =>
      intro hm
      exact up (j + m) (by omega) (by omega) (ih (by omega))
  obtain ⟨k, hk1, hk2, hrk⟩ := spoke
  have hrd : TriReach (NearTriangulation.build (d + 1) (wheelVtoV d) degrees) (0, d) := by
    have := climb k hk1 hrk (d - k) (by omega)
    rwa [show k + (d - k) = d by omega] at this
  have hr1 : TriReach (NearTriangulation.build (d + 1) (wheelVtoV d) degrees) (0, 1) :=
    (step 0 d 1 hrd (by unfold WheelAdj; omega) (by unfold WheelAdj; omega)
      (by unfold WheelAdj; omega)).1
  intro v hv
  have hv2 : v ≤ d := by
    have : (NearTriangulation.build (d + 1) (wheelVtoV d) degrees).vertex_size = d + 1 := rfl
    omega
  by_cases hv0 : v = 0
  · exact ⟨(0, k), hrk, Or.inl hv0.symm⟩
  · have := climb 1 (le_refl 1) hr1 (v - 1) (by omega)
    rw [show 1 + (v - 1) = v by omega] at this
    exact ⟨(0, v), this, Or.inr rfl⟩

/-- The graph that `Wheel::fromHubDegree` and `Wheel::readWheelFile` build for the hub
degree `d`, with any degrees set or unset on its vertices, is isomorphic to itself. -/
theorem wheel_isIsomorphic_self (d : Nat) (degrees : List (Option Degree)) (h2 : 2 ≤ d)
    (hl : degrees.length = d + 1) :
    ∃ nt, NearTriangulation.construct (d + 1) (wheelVtoV d) degrees = some nt
      ∧ IsNearTriangulation nt ∧ TriConnected nt ∧ isIsomorphic nt nt = .ok true :=
  ⟨_, wheel_construct d degrees h2, wheel_isNearTriangulation d degrees h2 hl,
    wheel_triConnected d degrees h2 hl,
    isIsomorphic_self (wheel_isNearTriangulation d degrees h2 hl)
      (wheel_triConnected d degrees h2 hl)⟩

theorem fromHubDegree_isIsomorphic_self (d : Nat) (h2 : 2 ≤ d) :
    ∃ w, Wheel.fromHubDegree d = some w ∧ isIsomorphic w.wheel w.wheel = .ok true := by
  obtain ⟨nt, h, _, _, hiso⟩ := wheel_isIsomorphic_self d
    ((List.replicate (d + 1) none).set 0 (some { lower_deg := d, upper_deg := d })) h2
    (by simp)
  refine ⟨{ wheel := nt }, ?_, hiso⟩
  unfold Wheel.fromHubDegree
  rw [h]
  rfl

/-! ## makeUnique: a member is not isomorphic to an earlier one -/

theorem addWheel_true {W : Type} {ops : WheelLike W} {wheel : W} :
    ∀ (acc : List W), addWheel ops wheel acc = .ok true →
      ∀ u ∈ acc, isIsomorphic (ops.nearTriangulation wheel) (ops.nearTriangulation u)
        = .ok false := by
  intro acc
  induction acc with
  | nil => intro _ u hu; cases hu
  | cons x acc ih =>
    intro h u hu
    unfold addWheel at h
    cases hiso : isIsomorphic (ops.nearTriangulation wheel) (ops.nearTriangulation x) with
    | error e => rw [hiso] at h; cases h
    | ok b =>
      rw [hiso] at h
      cases b with
      | true => simp [bind, Except.bind, pure, Except.pure] at h
      | false =>
        simp only [bind, Except.bind] at h
        rcases List.mem_cons.1 hu with rfl | hu
        · exact hiso
        · exact ih h u hu

/-- In the list that `makeUnique` leaves, `isIsomorphic(y, x)` is false whenever `x` stands
before `y`: this is the comparison the sweep has made, in the order of its arguments. -/
theorem makeUnique_pairwise {W : Type} (ops : WheelLike W) (wheels out : List W)
    (h : makeUnique ops wheels = .ok out) :
    out.Pairwise (fun x y =>
      isIsomorphic (ops.nearTriangulation y) (ops.nearTriangulation x) = .ok false) := by
  have key : Sat (fun (acc : List W) => acc.Pairwise (fun x y =>
      isIsomorphic (ops.nearTriangulation y) (ops.nearTriangulation x) = .ok false))
      (fun _ => True) (makeUnique ops wheels) := by
    unfold makeUnique
    refine Sat_foldlM (makeUniqueStep ops) (fun _ (acc : List W) => acc.Pairwise (fun x y =>
      isIsomorphic (ops.nearTriangulation y) (ops.nearTriangulation x) = .ok false)) ?_
      wheels [] List.Pairwise.nil
    intro w _ acc hacc
    cases hstep : makeUniqueStep ops acc w with
    | error e => exact trivial
    | ok acc2 =>
      rcases makeUniqueStep_ok hstep with ⟨hadd, rfl⟩ | ⟨_, rfl⟩
      · refine List.pairwise_append.2 ⟨hacc, List.pairwise_singleton _ _, ?_⟩
        intro x hx y hy
        rw [List.mem_singleton] at hy
        subst hy
        exact addWheel_true acc hadd x hx
      · exact hacc
  rw [h] at key
  exact key

/-! ## isIsomorphic outside the wheels -/

/-- On near-triangulations that are not wheels the two orders of the arguments of
`isIsomorphic` can disagree: a pattern diagonal that finds no free host diagonal is skipped
by the matcher, so a graph with five triangles is found in one with four. -/
theorem isIsomorphic_order_matters :
    IsNearTriangulation fiveTriangles ∧ IsNearTriangulation fourTriangles
    ∧ TriConnected fiveTriangles ∧ TriConnected fourTriangles
    ∧ isIsomorphic fiveTriangles fourTriangles = .ok false
    ∧ isIsomorphic fourTriangles fiveTriangles = .ok true :=
  ⟨⟨6, fiveTrianglesVtoV, List.replicate 6 none, by decide!, by decide!, by decide!⟩,
   ⟨6, fourTrianglesVtoV, List.replicate 6 none, by decide!, by decide!, by decide!⟩,
   triConnected_of_within 4 (by decide!), triConnected_of_within 4 (by decide!),
   by decide!, by decide!⟩

/-! ## divideDegree -/

theorem divideLoop_spec (upper max_degree : Int) :
    ∀ (fuel : Nat) (deg : Int) (degrees : List Degree), (upper - deg).toNat ≤ fuel →
      divideLoop upper max_degree fuel deg degrees
        = degrees
          ++ (List.range (min upper max_degree - deg).toNat).map (fun (i : Nat) =>
              ({ lower_deg := deg + (i : Int), upper_deg := deg + (i : Int) } : Degree))
          ++ [{ lower_deg := max deg (min upper max_degree), upper_deg := upper }] := by
  intro fuel
  induction fuel with
  | zero =>
    intro deg degrees h
    have h1 : (min upper max_degree - deg).toNat = 0 := by omega
    have h2 : max deg (min upper max_degree) = deg := by omega
    simp [divideLoop, h1, h2]
  | succ fuel ih =>
    intro deg degrees h
    unfold divideLoop
    by_cases hc : deg < upper ∧ deg < max_degree
    · rw [if_pos hc, ih (deg + 1) _ (by omega)]
      obtain ⟨k, hk⟩ : ∃ k, (min upper max_degree - deg).toNat = k + 1 :=
        ⟨(min upper max_degree - deg).toNat - 1, by omega⟩
      have hk2 : (min upper max_degree - (deg + 1)).toNat = k := by omega
      have h2 : max (deg + 1) (min upper max_degree) = max deg (min upper max_degree) := by
        omega
      rw [hk, hk2, h2, List.range_succ_eq_map, List.map_cons, List.map_map]
      simp only [List.append_assoc, List.singleton_append, List.cons_append, List.nil_append,
        Nat.cast_zero, add_zero]
      congr 3
      apply List.map_congr_left
      intro i _
      simp only [Function.comp, Nat.cast_succ]
      congr 1 <;> ring
    · rw [if_neg hc]
      have h1 : (min upper max_degree - deg).toNat = 0 := by omega
      have h2 : max deg (min upper max_degree) = deg := by omega
      simp [h1, h2]

/-- The value of `divideDegree` in closed form. -/
theorem divideDegree_closed (degree : Degree) (max_degree : Int)
    (h : degree.lower_deg ≤ max_degree) :
    divideDegree degree max_degree
      = some ((List.range (min degree.upper_deg max_degree - degree.lower_deg).toNat).map
          (fun (i : Nat) => ({ lower_deg := degree.lower_deg + (i : Int),
                                upper_deg := degree.lower_deg + (i : Int) } : Degree))
        ++ [{ lower_deg := max degree.lower_deg (min degree.upper_deg max_degree),
              upper_deg := degree.upper_deg }]) := by
  unfold divideDegree
  rw [if_pos h, divideLoop_spec _ _ _ _ _ (le_refl _)]
  simp

theorem divideDegree_pieces (lo hi M : Int) (h : lo ≤ hi) (hM : lo ≤ M) :
    divideDegree { lower_deg := lo, upper_deg := hi } M
      = some ((List.range (min M hi - lo).toNat).map
          (fun (i : Nat) => ({ lower_deg := lo + (i : Int), upper_deg := lo + (i : Int) } : Degree))
        ++ [{ lower_deg := min M hi, upper_deg := hi }]) := by
  rw [divideDegree_closed _ _ hM]
  have h2 : min hi M = min M hi := by omega
  have h1 : max lo (min M hi) = min M hi := by omega
  simp only [h2, h1]

/-- C28: for every degree `(lo, hi)` with `lo <= hi` and every cap `M >= lo`,
`divideDegree((lo, hi), M)` is the list of the fixed degrees `lo, lo + 1, ..., m - 1`
followed by the single piece `(m, hi)`, where `m = min(M, hi)`. -/
theorem C28_divideDegree_fixed_then_tail (lo hi M : Int) (h : lo ≤ hi) (hM : lo ≤ M) :
    divideDegree { lower_deg := lo, upper_deg := hi } M
      = some ((List.range (min M hi - lo).toNat).map
          (fun (i : Nat) => ({ lower_deg := lo + (i : Int), upper_deg := lo + (i : Int) } : Degree))
        ++ [{ lower_deg := min M hi, upper_deg := hi }]) :=
  divideDegree_pieces lo hi M h hM

/-- C28 at the degree `(5, 1000)` and the cap 8: the pieces are `5, 6, 7, 8+`. -/
theorem C28_witness :
    (5 : Int) ≤ 1000 ∧ (5 : Int) ≤ 8
    ∧ divideDegree { lower_deg := 5, upper_deg := 1000 } 8
      = some [{ lower_deg := 5, upper_deg := 5 }, { lower_deg := 6, upper_deg := 6 },
              { lower_deg := 7, upper_deg := 7 }, { lower_deg := 8, upper_deg := 1000 }] :=
  ⟨by decide, by decide,
    (C28_divideDegree_fixed_then_tail 5 1000 8 (by decide) (by decide)).trans (by decide)⟩

/-- C29, the claim as worded fails: for the degree `(5, 6)` and the cap 8 the pieces are the
two fixed degrees 5 and 6, so no piece is a non-fixed tail and no piece starts at 8. -/
theorem C29_counterexample :
    (5 : Int) ≤ 8
    ∧ divideDegree { lower_deg := 5, upper_deg := 6 } 8
      = some [{ lower_deg := 5, upper_deg := 5 }, { lower_deg := 6, upper_deg := 6 }]
    ∧ (∀ p ∈ [({ lower_deg := 5, upper_deg := 5 } : Degree), { lower_deg := 6, upper_deg := 6 }],
        p.fixed = true ∧ p.lower_deg ≠ 8) := by
  refine ⟨by decide, by decide, ?_⟩
  intro p hp
  simp only [List.mem_cons, List.mem_singleton, List.not_mem_nil, or_false] at hp
  rcases hp with rfl | rfl <;> decide

/-- C29, amended: for every degree `(lo, hi)` with `lo <= hi` and every cap `M >= lo`, the
pieces returned by `divideDegree` partition the range `[lo, hi]`: they lie one after the
other, and an integer is in the range exactly when it is in a piece. When `M < hi` exactly
one piece is not fixed, the last one, which is `(M, hi)`; when `hi <= M` every piece is
fixed. -/
theorem C29_divideDegree_partitions (lo hi M : Int) (h : lo ≤ hi) (hM : lo ≤ M) :
    ∃ pieces, divideDegree { lower_deg := lo, upper_deg := hi } M = some pieces
      ∧ pieces.Pairwise (fun p q => p.upper_deg < q.lower_deg)
      ∧ (∀ x : Int, (lo ≤ x ∧ x ≤ hi) ↔ ∃ p ∈ pieces, p.lower_deg ≤ x ∧ x ≤ p.upper_deg)
      ∧ (M < hi → ∃ front, pieces = front ++ [{ lower_deg := M, upper_deg := hi }]
          ∧ (∀ p ∈ front, p.fixed = true)
          ∧ ({ lower_deg := M, upper_deg := hi } : Degree).fixed = false)
      ∧ (hi ≤ M → ∀ p ∈ pieces, p.fixed = true) := by
  refine ⟨_, divideDegree_pieces lo hi M h hM, ?_, ?_, ?_, ?_⟩
  · rw [List.pairwise_append]
    refine ⟨?_, List.pairwise_singleton _ _, ?_⟩
    · rw [List.pairwise_map]
      refine List.Pairwise.imp ?_ (List.pairwise_lt_range _)
      intro a b hab
      show lo + (a : Int) < lo + (b : Int)
      omega
    · intro p hp q hq
      rw [List.mem_singleton] at hq
      subst hq
      simp only [List.mem_map, List.mem_range] at hp
      obtain ⟨i, hi1, rfl⟩ := hp
      show lo + (i : Int) < min M hi
      omega
  · intro x
    constructor
    · rintro ⟨h1, h2⟩
      by_cases hx : x < min M hi
      · refine ⟨{ lower_deg := x, upper_deg := x }, ?_, le_refl _, le_refl _⟩
        apply List.mem_append_left
        simp only [List.mem_map, List.mem_range]
        refine ⟨(x - lo).toNat, by omega, ?_⟩
        have : lo + ((x - lo).toNat : Int) = x := by omega
        rw [this]
      · refine ⟨{ lower_deg := min M hi, upper_deg := hi }, ?_, ?_, h2⟩
        · exact List.mem_append_right _ (List.mem_singleton_self _)
        · show min M hi ≤ x
          omega
    · rintro ⟨p, hp, h1, h2⟩
      rcases List.mem_append.1 hp with hp | hp
      · simp only [List.mem_map, List.mem_range] at hp
        obtain ⟨i, hi1, rfl⟩ := hp
        simp only at h1 h2
        omega
      · rw [List.mem_singleton] at hp
        subst hp
        simp only at h1 h2
        omega
  · intro hlt
    refine ⟨(List.range (min M hi - lo).toNat).map (fun (i : Nat) =>
      ({ lower_deg := lo + (i : Int), upper_deg := lo + (i : Int) } : Degree)), ?_, ?_, ?_⟩
    · have : min M hi = M := by omega
      rw [this]
    · intro p hp
      simp only [List.mem_map, List.mem_range] at hp
      obtain ⟨i, _, rfl⟩ := hp
      simp [Degree.fixed]
    · simp only [Degree.fixed, decide_eq_false_iff_not]
      omega
  · intro hle p hp
    rcases List.mem_append.1 hp with hp | hp
    · simp only [List.mem_map, List.mem_range] at hp
      obtain ⟨i, _, rfl⟩ := hp
      simp [Degree.fixed]
    · rw [List.mem_singleton] at hp
      subst hp
      simp only [Degree.fixed, decide_eq_true_eq]
      omega

/-- C29, amended, at the degree `(5, 1000)` and the cap 8. -/
theorem C29_witness :
    (5 : Int) ≤ 1000 ∧ (5 : Int) ≤ 8
    ∧ ∃ pieces, divideDegree { lower_deg := 5, upper_deg := 1000 } 8 = some pieces
      ∧ pieces.Pairwise (fun p q => p.upper_deg < q.lower_deg)
      ∧ (∀ x : Int, (5 ≤ x ∧ x ≤ 1000) ↔ ∃ p ∈ pieces, p.lower_deg ≤ x ∧ x ≤ p.upper_deg)
      ∧ ((8 : Int) < 1000 → ∃ front, pieces = front ++ [{ lower_deg := 8, upper_deg := 1000 }]
          ∧ (∀ p ∈ front, p.fixed = true)
          ∧ ({ lower_deg := 8, upper_deg := 1000 } : Degree).fixed = false)
      ∧ ((1000 : Int) ≤ 8 → ∀ p ∈ pieces, p.fixed = true) :=
  ⟨by decide, by decide, C29_divideDegree_partitions 5 1000 8 (by decide) (by decide)⟩

/-- C27: for every symmetric adjacency (each row a `std::set`, so increasing), the edge list
that the constructor of `NearTriangulation` builds is strictly increasing in the
lexicographic order (source vertex, then neighbour); its members are exactly the pairs
`(v, u)` of a vertex `v` and a neighbour `u` in `VtoV[v]`; every such adjacency has an edge
number in both directions, the position that `std::find` returns for `(v, u)` and for
`(u, v)`; and with `(u, v)` the list contains `(v, u)`. -/
theorem C27_edge_list_ordered_and_symmetric (vertex_size : Nat) (VtoV : List (List Nat))
    (degrees : List (Option Degree)) (hrows : RowsSorted VtoV)
    (hsym : SymmetricAdjacency vertex_size VtoV) :
    (NearTriangulation.build vertex_size VtoV degrees).edges.Pairwise EdgeLt
    ∧ (∀ v u, (v, u) ∈ (NearTriangulation.build vertex_size VtoV degrees).edges ↔
        v < vertex_size ∧ u ∈ adjacent VtoV v)
    ∧ (∀ v u, v < vertex_size → u ∈ adjacent VtoV v →
        findEdge (NearTriangulation.build vertex_size VtoV degrees).edges (v, u)
          < (NearTriangulation.build vertex_size VtoV degrees).edges.length
        ∧ (NearTriangulation.build vertex_size VtoV degrees).edges.get?
            (findEdge (NearTriangulation.build vertex_size VtoV degrees).edges (v, u))
          = some (v, u)
        ∧ findEdge (NearTriangulation.build vertex_size VtoV degrees).edges (u, v)
          < (NearTriangulation.build vertex_size VtoV degrees).edges.length
        ∧ (NearTriangulation.build vertex_size VtoV degrees).edges.get?
            (findEdge (NearTriangulation.build vertex_size VtoV degrees).edges (u, v))
          = some (u, v))
    ∧ ∀ u v, (u, v) ∈ (NearTriangulation.build vertex_size VtoV degrees).edges →
        (v, u) ∈ (NearTriangulation.build vertex_size VtoV degrees).edges
        ∧ (NearTriangulation.build vertex_size VtoV degrees).edges.get?
            (findEdge (NearTriangulation.build vertex_size VtoV degrees).edges (u, v))
          = some (u, v)
        ∧ (NearTriangulation.build vertex_size VtoV degrees).edges.get?
            (findEdge (NearTriangulation.build vertex_size VtoV degrees).edges (v, u))
          = some (v, u) := by
  have hedges : (NearTriangulation.build vertex_size VtoV degrees).edges
      = constructEdges vertex_size VtoV := rfl
  rw [hedges]
  have hback : ∀ u v, (u, v) ∈ constructEdges vertex_size VtoV →
      (v, u) ∈ constructEdges vertex_size VtoV := by
    intro u v huv
    have h1 := (mem_constructEdges vertex_size VtoV u v).1 huv
    exact (mem_constructEdges vertex_size VtoV v u).2 (hsym u h1.1 v h1.2)
  refine ⟨?_, ?_, ?_, ?_⟩
  · unfold constructEdges
    rw [List.pairwise_flatMap]
    refine ⟨?_, ?_⟩
    · intro v _
      rw [List.pairwise_map]
      have hs : (adjacent VtoV v).Sorted (fun a b => a < b) := by
        rcases adjacent_mem_or_nil VtoV v with hm | hm
        · exact hrows _ hm
        · rw [hm]; exact List.sorted_nil
      exact List.Pairwise.imp (fun hab => Or.inr ⟨rfl, hab⟩) hs
    · refine List.Pairwise.imp ?_ (List.pairwise_lt_range vertex_size)
      intro a b hab x hx y hy
      simp only [List.mem_map] at hx hy
      obtain ⟨_, _, rfl⟩ := hx
      obtain ⟨_, _, rfl⟩ := hy
      exact Or.inl hab
  · intro v u
    exact mem_constructEdges vertex_size VtoV v u
  · intro v u hv hu
    have hvu : (v, u) ∈ constructEdges vertex_size VtoV :=
      (mem_constructEdges vertex_size VtoV v u).2 ⟨hv, hu⟩
    have huv := hback v u hvu
    exact ⟨(findEdge_lt_length _ _).2 hvu, findEdge_get _ _ hvu,
      (findEdge_lt_length _ _).2 huv, findEdge_get _ _ huv⟩
  · intro u v huv
    exact ⟨hback u v huv, findEdge_get _ _ huv, findEdge_get _ _ (hback u v huv)⟩

/-- C27 at the adjacency of the wheel with hub degree 5. -/
theorem C27_witness :
    RowsSorted wheel5VtoV ∧ SymmetricAdjacency 6 wheel5VtoV
    ∧ (NearTriangulation.build 6 wheel5VtoV []).edges.Pairwise EdgeLt
    ∧ (∀ v u, (v, u) ∈ (NearTriangulation.build 6 wheel5VtoV []).edges ↔
        v < 6 ∧ u ∈ adjacent wheel5VtoV v)
    ∧ (∀ v u, v < 6 → u ∈ adjacent wheel5VtoV v →
        findEdge (NearTriangulation.build 6 wheel5VtoV []).edges (v, u)
          < (NearTriangulation.build 6 wheel5VtoV []).edges.length
        ∧ (NearTriangulation.build 6 wheel5VtoV []).edges.get?
            (findEdge (NearTriangulation.build 6 wheel5VtoV []).edges (v, u)) = some (v, u)
        ∧ findEdge (NearTriangulation.build 6 wheel5VtoV []).edges (u, v)
          < (NearTriangulation.build 6 wheel5VtoV []).edges.length
        ∧ (NearTriangulation.build 6 wheel5VtoV []).edges.get?
            (findEdge (NearTriangulation.build 6 wheel5VtoV []).edges (u, v)) = some (u, v))
    ∧ ∀ u v, (u, v) ∈ (NearTriangulation.build 6 wheel5VtoV []).edges →
        (v, u) ∈ (NearTriangulation.build 6 wheel5VtoV []).edges
        ∧ (NearTriangulation.build 6 wheel5VtoV []).edges.get?
            (findEdge (NearTriangulation.build 6 wheel5VtoV []).edges (u, v)) = some (u, v)
        ∧ (NearTriangulation.build 6 wheel5VtoV []).edges.get?
            (findEdge (NearTriangulation.build 6 wheel5VtoV []).edges (v, u)) = some (v, u) :=
  have hrows : RowsSorted wheel5VtoV := by
    intro l hl
    simp only [wheel5VtoV, List.mem_cons, List.mem_singleton, List.not_mem_nil, or_false] at hl
    rcases hl with rfl | rfl | rfl | rfl | rfl | rfl <;> decide
  have hsym : SymmetricAdjacency 6 wheel5VtoV := by decide
  ⟨hrows, hsym, C27_edge_list_ordered_and_symmetric 6 wheel5VtoV [] hrows hsym⟩

/-! ## Degree::fromString -/

theorem digitChar_spec (d : Nat) (h : d < 10) :
    (Nat.digitChar d).isDigit = true ∧ (Nat.digitChar d).toNat - 48 = d
    ∧ isSpace (Nat.digitChar d) = false ∧ Nat.digitChar d ≠ '-' ∧ Nat.digitChar d ≠ '+' := by
  interval_cases d <;> decide

theorem decimalAux_spec :
    ∀ (fuel n : Nat) (acc : List Char), n < fuel →
      ∃ ds, decimalAux fuel n acc = ds ++ acc ∧ ds ≠ []
        ∧ (∀ c ∈ ds, c.isDigit = true ∧ isSpace c = false ∧ c ≠ '-' ∧ c ≠ '+')
        ∧ ∀ a, ds.foldl (fun acc c => 10 * acc + (c.toNat - 48)) a = a * 10 ^ ds.length + n := by
  intro fuel
  induction fuel with
  | zero => intro n acc h; omega
  | succ fuel ih =>
    intro n acc h
    obtain ⟨d1, d2, d3, d4, d5⟩ := digitChar_spec (n % 10) (Nat.mod_lt _ (by decide))
    unfold decimalAux
    by_cases h0 : n / 10 = 0
    · rw [if_pos h0]
      refine ⟨[Nat.digitChar (n % 10)], rfl, by simp, ?_, ?_⟩
      · intro c hc
        rw [List.mem_singleton] at hc
        subst hc
        exact ⟨d1, d3, d4, d5⟩
      · intro a
        simp only [List.foldl_cons, List.foldl_nil, List.length_singleton, pow_one, d2]
        omega
    · rw [if_neg h0]
      obtain ⟨ds, e, _, hall, hval⟩ := ih (n / 10) (Nat.digitChar (n % 10) :: acc) (by omega)
      refine ⟨ds ++ [Nat.digitChar (n % 10)], ?_, by simp, ?_, ?_⟩
      · rw [e, List.append_assoc]; rfl
      · intro c hc
        rcases List.mem_append.1 hc with hc | hc
        · exact hall c hc
        · rw [List.mem_singleton] at hc
          subst hc
          exact ⟨d1, d3, d4, d5⟩
      · intro a
        rw [List.foldl_append, hval]
        simp only [List.foldl_cons, List.foldl_nil, List.length_append, List.length_singleton,
          d2, pow_succ]
        have := Nat.div_add_mod n 10
        ring_nf
        ring_nf at this
        omega

theorem decimal_spec (n : Nat) :
    decimal n ≠ []
    ∧ (∀ c ∈ decimal n, c.isDigit = true ∧ isSpace c = false ∧ c ≠ '-' ∧ c ≠ '+')
    ∧ digitsValue (decimal n) = n := by
  obtain ⟨ds, e, hne, hall, hval⟩ := decimalAux_spec (n + 1) n [] (by omega)
  unfold decimal
  rw [e, List.append_nil]
  refine ⟨hne, hall, ?_⟩
  unfold digitsValue
  rw [hval]
  omega

theorem takeWhile_append_stop (p : Char → Bool) (ds rest : List Char)
    (hds : ∀ c ∈ ds, p c = true) (hrest : ∀ c, rest.head? = some c → p c = false) :
    (ds ++ rest).takeWhile p = ds := by
  induction ds with
  | nil =>
    cases rest with
    | nil => rfl
    | cons c r =>
      have := hrest c rfl
      simp [List.takeWhile, this]
  | cons d ds ih =>
    have hd := hds d (List.mem_cons_self _ _)
    rw [List.cons_append, List.takeWhile_cons, if_pos hd,
      ih (fun c hc => hds c (List.mem_cons_of_mem _ hc))]

theorem stoi_digits (negative : Bool) (ds rest : List Char) (hne : ds ≠ [])
    (hall : ∀ c ∈ ds, c.isDigit = true ∧ isSpace c = false ∧ c ≠ '-' ∧ c ≠ '+')
    (hrest : ∀ c, rest.head? = some c → c.isDigit = false)
    (hmin : INT_MIN ≤ (if negative then -(digitsValue ds : Int) else (digitsValue ds : Int)))
    (hmax : (if negative then -(digitsValue ds : Int) else (digitsValue ds : Int)) ≤ INT_MAX) :
    stoi ((if negative then ['-'] else []) ++ ds ++ rest)
      = .ok (if negative then -(digitsValue ds : Int) else (digitsValue ds : Int),
             ((if negative then ['-'] else []) ++ ds).length) := by
  have htw : (ds ++ rest).takeWhile Char.isDigit = ds :=
    takeWhile_append_stop _ _ _ (fun c hc => (hall c hc).1) hrest
  obtain ⟨c, cs, rfl⟩ : ∃ c cs, ds = c :: cs := by
    cases ds with
    | nil => exact absurd rfl hne
    | cons c cs => exact ⟨c, cs, rfl⟩
  have hc := hall c (List.mem_cons_self _ _)
  cases negative with
  | true =>
    simp only [if_true] at hmin hmax ⊢
    unfold stoi
    have hsp : List.takeWhile isSpace (['-'] ++ c :: cs ++ rest) = [] := by
      simp [List.takeWhile, show isSpace '-' = false by decide]
    rw [hsp]
    simp only [List.length_nil, List.drop_zero]
    have hhead : (['-'] ++ c :: cs ++ rest).head? = some '-' := rfl
    have hdrop : List.drop 1 (['-'] ++ c :: cs ++ rest) = c :: cs ++ rest := rfl
    simp only [hhead, true_or, if_true, decide_True, hdrop, htw]
    rw [if_neg (by simp), if_neg (by omega)]
    simp [pure, Except.pure]
    omega
  | false =>
    simp only [Bool.false_eq_true, if_false] at hmin hmax ⊢
    show stoi (c :: cs ++ rest) = _
    unfold stoi
    have hsp : List.takeWhile isSpace (c :: cs ++ rest) = [] := by
      simp [List.takeWhile, hc.2.1]
    have hhead : (c :: cs ++ rest).head? = some c := rfl
    have hsign : ¬ (some c = some '-' ∨ some c = some '+') := by
      rintro (h | h)
      · exact hc.2.2.1 (Option.some.inj h)
      · exact hc.2.2.2 (Option.some.inj h)
    have hneg : decide (some c = some '-') = false := by
      rw [decide_eq_false_iff_not]
      exact fun h => hc.2.2.1 (Option.some.inj h)
    simp only [hsp, List.length_nil, List.drop_zero, hhead, if_neg hsign, hneg, htw,
      Bool.false_eq_true, if_false]
    rw [if_neg (by simp), if_neg (by omega)]
    simp [pure, Except.pure]

/-- What `std::stoi` reads of the decimal form of an `int` followed by something that does not
start with a digit: the value, and the position behind the digits. -/
theorem stoi_to_string (k : Int) (rest : List Char) (hmin : INT_MIN ≤ k) (hmax : k ≤ INT_MAX)
    (hrest : ∀ c, rest.head? = some c → c.isDigit = false) :
    stoi (to_string k ++ rest) = .ok (k, (to_string k).length) := by
  unfold to_string
  by_cases hk : k < 0
  · rw [if_pos hk]
    obtain ⟨hne, hall, hval⟩ := decimal_spec (-k).toNat
    have hv : -((digitsValue (decimal (-k).toNat) : Nat) : Int) = k := by rw [hval]; omega
    have := stoi_digits true (decimal (-k).toNat) rest hne hall hrest
      (by simp only [if_true]; rw [hv]; exact hmin) (by simp only [if_true]; rw [hv]; exact hmax)
    simp only [if_true, hv] at this
    exact this
  · rw [if_neg hk]
    obtain ⟨hne, hall, hval⟩ := decimal_spec k.toNat
    have hv : ((digitsValue (decimal k.toNat) : Nat) : Int) = k := by rw [hval]; omega
    have := stoi_digits false (decimal k.toNat) rest hne hall hrest
      (by simp only [Bool.false_eq_true, if_false]; rw [hv]; exact hmin)
      (by simp only [Bool.false_eq_true, if_false]; rw [hv]; exact hmax)
    simp only [Bool.false_eq_true, if_false, hv, List.nil_append] at this
    exact this

theorem mapM_ok_of_forall {α β : Type} (f : α → Except MatchError β) (P : β → Prop) :
    ∀ (l : List α), (∀ a ∈ l, ∃ b, f a = .ok b ∧ P b) →
      ∃ r, l.mapM f = .ok r ∧ ∀ b ∈ r, P b := by
  intro l
  induction l with
  | nil => intro _; exact ⟨[], rfl, fun b hb => by cases hb⟩
  | cons a l ih =>
    intro h
    obtain ⟨b, hb, hP⟩ := h a (List.mem_cons_self _ _)
    obtain ⟨r, hr, hall⟩ := ih (fun x hx => h x (List.mem_cons_of_mem _ hx))
    refine ⟨b :: r, ?_, ?_⟩
    · rw [List.mapM_cons, hb, hr]; rfl
    · intro x hx
      rcases List.mem_cons.1 hx with rfl | hx
      · exact hP
      · exact hall x hx

theorem edgeidOf_mem {edges : List Edge} {edge : Edge} (h : edge ∈ edges) :
    ∃ id, edgeidOf edges edge = .ok id ∧ id < edges.length := by
  have hlt := (findEdge_lt_length edges edge).2 h
  refine ⟨findEdge edges edge, ?_, hlt⟩
  unfold edgeidOf
  rw [if_pos (by omega)]
  rfl

theorem sendCaseEdgeids_total {wheelgraph : CartWheel} (h : HasSpokes wheelgraph) :
    ∃ edgeids, sendCaseEdgeids wheelgraph = .ok edgeids
      ∧ ∀ id ∈ edgeids, id < wheelgraph.cartwheel.edges.length := by
  unfold sendCaseEdgeids
  apply mapM_ok_of_forall
  intro e he
  apply edgeidOf_mem
  simp only [List.mem_append, List.mem_map] at he
  rcases he with ⟨i, hi, rfl⟩ | ⟨i, hi, rfl⟩
  · exact (h i hi).1
  · exact (h i hi).2

theorem pruneStep_no_rules (edges : List Edge) (edgeids : List Nat) (hubdegree : Nat)
    (w : NearTriangulation) (edgeids_idx : Nat)
    (hids : ∀ id ∈ edgeids, id < edges.length) (ei : Nat) (hei : ei < edgeids.length) :
    pruneStep [] edges edgeids hubdegree w 0 edgeids_idx
        (List.replicate (min edgeids_idx hubdegree) 0)
        { send_lower := 0, receive_upper := 0, stop_search := false } ei
      = .ok { send_lower := 0, receive_upper := 0, stop_search := false } := by
  unfold pruneStep
  obtain ⟨id, hid⟩ : ∃ id, edgeids.get? ei = some id :=
    ⟨edgeids.get ⟨ei, hei⟩, List.get?_eq_get hei⟩
  have hidlt : id < edges.length := hids id (List.get?_mem hid)
  obtain ⟨edge, hedge⟩ : ∃ edge, edges.get? id = some edge :=
    ⟨edges.get ⟨id, hidlt⟩, List.get?_eq_get hidlt⟩
  simp only [Bool.false_eq_true, if_false, hid, hedge, maxSend, List.foldlM_nil, pure_bind]
  by_cases h1 : ei < hubdegree
  · rw [if_pos h1]
    by_cases h2 : ei = edgeids_idx
    · rw [if_pos h2, if_neg (by decide)]
      rfl
    · rw [if_neg h2]
      by_cases h3 : ei < edgeids_idx
      · rw [if_pos h3]
        have hget : (List.replicate (min edgeids_idx hubdegree) (0 : Int)).get? ei = some 0 := by
          rw [List.get?_eq_getElem?, List.getElem?_replicate, if_pos (by omega)]
        rw [hget]
        simp only []
        rw [if_neg (by decide)]
        rfl
      · rw [if_neg h3]
        rfl
  · rw [if_neg h1]
    rfl

theorem chargePruned_no_rules (edges : List Edge) (edgeids : List Nat) (hubdegree : Nat)
    (threshold : Int) (w : CartWheel) (edgeids_idx : Nat)
    (hids : ∀ id ∈ edgeids, id < edges.length) (hth : threshold < 0)
    {str : List Char} (hprint : w.toString = .ok str) :
    chargePruned [] edges edgeids hubdegree threshold w 0 edgeids_idx
        (List.replicate (min edgeids_idx hubdegree) 0) = .ok false := by
  unfold chargePruned
  have hfold : ∀ (l : List Nat), (∀ ei ∈ l, ei < edgeids.length) →
      l.foldlM (pruneStep [] edges edgeids hubdegree w.cartwheel 0 edgeids_idx
          (List.replicate (min edgeids_idx hubdegree) 0))
        { send_lower := 0, receive_upper := 0, stop_search := false }
        = .ok { send_lower := 0, receive_upper := 0, stop_search := false } := by
    intro l
    induction l with
    | nil => intro _; rfl
    | cons ei l ih =>
      intro h
      rw [List.foldlM_cons,
        pruneStep_no_rules edges edgeids hubdegree w.cartwheel edgeids_idx hids ei
          (h ei (List.mem_cons_self _ _))]
      exact ih (fun x hx => h x (List.mem_cons_of_mem _ hx))
  rw [hfold _ (fun ei hei => List.mem_range.1 hei)]
  have hzero : wrapInt (0 - 0) = 0 := by decide
  simp only [bind, Except.bind, pure, Except.pure, Bool.false_eq_true, if_false, hprint, hzero]
  congr 1
  rw [decide_eq_false_iff_not]
  omega

theorem decide_degree_no_rules (max_degree threshold : Int) (charge_bound : Bool)
    (edges : List Edge) (edgeids : List Nat) (hubdegree : Nat)
    (hids : ∀ id ∈ edgeids, id < edges.length) (hth : threshold < 0) :
    ∀ (remaining : Nat) (wheel : CartWheel) (edgeids_idx : Nat) (res : List CartWheel)
      (str : List Char), wheel.toString = .ok str →
      edgeids_idx + remaining = edgeids.length →
      decide_degree [] [] max_degree threshold charge_bound edges edgeids hubdegree
          remaining wheel edgeids_idx (List.replicate (min edgeids_idx hubdegree) 0) res
        = .ok (res ++ [wheel]) := by
  intro remaining
  induction remaining with
  | zero => intro wheel idx res _ _ _; rfl
  | succ remaining ih =>
    intro wheel idx res str hprint hlen
    unfold decide_degree
    obtain ⟨edgeid, hid⟩ : ∃ id, edgeids.get? idx = some id :=
      ⟨edgeids.get ⟨idx, by omega⟩, List.get?_eq_get (by omega)⟩
    rw [hid, hprint]
    have hfree : containOneofConfs wheelLikeCartWheel wheel [] = .ok false := by
      rw [containOneofConfs_of_print wheelLikeCartWheel wheel [] hprint]
      rfl
    have hprune : prune [] [] threshold charge_bound edges edgeids hubdegree [wheel] [0] idx
        (List.replicate (min idx hubdegree) 0) = .ok ([wheel], [0]) := by
      unfold prune
      simp only [List.zip_cons_cons, List.zip_nil_right, List.foldlM_cons, List.foldlM_nil,
        pruneCandidate]
      cases charge_bound with
      | true =>
        simp only [if_true]
        rw [chargePruned_no_rules edges edgeids hubdegree threshold _ idx hids hth hprint,
          hfree]
        rfl
      | false =>
        rw [hfree]
        rfl
    have hunique : unique [wheel] [0] = .ok ([wheel], [0]) := rfl
    have hrules : decide_degree_by_rules [] max_degree wheel edgeid = .ok ([wheel], [0]) := rfl
    simp only [hrules, bind, Except.bind, hunique, hprune]
    simp only [List.zip_cons_cons, List.zip_nil_right, List.foldlM_cons, List.foldlM_nil]
    have hdec : (if idx < hubdegree then List.replicate (min idx hubdegree) (0 : Int) ++ [0]
        else List.replicate (min idx hubdegree) 0)
        = List.replicate (min (idx + 1) hubdegree) 0 := by
      by_cases h : idx < hubdegree
      · rw [if_pos h, show min idx hubdegree = idx by omega,
          show min (idx + 1) hubdegree = idx + 1 by omega, List.replicate_succ']
      · rw [if_neg h, show min idx hubdegree = hubdegree by omega,
          show min (idx + 1) hubdegree = hubdegree by omega]
    rw [hdec, ih wheel (idx + 1) res str hprint (by omega)]
    rfl

/-- C21 fails as stated: on the cartwheel of the wheel with hub degree 5 whose rim vertices
have degree 5, its second neighbour `6` having the degree from 6 to 8, which has its spokes,
`decideDegreeBySendCases` with an empty rule list, an empty catalog, the threshold `-10` and
`charge_bound` on returns no cartwheel: `decide_degree` prints the cartwheel for the log and
the assertion of `Degree::toString` fails. -/
theorem C21_counterexample :
    HasSpokes cartSixEight
    ∧ decideDegreeBySendCases cartSixEight [] [] 8 (-10) true = .error .assertFailed := by
  decide!

/-- C21 as amended: for every cartwheel that `toString` prints and that has its spokes,
`decideDegreeBySendCases` with an empty rule list, an empty catalog of configurations and a
negative threshold returns exactly one cartwheel, the input itself, whatever `max_degree` is
and with `charge_bound` on or off. -/
theorem C21_no_rules_no_configurations_returns_printed_input (wheelgraph : CartWheel)
    (max_degree threshold : Int) (charge_bound : Bool) (hspokes : HasSpokes wheelgraph)
    (hth : threshold < 0) (hprint : prints wheelLikeCartWheel wheelgraph = true) :
    decideDegreeBySendCases wheelgraph [] [] max_degree threshold charge_bound
      = .ok [wheelgraph] := by
  obtain ⟨edgeids, hids, hlt⟩ := sendCaseEdgeids_total hspokes
  obtain ⟨str, hstr⟩ := prints_eq_true hprint
  unfold decideDegreeBySendCases
  rw [hids]
  have h := decide_degree_no_rules max_degree threshold charge_bound
    wheelgraph.cartwheel.edges edgeids wheelgraph.num_neighbor hlt hth edgeids.length
    wheelgraph 0 [] str hstr (by omega)
  simp only [Nat.zero_min, List.replicate_zero, List.nil_append] at h
  exact h

/-- C21 at the spec's instance: the cartwheel of the wheel with hub degree 5, threshold
`-10`, `charge_bound` on. -/
theorem C21_witness :
    HasSpokes cart5 ∧ (-10 : Int) < 0 ∧ prints wheelLikeCartWheel cart5 = true
    ∧ decideDegreeBySendCases cart5 [] [] 8 (-10) true = .ok [cart5] :=
  ⟨by decide!, by decide, by decide!,
    C21_no_rules_no_configurations_returns_printed_input cart5 8 (-10) true (by decide!)
      (by decide) (by decide!)⟩

/-! ## isOvercharged -/

theorem reportsOneAmount_ok {wheel : NearTriangulation} {from_ to_ : Nat} {rule : Rule}
    (h : reportsOneAmount wheel from_ to_ rule = true) :
    ∃ r, amountChargeToSend wheel from_ to_ rule = .ok r ∧ r.1 = r.2.1 := by
  unfold reportsOneAmount at h
  cases hr : amountChargeToSend wheel from_ to_ rule with
  | error e => rw [hr] at h; cases h
  | ok r =>
    rw [hr] at h
    exact ⟨r, rfl, of_decide_eq_true h⟩

theorem degreeWritable_ok {wheel : NearTriangulation} {v : Nat}
    (h : degreeWritable wheel v = true) :
    ∃ degree, wheel.degreeAt v = some degree ∧ degree.toString.isSome = true := by
  unfold degreeWritable at h
  cases hd : wheel.degreeAt v with
  | none => rw [hd] at h; cases h
  | some degree =>
    rw [hd] at h
    exact ⟨degree, rfl, h⟩

theorem overchargeRuleStep_ok (cw : CartWheel) (v : Nat) (acc : OverchargeVars) (rule : Rule)
    (hr : ∃ r, amountChargeToSend cw.cartwheel v 0 rule = .ok r ∧ r.1 = r.2.1)
    (hs : ∃ s, amountChargeToSend cw.cartwheel 0 v rule = .ok s ∧ s.1 = s.2.1)
    {bound sofar : Int} (hmax : sofar + bound ≤ INT_MAX)
    (hamount : (-bound ≤ reportedAmount cw.cartwheel v 0 rule
        ∧ reportedAmount cw.cartwheel v 0 rule ≤ bound)
      ∧ -bound ≤ reportedAmount cw.cartwheel 0 v rule
        ∧ reportedAmount cw.cartwheel 0 v rule ≤ bound)
    (hacc : (-sofar ≤ acc.charge_receive ∧ acc.charge_receive ≤ sofar)
      ∧ -sofar ≤ acc.charge_send ∧ acc.charge_send ≤ sofar) :
    ∃ out, overchargeRuleStep cw v acc rule = .ok out
      ∧ out.charge_receive = acc.charge_receive + reportedAmount cw.cartwheel v 0 rule
      ∧ out.charge_send = acc.charge_send + reportedAmount cw.cartwheel 0 v rule := by
  obtain ⟨r, hr1, hr2⟩ := hr
  obtain ⟨s, hs1, hs2⟩ := hs
  unfold reportedAmount at hamount ⊢
  unfold overchargeRuleStep
  rw [hr1, hs1] at hamount
  rw [hr1, hs1]
  simp only [bind, Except.bind]
  rw [if_pos ⟨hr2, hs2⟩]
  unfold INT_MAX at hmax
  simp only [] at hamount
  refine ⟨_, rfl, ?_, ?_⟩
  · exact wrapInt_of_bounds _ (by omega) (by omega)
  · exact wrapInt_of_bounds _ (by omega) (by omega)

theorem overchargeRules_ok (cw : CartWheel) (v : Nat) {bound : Int} (hbound : 0 ≤ bound) :
    ∀ (rules : List Rule) (acc : OverchargeVars) (sofar : Int),
      sofar + (rules.length : Int) * bound ≤ INT_MAX →
      ((-sofar ≤ acc.charge_receive ∧ acc.charge_receive ≤ sofar)
        ∧ -sofar ≤ acc.charge_send ∧ acc.charge_send ≤ sofar) →
      (∀ rule ∈ rules,
        ((∃ r, amountChargeToSend cw.cartwheel v 0 rule = .ok r ∧ r.1 = r.2.1)
          ∧ (∃ s, amountChargeToSend cw.cartwheel 0 v rule = .ok s ∧ s.1 = s.2.1))
        ∧ (-bound ≤ reportedAmount cw.cartwheel v 0 rule
            ∧ reportedAmount cw.cartwheel v 0 rule ≤ bound)
          ∧ -bound ≤ reportedAmount cw.cartwheel 0 v rule
            ∧ reportedAmount cw.cartwheel 0 v rule ≤ bound) →
      ∃ out, rules.foldlM (overchargeRuleStep cw v) acc = .ok out
        ∧ out.charge_receive
          = acc.charge_receive + (rules.map (reportedAmount cw.cartwheel v 0)).sum
        ∧ out.charge_send
          = acc.charge_send + (rules.map (reportedAmount cw.cartwheel 0 v)).sum
        ∧ (-(sofar + (rules.length : Int) * bound) ≤ out.charge_receive
            ∧ out.charge_receive ≤ sofar + (rules.length : Int) * bound)
          ∧ -(sofar + (rules.length : Int) * bound) ≤ out.charge_send
            ∧ out.charge_send ≤ sofar + (rules.length : Int) * bound := by
  intro rules
  induction rules with
  | nil =>
    intro acc sofar _ hacc _
    refine ⟨acc, rfl, by simp, by simp, ?_⟩
    simpa using hacc
  | cons rule rules ih =>
    intro acc sofar hmax hacc h
    have hlen : ((rule :: rules).length : Int) * bound = bound + (rules.length : Int) * bound := by
      rw [List.length_cons]; push_cast; ring
    rw [hlen] at hmax ⊢
    have hnn : 0 ≤ (rules.length : Int) * bound := Int.mul_nonneg (Int.ofNat_nonneg _) hbound
    obtain ⟨⟨hr, hs⟩, hamount⟩ := h rule (List.mem_cons_self _ _)
    obtain ⟨o1, ho1, hr1, hs1⟩ := overchargeRuleStep_ok cw v acc rule hr hs
      (show sofar + bound ≤ INT_MAX by omega) hamount hacc
    obtain ⟨o2, ho2, hr2, hs2, hb2⟩ := ih o1 (sofar + bound) (by omega)
      (by rw [hr1, hs1]; omega) (fun x hx => h x (List.mem_cons_of_mem _ hx))
    refine ⟨o2, ?_, ?_, ?_, ?_⟩
    · rw [List.foldlM_cons, ho1]; exact ho2
    · rw [hr2, hr1, List.map_cons, List.sum_cons]; ring
    · rw [hs2, hs1, List.map_cons, List.sum_cons]; ring
    · have he : sofar + (bound + (rules.length : Int) * bound)
          = sofar + bound + (rules.length : Int) * bound := by ring
      rw [he]; exact hb2

theorem overchargeNeighbors_ok (cw : CartWheel) (rules : List Rule) {bound : Int}
    (hbound : 0 ≤ bound) :
    ∀ (vs : List Nat) (acc : OverchargeVars) (sofar : Int),
      sofar + (vs.length : Int) * ((rules.length : Int) * bound) ≤ INT_MAX →
      ((-sofar ≤ acc.charge_receive ∧ acc.charge_receive ≤ sofar)
        ∧ -sofar ≤ acc.charge_send ∧ acc.charge_send ≤ sofar) →
      (∀ v ∈ vs,
        (∀ rule ∈ rules,
          ((∃ r, amountChargeToSend cw.cartwheel v 0 rule = .ok r ∧ r.1 = r.2.1)
            ∧ (∃ s, amountChargeToSend cw.cartwheel 0 v rule = .ok s ∧ s.1 = s.2.1))
          ∧ (-bound ≤ reportedAmount cw.cartwheel v 0 rule
              ∧ reportedAmount cw.cartwheel v 0 rule ≤ bound)
            ∧ -bound ≤ reportedAmount cw.cartwheel 0 v rule
              ∧ reportedAmount cw.cartwheel 0 v rule ≤ bound)
        ∧ (cw.cartwheel.degreeAt (v - 1)).isSome = true
        ∧ ∃ degree, cw.cartwheel.degreeAt v = some degree ∧ degree.toString.isSome = true) →
      ∃ out, vs.foldlM (overchargeNeighborStep cw rules) acc = .ok out
        ∧ out.charge_receive = acc.charge_receive
            + (vs.map (fun v => (rules.map (reportedAmount cw.cartwheel v 0)).sum)).sum
        ∧ out.charge_send = acc.charge_send
            + (vs.map (fun v => (rules.map (reportedAmount cw.cartwheel 0 v)).sum)).sum
        ∧ (-(sofar + (vs.length : Int) * ((rules.length : Int) * bound)) ≤ out.charge_receive
            ∧ out.charge_receive ≤ sofar + (vs.length : Int) * ((rules.length : Int) * bound))
          ∧ -(sofar + (vs.length : Int) * ((rules.length : Int) * bound)) ≤ out.charge_send
            ∧ out.charge_send ≤ sofar + (vs.length : Int) * ((rules.length : Int) * bound) := by
  intro vs
  induction vs with
  | nil =>
    intro acc sofar _ hacc _
    refine ⟨acc, rfl, by simp, by simp, ?_⟩
    simpa using hacc
  | cons v vs ih =>
    intro acc sofar hmax hacc h
    have hlen : ((v :: vs).length : Int) * ((rules.length : Int) * bound)
        = (rules.length : Int) * bound + (vs.length : Int) * ((rules.length : Int) * bound) := by
      rw [List.length_cons]; push_cast; ring
    rw [hlen] at hmax ⊢
    have hn1 : 0 ≤ (rules.length : Int) * bound := Int.mul_nonneg (Int.ofNat_nonneg _) hbound
    have hn2 : 0 ≤ (vs.length : Int) * ((rules.length : Int) * bound) :=
      Int.mul_nonneg (Int.ofNat_nonneg _) hn1
    obtain ⟨hrules, hprev, degree, hdeg, hstr⟩ := h v (List.mem_cons_self _ _)
    obtain ⟨o1, ho1, hr1, hs1, hb1⟩ := overchargeRules_ok cw v hbound rules acc sofar
      (by omega) hacc hrules
    have hstep : overchargeNeighborStep cw rules acc v = .ok o1 := by
      unfold overchargeNeighborStep
      rw [ho1]
      simp only [bind, Except.bind]
      rw [if_pos hprev, hdeg]
      simp only []
      rw [if_pos hstr]
      rfl
    obtain ⟨o2, ho2, hr2, hs2, hb2⟩ := ih o1 (sofar + (rules.length : Int) * bound)
      (by omega) hb1 (fun x hx => h x (List.mem_cons_of_mem _ hx))
    refine ⟨o2, ?_, ?_, ?_, ?_⟩
    · rw [List.foldlM_cons, hstep]; exact ho2
    · rw [hr2, hr1, List.map_cons, List.sum_cons]; ring
    · rw [hs2, hs1, List.map_cons, List.sum_cons]; ring
    · have he : sofar + ((rules.length : Int) * bound
            + (vs.length : Int) * ((rules.length : Int) * bound))
          = sofar + (rules.length : Int) * bound
            + (vs.length : Int) * ((rules.length : Int) * bound) := by ring
      rw [he]; exact hb2

theorem sum_map_nil_rules (f : Nat → Rule → Int) (vs : List Nat) :
    (vs.map (fun v => (([] : List Rule).map (f v)).sum)).sum = 0 := by
  induction vs with
  | nil => rfl
  | cons v vs ih => simp [ih]

/-- A mapped result that is a value comes from a value. -/
theorem except_map_eq_ok {ε α β : Type} {x : Except ε α} {f : α → β} {b : β}
    (h : x.map f = .ok b) : ∃ a, x = .ok a ∧ f a = b := by
  cases x with
  | error e => simp [Except.map] at h
  | ok a => exact ⟨a, rfl, by simpa [Except.map] using h⟩

/-- C25, the counterexample: for the wheel with hub degree 5 whose five rim degrees are 5,
`fromWheel` returns a cartwheel with 11 vertices; once its five second neighbours have the
degree 5 as well, so that every degree is 5, `extendThirdNeighbor` returns a near-triangulation
whose number of vertices is not 16. -/
theorem C25_counterexample :
    ∃ c e, CartWheel.fromWheel wheelAllFive = .ok c
      ∧ (∀ v, v < (setSecondDegrees c five).cartwheel.vertex_size →
          (setSecondDegrees c five).cartwheel.degreeAt v = some five)
      ∧ (setSecondDegrees c five).extendThirdNeighbor = .ok e
      ∧ e.cartwheel.vertex_size ≠ 16 := by
  have h1 : CartWheel.fromWheel wheelAllFive = .ok cart5 := by decide!
  have h2 : ∀ v, v < (setSecondDegrees cart5 five).cartwheel.vertex_size →
      (setSecondDegrees cart5 five).cartwheel.degreeAt v = some five := by decide!
  have h3 : ((setSecondDegrees cart5 five).extendThirdNeighbor).map
      (fun e => e.cartwheel.vertex_size) = .ok 12 := by decide!
  obtain ⟨e, h4, h5⟩ := except_map_eq_ok h3
  exact ⟨cart5, e, h1, h2, h4, by omega⟩

/-- C25, amended: for the wheel with hub degree 5 whose five rim degrees are 5, `fromWheel`
returns the cartwheel with 11 vertices (hub, 5 rim vertices, 5 second neighbours). With every
degree being 5, `extendThirdNeighbor` returns a near-triangulation with exactly 12 vertices:
the five second neighbours share the one third neighbour `11`. The count 16 (five third
neighbours) is what it returns when the five second neighbours have the degree 6, and while
the second neighbours have no degree the assertion of `get_degree` fails. -/
theorem C25_all_five_gives_twelve_vertices :
    CartWheel.fromWheel wheelAllFive = .ok cart5
      ∧ cart5.cartwheel.vertex_size = 11
      ∧ (∃ e, (setSecondDegrees cart5 five).extendThirdNeighbor = .ok e
          ∧ e.cartwheel.vertex_size = 12
          ∧ e.third_neighbors
              = List.replicate 6 [] ++ List.replicate 5 [11] ++ [[]])
      ∧ (∃ e, (setSecondDegrees cart5 six).extendThirdNeighbor = .ok e
          ∧ e.cartwheel.vertex_size = 16)
      ∧ cart5.extendThirdNeighbor = .error .assertFailed := by
  have h1 : CartWheel.fromWheel wheelAllFive = .ok cart5 := by decide!
  have h3 : ((setSecondDegrees cart5 five).extendThirdNeighbor).map
      (fun e => (e.cartwheel.vertex_size, e.third_neighbors))
        = .ok (12, List.replicate 6 [] ++ List.replicate 5 [11] ++ [[]]) := by decide!
  have h6 : ((setSecondDegrees cart5 six).extendThirdNeighbor).map
      (fun e => e.cartwheel.vertex_size) = .ok 16 := by decide!
  have h7 : cart5.extendThirdNeighbor = .error .assertFailed := by decide!
  refine ⟨h1, rfl, ?_, ?_, h7⟩
  · obtain ⟨e, h4, h5⟩ := except_map_eq_ok h3
    exact ⟨e, h4, congrArg Prod.fst h5, congrArg Prod.snd h5⟩
  · obtain ⟨e, h4, h5⟩ := except_map_eq_ok h6
    exact ⟨e, h4, h5⟩

/-! ## The graph of `fromWheel`: no edge has three common neighbours -/

theorem nextRim_cases (d v : Nat) :
    (v = d ∧ nextRim d v = 1) ∨ (v ≠ d ∧ nextRim d v = v + 1) := by
  unfold nextRim
  by_cases h : v = d
  · left; simp [h]
  · right; simp [h]

theorem prevRim_cases (d v : Nat) :
    (v = 1 ∧ prevRim d v = d) ∨ (v ≠ 1 ∧ prevRim d v = v - 1) := by
  unfold prevRim
  by_cases h : v = 1
  · left; simp [h]
  · right; simp [h]

theorem tagAdj_symm {d : Nat} {fx : Nat → Bool} {m : Nat → Nat} {s t : Tag}
    (h : TagAdj d fx m s t) : TagAdj d fx m t s :=
  Or.symm h

theorem tagAdj_hub_rim (d : Nat) (fx : Nat → Bool) (m : Nat → Nat) (v : Nat) :
    TagAdj d fx m .hub (.rim v) ↔ 1 ≤ v ∧ v ≤ d := by
  simp [TagAdj, TagEdge]

theorem tagAdj_rim_rim (d : Nat) (fx : Nat → Bool) (m : Nat → Nat) (v u : Nat) :
    TagAdj d fx m (.rim v) (.rim u)
      ↔ (1 ≤ v ∧ v ≤ d ∧ u = nextRim d v) ∨ (1 ≤ u ∧ u ≤ d ∧ v = nextRim d u) := by
  simp [TagAdj, TagEdge]

theorem tagAdj_rim_out (d : Nat) (fx : Nat → Bool) (m : Nat → Nat) (v u j : Nat) :
    TagAdj d fx m (.rim v) (.out u j)
      ↔ 1 ≤ u ∧ u ≤ d
        ∧ ((v = u ∧ j < m u)
          ∨ ((v = u ∨ v = nextRim d u) ∧ j = m u
              ∧ (fx u = true ∨ fx (nextRim d u) = true))) := by
  simp [TagAdj, TagEdge]

theorem tagAdj_out_out (d : Nat) (fx : Nat → Bool) (m : Nat → Nat) (v j u i : Nat) :
    TagAdj d fx m (.out v j) (.out u i)
      ↔ (1 ≤ v ∧ v ≤ d
          ∧ ((u = v ∧ i = j + 1 ∧ i ≤ m v)
            ∨ (u = nextRim d v ∧ j = m v ∧ i = 0 ∧ fx u = true)))
        ∨ (1 ≤ u ∧ u ≤ d
          ∧ ((v = u ∧ j = i + 1 ∧ j ≤ m u)
            ∨ (v = nextRim d u ∧ i = m u ∧ j = 0 ∧ fx v = true))) := by
  simp [TagAdj, TagEdge]

theorem tagAdj_hub_iff (d : Nat) (fx : Nat → Bool) (m : Nat → Nat) (w : Tag) :
    TagAdj d fx m .hub w ↔ ∃ v, w = .rim v ∧ 1 ≤ v ∧ v ≤ d := by
  cases w <;> simp [TagAdj, TagEdge]

theorem tagEdge_common_hub_rim (d : Nat) (fx : Nat → Bool) (m : Nat → Nat) (v : Nat) :
    ∃ x y, ∀ w, TagAdj d fx m .hub w → TagAdj d fx m (.rim v) w → w = x ∨ w = y := by
  refine ⟨.rim (nextRim d v), .rim (prevRim d v), ?_⟩
  intro w h1 h2
  rw [tagAdj_hub_iff] at h1
  obtain ⟨u, rfl, hu1, hud⟩ := h1
  rw [tagAdj_rim_rim] at h2
  simp only [Tag.rim.injEq]
  have := nextRim_cases d v
  have := nextRim_cases d u
  have := prevRim_cases d v
  omega

theorem tagEdge_common_rim_rim (d : Nat) (fx : Nat → Bool) (m : Nat → Nat) (h4 : 4 ≤ d)
    (v : Nat) (hv1 : 1 ≤ v) (hvd : v ≤ d) :
    ∃ x y, ∀ w, TagAdj d fx m (.rim v) w → TagAdj d fx m (.rim (nextRim d v)) w →
      w = x ∨ w = y := by
  refine ⟨.hub, .out v (m v), ?_⟩
  intro w h1 h2
  cases w with
  | hub => simp
  | rim u =>
    exfalso
    rw [tagAdj_rim_rim] at h1 h2
    have := nextRim_cases d v
    have := nextRim_cases d u
    have := nextRim_cases d (nextRim d v)
    omega
  | out u j =>
    rw [tagAdj_rim_out] at h1 h2
    have := nextRim_cases d v
    have := nextRim_cases d u
    have huv : u = v ∧ j = m u := by omega
    obtain ⟨rfl, rfl⟩ := huv
    simp

theorem tagEdge_common_rim_fan (d : Nat) (fx : Nat → Bool) (m : Nat → Nat) (h4 : 4 ≤ d)
    (u j : Nat) (hu1 : 1 ≤ u) (hud : u ≤ d) (hj : j < m u) :
    ∃ x y, ∀ w, TagAdj d fx m (.rim u) w → TagAdj d fx m (.out u j) w → w = x ∨ w = y := by
  refine ⟨.out u (j + 1),
    if j = 0 then .out (prevRim d u) (m (prevRim d u)) else .out u (j - 1), ?_⟩
  intro w h1 h2
  cases w with
  | hub => simp [TagAdj, TagEdge] at h2
  | rim p =>
    exfalso
    have h2 := (tagAdj_rim_out d fx m p u j).1 (tagAdj_symm h2)
    rw [tagAdj_rim_rim] at h1
    have := nextRim_cases d u
    have := nextRim_cases d p
    omega
  | out p i =>
    rw [tagAdj_out_out] at h2
    have := nextRim_cases d u
    have := nextRim_cases d p
    have := prevRim_cases d u
    by_cases hj0 : j = 0
    · rw [if_pos hj0]
      have hc : (p = u ∧ i = j + 1) ∨ (p = prevRim d u ∧ i = m p) := by omega
      rcases hc with ⟨rfl, rfl⟩ | ⟨rfl, rfl⟩
      · left; rfl
      · right; rfl
    · rw [if_neg hj0]
      have hc : (p = u ∧ i = j + 1) ∨ (p = u ∧ i = j - 1) := by omega
      rcases hc with ⟨rfl, rfl⟩ | ⟨rfl, rfl⟩
      · left; rfl
      · right; rfl

theorem tagEdge_common_rim_second (d : Nat) (fx : Nat → Bool) (m : Nat → Nat) (h4 : 4 ≤ d)
    (u : Nat) (hu1 : 1 ≤ u) (hud : u ≤ d) :
    ∃ x y, ∀ w, TagAdj d fx m (.rim u) w → TagAdj d fx m (.out u (m u)) w →
      w = x ∨ w = y := by
  refine ⟨.rim (nextRim d u),
    if m u = 0 then .out (prevRim d u) (m (prevRim d u)) else .out u (m u - 1), ?_⟩
  intro w h1 h2
  cases w with
  | hub => simp [TagAdj, TagEdge] at h2
  | rim p =>
    have h2 := (tagAdj_rim_out d fx m p u (m u)).1 (tagAdj_symm h2)
    rw [tagAdj_rim_rim] at h1
    have := nextRim_cases d u
    have := nextRim_cases d p
    have hc : p = nextRim d u := by omega
    left; rw [hc]
  | out p i =>
    rw [tagAdj_out_out] at h2
    rw [tagAdj_rim_out] at h1
    have := nextRim_cases d u
    have := nextRim_cases d p
    have := prevRim_cases d u
    by_cases hj0 : m u = 0
    · rw [if_pos hj0]
      have hc : p = prevRim d u ∧ i = m p := by omega
      obtain ⟨rfl, rfl⟩ := hc
      right; rfl
    · rw [if_neg hj0]
      have hc : p = u ∧ i = m u - 1 := by omega
      obtain ⟨rfl, rfl⟩ := hc
      right; rfl

theorem tagEdge_common_next_second (d : Nat) (fx : Nat → Bool) (m : Nat → Nat) (h4 : 4 ≤ d)
    (u : Nat) (hu1 : 1 ≤ u) (hud : u ≤ d) :
    ∃ x y, ∀ w, TagAdj d fx m (.rim (nextRim d u)) w → TagAdj d fx m (.out u (m u)) w →
      w = x ∨ w = y := by
  refine ⟨.rim u, .out (nextRim d u) 0, ?_⟩
  intro w h1 h2
  cases w with
  | hub => simp [TagAdj, TagEdge] at h2
  | rim p =>
    have h2 := (tagAdj_rim_out d fx m p u (m u)).1 (tagAdj_symm h2)
    rw [tagAdj_rim_rim] at h1
    have := nextRim_cases d u
    have := nextRim_cases d p
    have := nextRim_cases d (nextRim d u)
    have hc : p = u := by omega
    left; rw [hc]
  | out p i =>
    rw [tagAdj_out_out] at h2
    rw [tagAdj_rim_out] at h1
    have := nextRim_cases d u
    have := nextRim_cases d p
    have := prevRim_cases d u
    have hc : p = nextRim d u ∧ i = 0 := by omega
    obtain ⟨rfl, rfl⟩ := hc
    right; rfl

theorem tagEdge_common_fan_succ (d : Nat) (fx : Nat → Bool) (m : Nat → Nat) (h4 : 4 ≤ d)
    (v j : Nat) (hv1 : 1 ≤ v) (hvd : v ≤ d) (hj : j + 1 ≤ m v) :
    ∃ x y, ∀ w, TagAdj d fx m (.out v j) w → TagAdj d fx m (.out v (j + 1)) w →
      w = x ∨ w = y := by
  refine ⟨.rim v,
    if j = 0 then .out (prevRim d v) (m (prevRim d v)) else .out v (j - 1), ?_⟩
  intro w h1 h2
  cases w with
  | hub => simp [TagAdj, TagEdge] at h2
  | rim p =>
    have h1 := (tagAdj_rim_out d fx m p v j).1 (tagAdj_symm h1)
    have := nextRim_cases d v
    have hc : p = v := by omega
    left; rw [hc]
  | out p i =>
    rw [tagAdj_out_out] at h1 h2
    have := nextRim_cases d v
    have := nextRim_cases d p
    have := prevRim_cases d v
    by_cases hj0 : j = 0
    · rw [if_pos hj0]
      have hc : p = prevRim d v ∧ i = m p := by omega
      obtain ⟨rfl, rfl⟩ := hc
      right; rfl
    · rw [if_neg hj0]
      have hc : p = v ∧ i = j - 1 := by omega
      obtain ⟨rfl, rfl⟩ := hc
      right; rfl

theorem tagEdge_common_second_next (d : Nat) (fx : Nat → Bool) (m : Nat → Nat) (h4 : 4 ≤ d)
    (v : Nat) (hv1 : 1 ≤ v) (hvd : v ≤ d) :
    ∃ x y, ∀ w, TagAdj d fx m (.out v (m v)) w → TagAdj d fx m (.out (nextRim d v) 0) w →
      w = x ∨ w = y := by
  refine ⟨.rim (nextRim d v), .rim (nextRim d v), ?_⟩
  intro w h1 h2
  cases w with
  | hub => simp [TagAdj, TagEdge] at h2
  | rim p =>
    have h1 := (tagAdj_rim_out d fx m p v (m v)).1 (tagAdj_symm h1)
    have h2 := (tagAdj_rim_out d fx m p (nextRim d v) 0).1 (tagAdj_symm h2)
    have := nextRim_cases d v
    have := nextRim_cases d (nextRim d v)
    have hc : p = nextRim d v := by omega
    left; rw [hc]
  | out p i =>
    exfalso
    rw [tagAdj_out_out] at h1 h2
    have := nextRim_cases d v
    have := nextRim_cases d p
    have := nextRim_cases d (nextRim d v)
    omega

theorem tagEdge_common (d : Nat) (fx : Nat → Bool) (m : Nat → Nat) (h4 : 4 ≤ d)
    (s t : Tag) (hst : TagEdge d fx m s t) :
    ∃ x y, ∀ w, TagAdj d fx m s w → TagAdj d fx m t w → w = x ∨ w = y := by
  cases s with
  | hub =>
    cases t with
    | hub => exact hst.elim
    | rim v => exact tagEdge_common_hub_rim d fx m v
    | out u j => exact hst.elim
  | rim v =>
    cases t with
    | hub => exact hst.elim
    | rim u =>
      obtain ⟨hv1, hvd, rfl⟩ := hst
      exact tagEdge_common_rim_rim d fx m h4 v hv1 hvd
    | out u j =>
      obtain ⟨hu1, hud, ⟨rfl, hj⟩ | ⟨rfl | rfl, rfl, _⟩⟩ := hst
      · exact tagEdge_common_rim_fan d fx m h4 v j hu1 hud hj
      · exact tagEdge_common_rim_second d fx m h4 v hu1 hud
      · exact tagEdge_common_next_second d fx m h4 u hu1 hud
  | out v j =>
    cases t with
    | hub => exact hst.elim
    | rim u => exact hst.elim
    | out u i =>
      obtain ⟨hv1, hvd, ⟨rfl, rfl, hj⟩ | ⟨rfl, rfl, rfl, _⟩⟩ := hst
      · exact tagEdge_common_fan_succ d fx m h4 u j hv1 hvd hj
      · exact tagEdge_common_second_next d fx m h4 v hv1 hvd

/-- In the graph that `fromWheel` builds for a hub degree from 4 on, the two ends of an edge
have at most two common neighbours. -/
theorem tagAdj_common (d : Nat) (fx : Nat → Bool) (m : Nat → Nat) (h4 : 4 ≤ d)
    (s t : Tag) (hst : TagAdj d fx m s t) :
    ∃ x y, ∀ w, TagAdj d fx m s w → TagAdj d fx m t w → w = x ∨ w = y := by
  rcases hst with h | h
  · exact tagEdge_common d fx m h4 s t h
  · obtain ⟨x, y, key⟩ := tagEdge_common d fx m h4 t s h
    exact ⟨x, y, fun w h1 h2 => key w h2 h1⟩

/-! ## The lambdas `add_edge` and `new_vertex` on a named adjacency -/

theorem length_addEdge (VtoV : List (List Nat)) (a b : Nat) :
    (addEdge VtoV a b).length = VtoV.length := by
  unfold addEdge
  rw [length_insertNeighbor, length_insertNeighbor]

theorem mem_adjacent_addEdge (VtoV : List (List Nat)) (a b x y : Nat) :
    y ∈ adjacent (addEdge VtoV a b) x
      ↔ y ∈ adjacent VtoV x ∨ (a = x ∧ a < VtoV.length ∧ y = b)
        ∨ (b = x ∧ b < VtoV.length ∧ y = a) := by
  unfold addEdge
  rw [mem_adjacent_insertNeighbor, mem_adjacent_insertNeighbor, length_insertNeighbor]
  tauto

theorem rowsSorted_addEdge {VtoV : List (List Nat)} (h : RowsSorted VtoV) (a b : Nat) :
    RowsSorted (addEdge VtoV a b) :=
  rowsSorted_insertNeighbor (rowsSorted_insertNeighbor h a b) b a

theorem adjacent_append_nil (VtoV : List (List Nat)) (x : Nat) :
    adjacent (VtoV ++ [[]]) x = adjacent VtoV x := by
  unfold adjacent
  rw [List.getD_eq_getElem?_getD, List.getD_eq_getElem?_getD]
  rcases Nat.lt_trichotomy x VtoV.length with h | h | h
  · rw [List.getElem?_append_left h]
  · subst h
    simp
  · rw [List.getElem?_eq_none (by simp; omega), List.getElem?_eq_none (by omega)]

theorem getElem?_append_some {α : Type} {l : List α} {a : Nat} {s : α} (extra : List α)
    (h : l[a]? = some s) : (l ++ extra)[a]? = some s := by
  have hlt : a < l.length := by
    by_contra hge
    rw [List.getElem?_eq_none (by omega)] at h
    cases h
  rw [List.getElem?_append_left hlt]
  exact h

theorem named_addEdge {d : Nat} {fx : Nat → Bool} {m : Nat → Nat} {VtoV : List (List Nat)}
    {tags : List Tag} (h : Named d fx m VtoV tags) {a b : Nat} {s t : Tag}
    (ha : tags[a]? = some s) (hb : tags[b]? = some t) (hst : TagAdj d fx m s t) :
    Named d fx m (addEdge VtoV a b) tags := by
  refine ⟨by rw [length_addEdge]; exact h.length_eq, h.nodup, rowsSorted_addEdge h.sorted a b,
    ?_⟩
  intro x y hy
  rw [mem_adjacent_addEdge] at hy
  rcases hy with hy | ⟨rfl, _, rfl⟩ | ⟨rfl, _, rfl⟩
  · exact h.sound x y hy
  · exact ⟨s, t, ha, hb, hst⟩
  · exact ⟨t, s, hb, ha, tagAdj_symm hst⟩

theorem named_newVertex {d : Nat} {fx : Nat → Bool} {m : Nat → Nat} {VtoV : List (List Nat)}
    {tags : List Tag} (h : Named d fx m VtoV tags) {t : Tag} (ht : t ∉ tags) :
    Named d fx m (VtoV ++ [[]]) (tags ++ [t]) := by
  refine ⟨by simp [h.length_eq], ?_, ?_, ?_⟩
  · rw [List.nodup_append]
    refine ⟨h.nodup, List.nodup_singleton t, ?_⟩
    intro x hx hx2
    rw [List.mem_singleton] at hx2
    subst hx2
    exact ht hx
  · intro l hl
    rw [List.mem_append] at hl
    rcases hl with hl | hl
    · exact h.sorted l hl
    · rw [List.mem_singleton] at hl
      subst hl
      exact List.sorted_nil
  · intro a b hb
    rw [adjacent_append_nil] at hb
    obtain ⟨s, t2, h1, h2, h3⟩ := h.sound a b hb
    exact ⟨s, t2, getElem?_append_some _ h1, getElem?_append_some _ h2, h3⟩

theorem nodup_index_eq {tags : List Tag} (hn : tags.Nodup) {a b : Nat} {s : Tag}
    (ha : tags[a]? = some s) (hb : tags[b]? = some s) : a = b := by
  obtain ⟨ha1, ha2⟩ := List.getElem?_eq_some.1 ha
  obtain ⟨hb1, hb2⟩ := List.getElem?_eq_some.1 hb
  exact (List.Nodup.getElem_inj_iff hn).1 (ha2.trans hb2.symm)

/-- On a named adjacency, for a hub degree from 4 on, the constructor of `NearTriangulation`
finds at most two diagonal vertices at an edge. -/
theorem named_diagonal {d : Nat} {fx : Nat → Bool} {m : Nat → Nat} {VtoV : List (List Nat)}
    {tags : List Tag} (h : Named d fx m VtoV tags) (h4 : 4 ≤ d) (a b : Nat)
    (hab : b ∈ adjacent VtoV a) : (constructDiagonal VtoV (a, b)).length ≤ 2 := by
  have hnd : (constructDiagonal VtoV (a, b)).Nodup := by
    unfold constructDiagonal
    apply List.Nodup.filter
    rcases adjacent_mem_or_nil VtoV a with hm | hm
    · exact (h.sorted _ hm).nodup
    · rw [hm]; exact List.nodup_nil
  obtain ⟨s, t, hs, ht, hst⟩ := h.sound a b hab
  obtain ⟨x, y, key⟩ := tagAdj_common d fx m h4 s t hst
  have hmap : ((constructDiagonal VtoV (a, b)).map (fun w => tags[w]?)).Nodup := by
    apply List.Nodup.map_on _ hnd
    intro w1 hw1 w2 hw2 heq
    rw [mem_constructDiagonal] at hw1
    obtain ⟨s1, t1, _, hw, _⟩ := h.sound a w1 hw1.1
    have heq2 : tags[w2]? = some t1 := by rw [← hw]; exact heq.symm
    exact nodup_index_eq h.nodup hw heq2
  have hsub : (constructDiagonal VtoV (a, b)).map (fun w => tags[w]?) ⊆ [some x, some y] := by
    intro o ho
    rw [List.mem_map] at ho
    obtain ⟨w, hw, rfl⟩ := ho
    rw [mem_constructDiagonal] at hw
    obtain ⟨s1, t1, hs1, ht1, h1⟩ := h.sound a w hw.1
    obtain ⟨s2, t2, hs2, ht2, h2⟩ := h.sound b w hw.2
    have e1 : s1 = s := Option.some.inj (hs1.symm.trans hs)
    have e2 : s2 = t := Option.some.inj (hs2.symm.trans ht)
    have e3 : t2 = t1 := Option.some.inj (ht2.symm.trans ht1)
    subst e1 e2 e3
    show tags[w]? ∈ [some x, some y]
    rw [ht1]
    rcases key t2 h1 h2 with rfl | rfl <;> simp
  have := (List.subperm_of_subset hmap hsub).length_le
  simpa using this

theorem named_construct {d : Nat} {fx : Nat → Bool} {m : Nat → Nat} {VtoV : List (List Nat)}
    {tags : List Tag} (h : Named d fx m VtoV tags) (h4 : 4 ≤ d) (n : Nat)
    (degrees : List (Option Degree)) :
    NearTriangulation.construct n VtoV degrees
      = some (NearTriangulation.build n VtoV degrees) := by
  unfold NearTriangulation.construct
  rw [if_pos]
  unfold NearTriangulation.diagonalAssertion NearTriangulation.build
  rw [List.all_eq_true]
  intro p hp
  simp only [List.mem_map] at hp
  obtain ⟨⟨a, b⟩, he, rfl⟩ := hp
  rw [mem_constructEdges] at he
  simpa using named_diagonal h h4 a b he.2

/-! ## The first loop of `fromWheel` -/

theorem foldlM_range'_inv {σ : Type} (f : σ → Nat → Except MatchError σ)
    (P : Nat → σ → Prop) (start : Nat) :
    ∀ (len k : Nat) (s : σ), P k s →
      (∀ j s, k ≤ j → j < k + len → P j s → ∃ s', f s (start + j) = .ok s' ∧ P (j + 1) s') →
      ∃ s', (List.range' (start + k) len).foldlM f s = .ok s' ∧ P (k + len) s' := by
  intro len
  induction len with
  | zero =>
    intro k s h0 _
    exact ⟨s, rfl, h0⟩
  | succ len ih =>
    intro k s h0 hstep
    obtain ⟨s1, h1, h2⟩ := hstep k s (Nat.le_refl k) (by omega) h0
    obtain ⟨s2, h3, h4⟩ := ih (k + 1) s1 h2
      (fun j s hj1 hj2 hP => hstep j s (by omega) (by omega) hP)
    refine ⟨s2, ?_, by rw [show k + (len + 1) = k + 1 + len by omega]; exact h4⟩
    rw [List.range'_succ, List.foldlM_cons, h1]
    exact h3

theorem foldl_range_inv {σ : Type} (f : σ → Nat → σ) (P : Nat → σ → Prop) (s : σ) :
    ∀ (k : Nat), P 0 s → (∀ i s, i < k → P i s → P (i + 1) (f s i)) →
      P k ((List.range k).foldl f s) := by
  intro k
  induction k with
  | zero => intro h0 _; exact h0
  | succ k ih =>
    intro h0 hstep
    rw [List.range_succ, List.foldl_append]
    exact hstep k _ (Nat.lt_succ_self k)
      (ih h0 (fun i s hi hP => hstep i s (Nat.lt_succ_of_lt hi) hP))

theorem degreeValue_append {degrees0 : List (Option Degree)} {v : Nat} {degree : Degree}
    (extra : List (Option Degree)) (h : degrees0.getD v none = some degree) :
    degreeValue (degrees0 ++ extra) v = .ok degree := by
  have h2 : degrees0[v]? = some (some degree) := by
    rw [List.getD_eq_getElem?_getD] at h
    cases hc : degrees0[v]? with
    | none => rw [hc] at h; cases h
    | some o => rw [hc] at h; simp at h; rw [h]
  unfold degreeValue
  rw [List.getD_eq_getElem?_getD, getElem?_append_some extra h2]
  rfl

theorem rimFixed_of_getD {degrees0 : List (Option Degree)} {v : Nat} {degree : Degree}
    (h : degrees0.getD v none = some degree) : rimFixed degrees0 v = degree.fixed := by
  unfold rimFixed
  rw [h]

theorem fanCount_of_getD {degrees0 : List (Option Degree)} {v : Nat} {degree : Degree}
    (h : degrees0.getD v none = some degree) :
    fanCount degrees0 v = if degree.fixed then (degree.lower_deg - 5).toNat else 0 := by
  unfold fanCount
  rw [h]

theorem rimDegreesSet_get {d : Nat} {degrees0 : List (Option Degree)}
    (h : RimDegreesSet d degrees0) (v : Nat) (h1 : 1 ≤ v) (hd : v ≤ d) :
    ∃ degree, degrees0.getD v none = some degree :=
  Option.isSome_iff_exists.1 (h v (by rw [List.mem_range'_1]; omega))

theorem nextRim_range {d v : Nat} (h1 : 1 ≤ v) (hd : v ≤ d) :
    1 ≤ nextRim d v ∧ nextRim d v ≤ d := by
  have := nextRim_cases d v
  omega

theorem prevRim_range {d v : Nat} (h1 : 1 ≤ v) (hd : v ≤ d) :
    1 ≤ prevRim d v ∧ prevRim d v ≤ d ∧ nextRim d (prevRim d v) = v := by
  have := prevRim_cases d v
  have := nextRim_cases d (prevRim d v)
  omega

theorem cartInv_addEdge {d : Nat} {degrees0 : List (Option Degree)} {n1 n2 i : Nat}
    {VtoV : List (List Nat)} {sn : List Nat} {tags : List Tag}
    (h : CartInv d degrees0 n1 n2 i VtoV sn tags) {a b : Nat} {s t : Tag}
    (ha : tags[a]? = some s) (hb : tags[b]? = some t)
    (hst : TagAdj d (rimFixed degrees0) (fanCount degrees0) s t) :
    CartInv d degrees0 n1 n2 i (addEdge VtoV a b) sn tags := by
  refine ⟨named_addEdge h.named ha hb hst, h.hub, h.rim, h.born, h.second_length, ?_⟩
  intro v hv1 hv2 hex
  obtain ⟨e1, e2, e3⟩ := h.second v hv1 hv2 hex
  exact ⟨e1, (mem_adjacent_addEdge _ _ _ _ _).2 (Or.inl e2),
    (mem_adjacent_addEdge _ _ _ _ _).2 (Or.inl e3)⟩

theorem cartInv_newVertex {d : Nat} {degrees0 : List (Option Degree)} {n1 n2 i : Nat}
    {VtoV : List (List Nat)} {sn : List Nat} {tags : List Tag}
    (h : CartInv d degrees0 n1 n2 i VtoV sn tags) {t : Tag} (ht : t ∉ tags) (n2' i' : Nat)
    (hmono : ∀ t', Born d (fanCount degrees0) n1 n2 i t' →
      Born d (fanCount degrees0) n1 n2' i' t')
    (hnew : Born d (fanCount degrees0) n1 n2' i' t) :
    CartInv d degrees0 n1 n2' i' (VtoV ++ [[]]) sn (tags ++ [t]) := by
  refine ⟨named_newVertex h.named ht, getElem?_append_some _ h.hub,
    fun v h1 h2 => getElem?_append_some _ (h.rim v h1 h2), ?_, h.second_length, ?_⟩
  · intro t' ht'
    rw [List.mem_append, List.mem_singleton] at ht'
    rcases ht' with ht' | rfl
    · exact hmono t' (h.born t' ht')
    · exact hnew
  · intro v hv1 hv2 hex
    obtain ⟨e1, e2, e3⟩ := h.second v hv1 hv2 hex
    rw [adjacent_append_nil, adjacent_append_nil]
    exact ⟨getElem?_append_some _ e1, e2, e3⟩

theorem cartInv_progress {d : Nat} {degrees0 : List (Option Degree)} {n1 n2 i : Nat}
    {VtoV : List (List Nat)} {sn : List Nat} {tags : List Tag}
    (h : CartInv d degrees0 n1 n2 i VtoV sn tags) (n2' i' : Nat)
    (hmono : ∀ t', Born d (fanCount degrees0) n1 n2 i t' →
      Born d (fanCount degrees0) n1 n2' i' t') :
    CartInv d degrees0 n1 n2' i' VtoV sn tags :=
  ⟨h.named, h.hub, h.rim, fun t ht => hmono t (h.born t ht), h.second_length, h.second⟩

theorem cartInv_new_index {d : Nat} {degrees0 : List (Option Degree)} {n1 n2 i : Nat}
    {VtoV : List (List Nat)} {sn : List Nat} {tags : List Tag}
    (h : CartInv d degrees0 n1 n2 i VtoV sn tags) (t : Tag) :
    (tags ++ [t])[VtoV.length]? = some t := by
  rw [← h.named.length_eq]
  simp

theorem lt_length_of_getElem? {α : Type} {l : List α} {a : Nat} {s : α} (h : l[a]? = some s) :
    a < l.length :=
  (List.getElem?_eq_some.1 h).1

theorem born_first_mono {d : Nat} {m : Nat → Nat} {n : Nat} (t : Tag)
    (h : Born d m n 0 0 t) : Born d m (n + 1) 0 0 t := by
  rcases h with h | h | ⟨v, h1, h2, h3⟩ | h
  · exact Or.inl h
  · exact Or.inr (Or.inl h)
  · exact Or.inr (Or.inr (Or.inl ⟨v, h1, by omega, h3⟩))
  · exact Or.inr (Or.inr (Or.inr h))

theorem cartInv_skip {d : Nat} {degrees0 : List (Option Degree)} {n : Nat}
    {VtoV : List (List Nat)} {sn : List Nat} {tags : List Tag}
    (h : CartInv d degrees0 n 0 0 VtoV sn tags)
    (hex : ¬ (rimFixed degrees0 (n + 1) = true
      ∨ rimFixed degrees0 (nextRim d (n + 1)) = true)) :
    CartInv d degrees0 (n + 1) 0 0 VtoV sn tags := by
  refine ⟨h.named, h.hub, h.rim, fun t ht => born_first_mono t (h.born t ht),
    h.second_length, ?_⟩
  intro v hv1 hv2 hv
  by_cases hvn : v = n + 1
  · subst hvn
    exact (hex hv).elim
  · exact h.second v hv1 (by omega) hv

theorem cartInv_second {d : Nat} {degrees0 : List (Option Degree)} {n : Nat}
    {VtoV : List (List Nat)} {sn : List Nat} {tags : List Tag}
    (h : CartInv d degrees0 n 0 0 VtoV sn tags) (hn : n + 1 ≤ d)
    (hex : rimFixed degrees0 (n + 1) = true
      ∨ rimFixed degrees0 (nextRim d (n + 1)) = true) :
    CartInv d degrees0 (n + 1) 0 0
      (addEdge (addEdge (VtoV ++ [[]]) (n + 1) VtoV.length) (nextRim d (n + 1)) VtoV.length)
      (sn.set (n + 1) VtoV.length)
      (tags ++ [Tag.out (n + 1) (fanCount degrees0 (n + 1))]) := by
  have hu := nextRim_range (Nat.succ_le_succ (Nat.zero_le n)) hn
  have hfresh : Tag.out (n + 1) (fanCount degrees0 (n + 1)) ∉ tags := by
    intro hmem
    rcases h.born _ hmem with h1 | ⟨v, _, _, h1⟩ | ⟨v, _, h2, h1⟩ | ⟨v, j, h2, h3, h1⟩
    · cases h1
    · cases h1
    · injection h1 with e1 e2
      omega
    · injection h1 with e1 e2
      omega
  have hw := cartInv_new_index h (Tag.out (n + 1) (fanCount degrees0 (n + 1)))
  have hv := getElem?_append_some [Tag.out (n + 1) (fanCount degrees0 (n + 1))]
    (h.rim (n + 1) (by omega) hn)
  have hu2 := getElem?_append_some [Tag.out (n + 1) (fanCount degrees0 (n + 1))]
    (h.rim (nextRim d (n + 1)) hu.1 hu.2)
  have hvl : n + 1 < VtoV.length := by
    rw [← h.named.length_eq]
    exact lt_length_of_getElem? (h.rim (n + 1) (by omega) hn)
  have hul : nextRim d (n + 1) < VtoV.length := by
    rw [← h.named.length_eq]
    exact lt_length_of_getElem? (h.rim _ hu.1 hu.2)
  refine ⟨?_, getElem?_append_some _ h.hub,
    fun v h1 h2 => getElem?_append_some _ (h.rim v h1 h2), ?_, ?_, ?_⟩
  · refine named_addEdge (named_addEdge (named_newVertex h.named hfresh) hv hw ?_) hu2 hw ?_
    · exact Or.inl ⟨by omega, hn, Or.inr ⟨Or.inl rfl, rfl, hex⟩⟩
    · exact Or.inl ⟨by omega, hn, Or.inr ⟨Or.inr rfl, rfl, hex⟩⟩
  · intro t ht
    rw [List.mem_append, List.mem_singleton] at ht
    rcases ht with ht | rfl
    · exact born_first_mono t (h.born t ht)
    · exact Or.inr (Or.inr (Or.inl ⟨n + 1, by omega, Nat.le_refl _, rfl⟩))
  · rw [List.length_set]
    exact h.second_length
  · intro v hv1 hv2 hexv
    by_cases hvn : v = n + 1
    · subst hvn
      have hget : (sn.set (n + 1) VtoV.length).getD (n + 1) 0 = VtoV.length := by
        rw [List.getD_eq_getElem?_getD, List.getElem?_set]
        have hnd : n < d := by omega
        simp [h.second_length, hnd]
      rw [hget]
      refine ⟨hw, ?_, ?_⟩
      · rw [mem_adjacent_addEdge, mem_adjacent_addEdge]
        exact Or.inl (Or.inr (Or.inl ⟨rfl, by simp; omega, rfl⟩))
      · rw [mem_adjacent_addEdge]
        exact Or.inr (Or.inl ⟨rfl, by rw [length_addEdge]; simp; omega, rfl⟩)
    · have hget : (sn.set (n + 1) VtoV.length).getD v 0 = sn.getD v 0 := by
        rw [List.getD_eq_getElem?_getD, List.getD_eq_getElem?_getD, List.getElem?_set]
        simp [Ne.symm hvn]
      rw [hget]
      obtain ⟨e1, e2, e3⟩ := h.second v hv1 (by omega) hexv
      refine ⟨getElem?_append_some _ e1, ?_, ?_⟩
      · rw [mem_adjacent_addEdge, mem_adjacent_addEdge, adjacent_append_nil]
        exact Or.inl (Or.inl e2)
      · rw [mem_adjacent_addEdge, mem_adjacent_addEdge, adjacent_append_nil]
        exact Or.inl (Or.inl e3)

theorem secondNeighborStep_inv {d : Nat} {degrees0 : List (Option Degree)}
    (hset : RimDegreesSet d degrees0) (n : Nat) (s : CartVars) (hn : n < d)
    (h : FirstLoopInv d degrees0 n s) :
    ∃ s', secondNeighborStep d s (1 + n) = .ok s' ∧ FirstLoopInv d degrees0 (n + 1) s' := by
  obtain ⟨tags, hinv, ⟨extra, hdeg⟩, hring⟩ := h
  rw [Nat.add_comm 1 n]
  have hu := nextRim_range (Nat.succ_le_succ (Nat.zero_le n)) (Nat.succ_le_of_lt hn)
  obtain ⟨degv, hdv⟩ := rimDegreesSet_get hset (n + 1) (by omega) (by omega)
  obtain ⟨degu, hdu⟩ := rimDegreesSet_get hset (nextRim d (n + 1)) hu.1 hu.2
  have hvt := hinv.rim (n + 1) (by omega) (by omega)
  have hut := hinv.rim (nextRim d (n + 1)) hu.1 hu.2
  have h1 : CartInv d degrees0 n 0 0
      (addEdge (addEdge s.VtoV (n + 1) (nextRim d (n + 1))) 0 (n + 1)) s.second_neighbors
      tags := by
    refine cartInv_addEdge (cartInv_addEdge hinv hvt hut ?_) hinv.hub hvt ?_
    · exact Or.inl ⟨by omega, by omega, rfl⟩
    · exact Or.inl ⟨by omega, by omega⟩
  have hstep : secondNeighborStep d s (n + 1)
      = .ok (if degv.fixed = true ∨ degu.fixed = true then
          { VtoV := addEdge (addEdge
              (addEdge (addEdge s.VtoV (n + 1) (nextRim d (n + 1))) 0 (n + 1) ++ [[]])
              (n + 1) (addEdge (addEdge s.VtoV (n + 1) (nextRim d (n + 1))) 0 (n + 1)).length)
              (nextRim d (n + 1))
              (addEdge (addEdge s.VtoV (n + 1) (nextRim d (n + 1))) 0 (n + 1)).length
            degrees := s.degrees ++ [none]
            hub_neighbors_neighbors := s.hub_neighbors_neighbors
            second_neighbors := s.second_neighbors.set (n + 1)
              (addEdge (addEdge s.VtoV (n + 1) (nextRim d (n + 1))) 0 (n + 1)).length }
        else { s with VtoV := addEdge (addEdge s.VtoV (n + 1) (nextRim d (n + 1))) 0 (n + 1) })
      := by
    unfold secondNeighborStep
    have e1 : degreeValue s.degrees (n + 1) = .ok degv := by
      rw [hdeg]; exact degreeValue_append extra hdv
    have e2 : degreeValue s.degrees (if n + 1 = d then 1 else n + 1 + 1) = .ok degu := by
      rw [hdeg]; exact degreeValue_append extra hdu
    simp only [e1, e2, bind, Except.bind, pure, Except.pure]
    cases hfv : degv.fixed <;> cases hfu : degu.fixed <;> simp [nextRim]
  rw [hstep]
  refine ⟨_, rfl, ?_⟩
  by_cases hex : degv.fixed = true ∨ degu.fixed = true
  · rw [if_pos hex]
    refine ⟨tags ++ [Tag.out (n + 1) (fanCount degrees0 (n + 1))], ?_,
      ⟨extra ++ [none], by simp [hdeg]⟩, hring⟩
    exact cartInv_second h1 (by omega)
      (by rw [rimFixed_of_getD hdv, rimFixed_of_getD hdu]; exact hex)
  · rw [if_neg hex]
    refine ⟨tags, ?_, ⟨extra, hdeg⟩, hring⟩
    exact cartInv_skip h1 (by rw [rimFixed_of_getD hdv, rimFixed_of_getD hdu]; exact hex)

theorem firstLoop_start (d : Nat) (degrees0 : List (Option Degree)) :
    FirstLoopInv d degrees0 0
      { VtoV := List.replicate (d + 1) []
        degrees := degrees0
        hub_neighbors_neighbors := List.replicate (d + 1) []
        second_neighbors := List.replicate (d + 1) 0 } := by
  refine ⟨Tag.hub :: (List.range' 1 d).map Tag.rim, ⟨⟨by simp, ?_, ?_, ?_⟩, by simp, ?_, ?_,
    by simp, ?_⟩, ⟨[], by simp⟩, rfl⟩
  · rw [List.nodup_cons]
    refine ⟨by simp, ?_⟩
    apply List.Nodup.map _ (List.nodup_range' 1 d)
    intro a b hab
    injection hab
  · intro l hl
    rw [List.eq_of_mem_replicate hl]
    exact List.sorted_nil
  · intro a b hb
    rw [adjacent_replicate_nil] at hb
    cases hb
  · intro v hv1 hvd
    obtain ⟨k, rfl⟩ : ∃ k, v = k + 1 := ⟨v - 1, by omega⟩
    have hk : k < d := by omega
    simp [List.getElem?_range', hk, Nat.add_comm]
  · intro t ht
    rw [List.mem_cons, List.mem_map] at ht
    rcases ht with rfl | ⟨v, hv, rfl⟩
    · exact Or.inl rfl
    · rw [List.mem_range'_1] at hv
      exact Or.inr (Or.inl ⟨v, hv.1, by omega, rfl⟩)
  · intro v hv1 hv0
    omega

theorem firstLoop_spec {d : Nat} {degrees0 : List (Option Degree)}
    (hset : RimDegreesSet d degrees0) :
    ∃ s, (List.range' 1 d).foldlM (secondNeighborStep d)
        { VtoV := List.replicate (d + 1) []
          degrees := degrees0
          hub_neighbors_neighbors := List.replicate (d + 1) []
          second_neighbors := List.replicate (d + 1) 0 } = .ok s
      ∧ FirstLoopInv d degrees0 d s := by
  have := foldlM_range'_inv (secondNeighborStep d) (FirstLoopInv d degrees0) 1 d 0 _
    (firstLoop_start d degrees0)
    (fun j s _ hj hP => secondNeighborStep_inv hset j s (by omega) hP)
  simpa using this

/-! ## The second loop of `fromWheel` -/

theorem length_pushAt {α : Type} (lists : List (List α)) (v : Nat) (w : α) :
    (pushAt lists v w).length = lists.length := by
  unfold pushAt
  rw [List.length_set]

theorem getD_pushAt {α : Type} (lists : List (List α)) (v x : Nat) (w : α) :
    (pushAt lists v w).getD x []
      = if v = x ∧ v < lists.length then lists.getD v [] ++ [w] else lists.getD x [] := by
  unfold pushAt
  rw [List.getD_eq_getElem?_getD, List.getD_eq_getElem?_getD, List.getD_eq_getElem?_getD,
    List.getElem?_set]
  by_cases hvx : v = x
  · subst hvx
    by_cases hlt : v < lists.length
    · simp [hlt]
    · simp [hlt, List.getElem?_eq_none (not_lt.1 hlt)]
  · simp [hvx]

theorem fanStep_inv {d : Nat} {degrees0 : List (Option Degree)} {n : Nat} {sn : List Nat}
    (hn : n + 1 ≤ d) (hfx : rimFixed degrees0 (n + 1) = true) (i : Nat)
    (p : CartVars × Nat) (hi : i < fanCount degrees0 (n + 1))
    (h : FanInv d degrees0 n sn i p) : FanInv d degrees0 n sn (i + 1) (fanStep (n + 1) p i) := by
  obtain ⟨tags, hinv, ⟨extra, hdeg⟩, hsn, hlen, hother, hmine, hfirst⟩ := h
  have hp := prevRim_range (Nat.succ_le_succ (Nat.zero_le n)) hn
  have hfresh : Tag.out (n + 1) i ∉ tags := by
    intro hmem
    rcases hinv.born _ hmem with h1 | ⟨v, _, _, h1⟩ | ⟨v, _, h2, h1⟩ | ⟨v, j, h2, h3, h1⟩
    · cases h1
    · cases h1
    · injection h1 with e1 e2
      subst e1
      omega
    · injection h1 with e1 e2
      omega
  have h1 : CartInv d degrees0 d n (i + 1) (p.1.VtoV ++ [[]]) p.1.second_neighbors
      (tags ++ [Tag.out (n + 1) i]) := by
    refine cartInv_newVertex hinv hfresh n (i + 1) ?_ ?_
    · rintro t (ht | ht | ht | ⟨v, j, h2, h3, h4⟩)
      · exact Or.inl ht
      · exact Or.inr (Or.inl ht)
      · exact Or.inr (Or.inr (Or.inl ht))
      · exact Or.inr (Or.inr (Or.inr ⟨v, j, h2, by omega, h4⟩))
    · exact Or.inr (Or.inr (Or.inr ⟨n + 1, i, hi, by omega, rfl⟩))
  have hw := cartInv_new_index hinv (Tag.out (n + 1) i)
  have hv := getElem?_append_some [Tag.out (n + 1) i] (hinv.rim (n + 1) (by omega) hn)
  have hf := getElem?_append_some [Tag.out (n + 1) i] hfirst
  have h2 : CartInv d degrees0 d n (i + 1)
      (addEdge (addEdge (p.1.VtoV ++ [[]]) (n + 1) p.1.VtoV.length) p.2 p.1.VtoV.length)
      p.1.second_neighbors (tags ++ [Tag.out (n + 1) i]) := by
    refine cartInv_addEdge (cartInv_addEdge h1 hv hw ?_) hf hw ?_
    · exact Or.inl ⟨by omega, hn, Or.inl ⟨rfl, hi⟩⟩
    · by_cases hi0 : i = 0
      · subst hi0
        rw [if_pos rfl]
        exact Or.inl ⟨hp.1, hp.2.1, Or.inr ⟨hp.2.2.symm, rfl, rfl, hfx⟩⟩
      · rw [if_neg hi0]
        exact Or.inl ⟨by omega, hn, Or.inl ⟨rfl, by omega, by omega⟩⟩
  refine ⟨tags ++ [Tag.out (n + 1) i], h2, ⟨extra ++ [none], by simp [fanStep, hdeg]⟩, hsn,
    ?_, ?_, ?_, ?_⟩
  · show (pushAt _ _ _).length = d + 1
    rw [length_pushAt]
    exact hlen
  · intro v hv
    show ((pushAt _ _ _).getD v []).length = _
    rw [getD_pushAt, if_neg (fun hc => hv hc.1.symm)]
    exact hother v hv
  · show ((pushAt _ _ _).getD (n + 1) []).length = _
    rw [getD_pushAt, if_pos ⟨rfl, by omega⟩, List.length_append, hmine]
    rfl
  · show (tags ++ [Tag.out (n + 1) i])[p.1.VtoV.length]? = _
    rw [hw, if_neg (by omega)]
    rfl

theorem born_ring_done {d : Nat} {m : Nat → Nat} {n i : Nat} (t : Tag)
    (h : Born d m d n i t) : Born d m d (n + 1) 0 t := by
  rcases h with h | h | h | ⟨v, j, h2, h3, h4⟩
  · exact Or.inl h
  · exact Or.inr (Or.inl h)
  · exact Or.inr (Or.inr (Or.inl h))
  · exact Or.inr (Or.inr (Or.inr ⟨v, j, h2, by omega, h4⟩))

theorem ring_close {d : Nat} {degrees0 : List (Option Degree)} {n : Nat} {sn : List Nat}
    (hn : n + 1 ≤ d) (hfx : rimFixed degrees0 (n + 1) = true) (r : CartVars × Nat)
    (h : FanInv d degrees0 n sn (fanCount degrees0 (n + 1)) r) :
    SecondLoopInv d degrees0 (n + 1)
      { VtoV := addEdge r.1.VtoV r.2 (sn.getD (n + 1) 0)
        degrees := r.1.degrees
        hub_neighbors_neighbors := pushAt r.1.hub_neighbors_neighbors (n + 1)
          (sn.getD (n + 1) 0)
        second_neighbors := r.1.second_neighbors } := by
  obtain ⟨tags, hinv, ⟨extra, hdeg⟩, hsn, hlen, hother, hmine, hfirst⟩ := h
  have hp := prevRim_range (Nat.succ_le_succ (Nat.zero_le n)) hn
  have hlast := (hinv.second (n + 1) (by omega) hn (Or.inl hfx)).1
  rw [hsn] at hlast
  refine ⟨tags, ?_, ⟨extra, hdeg⟩, ?_, ?_⟩
  · refine cartInv_progress (cartInv_addEdge hinv hfirst hlast ?_) (n + 1) 0
      (fun t ht => born_ring_done t ht)
    by_cases hm0 : fanCount degrees0 (n + 1) = 0
    · rw [if_pos hm0]
      exact Or.inl ⟨hp.1, hp.2.1, Or.inr ⟨hp.2.2.symm, rfl, hm0, hfx⟩⟩
    · rw [if_neg hm0]
      exact Or.inl ⟨by omega, hn, Or.inl ⟨rfl, by omega, Nat.le_refl _⟩⟩
  · show (pushAt _ _ _).length = d + 1
    rw [length_pushAt]
    exact hlen
  · intro v
    show ((pushAt _ _ _).getD v []).length = _
    rw [getD_pushAt]
    by_cases hv : v = n + 1
    · subst hv
      rw [if_pos ⟨rfl, by omega⟩, List.length_append, hmine, if_pos ⟨by omega, Nat.le_refl _, hfx⟩]
      rfl
    · rw [if_neg (fun hc => hv hc.1.symm), hother v hv]
      by_cases hc : 1 ≤ v ∧ v ≤ n ∧ rimFixed degrees0 v = true
      · rw [if_pos hc, if_pos ⟨hc.1, by omega, hc.2.2⟩]
      · rw [if_neg hc, if_neg (fun hc2 => hc ⟨hc2.1, by omega, hc2.2.2⟩)]

theorem neighborRingStep_inv {d : Nat} {degrees0 : List (Option Degree)}
    (hset : RimDegreesSet d degrees0) (n : Nat) (s : CartVars) (hn : n < d)
    (h : SecondLoopInv d degrees0 n s) :
    ∃ s', neighborRingStep d s (1 + n) = .ok s' ∧ SecondLoopInv d degrees0 (n + 1) s' := by
  obtain ⟨tags, hinv, ⟨extra, hdeg⟩, hlen, hring⟩ := h
  rw [Nat.add_comm 1 n]
  have hp := prevRim_range (Nat.succ_le_succ (Nat.zero_le n)) (Nat.succ_le_of_lt hn)
  obtain ⟨degv, hdv⟩ := rimDegreesSet_get hset (n + 1) (by omega) (by omega)
  have e1 : degreeValue s.degrees (n + 1) = .ok degv := by
    rw [hdeg]; exact degreeValue_append extra hdv
  have hfx := rimFixed_of_getD hdv
  have hm := fanCount_of_getD hdv
  unfold neighborRingStep
  simp only [e1, bind, Except.bind]
  cases hfv : degv.fixed with
  | false =>
    rw [hfv] at hfx
    refine ⟨s, by simp [pure, Except.pure], tags, cartInv_progress hinv (n + 1) 0
      (fun t ht => born_ring_done t ht), ⟨extra, hdeg⟩, hlen, ?_⟩
    intro v
    rw [hring v]
    by_cases hv : v = n + 1
    · subst hv
      rw [if_neg (by omega), if_neg (by simp [hfx])]
    · by_cases hc : 1 ≤ v ∧ v ≤ n ∧ rimFixed degrees0 v = true
      · rw [if_pos hc, if_pos ⟨hc.1, by omega, hc.2.2⟩]
      · rw [if_neg hc, if_neg (fun hc2 => hc ⟨hc2.1, by omega, hc2.2.2⟩)]
  | true =>
    rw [hfv] at hfx
    rw [hfv, if_pos rfl] at hm
    simp only [Bool.not_true, Bool.false_eq_true, if_false, pure, Except.pure, ← hm]
    have hstart : FanInv d degrees0 n s.second_neighbors 0
        (CartVars.mk s.VtoV s.degrees
          (pushAt s.hub_neighbors_neighbors (n + 1)
            (s.second_neighbors.getD (prevRim d (n + 1)) 0)) s.second_neighbors,
          s.second_neighbors.getD (prevRim d (n + 1)) 0) := by
      refine ⟨tags, hinv, ⟨extra, hdeg⟩, rfl, ?_, ?_, ?_, ?_⟩
      · show (pushAt _ _ _).length = d + 1
        rw [length_pushAt]; exact hlen
      · intro v hv
        show ((pushAt _ _ _).getD v []).length = _
        rw [getD_pushAt, if_neg (fun hc => hv hc.1.symm)]
        exact hring v
      · show ((pushAt _ _ _).getD (n + 1) []).length = _
        rw [getD_pushAt, if_pos ⟨rfl, by omega⟩, List.length_append, hring (n + 1),
          if_neg (by omega)]
        rfl
      · rw [if_pos rfl]
        exact (hinv.second (prevRim d (n + 1)) hp.1 hp.2.1
          (Or.inr (by rw [hp.2.2]; exact hfx))).1
    have hend := foldl_range_inv (fanStep (n + 1)) (FanInv d degrees0 n s.second_neighbors)
      _ (fanCount degrees0 (n + 1)) hstart
      (fun i p hi hP => fanStep_inv (Nat.succ_le_of_lt hn) hfx i p hi hP)
    exact ⟨_, rfl, ring_close (Nat.succ_le_of_lt hn) hfx _ hend⟩

/-! ## What `fromWheel` builds -/

theorem fromWheelLoops_spec {d : Nat} {degrees0 : List (Option Degree)}
    (hset : RimDegreesSet d degrees0) :
    ∃ s, fromWheelLoops d degrees0 = .ok s ∧ SecondLoopInv d degrees0 d s := by
  obtain ⟨s1, h1, tags, hinv, hdeg, hring⟩ := firstLoop_spec hset
  have hstart : SecondLoopInv d degrees0 0 s1 := by
    refine ⟨tags, hinv, hdeg, by rw [hring]; simp, ?_⟩
    intro v
    rw [hring, if_neg (by omega)]
    by_cases hv : v < d + 1
    · simp [List.getD_eq_getElem?_getD, List.getElem?_replicate, hv]
    · simp [List.getD_eq_getElem?_getD, List.getElem?_replicate, hv]
  have := foldlM_range'_inv (neighborRingStep d) (SecondLoopInv d degrees0) 1 d 0 s1 hstart
    (fun j s _ hj hP => neighborRingStep_inv hset j s (by omega) hP)
  simp only [Nat.add_zero, Nat.zero_add] at this
  obtain ⟨s2, h2, h3⟩ := this
  refine ⟨s2, ?_, h3⟩
  unfold fromWheelLoops
  simp only [bind, Except.bind] at h1 ⊢
  rw [h1]
  exact h2

theorem fromWheel_eq {wheel : Wheel} {d : Nat} {s : CartVars}
    (hd : wheel.numNeighbor = .ok (d : Int))
    (hs : fromWheelLoops d wheel.wheel.degrees = .ok s) :
    CartWheel.fromWheel wheel
      = match NearTriangulation.construct s.VtoV.length s.VtoV s.degrees with
        | some cartwheel =>
          .ok { cartwheel := cartwheel
                num_neighbor := d
                hub_neighbors_neighbors := s.hub_neighbors_neighbors
                third_neighbors := List.replicate cartwheel.vertex_size [] }
        | none => .error .assertFailed := by
  unfold CartWheel.fromWheel
  simp only [hd, bind, Except.bind]
  rw [if_neg (by omega), Int.toNat_ofNat]
  simp only [bind, Except.bind, hs]
  cases NearTriangulation.construct s.VtoV.length s.VtoV s.degrees <;> rfl

theorem fanCount_of_not_fixed (degrees0 : List (Option Degree)) (v : Nat)
    (h : rimFixed degrees0 v = false) : fanCount degrees0 v = 0 := by
  unfold rimFixed at h
  unfold fanCount
  cases hc : degrees0.getD v none with
  | none => rfl
  | some degree =>
    rw [hc] at h
    simp only at h ⊢
    rw [h]
    rfl

/-- In the graph of `fromWheel`, a vertex beside the hub and the rim that is joined to a rim
vertex and to the next one is the second neighbour of the pair, and one of the two rim
vertices has a fixed degree. -/
theorem tagAdj_pair {d : Nat} {degrees0 : List (Option Degree)} {v u j : Nat}
    (hv1 : 1 ≤ v) (hvd : v ≤ d)
    (h1 : TagAdj d (rimFixed degrees0) (fanCount degrees0) (Tag.rim v) (Tag.out u j))
    (h2 : TagAdj d (rimFixed degrees0) (fanCount degrees0) (Tag.rim (nextRim d v))
      (Tag.out u j)) :
    rimFixed degrees0 v = true ∨ rimFixed degrees0 (nextRim d v) = true := by
  rw [tagAdj_rim_out] at h1 h2
  by_contra hex
  have hfv : rimFixed degrees0 v = false := by
    cases hc : rimFixed degrees0 v
    · rfl
    · exact (hex (Or.inl hc)).elim
  have hfu : rimFixed degrees0 (nextRim d v) = false := by
    cases hc : rimFixed degrees0 (nextRim d v)
    · rfl
    · exact (hex (Or.inr hc)).elim
  have hmv := fanCount_of_not_fixed degrees0 v hfv
  have hmu := fanCount_of_not_fixed degrees0 (nextRim d v) hfu
  obtain ⟨hu1, hud, h1⟩ := h1
  obtain ⟨_, _, h2⟩ := h2
  have hnv := nextRim_cases d v
  have hnu := nextRim_cases d u
  rcases h1 with ⟨rfl, hj⟩ | ⟨hvu, rfl, hexu⟩
  · omega
  · rcases hvu with rfl | rfl
    · exact hex hexu
    · rcases h2 with ⟨_, hj⟩ | ⟨hc, _, _⟩
      · omega
      · rcases hc with hc | hc
        · rw [← hc] at hexu
          rcases hexu with hexu | hexu
          · rw [hfu] at hexu; cases hexu
          · rw [hc, hfv] at hexu; cases hexu
        · have : nextRim d u = u := by
            have := nextRim_cases d (nextRim d u)
            omega
          rw [this] at hex
          exact hex hexu

theorem construct_diagonals {n : Nat} {VtoV : List (List Nat)} {degrees : List (Option Degree)}
    {nt : NearTriangulation} (h : NearTriangulation.construct n VtoV degrees = some nt) :
    DiagonalsAtMostTwo nt := by
  obtain ⟨rfl, hb⟩ := construct_eq_some h
  intro e he
  have he2 : e ∈ constructEdges n VtoV := he
  refine ⟨constructDiagonal VtoV e, by rw [build_diagonalAt, if_pos he2], ?_⟩
  unfold NearTriangulation.diagonalAssertion NearTriangulation.build at hb
  rw [List.all_eq_true] at hb
  have := hb (e, constructDiagonal VtoV e) (List.mem_map.2 ⟨e, he2, rfl⟩)
  simpa using this

theorem secondLoop_pair_iff {d : Nat} {degrees0 : List (Option Degree)} {s : CartVars}
    (h : SecondLoopInv d degrees0 d s) (v : Nat) (hv1 : 1 ≤ v) (hvd : v ≤ d) :
    (∃ w, d < w ∧ w ∈ adjacent s.VtoV v ∧ w ∈ adjacent s.VtoV (nextRim d v))
      ↔ (rimFixed degrees0 v = true ∨ rimFixed degrees0 (nextRim d v) = true) := by
  obtain ⟨tags, hinv, _, _⟩ := h
  have hu := nextRim_range hv1 hvd
  constructor
  · rintro ⟨w, hw, h1, h2⟩
    obtain ⟨s1, t1, hs1, ht1, ha1⟩ := hinv.named.sound v w h1
    obtain ⟨s2, t2, hs2, ht2, ha2⟩ := hinv.named.sound (nextRim d v) w h2
    have e1 : s1 = Tag.rim v := Option.some.inj (hs1.symm.trans (hinv.rim v hv1 hvd))
    have e2 : s2 = Tag.rim (nextRim d v) :=
      Option.some.inj (hs2.symm.trans (hinv.rim _ hu.1 hu.2))
    have e3 : t2 = t1 := Option.some.inj (ht2.symm.trans ht1)
    subst e1 e2 e3
    cases t2 with
    | hub =>
      have := nodup_index_eq hinv.named.nodup ht1 hinv.hub
      omega
    | rim u =>
      rw [tagAdj_rim_rim] at ha1
      have hur : 1 ≤ u ∧ u ≤ d := by
        have := nextRim_cases d v
        omega
      have := nodup_index_eq hinv.named.nodup ht1 (hinv.rim u hur.1 hur.2)
      omega
    | out u j => exact tagAdj_pair hv1 hvd ha1 ha2
  · intro hex
    obtain ⟨e1, e2, e3⟩ := hinv.second v hv1 hvd hex
    refine ⟨s.second_neighbors.getD v 0, ?_, e2, e3⟩
    by_contra hle
    by_cases h0 : s.second_neighbors.getD v 0 = 0
    · rw [h0, hinv.hub] at e1
      cases e1
    · rw [hinv.rim _ (by omega) (by omega)] at e1
      cases e1

theorem secondLoop_pair_unique {d : Nat} {degrees0 : List (Option Degree)} {s : CartVars}
    (h : SecondLoopInv d degrees0 d s) (h4 : 4 ≤ d) (v : Nat) (hv1 : 1 ≤ v) (hvd : v ≤ d)
    (w w' : Nat) (hw : d < w) (h1 : w ∈ adjacent s.VtoV v)
    (h2 : w ∈ adjacent s.VtoV (nextRim d v)) (hw' : d < w') (h1' : w' ∈ adjacent s.VtoV v)
    (h2' : w' ∈ adjacent s.VtoV (nextRim d v)) : w = w' := by
  obtain ⟨tags, hinv, _, _⟩ := h
  have hu := nextRim_range hv1 hvd
  obtain ⟨x, y, key⟩ := tagEdge_common_rim_rim d (rimFixed degrees0) (fanCount degrees0) h4 v
    hv1 hvd
  have tagOf : ∀ w, d < w → w ∈ adjacent s.VtoV v → w ∈ adjacent s.VtoV (nextRim d v) →
      tags[w]? = some (Tag.out v (fanCount degrees0 v)) := by
    intro w hw h1 h2
    obtain ⟨s1, t1, hs1, ht1, ha1⟩ := hinv.named.sound v w h1
    obtain ⟨s2, t2, hs2, ht2, ha2⟩ := hinv.named.sound (nextRim d v) w h2
    have e1 : s1 = Tag.rim v := Option.some.inj (hs1.symm.trans (hinv.rim v hv1 hvd))
    have e2 : s2 = Tag.rim (nextRim d v) :=
      Option.some.inj (hs2.symm.trans (hinv.rim _ hu.1 hu.2))
    have e3 : t2 = t1 := Option.some.inj (ht2.symm.trans ht1)
    subst e1 e2 e3
    cases t2 with
    | hub =>
      have := nodup_index_eq hinv.named.nodup ht1 hinv.hub
      omega
    | rim u =>
      rw [tagAdj_rim_rim] at ha1
      have hur : 1 ≤ u ∧ u ≤ d := by
        have := nextRim_cases d v
        omega
      have := nodup_index_eq hinv.named.nodup ht1 (hinv.rim u hur.1 hur.2)
      omega
    | out u j =>
      rw [tagAdj_rim_out] at ha1 ha2
      have := nextRim_cases d v
      have := nextRim_cases d u
      have huv : u = v ∧ j = fanCount degrees0 u := by omega
      obtain ⟨rfl, rfl⟩ := huv
      exact ht1
  exact nodup_index_eq hinv.named.nodup (tagOf w hw h1 h2) (tagOf w' hw' h1' h2')

theorem secondLoop_ring_length {d : Nat} {degrees0 : List (Option Degree)} {s : CartVars}
    (h : SecondLoopInv d degrees0 d s) (v : Nat) (degree : Degree) (hv1 : 1 ≤ v) (hvd : v ≤ d)
    (hdeg : degrees0.getD v none = some degree) :
    (degree.fixed = true → 5 ≤ degree.lower_deg →
        ((s.hub_neighbors_neighbors.getD v []).length : Int) = degree.lower_deg - 3)
      ∧ (degree.fixed = false → s.hub_neighbors_neighbors.getD v [] = []) := by
  obtain ⟨tags, _, _, _, hring⟩ := h
  have hlen := hring v
  rw [rimFixed_of_getD hdeg, fanCount_of_getD hdeg] at hlen
  constructor
  · intro hf h5
    rw [hlen, if_pos ⟨hv1, hvd, hf⟩, if_pos hf]
    have := Int.toNat_of_nonneg (by omega : 0 ≤ degree.lower_deg - 5)
    omega
  · intro hf
    rw [if_neg (by simp [hf])] at hlen
    exact List.length_eq_zero.1 hlen

/-- The function `fromWheel` on a wheel whose rim degrees are set: its two loops end, the
cartwheel it returns is made of what they leave, and it returns one when the hub degree is
4 at least. -/
theorem fromWheel_spec {wheel : Wheel} {d : Nat} (hd : wheel.numNeighbor = .ok (d : Int))
    (hset : RimDegreesSet d wheel.wheel.degrees) :
    ∃ s, fromWheelLoops d wheel.wheel.degrees = .ok s
      ∧ SecondLoopInv d wheel.wheel.degrees d s
      ∧ (∀ cw, CartWheel.fromWheel wheel = .ok cw →
          cw = { cartwheel := NearTriangulation.build s.VtoV.length s.VtoV s.degrees
                 num_neighbor := d
                 hub_neighbors_neighbors := s.hub_neighbors_neighbors
                 third_neighbors := List.replicate s.VtoV.length [] }
            ∧ DiagonalsAtMostTwo cw.cartwheel)
      ∧ (4 ≤ d → ∃ cw, CartWheel.fromWheel wheel = .ok cw) := by
  obtain ⟨s, hs, hinv⟩ := fromWheelLoops_spec hset
  refine ⟨s, hs, hinv, ?_, ?_⟩
  · intro cw hcw
    rw [fromWheel_eq hd hs] at hcw
    cases hc : NearTriangulation.construct s.VtoV.length s.VtoV s.degrees with
    | none => rw [hc] at hcw; cases hcw
    | some nt =>
      rw [hc] at hcw
      have hd2 := construct_diagonals hc
      obtain ⟨rfl, _⟩ := construct_eq_some hc
      injection hcw with hcw
      subst hcw
      exact ⟨rfl, hd2⟩
  · intro h4
    obtain ⟨tags, hci, _, _⟩ := hinv
    rw [fromWheel_eq hd hs, named_construct hci.named h4]
    exact ⟨_, rfl⟩

/-- C26: the constructor's assertion holds for the wheels and the cartwheels. For every hub
degree, `Wheel::fromHubDegree` returns a wheel, and every directed edge of it has at most two
diagonal vertices. For every wheel with a hub degree from 4 on (so from 5 on) whose rim
vertices all have a degree, fixed or not, `CartWheel::fromWheel` returns a cartwheel, and
every directed edge of it has at most two diagonal vertices. -/
theorem C26_wheels_and_cartwheels_have_at_most_two_diagonals :
    (∀ hub_degree : Nat, ∃ w, Wheel.fromHubDegree hub_degree = some w
        ∧ DiagonalsAtMostTwo w.wheel)
      ∧ (∀ (wheel : Wheel) (d : Nat), wheel.numNeighbor = .ok (d : Int) → 4 ≤ d →
          RimDegreesSet d wheel.wheel.degrees →
          ∃ cw, CartWheel.fromWheel wheel = .ok cw ∧ DiagonalsAtMostTwo cw.cartwheel) := by
  constructor
  · intro hub_degree
    have hc : ∃ nt, NearTriangulation.construct (hub_degree + 1) (wheelVtoV hub_degree)
        ((List.replicate (hub_degree + 1) none).set 0
          (some { lower_deg := hub_degree, upper_deg := hub_degree })) = some nt := by
      by_cases h2 : 2 ≤ hub_degree
      · exact ⟨_, wheel_construct hub_degree _ h2⟩
      · have h01 : hub_degree = 0 ∨ hub_degree = 1 := by omega
        rcases h01 with rfl | rfl
        · exact Option.isSome_iff_exists.1 (by decide!)
        · exact Option.isSome_iff_exists.1 (by decide!)
    obtain ⟨nt, hnt⟩ := hc
    refine ⟨{ wheel := nt }, ?_, construct_diagonals hnt⟩
    unfold Wheel.fromHubDegree
    rw [hnt]
    rfl
  · intro wheel d hd h4 hset
    obtain ⟨s, _, _, hcw, htotal⟩ := fromWheel_spec hd hset
    obtain ⟨cw, h⟩ := htotal h4
    exact ⟨cw, h, (hcw cw h).2⟩

/-- C26, an instance: the wheel with hub degree 5 whose rim vertices have the degrees 5, 6,
7, `8+` and 5. -/
theorem C26_witness :
    wheelMixed.numNeighbor = .ok ((5 : Nat) : Int) ∧ 4 ≤ 5
      ∧ RimDegreesSet 5 wheelMixed.wheel.degrees
      ∧ ∃ cw, CartWheel.fromWheel wheelMixed = .ok cw ∧ DiagonalsAtMostTwo cw.cartwheel :=
  ⟨by decide, by decide, by decide,
    C26_wheels_and_cartwheels_have_at_most_two_diagonals.2 wheelMixed 5 (by decide)
      (by decide) (by decide)⟩

/-- C23, the counterexample: in the wheel with hub degree 5 whose rim vertex 1 has degree 5
and whose other rim vertices have the degree `8+`, the degree of the rim vertex 2 is not
fixed, and still the cartwheel of `fromWheel` has a new vertex, 6, joined to the rim vertices
1 and 2. -/
theorem C23_counterexample :
    ∃ cw, CartWheel.fromWheel wheelOneFive = .ok cw
      ∧ wheelOneFive.wheel.degreeAt 1 = some five ∧ five.fixed = true
      ∧ wheelOneFive.wheel.degreeAt 2 = some eightPlus ∧ eightPlus.fixed = false
      ∧ wheelOneFive.wheel.vertex_size = 6 ∧ cw.cartwheel.vertex_size = 8
      ∧ (1, 6) ∈ cw.cartwheel.edges ∧ (2, 6) ∈ cw.cartwheel.edges := by
  have h : (CartWheel.fromWheel wheelOneFive).map
      (fun cw => (cw.cartwheel.vertex_size, decide ((1, 6) ∈ cw.cartwheel.edges),
        decide ((2, 6) ∈ cw.cartwheel.edges))) = .ok (8, true, true) := by decide!
  obtain ⟨cw, h1, h2⟩ := except_map_eq_ok h
  simp only [Prod.mk.injEq, decide_eq_true_eq] at h2
  exact ⟨cw, h1, by decide, by decide, by decide, by decide, rfl, h2.1, h2.2.1, h2.2.2⟩

/-- C23, amended: for every wheel whose rim vertices all have a degree, the two loops of
`fromWheel` end, and in the adjacency they leave a rim vertex `v` and the next rim vertex
have a common neighbour beside the hub and the rim exactly when at least one of the two has
a fixed degree. When the hub degree is 4 at least, `fromWheel` returns the cartwheel of this
adjacency, and such a common neighbour is the only one of the pair. -/
theorem C23_second_neighbour_iff_one_fixed (wheel : Wheel) (d : Nat)
    (hd : wheel.numNeighbor = .ok (d : Int)) (hset : RimDegreesSet d wheel.wheel.degrees) :
    ∃ s, fromWheelLoops d wheel.wheel.degrees = .ok s
      ∧ (∀ v, 1 ≤ v → v ≤ d →
          ((∃ w, d < w ∧ w ∈ adjacent s.VtoV v ∧ w ∈ adjacent s.VtoV (nextRim d v))
            ↔ (rimFixed wheel.wheel.degrees v = true
                ∨ rimFixed wheel.wheel.degrees (nextRim d v) = true)))
      ∧ (4 ≤ d →
          (∃ cw, CartWheel.fromWheel wheel = .ok cw
            ∧ cw.cartwheel.vertex_size = s.VtoV.length
            ∧ ∀ a b, (a, b) ∈ cw.cartwheel.edges ↔ b ∈ adjacent s.VtoV a)
          ∧ ∀ v w w', 1 ≤ v → v ≤ d →
              d < w → w ∈ adjacent s.VtoV v → w ∈ adjacent s.VtoV (nextRim d v) →
              d < w' → w' ∈ adjacent s.VtoV v → w' ∈ adjacent s.VtoV (nextRim d v) →
              w = w') := by
  obtain ⟨s, hs, hinv, hcw, htotal⟩ := fromWheel_spec hd hset
  refine ⟨s, hs, fun v hv1 hvd => secondLoop_pair_iff hinv v hv1 hvd, ?_⟩
  intro h4
  constructor
  · obtain ⟨cw, h⟩ := htotal h4
    obtain ⟨rfl, _⟩ := hcw cw h
    refine ⟨_, h, rfl, ?_⟩
    intro a b
    show (a, b) ∈ constructEdges s.VtoV.length s.VtoV ↔ _
    rw [mem_constructEdges]
    constructor
    · exact fun hab => hab.2
    · intro hb
      refine ⟨?_, hb⟩
      by_contra hge
      unfold adjacent at hb
      rw [List.getD_eq_getElem?_getD, List.getElem?_eq_none (by omega)] at hb
      cases hb
  · intro v w w' hv1 hvd hw h1 h2 hw' h1' h2'
    exact secondLoop_pair_unique hinv h4 v hv1 hvd w w' hw h1 h2 hw' h1' h2'

/-- C23, an instance: the wheel with hub degree 5 whose rim vertex 1 has degree 5 and whose
other rim vertices have the degree `8+`. -/
theorem C23_witness :
    wheelOneFive.numNeighbor = .ok ((5 : Nat) : Int)
      ∧ RimDegreesSet 5 wheelOneFive.wheel.degrees
      ∧ ∃ s, fromWheelLoops 5 wheelOneFive.wheel.degrees = .ok s
        ∧ (∀ v, 1 ≤ v → v ≤ 5 →
            ((∃ w, 5 < w ∧ w ∈ adjacent s.VtoV v ∧ w ∈ adjacent s.VtoV (nextRim 5 v))
              ↔ (rimFixed wheelOneFive.wheel.degrees v = true
                  ∨ rimFixed wheelOneFive.wheel.degrees (nextRim 5 v) = true)))
        ∧ (4 ≤ 5 →
            (∃ cw, CartWheel.fromWheel wheelOneFive = .ok cw
              ∧ cw.cartwheel.vertex_size = s.VtoV.length
              ∧ ∀ a b, (a, b) ∈ cw.cartwheel.edges ↔ b ∈ adjacent s.VtoV a)
            ∧ ∀ v w w', 1 ≤ v → v ≤ 5 →
                5 < w → w ∈ adjacent s.VtoV v → w ∈ adjacent s.VtoV (nextRim 5 v) →
                5 < w' → w' ∈ adjacent s.VtoV v → w' ∈ adjacent s.VtoV (nextRim 5 v) →
                w = w') :=
  ⟨by decide, by decide,
    C23_second_neighbour_iff_one_fixed wheelOneFive 5 (by decide) (by decide)⟩

/-- C24, the counterexample: for the wheel with hub degree 3 whose three rim vertices have
the fixed degree 5, `fromWheel` builds no cartwheel: the adjacency that its loops leave has
the three common neighbours 0, 3 and 4 at the edge from 1 to 2, and the assertion of the
constructor of `NearTriangulation` fails. -/
theorem C24_counterexample :
    wheelThreeFive.numNeighbor = .ok 3
      ∧ wheelThreeFive.wheel.degreeAt 1 = some five ∧ five.fixed = true
      ∧ (fromWheelLoops 3 wheelThreeFive.wheel.degrees).map
          (fun s => constructDiagonal s.VtoV (1, 2)) = .ok [0, 3, 4]
      ∧ CartWheel.fromWheel wheelThreeFive = .error .assertFailed :=
  ⟨by decide, by decide, by decide, by decide!, by decide!⟩

/-- C24, amended: for every wheel whose rim vertices all have a degree, a cartwheel that
`fromWheel` returns has, for a rim vertex `v` of fixed degree `k` with `5 ≤ k`, a list
`hub_neighbors_neighbors[v]` of length `k - 3`, and an empty list for a rim vertex whose
degree is not fixed; and `fromWheel` returns a cartwheel when the hub degree is 4 at
least. -/
theorem C24_ring_has_degree_minus_three_entries (wheel : Wheel) (d : Nat)
    (hd : wheel.numNeighbor = .ok (d : Int)) (hset : RimDegreesSet d wheel.wheel.degrees) :
    (4 ≤ d → ∃ cw, CartWheel.fromWheel wheel = .ok cw)
      ∧ ∀ cw, CartWheel.fromWheel wheel = .ok cw →
          ∀ v degree, 1 ≤ v → v ≤ d → wheel.wheel.degreeAt v = some degree →
            (degree.fixed = true → 5 ≤ degree.lower_deg →
                ((cw.hub_neighbors_neighbors.getD v []).length : Int)
                  = degree.lower_deg - 3)
              ∧ (degree.fixed = false → cw.hub_neighbors_neighbors.getD v [] = []) := by
  obtain ⟨s, hs, hinv, hcw, htotal⟩ := fromWheel_spec hd hset
  refine ⟨htotal, ?_⟩
  intro cw h v degree hv1 hvd hdeg
  obtain ⟨rfl, _⟩ := hcw cw h
  exact secondLoop_ring_length hinv v degree hv1 hvd hdeg

/-- C24, an instance: the wheel with hub degree 5 whose rim vertices have the degrees 5, 6,
7, `8+` and 5; the lists of the cartwheel have the lengths 2, 3, 4, 0 and 2. -/
theorem C24_witness :
    wheelMixed.numNeighbor = .ok ((5 : Nat) : Int)
      ∧ RimDegreesSet 5 wheelMixed.wheel.degrees
      ∧ (CartWheel.fromWheel wheelMixed).map (fun cw => cw.hub_neighbors_neighbors)
          = .ok [[], [10, 6], [6, 11, 7], [7, 12, 13, 8], [], [9, 10]]
      ∧ ((4 ≤ 5 → ∃ cw, CartWheel.fromWheel wheelMixed = .ok cw)
        ∧ ∀ cw, CartWheel.fromWheel wheelMixed = .ok cw →
            ∀ v degree, 1 ≤ v → v ≤ 5 → wheelMixed.wheel.degreeAt v = some degree →
              (degree.fixed = true → 5 ≤ degree.lower_deg →
                  ((cw.hub_neighbors_neighbors.getD v []).length : Int)
                    = degree.lower_deg - 3)
                ∧ (degree.fixed = false → cw.hub_neighbors_neighbors.getD v [] = [])) :=
  ⟨by decide, by decide, by decide!,
    C24_ring_has_degree_minus_three_entries wheelMixed 5 (by decide) (by decide)⟩

/-! ## Degree::fromString and Degree::toString, there and back -/

theorem fromString_of_int (k : Int) (hmin : INT_MIN ≤ k) (hmax : k ≤ INT_MAX) :
    Degree.fromString (to_string k) = .ok { lower_deg := k, upper_deg := k }
    ∧ Degree.fromString (to_string k ++ ['+']) = .ok { lower_deg := k, upper_deg := 1000 }
    ∧ Degree.fromString (to_string k ++ ['-']) = .ok { lower_deg := 5, upper_deg := k } := by
  refine ⟨?_, ?_, ?_⟩
  · have h := stoi_to_string k [] hmin hmax (by intro c hc; cases hc)
    rw [List.append_nil] at h
    unfold Degree.fromString
    rw [h]
    simp only [bind, Except.bind, if_true]
    rfl
  · have h := stoi_to_string k ['+'] hmin hmax (by
      intro c hc
      cases hc
      decide)
    unfold Degree.fromString
    rw [h]
    have hg : (to_string k ++ ['+']).get? (to_string k).length = some '+' := by simp
    simp only [bind, Except.bind, List.length_append, List.length_singleton, hg, if_true]
    rw [if_neg (by omega)]
    rfl
  · have h := stoi_to_string k ['-'] hmin hmax (by
      intro c hc
      cases hc
      decide)
    unfold Degree.fromString
    rw [h]
    have hg : (to_string k ++ ['-']).get? (to_string k).length = some '-' := by simp
    have hne : ¬ (some '-' = some '+') := by decide
    simp only [bind, Except.bind, List.length_append, List.length_singleton, hg, if_true,
      if_false, hne]
    rw [if_neg (by omega)]
    rfl

theorem append_singleton_ne_self (s : List Char) (c : Char) : ¬ (s = s ++ [c]) := by
  intro h
  have := congrArg List.length h
  simp at this

theorem toString_plus (k : Int) :
    Degree.toString { lower_deg := k, upper_deg := 1000 }
      = some (if k = 1000 then to_string k else to_string k ++ ['+']) := by
  unfold Degree.toString Degree.fixed MAX_DEGREE
  by_cases hk : k = 1000
  · simp [hk]
  · simp [hk]

theorem toString_minus (k : Int) :
    Degree.toString { lower_deg := 5, upper_deg := k }
      = some (if k = 5 then to_string 5
          else if k = 1000 then to_string 5 ++ ['+'] else to_string k ++ ['-']) := by
  unfold Degree.toString Degree.fixed MAX_DEGREE MIN_DEGREE
  by_cases hk : k = 5
  · simp [hk]
  · by_cases hk2 : k = 1000
    · subst hk2
      simp
    · have h5 : ¬ ((5 : Int) = k) := fun h => hk h.symm
      simp [hk, hk2, h5]

/-- C31, the counterexample: the string `5-` is read as the degree `(5, 5)`, which is
written `5`; the string `1000+` is read as `(1000, 1000)`, which is written `1000`; the
string `1000-` is read as `(5, 1000)`, which is written `5+`; and the decimal integer
`2147483648` is no `int`, so that `std::stoi` throws. -/
theorem C31_counterexample :
    parseThenPrint ['5', '-'] = some ['5']
      ∧ parseThenPrint ['1', '0', '0', '0', '+'] = some ['1', '0', '0', '0']
      ∧ parseThenPrint ['1', '0', '0', '0', '-'] = some ['5', '+']
      ∧ Degree.fromString ['2', '1', '4', '7', '4', '8', '3', '6', '4', '8']
          = .error .outOfRange := by
  refine ⟨by decide, by decide, by decide, by decide⟩

/-- C31, amended: for every natural number `k` that is an `int`, written in decimal as
`std::to_string` writes it, parsing and then writing gives the string back for the form
`k`, for the form `k+` exactly when `k` is not 1000, and for the form `k-` exactly when `k`
is neither 5 nor 1000. -/
theorem C31_parse_then_print (k : Nat) (hmax : (k : Int) ≤ INT_MAX) :
    parseThenPrint (to_string k) = some (to_string k)
      ∧ (parseThenPrint (to_string k ++ ['+']) = some (to_string k ++ ['+']) ↔ k ≠ 1000)
      ∧ (parseThenPrint (to_string k ++ ['-']) = some (to_string k ++ ['-'])
          ↔ (k ≠ 5 ∧ k ≠ 1000)) := by
  have hmin : INT_MIN ≤ (k : Int) := by
    unfold INT_MIN
    omega
  obtain ⟨h1, h2, h3⟩ := fromString_of_int k hmin hmax
  unfold parseThenPrint
  rw [h1, h2, h3]
  simp only []
  refine ⟨?_, ?_, ?_⟩
  · unfold Degree.toString Degree.fixed
    simp
  · rw [toString_plus]
    by_cases hk : (k : Int) = 1000
    · rw [if_pos hk]
      have hk2 : k = 1000 := by omega
      simp only [Option.some.injEq, hk2, ne_eq, not_true_eq_false, iff_false]
      exact append_singleton_ne_self _ _
    · rw [if_neg hk]
      have hk2 : k ≠ 1000 := by omega
      simp [hk2]
  · rw [toString_minus]
    by_cases hk : (k : Int) = 5
    · rw [if_pos hk]
      have hk2 : k = 5 := by omega
      subst hk2
      simp only [ne_eq, not_true_eq_false, false_and, iff_false]
      decide
    · rw [if_neg hk]
      have hk2 : k ≠ 5 := by omega
      by_cases hk3 : (k : Int) = 1000
      · rw [if_pos hk3]
        have hk4 : k = 1000 := by omega
        subst hk4
        simp only [ne_eq, not_true_eq_false, and_false, iff_false]
        decide
      · rw [if_neg hk3]
        have hk4 : k ≠ 1000 := by omega
        simp [hk2, hk4]

/-- C31 at `k = 7`: the strings `7`, `7+` and `7-` come back. -/
theorem C31_witness :
    ((7 : Nat) : Int) ≤ INT_MAX
      ∧ to_string ((7 : Nat) : Int) = ['7']
      ∧ parseThenPrint (to_string ((7 : Nat) : Int)) = some (to_string ((7 : Nat) : Int))
      ∧ (parseThenPrint (to_string ((7 : Nat) : Int) ++ ['+'])
            = some (to_string ((7 : Nat) : Int) ++ ['+']) ↔ 7 ≠ 1000)
      ∧ (parseThenPrint (to_string ((7 : Nat) : Int) ++ ['-'])
            = some (to_string ((7 : Nat) : Int) ++ ['-']) ↔ (7 ≠ 5 ∧ 7 ≠ 1000)) :=
  ⟨by decide, by decide, C31_parse_then_print 7 (by decide)⟩

/-- C32, the counterexample: `Degree::fromString` accepts the string `3` and returns the
degree `(3, 3)`, below the least degree 5; it accepts `3-` and returns `(5, 3)`, whose lower
bound is above its upper bound; it accepts `2000+` and returns `(2000, 1000)`. -/
theorem C32_counterexample :
    Degree.fromString ['3'] = .ok { lower_deg := 3, upper_deg := 3 }
      ∧ ¬ (MIN_DEGREE ≤ (3 : Int))
      ∧ Degree.fromString ['3', '-'] = .ok { lower_deg := 5, upper_deg := 3 }
      ∧ ¬ ((5 : Int) ≤ 3)
      ∧ Degree.fromString ['2', '0', '0', '0', '+'] = .ok { lower_deg := 2000, upper_deg := 1000 }
      ∧ ¬ ((2000 : Int) ≤ 1000) := by
  refine ⟨by decide, by decide, by decide, by decide, by decide, by decide⟩

/-- C32, amended: a degree that `Degree::fromString` returns is `(k, k)`, `(k, 1000)` or
`(5, k)` for the number `k` that `std::stoi` reads in the string, and it satisfies
`MIN ≤ lo ≤ hi ≤ MAX` exactly when `MIN ≤ k ≤ MAX`: the range of `k` is not checked. -/
theorem C32_fromString_invariant_iff_number_in_range (str : List Char) (degree : Degree)
    (h : Degree.fromString str = .ok degree) :
    ∃ k i, stoi str = .ok (k, i)
      ∧ (degree = { lower_deg := k, upper_deg := k }
          ∨ degree = { lower_deg := k, upper_deg := MAX_DEGREE }
          ∨ degree = { lower_deg := MIN_DEGREE, upper_deg := k })
      ∧ ((MIN_DEGREE ≤ degree.lower_deg ∧ degree.lower_deg ≤ degree.upper_deg
            ∧ degree.upper_deg ≤ MAX_DEGREE)
          ↔ (MIN_DEGREE ≤ k ∧ k ≤ MAX_DEGREE)) := by
  unfold Degree.fromString at h
  cases hs : stoi str with
  | error e => rw [hs] at h; cases h
  | ok r =>
    obtain ⟨k, i⟩ := r
    rw [hs] at h
    simp only [bind, Except.bind] at h
    refine ⟨k, i, rfl, ?_⟩
    have hcases : degree = { lower_deg := k, upper_deg := k }
        ∨ degree = { lower_deg := k, upper_deg := MAX_DEGREE }
        ∨ degree = { lower_deg := MIN_DEGREE, upper_deg := k } := by
      split at h
      · left; exact (Except.ok.inj h).symm
      · split at h
        · split at h
          · right; left; exact (Except.ok.inj h).symm
          · split at h
            · right; right; exact (Except.ok.inj h).symm
            · cases h
        · cases h
    refine ⟨hcases, ?_⟩
    unfold MIN_DEGREE MAX_DEGREE at hcases ⊢
    rcases hcases with rfl | rfl | rfl <;> simp only [] <;> omega

/-- C32 on the string `7+`: the number 7 is in the range, and so is the degree
`(7, 1000)`. -/
theorem C32_witness :
    Degree.fromString ['7', '+'] = .ok { lower_deg := 7, upper_deg := 1000 }
      ∧ ∃ k i, stoi ['7', '+'] = .ok (k, i)
        ∧ (({ lower_deg := 7, upper_deg := 1000 } : Degree) = { lower_deg := k, upper_deg := k }
            ∨ ({ lower_deg := 7, upper_deg := 1000 } : Degree)
                = { lower_deg := k, upper_deg := MAX_DEGREE }
            ∨ ({ lower_deg := 7, upper_deg := 1000 } : Degree)
                = { lower_deg := MIN_DEGREE, upper_deg := k })
        ∧ ((MIN_DEGREE ≤ ({ lower_deg := 7, upper_deg := 1000 } : Degree).lower_deg
              ∧ ({ lower_deg := 7, upper_deg := 1000 } : Degree).lower_deg
                  ≤ ({ lower_deg := 7, upper_deg := 1000 } : Degree).upper_deg
              ∧ ({ lower_deg := 7, upper_deg := 1000 } : Degree).upper_deg ≤ MAX_DEGREE)
            ↔ (MIN_DEGREE ≤ k ∧ k ≤ MAX_DEGREE)) :=
  ⟨by decide, C32_fromString_invariant_iff_number_in_range ['7', '+']
    { lower_deg := 7, upper_deg := 1000 } (by decide)⟩

/-- C33, the counterexample: on the wheel with hub degree 7 whose rim vertices have degree
5, with the rule of amount 2 whose graph is one edge between two vertices of degree 5,
`amountChargeToSend(wheel, 0, 1, rule)` does not return the amounts 2 and 2 with the
vertices 0 and 1 related. -/
theorem C33_counterexample :
    amountChargeToSend wheel7Five 0 1 ruleFive
      ≠ .ok (2, 2, [true, true, false, false, false, false, false, false]) := by
  decide!

/-- C33, amended: on that wheel and rule `amountChargeToSend(wheel, 0, 1, rule)` returns
the amounts 0 and 0 and relates no vertex: the hub has the degree 7, which the degree 5 of
the source of the send edge does not include, so the matcher returns no result for the
pinned edge. Along the rim edge from 1 to 2, whose two ends have degree 5, it returns the
amounts 2 and 2 and relates exactly the vertices 1 and 2. -/
theorem C33_hub_edge_sends_nothing :
    wheel7Five.degreeAt 0 = some { lower_deg := 7, upper_deg := 7 }
      ∧ (∀ v, 1 ≤ v → v ≤ 7 → wheel7Five.degreeAt v = some five)
      ∧ ruleFive.amount = 2
      ∧ ruleFive.rule.edges.get? ruleFive.send_edgeid = some (0, 1)
      ∧ ruleFive.rule.degrees = [some five, some five]
      ∧ match_degree wheel7Five ruleFive.rule [] 0 0 true = false
      ∧ containSubgraphWithCorrespondingEdge wheel7Five ruleFive.rule
          (findEdge wheel7Five.edges (0, 1)) ruleFive.send_edgeid [] true = .ok []
      ∧ amountChargeToSend wheel7Five 0 1 ruleFive = .ok (0, 0, List.replicate 8 false)
      ∧ amountChargeToSend wheel7Five 1 2 ruleFive
          = .ok (2, 2, [false, true, true, false, false, false, false, false]) := by
  refine ⟨by decide, by decide, by decide, by decide, by decide, by decide, by decide!,
    by decide!, by decide!⟩

/-- C34, the counterexample: matching the edge `(0, 1)` of the wheel with hub degree 6 and
every degree 6 onto itself, with no ignored vertex and `detect_possible = false`, does not
give one `Yes` result: `numOfSubgraphWithCorrespondingEdge` counts two. -/
theorem C34_counterexample :
    wheel6.edges.get? 0 = some (0, 1)
      ∧ numOfSubgraphWithCorrespondingEdge wheel6 wheel6 0 0 [] ≠ .ok 1 := by
  refine ⟨by decide, by decide!⟩

/-- C34, amended: that match gives exactly two `Yes` results, the identity and the mirror
image that keeps the hub 0 and the rim vertex 1 and exchanges the rim vertices 2 and 6, and
3 and 5: the two diagonal vertices 2 and 6 of the edge can be paired in two ways, and the
wheel with equal degrees fits both. -/
theorem C34_self_match_gives_identity_and_mirror :
    wheel6.edges.get? 0 = some (0, 1)
      ∧ wheel6.diagonalAt (0, 1) = some [2, 6]
      ∧ (∀ v, v < 7 → wheel6.degreeAt v = some six)
      ∧ containSubgraphWithCorrespondingEdge wheel6 wheel6 0 0 [] false
          = .ok [{ contain := .Yes
                   occupied := [some 0, some 1, some 2, some 3, some 4, some 5, some 6] },
                 { contain := .Yes
                   occupied := [some 0, some 1, some 6, some 5, some 4, some 3, some 2] }]
      ∧ numOfSubgraphWithCorrespondingEdge wheel6 wheel6 0 0 [] = .ok 2 := by
  refine ⟨by decide, by decide, by decide, by decide!, by decide!⟩

/-- C40, the failing input: the degree `(5, 8)`, which `toString` writes `8-`, and the cap 7.
`divideDegree` returns the pieces `(5, 5)`, `(6, 6)` and `(7, 8)`, and `toString` reaches
its `assert(false)` on the piece `(7, 8)`: it is not fixed, its upper bound is not
`MAX_DEGREE` and its lower bound is not `MIN_DEGREE`. -/
theorem C40_divideDegree_makes_unprintable_piece :
    Degree.fromString ['8', '-'] = .ok { lower_deg := 5, upper_deg := 8 }
      ∧ Degree.toString { lower_deg := 5, upper_deg := 8 } = some ['8', '-']
      ∧ ({ lower_deg := 5, upper_deg := 8 } : Degree).lower_deg ≤ 7
      ∧ divideDegree { lower_deg := 5, upper_deg := 8 } 7
          = some [{ lower_deg := 5, upper_deg := 5 }, { lower_deg := 6, upper_deg := 6 },
              { lower_deg := 7, upper_deg := 8 }]
      ∧ Degree.toString { lower_deg := 7, upper_deg := 8 } = none := by
  refine ⟨by decide, by decide, by decide, by decide, by decide⟩

/-! ## The alternatives of a branching case start from the pinned state -/

theorem branchStep_outcome {rec : Recursor} {wheelgraph subgraph : NearTriangulation}
    {ex : List Nat} {dp : Bool} {ew es : Edge} {bv bv1 : BranchVars} {pairs : List (Nat × Nat)}
    (h : branchStep rec wheelgraph subgraph ex dp ew es bv pairs = .ok bv1)
    (ho : bv.occupied = (pinnedState wheelgraph subgraph ew es).occupied)
    (hl : bv.located = (pinnedState wheelgraph subgraph ew es).located) :
    ∃ out, branchOutcome rec wheelgraph subgraph ex dp ew es pairs = .ok out
      ∧ bv1.res = bv.res ++ out
      ∧ (bv.occupied_tmp = bv.occupied → bv1.occupied = bv.occupied)
      ∧ (bv.located_tmp = bv.located → bv1.located = bv.located) := by
  unfold branchStep at h
  unfold branchOutcome
  by_cases hany : pairs.any (fun p => !match_degree wheelgraph subgraph ex p.1 p.2 dp) = true
  · rw [if_pos hany] at h ⊢
    simp only [pure, Except.pure] at h
    cases h
    exact ⟨[], rfl, by simp, fun _ => rfl, fun _ => rfl⟩
  · rw [if_neg hany] at h ⊢
    rw [ho, hl] at h
    cases hr : branchPropagate rec pairs ew es
        (pinnedState wheelgraph subgraph ew es).occupied
        (pinnedState wheelgraph subgraph ew es).located with
    | error e => rw [hr] at h; cases h
    | ok r =>
      rw [hr] at h
      simp only [bind, Except.bind, pure, Except.pure] at h ⊢
      cases h
      exact ⟨_, rfl, rfl, fun h1 => h1, fun h1 => h1⟩

/-- In a branching case the results of the matcher are the results of its two
alternatives, each computed from the pinned state. -/
theorem matchPinned_outcomes {rec : Recursor} {wheelgraph subgraph : NearTriangulation}
    {ex : List Nat} {dp : Bool} {ew es : Edge} {dw ds : List Nat}
    {cands : List (List (Nat × Nat))} {rs : List ContainResult}
    (hdw : wheelgraph.diagonalAt ew = some dw) (hds : subgraph.diagonalAt es = some ds)
    (hc : branchCandidates dw ds = some cands)
    (h : matchPinned rec wheelgraph subgraph ex dp ew es = .ok rs) :
    ∃ c1 c2 out1 out2, cands = [c1, c2]
      ∧ branchOutcome rec wheelgraph subgraph ex dp ew es c1 = .ok out1
      ∧ branchOutcome rec wheelgraph subgraph ex dp ew es c2 = .ok out2
      ∧ rs = out1 ++ out2 := by
  unfold matchPinned at h
  rw [hdw, hds] at h
  simp only [hc] at h
  have hlen := branchCandidates_length hc
  obtain ⟨c1, c2, rfl⟩ : ∃ c1 c2, cands = [c1, c2] := by
    match cands, hlen with
    | [c1, c2], _ => exact ⟨c1, c2, rfl⟩
  simp only [List.foldlM_cons, List.foldlM_nil, bind_assoc] at h
  cases ha : branchStep rec wheelgraph subgraph ex dp ew es
      { res := []
        occupied := (pinnedState wheelgraph subgraph ew es).occupied
        located := (pinnedState wheelgraph subgraph ew es).located
        occupied_tmp := (pinnedState wheelgraph subgraph ew es).occupied
        located_tmp := (pinnedState wheelgraph subgraph ew es).located } c1 with
  | error e => rw [ha] at h; cases h
  | ok b1 =>
    rw [ha] at h
    simp only [bind, Except.bind] at h
    cases hb : branchStep rec wheelgraph subgraph ex dp ew es b1 c2 with
    | error e => rw [hb] at h; cases h
    | ok b2 =>
      rw [hb] at h
      simp only [pure, Except.pure] at h
      cases h
      obtain ⟨out1, ho1, hr1, hk1, hk2⟩ := branchStep_outcome ha rfl rfl
      obtain ⟨out2, ho2, hr2, _, _⟩ := branchStep_outcome hb (hk1 rfl) (hk2 rfl)
      refine ⟨c1, c2, out1, out2, rfl, ho1, ho2, ?_⟩
      rw [hr2, hr1]
      rfl

/-- C38: for host and pattern built by the constructor from simple graphs, the matcher
returns, and in every result that is `Yes` or `Possible` the vector `occupied` has one entry
per host vertex, records no pattern vertex at two host vertices, and records the source and
the target of the pinned pattern edge at the source and the target of the pinned host edge.
In a branching case the results are those of the two alternatives, in their order, each
computed from the state that holds only the pinned pair (`branchOutcome`). -/
theorem C38_occupied_is_injective_and_keeps_the_pins {wheelgraph subgraph : NearTriangulation}
    (hhost : IsNearTriangulation wheelgraph) (hpat : IsNearTriangulation subgraph)
    (edgeid_wheelgraph edgeid_subgraph : Nat) (edge_wheelgraph edge_subgraph : Edge)
    (hew : wheelgraph.edges.get? edgeid_wheelgraph = some edge_wheelgraph)
    (hes : subgraph.edges.get? edgeid_subgraph = some edge_subgraph)
    (except_vertices : List Nat) (detect_possible : Bool) :
    ∃ results, containSubgraphWithCorrespondingEdge wheelgraph subgraph edgeid_wheelgraph
        edgeid_subgraph except_vertices detect_possible = .ok results
      ∧ (∀ r, r ∈ results → r.contain ≠ Contain.No →
          r.occupied.length = wheelgraph.vertex_size
          ∧ (∀ a b v, slot r.occupied a = some v → slot r.occupied b = some v → a = b)
          ∧ slot r.occupied edge_wheelgraph.1 = some edge_subgraph.1
          ∧ slot r.occupied edge_wheelgraph.2 = some edge_subgraph.2)
      ∧ (∀ dw ds cands, wheelgraph.diagonalAt edge_wheelgraph = some dw →
          subgraph.diagonalAt edge_subgraph = some ds →
          branchCandidates dw ds = some cands →
          results = []
          ∨ ∃ c1 c2 out1 out2, cands = [c1, c2]
            ∧ branchOutcome
                (set_edge_recursive wheelgraph subgraph except_vertices detect_possible
                  (wheelgraph.edges.length + 1))
                wheelgraph subgraph except_vertices detect_possible
                edge_wheelgraph edge_subgraph c1 = .ok out1
            ∧ branchOutcome
                (set_edge_recursive wheelgraph subgraph except_vertices detect_possible
                  (wheelgraph.edges.length + 1))
                wheelgraph subgraph except_vertices detect_possible
                edge_wheelgraph edge_subgraph c2 = .ok out2
            ∧ results = out1 ++ out2) := by
  obtain ⟨rs, hrs, _, hall⟩ := match_results hhost hpat hew hes except_vertices detect_possible
  refine ⟨rs, hrs, ?_, ?_⟩
  · intro r hr hno
    obtain ⟨md, st, rfl, hsz, hinv, hext⟩ := hall r hr
    rw [update_res_not_no hno]
    have hwm := List.get?_mem hew
    have hsm := List.get?_mem hes
    have hw := hhost.triangulated.edge_lt edge_wheelgraph.1 edge_wheelgraph.2 hwm
    have hwne := hhost.triangulated.edge_ne edge_wheelgraph.1 edge_wheelgraph.2 hwm
    refine ⟨hsz.1, ?_, ?_, ?_⟩
    · intro a b v ha hb
      have h1 := (hinv v a).2 ha
      have h2 := (hinv v b).2 hb
      rw [h1] at h2
      exact Option.some.inj h2
    · apply hext.1
      rw [pinnedState_occupied]
      simp [hw.1, Ne.symm hwne]
    · apply hext.1
      rw [pinnedState_occupied]
      simp [hw.2]
  · intro dw ds cands hdw hds hc
    unfold containSubgraphWithCorrespondingEdge containSubgraphFuel at hrs
    simp only [hew, hes] at hrs
    split at hrs
    · left
      simp only [pure, Except.pure] at hrs
      cases hrs
      rfl
    · right
      exact matchPinned_outcomes hdw hds hc hrs

/-- C38 on the wheel with hub degree 6 matched onto itself along its edge `(0, 1)`, whose
two diagonal vertices make a branching case. -/
theorem C38_witness :
    wheel6.edges.get? 0 = some (0, 1)
      ∧ ∃ results, containSubgraphWithCorrespondingEdge wheel6 wheel6 0 0 [] false = .ok results
        ∧ (∀ r, r ∈ results → r.contain ≠ Contain.No →
            r.occupied.length = wheel6.vertex_size
            ∧ (∀ a b v, slot r.occupied a = some v → slot r.occupied b = some v → a = b)
            ∧ slot r.occupied (0, 1).1 = some (0, 1).1
            ∧ slot r.occupied (0, 1).2 = some (0, 1).2)
        ∧ (∀ dw ds cands, wheel6.diagonalAt (0, 1) = some dw →
            wheel6.diagonalAt (0, 1) = some ds →
            branchCandidates dw ds = some cands →
            results = []
            ∨ ∃ c1 c2 out1 out2, cands = [c1, c2]
              ∧ branchOutcome
                  (set_edge_recursive wheel6 wheel6 [] false (wheel6.edges.length + 1))
                  wheel6 wheel6 [] false (0, 1) (0, 1) c1 = .ok out1
              ∧ branchOutcome
                  (set_edge_recursive wheel6 wheel6 [] false (wheel6.edges.length + 1))
                  wheel6 wheel6 [] false (0, 1) (0, 1) c2 = .ok out2
              ∧ results = out1 ++ out2) :=
  ⟨by decide, C38_occupied_is_injective_and_keeps_the_pins wheel6_isNearTriangulation
    wheel6_isNearTriangulation 0 0 (0, 1) (0, 1) (by decide) (by decide) [] false⟩

/-! ## The number of `Yes` results on a host that accepts more pairs -/

theorem countYes_singleton (r : ContainResult) :
    countYes [r] = if r.contain = Contain.Yes then 1 else 0 := by
  unfold countYes
  by_cases h : r.contain = Contain.Yes
  · simp [h]
  · simp [h]

theorem countYes_append (a b : List ContainResult) :
    countYes (a ++ b) = countYes a + countYes b := by
  unfold countYes
  rw [List.countP_append]

theorem countYes_pos_iff (rs : List ContainResult) :
    0 < countYes rs ↔ ∃ r, r ∈ rs ∧ r.contain = Contain.Yes := by
  unfold countYes
  rw [List.countP_pos_iff]
  constructor
  · rintro ⟨r, hr, h⟩
    exact ⟨r, hr, by simpa using h⟩
  · rintro ⟨r, hr, h⟩
    exact ⟨r, hr, by simpa using h⟩

theorem branchOutcome_count_sim {rec rec2 : Recursor}
    {wheelgraph wheel2 subgraph : NearTriangulation} {ex : List Nat} {dp dp2 : Bool}
    (href : DegreesRefine wheelgraph wheel2 subgraph ex dp dp2) (hrec : SimSpec rec rec2)
    {ew es : Edge} {pairs : List (Nat × Nat)} {out out2 : List ContainResult}
    (h : branchOutcome rec wheelgraph subgraph ex dp ew es pairs = .ok out)
    (h2 : branchOutcome rec2 wheel2 subgraph ex dp2 ew es pairs = .ok out2) :
    countYes out ≤ countYes out2 := by
  unfold branchOutcome at h h2
  rw [pinnedState_refine href] at h2
  by_cases hany : pairs.any (fun p => !match_degree wheelgraph subgraph ex p.1 p.2 dp) = true
  · rw [if_pos hany] at h
    simp only [pure, Except.pure] at h
    cases h
    exact Nat.zero_le _
  · rw [if_neg hany] at h
    have hp : ∀ p ∈ pairs, match_degree wheelgraph subgraph ex p.1 p.2 dp = true := by
      intro p hpm
      rw [Bool.not_eq_true, List.any_eq_false] at hany
      have := hany p hpm
      simpa using this
    have hany2 : ¬ pairs.any
        (fun p => !match_degree wheel2 subgraph ex p.1 p.2 dp2) = true := by
      rw [Bool.not_eq_true, List.any_eq_false]
      intro p hpm
      simp [href.mono p.1 p.2 (hp p hpm)]
    rw [if_neg hany2] at h2
    cases hr : branchPropagate rec pairs ew es
        (pinnedState wheelgraph subgraph ew es).occupied
        (pinnedState wheelgraph subgraph ew es).located with
    | error e => rw [hr] at h; cases h
    | ok r =>
      rw [hr] at h
      simp only [bind, Except.bind, pure, Except.pure] at h
      cases h
      rw [countYes_singleton]
      by_cases hyes : (update_res wheelgraph subgraph ex dp r.1 r.2).contain = Contain.Yes
      · rw [if_pos hyes]
        obtain ⟨hmd, hyes2⟩ := update_res_yes_refine href hyes
        obtain ⟨b, st1⟩ := r
        simp only at hmd
        subst hmd
        rw [branchPropagate_sim hrec pairs ew es _ _ st1 hr] at h2
        simp only [bind, Except.bind, pure, Except.pure] at h2
        cases h2
        rw [countYes_singleton, if_pos hyes2]
      · rw [if_neg hyes]
        exact Nat.zero_le _

theorem matchPinned_count_sim {rec rec2 : Recursor}
    {wheelgraph wheel2 subgraph : NearTriangulation} {ex : List Nat} {dp dp2 : Bool}
    (href : DegreesRefine wheelgraph wheel2 subgraph ex dp dp2) (hrec : SimSpec rec rec2)
    (ew es : Edge) (rs rs2 : List ContainResult)
    (h : matchPinned rec wheelgraph subgraph ex dp ew es = .ok rs)
    (h2 : matchPinned rec2 wheel2 subgraph ex dp2 ew es = .ok rs2) :
    countYes rs ≤ countYes rs2 := by
  cases hdw : wheelgraph.diagonalAt ew with
  | none => unfold matchPinned at h; rw [hdw] at h; cases h
  | some dw =>
    cases hds : subgraph.diagonalAt es with
    | none => unfold matchPinned at h; rw [hdw, hds] at h; cases h
    | some ds =>
      have hdw2 : wheel2.diagonalAt ew = some dw := by rw [diagonalAt_refine href]; exact hdw
      cases hc : branchCandidates dw ds with
      | some cands =>
        obtain ⟨c1, c2, o1, o2, e1, ho1, ho2, rfl⟩ := matchPinned_outcomes hdw hds hc h
        obtain ⟨c1', c2', o1', o2', e1', ho1', ho2', rfl⟩ :=
          matchPinned_outcomes hdw2 hds hc h2
        rw [e1] at e1'
        injection e1' with e3 e4
        injection e4 with e5 _
        subst e3 e5
        rw [countYes_append, countYes_append]
        exact Nat.add_le_add (branchOutcome_count_sim href hrec ho1 ho1')
          (branchOutcome_count_sim href hrec ho2 ho2')
      | none =>
        unfold matchPinned at h h2
        rw [diagonalAt_refine href, pinnedState_refine href] at h2
        rw [hdw, hds] at h h2
        simp only [hc] at h h2
        by_cases hl : ds.length ≤ 2 ∧ dw.length ≤ 2
        · rw [if_pos hl] at h h2
          cases hr : rec ew es (pinnedState wheelgraph subgraph ew es) with
          | error e => rw [hr] at h; cases h
          | ok r =>
            rw [hr] at h
            simp only [bind, Except.bind, pure, Except.pure] at h
            cases h
            rw [countYes_singleton]
            by_cases hyes : (update_res wheelgraph subgraph ex dp r.1 r.2).contain
                = Contain.Yes
            · rw [if_pos hyes]
              obtain ⟨hmd, hyes2⟩ := update_res_yes_refine href hyes
              obtain ⟨b, st1⟩ := r
              simp only at hmd
              subst hmd
              rw [hrec _ _ _ _ hr] at h2
              simp only [bind, Except.bind, pure, Except.pure] at h2
              cases h2
              rw [countYes_singleton, if_pos hyes2]
            · rw [if_neg hyes]
              exact Nat.zero_le _
        · rw [if_neg hl] at h
          cases h

/-- The matcher counts at least as many `Yes` results on a host with the same graph that
accepts more pairs. -/
theorem match_count_sim {wheelgraph wheel2 subgraph : NearTriangulation} {ex : List Nat}
    {dp dp2 : Bool} (href : DegreesRefine wheelgraph wheel2 subgraph ex dp dp2)
    (edgeid_wheelgraph edgeid_subgraph : Nat) (rs rs2 : List ContainResult)
    (h : containSubgraphWithCorrespondingEdge wheelgraph subgraph edgeid_wheelgraph
      edgeid_subgraph ex dp = .ok rs)
    (h2 : containSubgraphWithCorrespondingEdge wheel2 subgraph edgeid_wheelgraph
      edgeid_subgraph ex dp2 = .ok rs2) :
    countYes rs ≤ countYes rs2 := by
  unfold containSubgraphWithCorrespondingEdge containSubgraphFuel at h h2
  rw [← href.edges] at h2
  cases hew : wheelgraph.edges.get? edgeid_wheelgraph with
  | none => rw [hew] at h; cases h
  | some ew =>
    cases hes : subgraph.edges.get? edgeid_subgraph with
    | none => rw [hew, hes] at h; cases h
    | some es =>
      rw [hew, hes] at h h2
      simp only [] at h h2
      by_cases hpins : match_degree wheelgraph subgraph ex es.1 ew.1 dp = false
          ∨ match_degree wheelgraph subgraph ex es.2 ew.2 dp = false
      · rw [if_pos hpins] at h
        simp only [pure, Except.pure] at h
        cases h
        exact Nat.zero_le _
      · rw [if_neg hpins] at h
        have h1 : match_degree wheelgraph subgraph ex es.1 ew.1 dp = true := by
          cases hm : match_degree wheelgraph subgraph ex es.1 ew.1 dp with
          | true => rfl
          | false => exact absurd (Or.inl hm) hpins
        have h3 : match_degree wheelgraph subgraph ex es.2 ew.2 dp = true := by
          cases hm : match_degree wheelgraph subgraph ex es.2 ew.2 dp with
          | true => rfl
          | false => exact absurd (Or.inr hm) hpins
        have hpins2 : ¬ (match_degree wheel2 subgraph ex es.1 ew.1 dp2 = false
            ∨ match_degree wheel2 subgraph ex es.2 ew.2 dp2 = false) := by
          rw [href.mono _ _ h1, href.mono _ _ h3]
          simp
        rw [if_neg hpins2] at h2
        exact matchPinned_count_sim href (set_edge_recursive_sim href _) ew es rs rs2 h h2

/-! ## Completions keep a configuration -/

theorem isNearTriangulation_assignDegrees :
    ∀ (assignment : List (Nat × Degree)) (nt : NearTriangulation), IsNearTriangulation nt →
      IsNearTriangulation (assignDegrees nt assignment) := by
  intro assignment
  induction assignment with
  | nil => intro nt h; exact h
  | cons p rest ih =>
    intro nt h
    exact ih _ (isNearTriangulation_setDegree h p.1 (some p.2))

/-- A host that contains a configuration still contains it in every completion. -/
theorem containOneofConfs_assignDegrees {confs : List Configuration}
    (hconfs : CatalogOk confs) :
    ∀ (assignment : List (Nat × Degree)) (nt : NearTriangulation), IsNearTriangulation nt →
      Completes nt assignment → containOneofConfsLoop nt confs = .ok true →
      containOneofConfsLoop (assignDegrees nt assignment) confs = .ok true := by
  intro assignment
  induction assignment with
  | nil => intro nt _ _ h; exact h
  | cons p rest ih =>
    intro nt hnt hcomp h
    obtain ⟨hunset, hnodup⟩ := hcomp
    rw [List.map_cons, List.nodup_cons] at hnodup
    refine ih _ (isNearTriangulation_setDegree hnt p.1 (some p.2)) ⟨?_, hnodup.2⟩
      (containOneofConfs_setDegree hnt hconfs (hunset p (List.mem_cons_self _ _)) _ h)
    intro q hq
    have hne : ¬ (p.1 = q.1 ∧ p.1 < nt.degrees.length) := by
      rintro ⟨heq, _⟩
      exact hnodup.1 (by rw [heq]; exact List.mem_map_of_mem _ hq)
    rw [degreeAt_setDegree, if_neg hne]
    exact hunset q (List.mem_cons_of_mem _ hq)

theorem numOf_eq_countYes {wheelgraph subgraph : NearTriangulation} {e1 e2 : Nat}
    {ex : List Nat} {rs : List ContainResult}
    (h : containSubgraphWithCorrespondingEdge wheelgraph subgraph e1 e2 ex false = .ok rs) :
    numOfSubgraphWithCorrespondingEdge wheelgraph subgraph e1 e2 ex = .ok (countYes rs) := by
  unfold numOfSubgraphWithCorrespondingEdge
  rw [h]
  rfl

theorem nearTriangulation_assignWheelDegrees {W : Type} {ops : WheelLike W}
    (hops : LawfulWheelLike ops) :
    ∀ (assignment : List (Nat × Degree)) (w : W),
      ops.nearTriangulation (assignWheelDegrees ops w assignment)
        = assignDegrees (ops.nearTriangulation w) assignment := by
  intro assignment
  induction assignment with
  | nil => intro w; rfl
  | cons p rest ih =>
    intro w
    show ops.nearTriangulation (assignWheelDegrees ops (ops.setDegree w p.1 (some p.2)) rest)
      = assignDegrees ((ops.nearTriangulation w).setDegree p.1 (some p.2)) rest
    rw [ih, hops.nearTriangulation_setDegree]

/-- C37 fails as stated: the wheel with hub degree 5 whose rim vertices `1, 2, 3` have degree
5 and whose rim vertices `4` and `5` have no degree yet contains the configuration of two
adjacent vertices of degree 5, `containOneofConfs` returning true; on its completion with the
degree from 6 to 8 at `4` and the degree 5 at `5`, `containOneofConfs` does not return true:
the assertion of `Degree::toString` fails when the wheel is printed for the log. -/
theorem C37_counterexample :
    Completes (wheelLikeWheel.nearTriangulation wheelOpenFive) [(4, sixToEight), (5, five)]
    ∧ containOneofConfs wheelLikeWheel wheelOpenFive [edgeFiveConf] = .ok true
    ∧ containOneofConfs wheelLikeWheel
        (assignWheelDegrees wheelLikeWheel wheelOpenFive [(4, sixToEight), (5, five)])
        [edgeFiveConf] = .error .assertFailed := by
  decide!

/-- C37 as amended: for a host wheel and a pattern built by the constructor from simple
graphs, setting the degree of a host vertex that had none does not lower the number of `Yes`
results that the matcher counts under `detect_possible = false`, for the same pattern,
pinned edges and ignored vertices; and a wheel on which `containOneofConfs` returns true for
a catalog is one on which it returns true after any list of calls of `setDegree` that give
degrees to vertices without one, each once, whenever `toString` prints the wheel they
make. -/
theorem C37_containment_is_monotone_under_printed_assignment {W : Type} (ops : WheelLike W)
    (hops : LawfulWheelLike ops) (wheelgraph : W) {subgraph : NearTriangulation}
    (hhost : IsNearTriangulation (ops.nearTriangulation wheelgraph))
    (hpat : IsNearTriangulation subgraph)
    (edgeid_wheelgraph edgeid_subgraph : Nat)
    (hew : edgeid_wheelgraph < (ops.nearTriangulation wheelgraph).edges.length)
    (hes : edgeid_subgraph < subgraph.edges.length) (except_vertices : List Nat)
    (v : Nat) (hv : (ops.nearTriangulation wheelgraph).degreeAt v = none) (degree : Degree)
    (confs : List Configuration) (hconfs : CatalogOk confs)
    (assignment : List (Nat × Degree))
    (hcomp : Completes (ops.nearTriangulation wheelgraph) assignment) :
    (∃ k k2, numOfSubgraphWithCorrespondingEdge (ops.nearTriangulation wheelgraph) subgraph
          edgeid_wheelgraph edgeid_subgraph except_vertices = .ok k
        ∧ numOfSubgraphWithCorrespondingEdge
          (ops.nearTriangulation (ops.setDegree wheelgraph v (some degree))) subgraph
          edgeid_wheelgraph edgeid_subgraph except_vertices = .ok k2
        ∧ k ≤ k2)
      ∧ (containOneofConfs ops wheelgraph confs = .ok true →
          prints ops (assignWheelDegrees ops wheelgraph assignment) = true →
          containOneofConfs ops (assignWheelDegrees ops wheelgraph assignment) confs
            = .ok true) := by
  constructor
  · rw [hops.nearTriangulation_setDegree]
    obtain ⟨rs, hrs, _⟩ := match_total_of_lt hhost hpat edgeid_wheelgraph edgeid_subgraph
      hew hes except_vertices false
    have hew2 : edgeid_wheelgraph
        < ((ops.nearTriangulation wheelgraph).setDegree v (some degree)).edges.length := hew
    obtain ⟨rs2, hrs2, _⟩ := match_total_of_lt
      (isNearTriangulation_setDegree hhost v (some degree)) hpat edgeid_wheelgraph
      edgeid_subgraph hew2 hes except_vertices false
    exact ⟨countYes rs, countYes rs2, numOf_eq_countYes hrs, numOf_eq_countYes hrs2,
      match_count_sim (setDegree_refine except_vertices hv (some degree)) edgeid_wheelgraph
        edgeid_subgraph rs rs2 hrs hrs2⟩
  · intro h hprint
    obtain ⟨str, hstr⟩ := prints_eq_true hprint
    rw [containOneofConfs_of_print ops _ confs hstr, nearTriangulation_assignWheelDegrees hops]
    exact containOneofConfs_assignDegrees hconfs assignment _ hhost hcomp
      ((containOneofConfs_eq_ok ops wheelgraph confs true).1 h).2

/-- C37 on the wheel with hub degree 5 whose rim vertices `1, 2, 3` have degree 5 and whose
rim vertices `4` and `5` have none: the edge with two ends of degree 5 is found along the
edge `(0, 1)` before and after the vertex `4` gets a degree, and the wheel contains the
configuration before and after its two open vertices get the degree 6. -/
theorem C37_witness :
    numOfSubgraphWithCorrespondingEdge (wheelLikeWheel.nearTriangulation wheelOpenFive)
        edgeFive 0 0 [] = .ok 1
      ∧ containOneofConfs wheelLikeWheel wheelOpenFive [edgeFiveConf] = .ok true
      ∧ prints wheelLikeWheel (assignWheelDegrees wheelLikeWheel wheelOpenFive
          [(4, six), (5, six)]) = true
      ∧ ((∃ k k2, numOfSubgraphWithCorrespondingEdge
            (wheelLikeWheel.nearTriangulation wheelOpenFive) edgeFive 0 0 [] = .ok k
          ∧ numOfSubgraphWithCorrespondingEdge
            (wheelLikeWheel.nearTriangulation
              (wheelLikeWheel.setDegree wheelOpenFive 4 (some six))) edgeFive 0 0 []
              = .ok k2
          ∧ k ≤ k2)
        ∧ (containOneofConfs wheelLikeWheel wheelOpenFive [edgeFiveConf] = .ok true →
            prints wheelLikeWheel (assignWheelDegrees wheelLikeWheel wheelOpenFive
              [(4, six), (5, six)]) = true →
            containOneofConfs wheelLikeWheel
              (assignWheelDegrees wheelLikeWheel wheelOpenFive [(4, six), (5, six)])
              [edgeFiveConf] = .ok true)) :=
  ⟨by decide!, by decide!, by decide!,
    C37_containment_is_monotone_under_printed_assignment wheelLikeWheel wheelLikeWheel_lawful
      wheelOpenFive
      ⟨6, wheel5VtoV, [some five, some five, some five, some five, none, none],
        by decide, by decide, by decide⟩
      edgeFive_isNearTriangulation 0 0 (by decide) (by decide) [] 4 (by decide) six
      [edgeFiveConf]
      (by
        intro c hc
        rw [List.mem_singleton.1 hc]
        exact ⟨edgeFive_isNearTriangulation, by decide⟩)
      [(4, six), (5, six)] (by decide)⟩

/-! ## The matcher keeps the entries of `located` -/

theorem keepsLocated_refl (st : MatchState) : KeepsLocated st st :=
  ⟨fun _ _ h => h, rfl⟩

theorem keepsLocated_trans {a b c : MatchState} (h1 : KeepsLocated a b)
    (h2 : KeepsLocated b c) : KeepsLocated a c :=
  ⟨fun v x h => h2.1 v x (h1.1 v x h), h2.2.trans h1.2⟩

theorem foldlM_rel {σ β : Type} (R : σ → σ → Prop) (hrefl : ∀ a, R a a)
    (htrans : ∀ a b c, R a b → R b c → R a c) (f : σ → β → Except MatchError σ)
    (hstep : ∀ a x a1, f a x = .ok a1 → R a a1) :
    ∀ (l : List β) (a r : σ), l.foldlM f a = .ok r → R a r := by
  intro l
  induction l with
  | nil =>
    intro a r h
    simp only [List.foldlM, pure, Except.pure] at h
    cases h
    exact hrefl a
  | cons x l ih =>
    intro a r h
    rw [List.foldlM_cons] at h
    cases hfa : f a x with
    | error e => rw [hfa] at h; cases h
    | ok a1 =>
      rw [hfa] at h
      exact htrans _ _ _ (hstep a x a1 hfa) (ih a1 r h)

theorem correspond_located {st : MatchState} {vs vw : Nat} (hg : Guard st vs vw) :
    KeepsLocated st (correspond vs vw st) := by
  refine ⟨(correspond_extends hg).2.1, ?_⟩
  unfold correspond
  simp

theorem andRecursive_located {rec : Recursor} (hrec : KeepSpec rec) (ew es : Edge)
    (cur r : Bool × MatchState) (h : andRecursive rec ew es cur = .ok r) :
    KeepsLocated cur.2 r.2 := by
  unfold andRecursive at h
  by_cases hc : cur.1 = true
  · rw [if_pos hc] at h
    exact hrec _ _ _ _ h
  · rw [if_neg hc] at h
    simp only [pure, Except.pure] at h
    cases h
    exact keepsLocated_refl _

theorem innerStep_located {rec : Recursor} (hrec : KeepSpec rec)
    (wheelgraph subgraph : NearTriangulation) (ex : List Nat) (dp : Bool) (ew es : Edge)
    (vs : Nat) (acc : InnerVars) (vw : Nat) (acc1 : InnerVars)
    (h : innerStep rec wheelgraph subgraph ex dp ew es vs acc vw = .ok acc1) :
    KeepsLocated acc.st acc1.st := by
  unfold innerStep at h
  by_cases hg : ¬ (slot acc.st.located vs = none ∧ slot acc.st.occupied vw = none)
      ∧ ¬ (slot acc.st.located vs = some vw ∧ slot acc.st.occupied vw = some vs)
  · rw [if_pos hg] at h
    simp only [pure, Except.pure] at h
    cases h
    exact keepsLocated_refl _
  · rw [if_neg hg] at h
    dsimp only [] at h
    have hguard : Guard acc.st vs vw := by
      unfold Guard
      by_contra hc
      exact hg ⟨fun h1 => hc (Or.inl h1), fun h2 => hc (Or.inr h2)⟩
    by_cases hd : match_degree wheelgraph subgraph ex vs vw dp = false
    · rw [if_pos hd] at h
      simp only [pure, Except.pure] at h
      cases h
      exact keepsLocated_refl _
    · rw [if_neg hd] at h
      cases h1 : andRecursive rec (ew.1, vw) (es.1, vs) (acc.match_deg, correspond vs vw acc.st)
        with
      | error e => rw [h1] at h; cases h
      | ok r1 =>
        rw [h1] at h
        simp only [bind, Except.bind] at h
        cases h2 : andRecursive rec (ew.2, vw) (es.2, vs) r1 with
        | error e => rw [h2] at h; cases h
        | ok r2 =>
          rw [h2] at h
          simp only [pure, Except.pure] at h
          cases h
          exact keepsLocated_trans (correspond_located hguard)
            (keepsLocated_trans (andRecursive_located hrec _ _ _ r1 h1)
              (andRecursive_located hrec _ _ r1 r2 h2))

theorem outerStep_located {rec : Recursor} (hrec : KeepSpec rec)
    (wheelgraph subgraph : NearTriangulation) (ex : List Nat) (dp : Bool) (ew es : Edge)
    (dw : List Nat) (acc : OuterVars) (vs : Nat) (acc1 : OuterVars)
    (h : outerStep rec wheelgraph subgraph ex dp ew es dw acc vs = .ok acc1) :
    KeepsLocated acc.st acc1.st := by
  unfold outerStep at h
  cases hf : dw.foldlM (innerStep rec wheelgraph subgraph ex dp ew es vs)
      { match_deg := acc.match_deg, new_match_case := acc.new_match_case,
        vs_match_case := 0, st := acc.st } with
  | error e => rw [hf] at h; cases h
  | ok r =>
    rw [hf] at h
    simp only [bind, Except.bind] at h
    by_cases hc : r.vs_match_case ≤ 1
    · rw [if_pos hc] at h
      simp only [pure, Except.pure] at h
      cases h
      exact foldlM_rel (fun (a b : InnerVars) => KeepsLocated a.st b.st)
        (fun a => keepsLocated_refl _) (fun a b c h1 h2 => keepsLocated_trans h1 h2) _
        (fun a x a1 ha => innerStep_located hrec wheelgraph subgraph ex dp ew es vs a x a1 ha)
        dw _ r hf
    · rw [if_neg hc] at h
      cases h

theorem setEdgeBody_located {rec : Recursor} (hrec : KeepSpec rec)
    (wheelgraph subgraph : NearTriangulation) (ex : List Nat) (dp : Bool) :
    KeepSpec (setEdgeBody rec wheelgraph subgraph ex dp) := by
  intro ew es st r h
  unfold setEdgeBody at h
  by_cases hv : ew ∈ st.visited
  · rw [if_pos hv] at h
    simp only [pure, Except.pure] at h
    cases h
    exact keepsLocated_refl _
  · rw [if_neg hv] at h
    cases hdw : wheelgraph.diagonalAt ew with
    | none => rw [hdw] at h; cases h
    | some dw =>
      cases hds : subgraph.diagonalAt es with
      | none => rw [hdw, hds] at h; cases h
      | some ds =>
        rw [hdw, hds] at h
        simp only [] at h
        cases hf : ds.foldlM (outerStep rec wheelgraph subgraph ex dp ew es dw)
            { match_deg := true, new_match_case := 0,
              st := { st with visited := ew :: st.visited } } with
        | error e => rw [hf] at h; cases h
        | ok r1 =>
          rw [hf] at h
          simp only [bind, Except.bind] at h
          by_cases hc : r1.new_match_case ≤ 1
          · rw [if_pos hc] at h
            simp only [pure, Except.pure] at h
            cases h
            exact foldlM_rel (fun (a b : OuterVars) => KeepsLocated a.st b.st)
              (fun a => keepsLocated_refl _) (fun a b c h1 h2 => keepsLocated_trans h1 h2) _
              (fun a x a1 ha =>
                outerStep_located hrec wheelgraph subgraph ex dp ew es dw a x a1 ha)
              ds _ r1 hf
          · rw [if_neg hc] at h
            cases h

theorem set_edge_recursive_located (wheelgraph subgraph : NearTriangulation) (ex : List Nat)
    (dp : Bool) : ∀ fuel, KeepSpec (set_edge_recursive wheelgraph subgraph ex dp fuel) := by
  intro fuel
  induction fuel with
  | zero => intro ew es st r h; cases h
  | succ fuel ih => exact setEdgeBody_located ih wheelgraph subgraph ex dp

theorem strictFit_of_keeps {wheelgraph subgraph : NearTriangulation} {ex : List Nat}
    {st st1 : MatchState} (hk : KeepsLocated st st1)
    (h : StrictFit wheelgraph subgraph ex st1) : StrictFit wheelgraph subgraph ex st :=
  ⟨fun vs vw hs => h.1 vs vw (hk.1 vs vw hs), by rw [← hk.2]; exact h.2⟩

/-! ## The strict run repeats the lenient run that ends in a strict fit -/

theorem foldlM_back {σ β : Type} (P : σ → Prop) (f g : σ → β → Except MatchError σ)
    (hstep : ∀ a x a1, f a x = .ok a1 → P a1 → P a ∧ g a x = .ok a1) :
    ∀ (l : List β) (a r : σ), l.foldlM f a = .ok r → P r → P a ∧ l.foldlM g a = .ok r := by
  intro l
  induction l with
  | nil =>
    intro a r h hP
    simp only [List.foldlM, pure, Except.pure] at h ⊢
    cases h
    exact ⟨hP, rfl⟩
  | cons x l ih =>
    intro a r h hP
    rw [List.foldlM_cons] at h ⊢
    cases hfa : f a x with
    | error e => rw [hfa] at h; cases h
    | ok a1 =>
      rw [hfa] at h
      obtain ⟨hP1, hg1⟩ := ih a1 r h hP
      obtain ⟨hP0, hg0⟩ := hstep a x a1 hfa hP1
      rw [hg0]
      exact ⟨hP0, hg1⟩

theorem match_degree_lenient {wheelgraph subgraph : NearTriangulation} {ex : List Nat}
    {vs vw : Nat} (h : match_degree wheelgraph subgraph ex vs vw false = true) (dp : Bool) :
    match_degree wheelgraph subgraph ex vs vw dp = true := by
  unfold match_degree at h ⊢
  by_cases hex : vs ∈ ex
  · simp [hex]
  · simp only [hex, if_false] at h ⊢
    cases hs : subgraph.degreeAt vs with
    | none => rfl
    | some degs =>
      cases hw : wheelgraph.degreeAt vw with
      | none => rw [hs, hw] at h; simp at h
      | some degw => rw [hs, hw] at h; exact h

theorem match_degree_unset {wheelgraph subgraph : NearTriangulation} (ex : List Nat)
    {vs : Nat} (vw : Nat) (dp : Bool) (h : subgraph.degrees.length ≤ vs) :
    match_degree wheelgraph subgraph ex vs vw dp = true := by
  unfold match_degree
  have hnone : subgraph.degreeAt vs = none := by
    unfold NearTriangulation.degreeAt
    rw [List.getD_eq_getElem?_getD, List.getElem?_eq_none h]
    rfl
  by_cases hex : vs ∈ ex
  · simp [hex]
  · simp [hex, hnone]

theorem strictFit_correspond {wheelgraph subgraph : NearTriangulation} {ex : List Nat}
    {st : MatchState} {vs vw : Nat}
    (h : StrictFit wheelgraph subgraph ex (correspond vs vw st)) :
    match_degree wheelgraph subgraph ex vs vw false = true := by
  by_cases hlt : vs < st.located.length
  · apply h.1 vs vw
    unfold correspond
    simp only [slot_set]
    simp [hlt]
  · have hlen : (correspond vs vw st).located.length = st.located.length := by
      unfold correspond
      simp
    exact match_degree_unset ex vw false (by have := h.2; omega)

theorem andRecursive_fit {wheelgraph subgraph : NearTriangulation} {ex : List Nat}
    {rec rec2 : Recursor} (hrec : FitSimSpec wheelgraph subgraph ex rec rec2)
    (hkeep : KeepSpec rec) (ew es : Edge) (cur r : Bool × MatchState)
    (h : andRecursive rec ew es cur = .ok r) (hr : r.1 = true)
    (hfit : StrictFit wheelgraph subgraph ex r.2) :
    cur.1 = true ∧ StrictFit wheelgraph subgraph ex cur.2
      ∧ andRecursive rec2 ew es cur = .ok r := by
  have hk := andRecursive_located hkeep ew es cur r h
  unfold andRecursive at h ⊢
  by_cases hc : cur.1 = true
  · rw [if_pos hc] at h ⊢
    obtain ⟨b, st1⟩ := r
    simp only at hr hfit
    subst hr
    exact ⟨hc, strictFit_of_keeps hk hfit, hrec _ _ _ _ h hfit⟩
  · rw [if_neg hc] at h
    simp only [pure, Except.pure] at h
    cases h
    cases hr

theorem innerStep_fit {wheelgraph subgraph : NearTriangulation} {ex : List Nat}
    {rec rec2 : Recursor} (hrec : FitSimSpec wheelgraph subgraph ex rec rec2)
    (hkeep : KeepSpec rec) (ew es : Edge) (vs : Nat) (acc : InnerVars) (vw : Nat)
    (acc1 : InnerVars)
    (h : innerStep rec wheelgraph subgraph ex true ew es vs acc vw = .ok acc1)
    (hP : acc1.match_deg = true ∧ StrictFit wheelgraph subgraph ex acc1.st) :
    (acc.match_deg = true ∧ StrictFit wheelgraph subgraph ex acc.st)
      ∧ innerStep rec2 wheelgraph subgraph ex false ew es vs acc vw = .ok acc1 := by
  unfold innerStep at h ⊢
  by_cases hg : ¬ (slot acc.st.located vs = none ∧ slot acc.st.occupied vw = none)
      ∧ ¬ (slot acc.st.located vs = some vw ∧ slot acc.st.occupied vw = some vs)
  · rw [if_pos hg] at h ⊢
    simp only [pure, Except.pure] at h
    cases h
    exact ⟨hP, rfl⟩
  · rw [if_neg hg] at h ⊢
    dsimp only [] at h ⊢
    have hguard : Guard acc.st vs vw := by
      unfold Guard
      by_contra hc
      exact hg ⟨fun h1 => hc (Or.inl h1), fun h2 => hc (Or.inr h2)⟩
    by_cases hd : match_degree wheelgraph subgraph ex vs vw true = false
    · rw [if_pos hd] at h
      simp only [pure, Except.pure] at h
      cases h
      cases hP.1
    · rw [if_neg hd] at h
      cases h1 : andRecursive rec (ew.1, vw) (es.1, vs) (acc.match_deg, correspond vs vw acc.st)
        with
      | error e => rw [h1] at h; cases h
      | ok r1 =>
        rw [h1] at h
        simp only [bind, Except.bind] at h
        cases h2 : andRecursive rec (ew.2, vw) (es.2, vs) r1 with
        | error e => rw [h2] at h; cases h
        | ok r2 =>
          rw [h2] at h
          simp only [pure, Except.pure] at h
          cases h
          simp only at hP
          obtain ⟨hb1, hf1, hs2⟩ := andRecursive_fit hrec hkeep _ _ r1 r2 h2 hP.1 hP.2
          obtain ⟨hb0, hf0, hs1⟩ := andRecursive_fit hrec hkeep _ _ _ r1 h1 hb1 hf1
          simp only at hb0 hf0
          have hstrict := strictFit_correspond hf0
          rw [if_neg (by rw [hstrict]; simp), hs1]
          simp only [bind, Except.bind]
          rw [hs2]
          exact ⟨⟨hb0, strictFit_of_keeps (correspond_located hguard) hf0⟩, rfl⟩

theorem outerStep_fit {wheelgraph subgraph : NearTriangulation} {ex : List Nat}
    {rec rec2 : Recursor} (hrec : FitSimSpec wheelgraph subgraph ex rec rec2)
    (hkeep : KeepSpec rec) (ew es : Edge) (dw : List Nat) (acc : OuterVars) (vs : Nat)
    (acc1 : OuterVars)
    (h : outerStep rec wheelgraph subgraph ex true ew es dw acc vs = .ok acc1)
    (hP : acc1.match_deg = true ∧ StrictFit wheelgraph subgraph ex acc1.st) :
    (acc.match_deg = true ∧ StrictFit wheelgraph subgraph ex acc.st)
      ∧ outerStep rec2 wheelgraph subgraph ex false ew es dw acc vs = .ok acc1 := by
  unfold outerStep at h ⊢
  cases hf : dw.foldlM (innerStep rec wheelgraph subgraph ex true ew es vs)
      { match_deg := acc.match_deg, new_match_case := acc.new_match_case,
        vs_match_case := 0, st := acc.st } with
  | error e => rw [hf] at h; cases h
  | ok r =>
    rw [hf] at h
    simp only [bind, Except.bind] at h
    by_cases hc : r.vs_match_case ≤ 1
    · rw [if_pos hc] at h
      simp only [pure, Except.pure] at h
      cases h
      simp only at hP
      obtain ⟨hP0, hg⟩ := foldlM_back
        (fun (a : InnerVars) => a.match_deg = true ∧ StrictFit wheelgraph subgraph ex a.st)
        _ (innerStep rec2 wheelgraph subgraph ex false ew es vs)
        (fun a x a1 ha hPa => innerStep_fit hrec hkeep ew es vs a x a1 ha hPa) dw _ r hf hP
      rw [hg]
      simp only [bind, Except.bind]
      rw [if_pos hc]
      exact ⟨hP0, rfl⟩
    · rw [if_neg hc] at h
      cases h

theorem setEdgeBody_fit {wheelgraph subgraph : NearTriangulation} {ex : List Nat}
    {rec rec2 : Recursor} (hrec : FitSimSpec wheelgraph subgraph ex rec rec2)
    (hkeep : KeepSpec rec) :
    FitSimSpec wheelgraph subgraph ex (setEdgeBody rec wheelgraph subgraph ex true)
      (setEdgeBody rec2 wheelgraph subgraph ex false) := by
  intro ew es st st1 h hfit
  unfold setEdgeBody at h ⊢
  by_cases hv : ew ∈ st.visited
  · rw [if_pos hv] at h ⊢
    exact h
  · rw [if_neg hv] at h ⊢
    cases hdw : wheelgraph.diagonalAt ew with
    | none => rw [hdw] at h; cases h
    | some dw =>
      cases hds : subgraph.diagonalAt es with
      | none => rw [hdw, hds] at h; cases h
      | some ds =>
        rw [hdw, hds] at h
        simp only [] at h ⊢
        cases hf : ds.foldlM (outerStep rec wheelgraph subgraph ex true ew es dw)
            { match_deg := true, new_match_case := 0,
              st := { st with visited := ew :: st.visited } } with
        | error e => rw [hf] at h; cases h
        | ok r1 =>
          rw [hf] at h
          simp only [bind, Except.bind] at h
          by_cases hc : r1.new_match_case ≤ 1
          · rw [if_pos hc] at h
            simp only [pure, Except.pure] at h
            injection h with h
            injection h with hmd hst
            subst hst
            obtain ⟨_, hg⟩ := foldlM_back
              (fun (a : OuterVars) =>
                a.match_deg = true ∧ StrictFit wheelgraph subgraph ex a.st)
              _ (outerStep rec2 wheelgraph subgraph ex false ew es dw)
              (fun a x a1 ha hPa => outerStep_fit hrec hkeep ew es dw a x a1 ha hPa)
              ds _ r1 hf ⟨hmd, hfit⟩
            rw [hg]
            simp only [bind, Except.bind]
            rw [if_pos hc, hmd]
            rfl
          · rw [if_neg hc] at h
            cases h

theorem set_edge_recursive_fit (wheelgraph subgraph : NearTriangulation) (ex : List Nat) :
    ∀ fuel, FitSimSpec wheelgraph subgraph ex
      (set_edge_recursive wheelgraph subgraph ex true fuel)
      (set_edge_recursive wheelgraph subgraph ex false fuel) := by
  intro fuel
  induction fuel with
  | zero => intro ew es st st1 h; cases h
  | succ fuel ih =>
    exact setEdgeBody_fit ih (set_edge_recursive_located wheelgraph subgraph ex true fuel)

/-! ## The number of `Yes` results does not depend on `detect_possible` -/

theorem foldl_correspond_length (pairs : List (Nat × Nat)) (s : MatchState) :
    (pairs.foldl (fun st p => correspond p.1 p.2 st) s).located.length = s.located.length := by
  induction pairs generalizing s with
  | nil => rfl
  | cons p ps ih =>
    rw [List.foldl_cons, ih]
    unfold correspond
    simp

theorem strictFit_foldl_correspond {wheelgraph subgraph : NearTriangulation} {ex : List Nat} :
    ∀ (pairs : List (Nat × Nat)) (s : MatchState), (pairs.map Prod.fst).Nodup →
      (∀ p, p ∈ pairs → slot s.located p.1 = none) →
      StrictFit wheelgraph subgraph ex (pairs.foldl (fun st p => correspond p.1 p.2 st) s) →
      StrictFit wheelgraph subgraph ex s
        ∧ ∀ p, p ∈ pairs → match_degree wheelgraph subgraph ex p.1 p.2 false = true
  | [], s, _, _, hfit => ⟨hfit, fun p hp => by cases hp⟩
  | p :: ps, s, hnd, hfree, hfit => by
    rw [List.foldl_cons] at hfit
    rw [List.map_cons, List.nodup_cons] at hnd
    have hfree1 : ∀ q, q ∈ ps → slot (correspond p.1 p.2 s).located q.1 = none := by
      intro q hq
      have hne : p.1 ≠ q.1 := by
        intro he
        exact hnd.1 (by rw [he]; exact List.mem_map_of_mem Prod.fst hq)
      unfold correspond
      simp only [slot_set]
      rw [if_neg (fun hc => hne hc.1)]
      exact hfree q (List.mem_cons_of_mem _ hq)
    obtain ⟨hfit1, hps⟩ := strictFit_foldl_correspond ps _ hnd.2 hfree1 hfit
    refine ⟨⟨?_, ?_⟩, ?_⟩
    · intro vs vw hs
      apply hfit1.1 vs vw
      have hne : p.1 ≠ vs := by
        intro he
        have := hfree p (List.mem_cons_self _ _)
        rw [he, hs] at this
        cases this
      unfold correspond
      simp only [slot_set]
      rw [if_neg (fun hc => hne hc.1)]
      exact hs
    · have := hfit1.2
      unfold correspond at this
      simpa using this
    · intro q hq
      rcases List.mem_cons.1 hq with rfl | hq1
      · exact strictFit_correspond hfit1
      · exact hps q hq1

theorem branchPropagate_located {rec : Recursor} (hkeep : KeepSpec rec)
    (pairs : List (Nat × Nat)) (ew es : Edge) (occupied located : List (Option Nat))
    (r : Bool × MatchState) (h : branchPropagate rec pairs ew es occupied located = .ok r) :
    KeepsLocated (pairs.foldl (fun st p => correspond p.1 p.2 st)
      { occupied := occupied, located := located, visited := [] }) r.2 := by
  unfold branchPropagate at h
  exact foldlM_rel (fun (a b : Bool × MatchState) => KeepsLocated a.2 b.2)
    (fun a => keepsLocated_refl _) (fun a b c h1 h2 => keepsLocated_trans h1 h2) _
    (fun a c a1 ha => andRecursive_located hkeep c.1 c.2 a a1 ha) _ _ r h

theorem branchPropagate_fit {wheelgraph subgraph : NearTriangulation} {ex : List Nat}
    {rec rec2 : Recursor} (hrec : FitSimSpec wheelgraph subgraph ex rec rec2)
    (hkeep : KeepSpec rec) (pairs : List (Nat × Nat)) (ew es : Edge)
    (occupied located : List (Option Nat)) (r : Bool × MatchState)
    (h : branchPropagate rec pairs ew es occupied located = .ok r) (hr : r.1 = true)
    (hfit : StrictFit wheelgraph subgraph ex r.2) :
    StrictFit wheelgraph subgraph ex (pairs.foldl (fun st p => correspond p.1 p.2 st)
        { occupied := occupied, located := located, visited := [] })
      ∧ branchPropagate rec2 pairs ew es occupied located = .ok r := by
  unfold branchPropagate at h ⊢
  obtain ⟨hP, hg⟩ := foldlM_back
    (fun (a : Bool × MatchState) => a.1 = true ∧ StrictFit wheelgraph subgraph ex a.2)
    _ (fun cur c => andRecursive rec2 c.1 c.2 cur)
    (fun a c a1 ha hPa =>
      have h3 := andRecursive_fit hrec hkeep c.1 c.2 a a1 ha hPa.1 hPa.2
      ⟨⟨h3.1, h3.2.1⟩, h3.2.2⟩) _ _ r h ⟨hr, hfit⟩
  exact ⟨hP.2, hg⟩

theorem update_res_yes_fit {wheelgraph subgraph : NearTriangulation} {ex : List Nat}
    {dp md : Bool} {st : MatchState}
    (h : (update_res wheelgraph subgraph ex dp md st).contain = Contain.Yes)
    (hlen : st.located.length = subgraph.vertex_size)
    (hdeg : subgraph.degrees.length = subgraph.vertex_size) :
    md = true ∧ StrictFit wheelgraph subgraph ex st := by
  refine ⟨update_res_md (by rw [h]; decide), ⟨?_, by omega⟩⟩
  intro vs vw hs
  have hlt : vs < subgraph.vertex_size := by
    rw [← hlen]
    exact slot_lt_length hs
  have hu := update_res_yes h vs hlt
  unfold unsettled at hu
  by_cases hex : vs ∈ ex
  · unfold match_degree
    simp [hex]
  · rw [if_neg hex, hs] at hu
    simpa using hu

theorem update_res_yes_any {wheelgraph subgraph : NearTriangulation} {ex : List Nat}
    {dp md : Bool} {st : MatchState}
    (h : (update_res wheelgraph subgraph ex dp md st).contain = Contain.Yes) (dp2 : Bool) :
    (update_res wheelgraph subgraph ex dp2 md st).contain = Contain.Yes := by
  have hmd : md = true := update_res_md (by rw [h]; decide)
  subst hmd
  exact update_res_contain_yes (update_res_yes h)

/-- One alternative of a branching case: a `Yes` result of the lenient run is a `Yes`
result of the strict run, and the pinned pairs fit strictly. -/
theorem branchOutcome_count_back {wheelgraph subgraph : NearTriangulation} {ex : List Nat}
    {rec rec2 : Recursor} {ew es : Edge} {dw ds : List Nat}
    (pin : PinCtx wheelgraph subgraph ew es dw ds)
    (hdeg : subgraph.degrees.length = subgraph.vertex_size)
    (hrec : FitSimSpec wheelgraph subgraph ex rec rec2) (hkeep : KeepSpec rec)
    {pairs : List (Nat × Nat)} (hpairs : PairsOk dw ds pairs) {out : List ContainResult}
    (h : branchOutcome rec wheelgraph subgraph ex true ew es pairs = .ok out)
    (hpos : 0 < countYes out) :
    StrictFit wheelgraph subgraph ex (pinnedState wheelgraph subgraph ew es)
      ∧ ∃ out2, branchOutcome rec2 wheelgraph subgraph ex false ew es pairs = .ok out2
          ∧ countYes out2 = countYes out := by
  unfold branchOutcome at h ⊢
  by_cases hany : pairs.any (fun p => !match_degree wheelgraph subgraph ex p.1 p.2 true) = true
  · rw [if_pos hany] at h
    simp only [pure, Except.pure] at h
    cases h
    simp [countYes] at hpos
  · rw [if_neg hany] at h
    cases hr : branchPropagate rec pairs ew es
        (pinnedState wheelgraph subgraph ew es).occupied
        (pinnedState wheelgraph subgraph ew es).located with
    | error e => rw [hr] at h; cases h
    | ok r =>
      rw [hr] at h
      simp only [bind, Except.bind, pure, Except.pure] at h
      cases h
      rw [countYes_singleton] at hpos
      have hyes : (update_res wheelgraph subgraph ex true r.1 r.2).contain = Contain.Yes := by
        by_contra hc
        rw [if_neg hc] at hpos
        cases hpos
      have hk := branchPropagate_located hkeep pairs ew es _ _ r hr
      have hlen : r.2.located.length = subgraph.vertex_size := by
        rw [hk.2, foldl_correspond_length]
        exact (pinnedState_sized wheelgraph subgraph ew es).2
      obtain ⟨hmd, hfit⟩ := update_res_yes_fit hyes hlen hdeg
      obtain ⟨hfit0, hrun⟩ := branchPropagate_fit hrec hkeep pairs ew es _ _ r hr hmd hfit
      have hfree : ∀ p, p ∈ pairs →
          slot (pinnedState wheelgraph subgraph ew es).located p.1 = none := by
        intro p hp
        exact (pin.diagonal_free (hpairs.1 p hp).1 (hpairs.1 p hp).2).2.2.1
      obtain ⟨hfitp, hstrict⟩ := strictFit_foldl_correspond pairs
        { occupied := (pinnedState wheelgraph subgraph ew es).occupied
          located := (pinnedState wheelgraph subgraph ew es).located
          visited := [] } hpairs.2.1 hfree hfit0
      refine ⟨⟨hfitp.1, hfitp.2⟩, ?_⟩
      have hany2 : ¬ pairs.any
          (fun p => !match_degree wheelgraph subgraph ex p.1 p.2 false) = true := by
        rw [Bool.not_eq_true, List.any_eq_false]
        intro p hpm
        simp [hstrict p hpm]
      rw [if_neg hany2, hrun]
      simp only [bind, Except.bind, pure, Except.pure]
      refine ⟨_, rfl, ?_⟩
      rw [countYes_singleton, countYes_singleton, if_pos hyes,
        if_pos (update_res_yes_any hyes false)]

theorem branchOutcome_count_le {wheelgraph subgraph : NearTriangulation} {ex : List Nat}
    {rec rec2 : Recursor} {ew es : Edge} {dw ds : List Nat}
    (pin : PinCtx wheelgraph subgraph ew es dw ds)
    (hdeg : subgraph.degrees.length = subgraph.vertex_size)
    (hrec : FitSimSpec wheelgraph subgraph ex rec rec2) (hkeep : KeepSpec rec)
    {pairs : List (Nat × Nat)} (hpairs : PairsOk dw ds pairs) {out out2 : List ContainResult}
    (h : branchOutcome rec wheelgraph subgraph ex true ew es pairs = .ok out)
    (h2 : branchOutcome rec2 wheelgraph subgraph ex false ew es pairs = .ok out2) :
    countYes out ≤ countYes out2
      ∧ (0 < countYes out →
          StrictFit wheelgraph subgraph ex (pinnedState wheelgraph subgraph ew es)) := by
  by_cases hpos : 0 < countYes out
  · obtain ⟨hfit, o, ho, hc⟩ := branchOutcome_count_back pin hdeg hrec hkeep hpairs h hpos
    rw [ho] at h2
    cases h2
    exact ⟨by omega, fun _ => hfit⟩
  · exact ⟨by omega, fun hc => absurd hc hpos⟩

/-- After the pinned pairs: a `Yes` result of the lenient run is one of the strict run, and
the pinned pairs fit strictly when the lenient run has a `Yes` result. -/
theorem matchPinned_count_back {wheelgraph subgraph : NearTriangulation} {ex : List Nat}
    {rec rec2 : Recursor} {ew es : Edge} {dw ds : List Nat}
    (pin : PinCtx wheelgraph subgraph ew es dw ds)
    (hdeg : subgraph.degrees.length = subgraph.vertex_size)
    (hrec : FitSimSpec wheelgraph subgraph ex rec rec2) (hkeep : KeepSpec rec)
    {rs rs2 : List ContainResult}
    (h : matchPinned rec wheelgraph subgraph ex true ew es = .ok rs)
    (h2 : matchPinned rec2 wheelgraph subgraph ex false ew es = .ok rs2) :
    countYes rs ≤ countYes rs2
      ∧ (0 < countYes rs →
          StrictFit wheelgraph subgraph ex (pinnedState wheelgraph subgraph ew es)) := by
  have hdw := pin.hdw
  have hds := pin.hds
  cases hc : branchCandidates dw ds with
  | some cands =>
    obtain ⟨c1, c2, o1, o2, e1, ho1, ho2, rfl⟩ := matchPinned_outcomes hdw hds hc h
    obtain ⟨c1', c2', o1', o2', e1', ho1', ho2', rfl⟩ := matchPinned_outcomes hdw hds hc h2
    rw [e1] at e1'
    injection e1' with e3 e4
    injection e4 with e5 _
    subst e3 e5
    have hok := (branchCandidates_some hc (pin.hostT.diag_nodup _ _ hdw)
      (pin.patT.diag_nodup _ _ hds)).2
    have hp1 : PairsOk dw ds c1 := hok c1 (by rw [e1]; simp)
    have hp2 : PairsOk dw ds c2 := hok c2 (by rw [e1]; simp)
    obtain ⟨hle1, hf1⟩ := branchOutcome_count_le pin hdeg hrec hkeep hp1 ho1 ho1'
    obtain ⟨hle2, hf2⟩ := branchOutcome_count_le pin hdeg hrec hkeep hp2 ho2 ho2'
    rw [countYes_append, countYes_append]
    refine ⟨Nat.add_le_add hle1 hle2, ?_⟩
    intro hpos
    by_cases hz : 0 < countYes o1
    · exact hf1 hz
    · exact hf2 (by omega)
  | none =>
    unfold matchPinned at h h2
    rw [hdw, hds] at h h2
    simp only [hc] at h h2
    by_cases hl : ds.length ≤ 2 ∧ dw.length ≤ 2
    · rw [if_pos hl] at h h2
      cases hr : rec ew es (pinnedState wheelgraph subgraph ew es) with
      | error e => rw [hr] at h; cases h
      | ok r =>
        rw [hr] at h
        simp only [bind, Except.bind, pure, Except.pure] at h
        cases h
        rw [countYes_singleton]
        by_cases hyes : (update_res wheelgraph subgraph ex true r.1 r.2).contain = Contain.Yes
        · rw [if_pos hyes]
          have hk := hkeep _ _ _ _ hr
          have hlen : r.2.located.length = subgraph.vertex_size := by
            rw [hk.2]
            exact (pinnedState_sized wheelgraph subgraph ew es).2
          obtain ⟨hmd, hfit⟩ := update_res_yes_fit hyes hlen hdeg
          obtain ⟨b, st1⟩ := r
          simp only at hmd hfit hk hyes
          subst hmd
          rw [hrec _ _ _ _ hr hfit] at h2
          simp only [bind, Except.bind, pure, Except.pure] at h2
          cases h2
          rw [countYes_singleton, if_pos (update_res_yes_any hyes false)]
          exact ⟨Nat.le_refl _, fun _ => strictFit_of_keeps hk hfit⟩
        · rw [if_neg hyes]
          exact ⟨Nat.zero_le _, fun hc => absurd hc (by omega)⟩
    · rw [if_neg hl] at h
      cases h

/-- The matcher has at least as many `Yes` results under `detect_possible = false` as under
`detect_possible = true`. -/
theorem match_count_back {wheelgraph subgraph : NearTriangulation}
    (hhost : IsNearTriangulation wheelgraph) (hpat : IsNearTriangulation subgraph)
    (edgeid_wheelgraph edgeid_subgraph : Nat) (ex : List Nat) (rs rs2 : List ContainResult)
    (h : containSubgraphWithCorrespondingEdge wheelgraph subgraph edgeid_wheelgraph
      edgeid_subgraph ex true = .ok rs)
    (h2 : containSubgraphWithCorrespondingEdge wheelgraph subgraph edgeid_wheelgraph
      edgeid_subgraph ex false = .ok rs2) :
    countYes rs ≤ countYes rs2 := by
  unfold containSubgraphWithCorrespondingEdge containSubgraphFuel at h h2
  cases hew : wheelgraph.edges.get? edgeid_wheelgraph with
  | none => rw [hew] at h; cases h
  | some ew =>
    cases hes : subgraph.edges.get? edgeid_subgraph with
    | none => rw [hew, hes] at h; cases h
    | some es =>
      rw [hew, hes] at h h2
      simp only [] at h h2
      by_cases hpins : match_degree wheelgraph subgraph ex es.1 ew.1 true = false
          ∨ match_degree wheelgraph subgraph ex es.2 ew.2 true = false
      · rw [if_pos hpins] at h
        simp only [pure, Except.pure] at h
        cases h
        exact Nat.zero_le _
      · rw [if_neg hpins] at h
        have hmw : ew ∈ wheelgraph.edges := List.get?_mem hew
        have hms : es ∈ subgraph.edges := List.get?_mem hes
        obtain ⟨dw, hdw⟩ := hhost.triangulated.defined ew hmw
        obtain ⟨ds, hds⟩ := hpat.triangulated.defined es hms
        have pin : PinCtx wheelgraph subgraph ew es dw ds :=
          ⟨hhost.triangulated, hpat.triangulated, hmw, hms, hdw, hds⟩
        have hdeg := isNearTriangulation_degrees_length hpat
        have hrec := set_edge_recursive_fit wheelgraph subgraph ex (wheelgraph.edges.length + 1)
        have hkeep := set_edge_recursive_located wheelgraph subgraph ex true
          (wheelgraph.edges.length + 1)
        by_cases hpins2 : match_degree wheelgraph subgraph ex es.1 ew.1 false = false
            ∨ match_degree wheelgraph subgraph ex es.2 ew.2 false = false
        · rw [if_pos hpins2] at h2
          simp only [pure, Except.pure] at h2
          cases h2
          by_contra hpos
          have hpos1 : 0 < countYes rs := by
            have : countYes ([] : List ContainResult) = 0 := rfl
            omega
          obtain ⟨rs3, hrs3, _⟩ := Sat_ok_iff.1
            (matchPinned_total (set_edge_recursive_total hhost.triangulated hpat.triangulated
              ex false _) ex false hhost.triangulated hpat.triangulated hmw hms)
          have hfit := (matchPinned_count_back pin hdeg hrec hkeep h hrs3).2 hpos1
          obtain ⟨_, _, hl1, hl2⟩ := pin.pinned_ends
          rcases hpins2 with hb | hb
          · rw [hfit.1 _ _ hl1] at hb
            cases hb
          · rw [hfit.1 _ _ hl2] at hb
            cases hb
        · rw [if_neg hpins2] at h2
          exact (matchPinned_count_back pin hdeg hrec hkeep h h2).1

/-! ## C36 -/

/-- C36: on a host and a pattern that the constructor accepts, for every pair of pinned
edges and every ignore set, the matcher returns under `detect_possible = true` and under
`detect_possible = false`, both runs have the same number of `Yes` results, and
`numOfSubgraphWithCorrespondingEdge` returns that number. -/
theorem C36_yes_count_is_independent_of_detect_possible
    (wheelgraph subgraph : NearTriangulation)
    (hhost : IsNearTriangulation wheelgraph) (hpat : IsNearTriangulation subgraph)
    (edgeid_wheelgraph edgeid_subgraph : Nat)
    (hew : edgeid_wheelgraph < wheelgraph.edges.length)
    (hes : edgeid_subgraph < subgraph.edges.length) (except_vertices : List Nat) :
    ∃ possible strict,
      containSubgraphWithCorrespondingEdge wheelgraph subgraph edgeid_wheelgraph
          edgeid_subgraph except_vertices true = .ok possible
      ∧ containSubgraphWithCorrespondingEdge wheelgraph subgraph edgeid_wheelgraph
          edgeid_subgraph except_vertices false = .ok strict
      ∧ possible.countP (fun res => decide (res.contain = Contain.Yes))
          = strict.countP (fun res => decide (res.contain = Contain.Yes))
      ∧ numOfSubgraphWithCorrespondingEdge wheelgraph subgraph edgeid_wheelgraph
          edgeid_subgraph except_vertices
          = .ok (possible.countP (fun res => decide (res.contain = Contain.Yes))) := by
  obtain ⟨rsT, hT, _⟩ := match_total_of_lt hhost hpat edgeid_wheelgraph edgeid_subgraph
    hew hes except_vertices true
  obtain ⟨rsF, hF, _⟩ := match_total_of_lt hhost hpat edgeid_wheelgraph edgeid_subgraph
    hew hes except_vertices false
  have hle1 : countYes rsT ≤ countYes rsF :=
    match_count_back hhost hpat edgeid_wheelgraph edgeid_subgraph except_vertices rsT rsF hT hF
  have href : DegreesRefine wheelgraph wheelgraph subgraph except_vertices false true :=
    { size := rfl
      edges := rfl
      diagonals := rfl
      mono := fun vs vw h => match_degree_lenient h true
      strict := fun vs vw h => h }
  have hle2 : countYes rsF ≤ countYes rsT :=
    match_count_sim href edgeid_wheelgraph edgeid_subgraph rsF rsT hF hT
  have heq : countYes rsT = countYes rsF := Nat.le_antisymm hle1 hle2
  refine ⟨rsT, rsF, hT, hF, heq, ?_⟩
  have hn := numOf_eq_countYes hF
  rw [hn]
  exact congrArg Except.ok heq.symm

theorem C36_witness :
    (containSubgraphWithCorrespondingEdge (triangleOf (some five) (some five) none)
        (triangleOf (some five) (some five) (some five)) 0 0 [] true).map
          (List.map ContainResult.contain) = .ok [Contain.Possible]
      ∧ (containSubgraphWithCorrespondingEdge (triangleOf (some five) (some five) none)
        (triangleOf (some five) (some five) (some five)) 0 0 [] false).map
          (List.map ContainResult.contain) = .ok [Contain.No]
      ∧ ∃ possible strict,
        containSubgraphWithCorrespondingEdge (triangleOf (some five) (some five) none)
            (triangleOf (some five) (some five) (some five)) 0 0 [] true = .ok possible
        ∧ containSubgraphWithCorrespondingEdge (triangleOf (some five) (some five) none)
            (triangleOf (some five) (some five) (some five)) 0 0 [] false = .ok strict
        ∧ possible.countP (fun res => decide (res.contain = Contain.Yes))
            = strict.countP (fun res => decide (res.contain = Contain.Yes))
        ∧ numOfSubgraphWithCorrespondingEdge (triangleOf (some five) (some five) none)
            (triangleOf (some five) (some five) (some five)) 0 0 []
            = .ok (possible.countP (fun res => decide (res.contain = Contain.Yes))) :=
  ⟨by decide!, by decide!,
    C36_yes_count_is_independent_of_detect_possible
      (triangleOf (some five) (some five) none)
      (triangleOf (some five) (some five) (some five))
      ⟨3, triangleVtoV, [some five, some five, none], by decide, by decide, by decide⟩
      ⟨3, triangleVtoV, [some five, some five, some five], by decide, by decide, by decide⟩
      0 0 (by decide) (by decide) []⟩

/-! ## decideDegreeBySendCases: the frame and the received degrees -/

theorem sameFrame_refl (wheel : CartWheel) : SameFrame wheel wheel :=
  ⟨rfl, rfl, rfl, rfl, rfl, rfl, rfl, fun _ _ h => h⟩

theorem sameFrame_trans {a b c : CartWheel} (h1 : SameFrame a b) (h2 : SameFrame b c) :
    SameFrame a c := by
  obtain ⟨a1, a2, a3, a4, a5, a6, a7, a8⟩ := h1
  obtain ⟨b1, b2, b3, b4, b5, b6, b7, b8⟩ := h2
  exact ⟨b1.trans a1, b2.trans a2, b3.trans a3, b4.trans a4, b5.trans a5, b6.trans a6,
    b7.trans a7, fun v d h => b8 v d (a8 v d h)⟩

theorem sameFrame_setDegree {wheel w : CartWheel} (h : SameFrame wheel w) (v : Nat)
    (hv : wheel.cartwheel.degreeAt v = none) (d : Option Degree) :
    SameFrame wheel (w.setDegree v d) := by
  obtain ⟨a1, a2, a3, a4, a5, a6, a7, a8⟩ := h
  refine ⟨a1, a2, a3, ?_, a5, a6, a7, ?_⟩
  · simp [CartWheel.setDegree, NearTriangulation.setDegree, a4]
  · intro u degree hu
    have hne : v ≠ u := by
      intro he
      rw [he, hu] at hv
      cases hv
    show (w.cartwheel.setDegree v d).degreeAt u = some degree
    rw [degreeAt_setDegree, if_neg (fun hc => hne hc.1)]
    exact a8 u degree hu

theorem cartWheel_setDegree_twice (w : CartWheel) (v : Nat) (a b : Option Degree) :
    (w.setDegree v a).setDegree v b = w.setDegree v b := by
  simp [CartWheel.setDegree, NearTriangulation.setDegree, List.set_set]

theorem mem_branchDegrees {v : Nat} {degrees : List Degree} {wheels : List CartWheel}
    {w1 : CartWheel} (h : w1 ∈ branchDegrees v degrees wheels) :
    w1 ∈ wheels ∨ ∃ w ∈ wheels, ∃ piece ∈ degrees, w1 = w.setDegree v (some piece) := by
  unfold branchDegrees at h
  cases degrees with
  | nil => exact Or.inl h
  | cons degree0 rest =>
    right
    simp only [List.mem_append, List.mem_map, List.mem_flatMap] at h
    rcases h with ⟨w, hw, rfl⟩ | ⟨degree, hd, w2, ⟨w, hw, rfl⟩, rfl⟩
    · exact ⟨w, hw, degree0, List.mem_cons_self _ _, rfl⟩
    · exact ⟨w, hw, degree, List.mem_cons_of_mem _ hd, cartWheel_setDegree_twice w v _ _⟩

theorem ruleDegreeStep_ok (wheel : CartWheel) (rule : Rule) (max_degree : Int)
    (result : ContainResult) (wheels : List CartWheel) (v : Nat)
    (h : ∀ w ∈ wheels, ResultOk rule max_degree result wheel w) :
    Sat (fun r => ∀ w ∈ r, ResultOk rule max_degree result wheel w) (fun _ => True)
      (ruleDegreeStep wheel rule max_degree result wheels v) := by
  unfold ruleDegreeStep
  cases hs : slot result.occupied v with
  | none => exact Sat_pure h
  | some vs =>
    simp only []
    by_cases hset : (wheel.cartwheel.degreeAt v).isSome = true
    · rw [if_pos hset]
      exact Sat_pure h
    · rw [if_neg hset]
      have hv : wheel.cartwheel.degreeAt v = none := by
        cases hd : wheel.cartwheel.degreeAt v with
        | none => rfl
        | some d => rw [hd] at hset; simp at hset
      cases hr : rule.rule.degreeAt vs with
      | none => exact trivial
      | some degree =>
        simp only []
        cases hp : divideDegree degree max_degree with
        | none => exact trivial
        | some pieces =>
          refine Sat_pure ?_
          intro w1 hw1
          rcases mem_branchDegrees hw1 with hmem | ⟨w, hw, piece, hpiece, rfl⟩
          · exact h w1 hmem
          · obtain ⟨hf, hq⟩ := h w hw
            refine ⟨sameFrame_setDegree hf v hv _, ?_⟩
            intro u d hu hd
            have hd1 : (w.cartwheel.setDegree v (some piece)).degreeAt u = some d := hd
            rw [degreeAt_setDegree] at hd1
            by_cases hc : v = u ∧ v < w.cartwheel.degrees.length
            · rw [if_pos hc] at hd1
              obtain ⟨rfl, _⟩ := hc
              cases hd1
              exact ⟨vs, degree, pieces, hs, hr, hp, hpiece⟩
            · rw [if_neg hc] at hd1
              exact hq u d hu hd1

theorem stepOk_of_resultOk {rules : List Rule} {max_degree : Int} {wheel w : CartWheel}
    {edgeid : Nat} {rule : Rule} {results : List ContainResult} {result : ContainResult}
    (hrule : rule ∈ rules)
    (hres : containSubgraphWithCorrespondingEdge wheel.cartwheel rule.rule edgeid
      rule.send_edgeid [] true = .ok results)
    (hmem : result ∈ results) (hno : result.contain ≠ Contain.No)
    (h : ResultOk rule max_degree result wheel w) : StepOk rules max_degree wheel edgeid w :=
  ⟨h.1, fun v d hv hd => ⟨rule, results, result, hrule, hres, hmem, hno, h.2 v d hv hd⟩⟩

theorem stepOk_self (rules : List Rule) (max_degree : Int) (wheel : CartWheel) (edgeid : Nat) :
    StepOk rules max_degree wheel edgeid wheel :=
  ⟨sameFrame_refl wheel, fun v d hv hd => by rw [hv] at hd; cases hd⟩

theorem ruleResultStep_ok {rules : List Rule} {max_degree : Int} {wheel : CartWheel}
    {edgeid : Nat} {rule : Rule} {results : List ContainResult} (hrule : rule ∈ rules)
    (hres : containSubgraphWithCorrespondingEdge wheel.cartwheel rule.rule edgeid
      rule.send_edgeid [] true = .ok results)
    (acc : List CartWheel × List Int) (result : ContainResult) (hmem : result ∈ results)
    (h : ∀ w ∈ acc.1, StepOk rules max_degree wheel edgeid w) :
    Sat (fun r => ∀ w ∈ r.1, StepOk rules max_degree wheel edgeid w) (fun _ => True)
      (ruleResultStep wheel rule max_degree acc result) := by
  unfold ruleResultStep
  by_cases hno : result.contain = Contain.No
  · rw [if_pos hno]
    exact Sat_pure h
  · rw [if_neg hno]
    refine Sat_bind (P := fun wheels => ∀ w ∈ wheels, ResultOk rule max_degree result wheel w)
      ?_ ?_
    · exact Sat_foldlM _
        (fun _ (wheels : List CartWheel) =>
          ∀ w ∈ wheels, ResultOk rule max_degree result wheel w)
        (fun v _ wheels hw => ruleDegreeStep_ok wheel rule max_degree result wheels v hw)
        _ _ (by
          intro w hw
          rw [List.mem_singleton.1 hw]
          exact ⟨sameFrame_refl wheel, fun v d hv hd => by rw [hv] at hd; cases hd⟩)
    · intro wheels hwheels
      refine Sat_pure ?_
      intro w hw
      rcases List.mem_append.1 hw with h1 | h1
      · exact h w h1
      · exact stepOk_of_resultOk hrule hres hmem hno (hwheels w h1)

theorem decide_degree_by_rules_ok (rules : List Rule) (max_degree : Int) (wheel : CartWheel)
    (edgeid : Nat) :
    Sat (fun r => ∀ w ∈ r.1, StepOk rules max_degree wheel edgeid w) (fun _ => True)
      (decide_degree_by_rules rules max_degree wheel edgeid) := by
  unfold decide_degree_by_rules
  refine Sat_mono (Sat_foldlM _
    (fun (rest : List Rule) (acc : List CartWheel × List Int) =>
      (∀ r ∈ rest, r ∈ rules) ∧ ∀ w ∈ acc.1, StepOk rules max_degree wheel edgeid w)
    ?_ rules _ ⟨fun r hr => hr, ?_⟩) (fun a ha => ha.2) (fun _ h => h)
  · intro rule rest acc hacc
    have hrule : rule ∈ rules := hacc.1 rule (List.mem_cons_self _ _)
    have hrest : ∀ r ∈ rest, r ∈ rules := fun r hr => hacc.1 r (List.mem_cons_of_mem _ hr)
    cases hres : containSubgraphWithCorrespondingEdge wheel.cartwheel rule.rule edgeid
        rule.send_edgeid [] true with
    | error e => exact trivial
    | ok results =>
      simp only [bind, Except.bind]
      refine Sat_mono (Sat_foldlM _
        (fun (rest2 : List ContainResult) (acc2 : List CartWheel × List Int) =>
          (∀ r ∈ rest2, r ∈ results) ∧ ∀ w ∈ acc2.1, StepOk rules max_degree wheel edgeid w)
        ?_ results acc ⟨fun r hr => hr, hacc.2⟩) (fun a ha => ⟨hrest, ha.2⟩) (fun _ h => h)
      intro result rest2 acc2 hacc2
      refine Sat_mono (ruleResultStep_ok hrule hres acc2 result
        (hacc2.1 result (List.mem_cons_self _ _)) hacc2.2)
        (fun a ha => ⟨fun r hr => hacc2.1 r (List.mem_cons_of_mem _ hr), ha⟩) (fun _ h => h)
  · intro w hw
    rw [List.mem_singleton.1 hw]
    exact stepOk_self rules max_degree wheel edgeid

theorem uniqueStep_keeps (P : CartWheel → Prop) (acc : List CartWheel × List Int)
    (next : CartWheel × Int) (hacc : ∀ w ∈ acc.1, P w) (hnext : P next.1) :
    Sat (fun r => ∀ w ∈ r.1, P w) (fun _ => True) (uniqueStep acc next) := by
  unfold uniqueStep
  refine Sat_bind (P := fun _ => True) (Sat_trivial _) ?_
  intro found _
  cases found with
  | some j => exact Sat_pure hacc
  | none =>
    refine Sat_pure ?_
    intro w hw
    rcases List.mem_append.1 hw with h | h
    · exact hacc w h
    · rw [List.mem_singleton.1 h]; exact hnext

theorem unique_keeps (P : CartWheel → Prop) (next_wheels : List CartWheel)
    (next_charges : List Int) (h : ∀ w ∈ next_wheels, P w) :
    Sat (fun r => ∀ w ∈ r.1, P w) (fun _ => True) (unique next_wheels next_charges) := by
  unfold unique
  refine Sat_mono (Sat_foldlM _
    (fun (rest : List (CartWheel × Int)) (acc : List CartWheel × List Int) =>
      (∀ c ∈ rest, P c.1) ∧ ∀ w ∈ acc.1, P w)
    ?_ _ _ ⟨fun c hc => h c.1 (mem_fst_of_mem_zip hc), by intro w hw; cases hw⟩)
    (fun a ha => ha.2) (fun _ h => h)
  intro c rest acc hacc
  exact Sat_mono (uniqueStep_keeps P acc c hacc.2 (hacc.1 c (List.mem_cons_self _ _)))
    (fun a ha => ⟨fun c2 hc2 => hacc.1 c2 (List.mem_cons_of_mem _ hc2), ha⟩) (fun _ h => h)

theorem pruneCandidate_keeps (P : CartWheel → Prop) (rules : List Rule)
    (confs : List Configuration) (threshold : Int)
    (charge_bound : Bool) (edges : List Edge) (edgeids : List Nat) (hubdegree : Nat)
    (edgeids_idx : Nat) (decided_charges : List Int)
    (acc : List CartWheel × List Int) (next : CartWheel × Int)
    (hacc : ∀ w ∈ acc.1, P w) (hnext : P next.1) :
    Sat (fun r => ∀ w ∈ r.1, P w) (fun _ => True)
      (pruneCandidate rules confs threshold charge_bound edges edgeids hubdegree edgeids_idx
        decided_charges acc next) := by
  unfold pruneCandidate
  refine Sat_bind (P := fun _ => True) (Sat_trivial _) ?_
  intro dropped _
  by_cases hd : dropped = true
  · rw [if_pos hd]; exact Sat_pure hacc
  · rw [if_neg hd]
    refine Sat_bind (P := fun _ => True) (Sat_trivial _) ?_
    intro found _
    cases found with
    | true => exact Sat_pure hacc
    | false =>
      refine Sat_pure ?_
      intro w hw
      rcases List.mem_append.1 hw with h | h
      · exact hacc w h
      · rw [List.mem_singleton.1 h]; exact hnext

theorem prune_keeps (P : CartWheel → Prop) (rules : List Rule) (confs : List Configuration)
    (threshold : Int) (charge_bound : Bool) (edges : List Edge) (edgeids : List Nat)
    (hubdegree : Nat) (next_wheels : List CartWheel) (next_charges : List Int)
    (edgeids_idx : Nat) (decided_charges : List Int) (h : ∀ w ∈ next_wheels, P w) :
    Sat (fun r => ∀ w ∈ r.1, P w) (fun _ => True)
      (prune rules confs threshold charge_bound edges edgeids hubdegree next_wheels
        next_charges edgeids_idx decided_charges) := by
  unfold prune
  refine Sat_mono (Sat_foldlM _
    (fun (rest : List (CartWheel × Int)) (acc : List CartWheel × List Int) =>
      (∀ c ∈ rest, P c.1) ∧ ∀ w ∈ acc.1, P w)
    ?_ _ _ ⟨fun c hc => h c.1 (mem_fst_of_mem_zip hc), by intro w hw; cases hw⟩)
    (fun a ha => ha.2) (fun _ h => h)
  intro c rest acc hacc
  exact Sat_mono (pruneCandidate_keeps P rules confs threshold charge_bound edges edgeids
      hubdegree edgeids_idx decided_charges acc c hacc.2 (hacc.1 c (List.mem_cons_self _ _)))
    (fun a ha => ⟨fun c2 hc2 => hacc.1 c2 (List.mem_cons_of_mem _ hc2), ha⟩) (fun _ h => h)

theorem sendCaseOk_step {rules : List Rule} {max_degree : Int} {edgeids : List Nat}
    {wheelgraph wheel w : CartWheel} {edgeid : Nat} (hmem : edgeid ∈ edgeids)
    (h1 : SendCaseOk rules max_degree edgeids wheelgraph wheel)
    (h2 : StepOk rules max_degree wheel edgeid w) :
    SendCaseOk rules max_degree edgeids wheelgraph w := by
  refine ⟨sameFrame_trans h1.1 h2.1, ?_⟩
  intro v d hv hd
  cases hw : wheel.cartwheel.degreeAt v with
  | none => exact ⟨wheel, edgeid, h1.1, hmem, hw, h2.2 v d hw hd⟩
  | some d0 =>
    have hkeep := h2.1.2.2.2.2.2.2.2 v d0 hw
    rw [hkeep] at hd
    have hd0 : d0 = d := Option.some.inj hd
    rw [← hd0]
    exact h1.2 v d0 hv hw

theorem decide_degree_ok (rules : List Rule) (confs : List Configuration)
    (max_degree threshold : Int) (charge_bound : Bool) (edges : List Edge)
    (edgeids : List Nat) (hubdegree : Nat) (wheelgraph : CartWheel) :
    ∀ (remaining : Nat) (wheel : CartWheel) (edgeids_idx : Nat) (decided_charges : List Int)
      (res : List CartWheel),
      SendCaseOk rules max_degree edgeids wheelgraph wheel →
      (∀ w ∈ res, SendCaseOk rules max_degree edgeids wheelgraph w) →
      Sat (fun r => ∀ w ∈ r, SendCaseOk rules max_degree edgeids wheelgraph w)
        (fun _ => True)
        (decide_degree rules confs max_degree threshold charge_bound edges edgeids hubdegree
          remaining wheel edgeids_idx decided_charges res) := by
  intro remaining
  induction remaining with
  | zero =>
    intro wheel idx decided res hw hres
    unfold decide_degree
    refine Sat_pure ?_
    intro w hmem
    rcases List.mem_append.1 hmem with h | h
    · exact hres w h
    · rw [List.mem_singleton.1 h]; exact hw
  | succ remaining ih =>
    intro wheel idx decided res hw hres
    unfold decide_degree
    refine Sat_bind (P := fun _ => True) (Sat_trivial _) ?_
    intro _ _
    cases hget : edgeids.get? idx with
    | none => exact trivial
    | some edgeid =>
      simp only []
      have hmem : edgeid ∈ edgeids := List.get?_mem hget
      have hP : ∀ w, StepOk rules max_degree wheel edgeid w →
          SendCaseOk rules max_degree edgeids wheelgraph w :=
        fun w h2 => sendCaseOk_step hmem hw h2
      refine Sat_bind (decide_degree_by_rules_ok rules max_degree wheel edgeid) ?_
      intro next hnext
      refine Sat_bind (unique_keeps (StepOk rules max_degree wheel edgeid) next.1 next.2
        hnext) ?_
      intro uniq huniq
      refine Sat_bind (prune_keeps (StepOk rules max_degree wheel edgeid) rules confs
        threshold charge_bound edges edgeids hubdegree uniq.1 uniq.2 idx decided huniq) ?_
      intro pruned hpruned
      refine Sat_mono (Sat_foldlM _
        (fun (rest : List (CartWheel × Int)) (r : List CartWheel) =>
          (∀ w ∈ r, SendCaseOk rules max_degree edgeids wheelgraph w)
          ∧ ∀ c ∈ rest, SendCaseOk rules max_degree edgeids wheelgraph c.1)
        ?_ _ _ ⟨hres, fun c hc => hP c.1 (hpruned c.1 (mem_fst_of_mem_zip hc))⟩)
        (fun a ha => ha.1) (fun _ h => h)
      intro b rest s hs
      refine Sat_mono (ih b.1 (idx + 1) _ s (hs.2 b (List.mem_cons_self _ _)) hs.1) ?_
        (fun _ h => h)
      intro a ha
      exact ⟨ha, fun c hc => hs.2 c (List.mem_cons_of_mem _ hc)⟩

/-! ## C39 -/

/-- C39: every cartwheel that `decideDegreeBySendCases` emits has the vertex count, the
edge list, the diagonal map, the hub degree and the neighbour rings of the input cartwheel
and every degree that is set in the input; a vertex without a degree in the input that has
the degree `d` in an emitted cartwheel got it from a rule: `d` is one of the pieces of
`divideDegree` applied to the degree of the rule vertex that occupies it in a result other
than `No` of the rule, matched along one of the listed edges on a cartwheel with the frame
of the input in which the vertex has no degree yet. -/
theorem C39_emitted_cartwheels_keep_the_frame (wheelgraph : CartWheel)
    (rules : List Rule) (confs : List Configuration) (max_degree threshold : Int)
    (charge_bound : Bool) (out : List CartWheel)
    (h : decideDegreeBySendCases wheelgraph rules confs max_degree threshold charge_bound
      = .ok out) :
    ∃ edgeids, sendCaseEdgeids wheelgraph = .ok edgeids
      ∧ ∀ w ∈ out,
          SameFrame wheelgraph w
          ∧ ∀ v d, wheelgraph.cartwheel.degreeAt v = none →
              w.cartwheel.degreeAt v = some d →
              ∃ wheel edgeid, SameFrame wheelgraph wheel ∧ edgeid ∈ edgeids
                ∧ wheel.cartwheel.degreeAt v = none
                ∧ RulePiece rules max_degree wheel edgeid v d := by
  unfold decideDegreeBySendCases at h
  cases he : sendCaseEdgeids wheelgraph with
  | error e => rw [he] at h; cases h
  | ok edgeids =>
    rw [he] at h
    refine ⟨edgeids, rfl, ?_⟩
    have hs := decide_degree_ok rules confs max_degree threshold charge_bound
      wheelgraph.cartwheel.edges edgeids wheelgraph.num_neighbor wheelgraph edgeids.length
      wheelgraph 0 [] []
      ⟨sameFrame_refl wheelgraph, fun v d hv hd => by rw [hv] at hd; cases hd⟩
      (by intro w hw; cases hw)
    have h2 : decide_degree rules confs max_degree threshold charge_bound
        wheelgraph.cartwheel.edges edgeids wheelgraph.num_neighbor edgeids.length wheelgraph
        0 [] [] = .ok out := h
    rw [h2] at hs
    exact hs

theorem C39_witness :
    ∃ edgeids, sendCaseEdgeids cartOpen = .ok edgeids
      ∧ ∀ w ∈ [cartOpen, cartOpen.setDegree 5 (some { lower_deg := 8, upper_deg := 8 }),
            cartOpen.setDegree 5 (some { lower_deg := 9, upper_deg := 1000 })],
          SameFrame cartOpen w
          ∧ ∀ v d, cartOpen.cartwheel.degreeAt v = none →
              w.cartwheel.degreeAt v = some d →
              ∃ wheel edgeid, SameFrame cartOpen wheel ∧ edgeid ∈ edgeids
                ∧ wheel.cartwheel.degreeAt v = none
                ∧ RulePiece [rulePlus] 9 wheel edgeid v d :=
  C39_emitted_cartwheels_keep_the_frame cartOpen [rulePlus] [] 9 0 false
    [cartOpen, cartOpen.setDegree 5 (some { lower_deg := 8, upper_deg := 8 }),
      cartOpen.setDegree 5 (some { lower_deg := 9, upper_deg := 1000 })]
    (by decide!)

/-! ## extendThirdNeighbor: rows of the adjacency -/

theorem foldlM_range_ok {σ : Type} (f : σ → Nat → Except MatchError σ) (P : Nat → σ → Prop) :
    ∀ (n : Nat) (s r : σ), (List.range n).foldlM f s = .ok r → P 0 s →
      (∀ i a a1, i < n → P i a → f a i = .ok a1 → P (i + 1) a1) → P n r := by
  intro n
  induction n with
  | zero =>
    intro s r h h0 _
    simp only [List.range_zero, List.foldlM_nil, pure, Except.pure] at h
    cases h
    exact h0
  | succ n ih =>
    intro s r h h0 hstep
    rw [List.range_succ, List.foldlM_append] at h
    cases h1 : (List.range n).foldlM f s with
    | error e => rw [h1] at h; cases h
    | ok a =>
      rw [h1] at h
      simp only [bind, Except.bind, List.foldlM_cons, List.foldlM_nil] at h
      cases h2 : f a n with
      | error e => rw [h2] at h; cases h
      | ok a1 =>
        rw [h2] at h
        simp only [pure, Except.pure] at h
        cases h
        exact hstep n a _ (Nat.lt_succ_self n)
          (ih s a h1 h0 (fun i b b1 hi hP hf => hstep i b b1 (Nat.lt_succ_of_lt hi) hP hf)) h2

theorem length_setInsert_fresh (x : Nat) (s : List Nat) (h : x ∉ s) :
    (setInsert x s).length = s.length + 1 := by
  induction s with
  | nil => simp [setInsert]
  | cons y s ih =>
    unfold setInsert
    have hne : x ≠ y := fun he => h (by rw [he]; exact List.mem_cons_self _ _)
    have hs : x ∉ s := fun hm => h (List.mem_cons_of_mem _ hm)
    by_cases hlt : x < y
    · rw [if_pos hlt]
      simp
    · rw [if_neg hlt, if_neg hne]
      simp [ih hs]

theorem adjacent_insertNeighbor_other (VtoV : List (List Nat)) (v u x : Nat) (h : x ≠ v) :
    adjacent (insertNeighbor VtoV v u) x = adjacent VtoV x := by
  unfold insertNeighbor
  rw [adjacent_set, if_neg (fun hc => h hc.1.symm)]

theorem adjacent_addEdge_other (VtoV : List (List Nat)) (a b x : Nat) (ha : x ≠ a)
    (hb : x ≠ b) : adjacent (addEdge VtoV a b) x = adjacent VtoV x := by
  unfold addEdge
  rw [adjacent_insertNeighbor_other _ _ _ _ hb, adjacent_insertNeighbor_other _ _ _ _ ha]

theorem length_adjacent_addEdge_fresh (VtoV : List (List Nat)) (v w : Nat)
    (hv : v < VtoV.length) (hne : v ≠ w) (hw : w ∉ adjacent VtoV v) :
    (adjacent (addEdge VtoV v w) v).length = (adjacent VtoV v).length + 1 := by
  unfold addEdge
  rw [adjacent_insertNeighbor_other _ _ _ _ hne]
  unfold insertNeighbor
  rw [adjacent_set, if_pos ⟨rfl, hv⟩]
  exact length_setInsert_fresh w _ hw

theorem rowsBelow_addEdge {VtoV : List (List Nat)} (h : RowsBelow VtoV) (a b : Nat)
    (ha : a < VtoV.length) (hb : b < VtoV.length) : RowsBelow (addEdge VtoV a b) := by
  intro x y hy
  rw [length_addEdge]
  rcases (mem_adjacent_addEdge VtoV a b x y).1 hy with h1 | ⟨_, _, rfl⟩ | ⟨_, _, rfl⟩
  · exact h x y h1
  · exact hb
  · exact ha

theorem rowsBelow_append_nil {VtoV : List (List Nat)} (h : RowsBelow VtoV) :
    RowsBelow (VtoV ++ [[]]) := by
  intro x y hy
  rw [adjacent_append_nil] at hy
  have := h x y hy
  simp only [List.length_append, List.length_singleton]
  omega

theorem rowsBelow_replicate (n : Nat) : RowsBelow (List.replicate n []) := by
  intro x y hy
  rw [adjacent_replicate_nil] at hy
  cases hy

theorem getDegree_lt {degrees : List (Option Degree)} {v : Nat} {degree : Degree}
    (h : getDegree degrees v = .ok degree) : v < degrees.length := by
  by_contra hlt
  unfold getDegree at h
  rw [List.getD_eq_getElem?_getD, List.getElem?_eq_none (not_lt.1 hlt)] at h
  cases h

theorem vertexOf_ok {w : Int} {f : Nat} (h : vertexOf w = .ok f) : 0 ≤ w ∧ (f : Int) = w := by
  unfold vertexOf at h
  by_cases hneg : w < 0
  · rw [if_pos hneg] at h; cases h
  · rw [if_neg hneg] at h
    simp only [pure, Except.pure] at h
    cases h
    exact ⟨by omega, Int.toNat_of_nonneg (by omega)⟩

/-! ## extendThirdNeighbor: the second loop over the circuit -/

theorem thirdFanStep_ok {n0 v : Nat} {base : ThirdVars} (hv : v < n0) (i : Nat)
    (p : ThirdVars × Nat)
    (h : ThirdInv n0 p.1 ∧ p.1.circuit_neighbor = base.circuit_neighbor
      ∧ (n0 ≤ p.2 ∧ p.2 < p.1.VtoV.length)
      ∧ (adjacent p.1.VtoV v).length = (adjacent base.VtoV v).length + i
      ∧ ∀ x, x < n0 → x ≠ v → adjacent p.1.VtoV x = adjacent base.VtoV x) (count : Nat) :
    ThirdInv n0 (thirdFanStep v p count).1
      ∧ (thirdFanStep v p count).1.circuit_neighbor = base.circuit_neighbor
      ∧ (n0 ≤ (thirdFanStep v p count).2
        ∧ (thirdFanStep v p count).2 < (thirdFanStep v p count).1.VtoV.length)
      ∧ (adjacent (thirdFanStep v p count).1.VtoV v).length
          = (adjacent base.VtoV v).length + (i + 1)
      ∧ ∀ x, x < n0 → x ≠ v →
          adjacent (thirdFanStep v p count).1.VtoV x = adjacent base.VtoV x := by
  obtain ⟨hinv, hcn, ⟨hf1, hf2⟩, hlen, hother⟩ := h
  have hsize := hinv.size
  have hL : (p.1.VtoV ++ [[]]).length = p.1.VtoV.length + 1 := by simp
  have hrows1 : RowsBelow (addEdge (p.1.VtoV ++ [[]]) p.2 p.1.VtoV.length) :=
    rowsBelow_addEdge (rowsBelow_append_nil hinv.rows) _ _ (by omega) (by omega)
  have hlen1 : (addEdge (p.1.VtoV ++ [[]]) p.2 p.1.VtoV.length).length
      = p.1.VtoV.length + 1 := by rw [length_addEdge, hL]
  have hrow_v : adjacent (addEdge (p.1.VtoV ++ [[]]) p.2 p.1.VtoV.length) v
      = adjacent p.1.VtoV v := by
    rw [adjacent_addEdge_other _ _ _ _ (by omega) (by omega), adjacent_append_nil]
  refine ⟨⟨?_, ?_, ?_⟩, hcn, ⟨?_, ?_⟩, ?_, ?_⟩
  · exact rowsBelow_addEdge hrows1 _ _ (by omega) (by omega)
  · show n0 ≤ (addEdge (addEdge (p.1.VtoV ++ [[]]) p.2 p.1.VtoV.length) v
      p.1.VtoV.length).length
    rw [length_addEdge, hlen1]
    omega
  · intro x
    show p.1.circuit_neighbor.getD x (-1) = -1 ∨ ((n0 : Int) ≤ p.1.circuit_neighbor.getD x (-1)
      ∧ p.1.circuit_neighbor.getD x (-1)
        < ((addEdge (addEdge (p.1.VtoV ++ [[]]) p.2 p.1.VtoV.length) v
            p.1.VtoV.length).length : Int))
    rw [length_addEdge, hlen1]
    rcases hinv.fresh x with h1 | ⟨h1, h2⟩
    · exact Or.inl h1
    · exact Or.inr ⟨h1, by push_cast; omega⟩
  · exact hsize
  · show p.1.VtoV.length < (addEdge (addEdge (p.1.VtoV ++ [[]]) p.2 p.1.VtoV.length) v
      p.1.VtoV.length).length
    rw [length_addEdge, hlen1]
    omega
  · show (adjacent (addEdge (addEdge (p.1.VtoV ++ [[]]) p.2 p.1.VtoV.length) v
      p.1.VtoV.length) v).length = _
    rw [length_adjacent_addEdge_fresh _ _ _ (by rw [hlen1]; omega) (by omega), hrow_v, hlen]
    · omega
    · rw [hrow_v]
      intro hmem
      have := hinv.rows v _ hmem
      omega
  · intro x hx hxv
    show adjacent (addEdge (addEdge (p.1.VtoV ++ [[]]) p.2 p.1.VtoV.length) v
      p.1.VtoV.length) x = _
    rw [adjacent_addEdge_other _ _ _ _ hxv (by omega),
      adjacent_addEdge_other _ _ _ _ (by omega) (by omega), adjacent_append_nil]
    exact hother x hx hxv

theorem thirdRingStep_ok {n0 : Nat} {degrees0 : List (Option Degree)} {circuit : List Nat}
    (hdeg : degrees0.length ≤ n0) (k : Nat) (acc acc1 : ThirdVars)
    (hinv : ThirdInv n0 acc)
    (hF : Filled degrees0 circuit acc.circuit_neighbor k acc.VtoV)
    (h : thirdRingStep degrees0 circuit acc k = .ok acc1) :
    ThirdInv n0 acc1 ∧ acc1.circuit_neighbor = acc.circuit_neighbor
      ∧ Filled degrees0 circuit acc.circuit_neighbor (k + 1) acc1.VtoV := by
  unfold thirdRingStep at h
  cases hcv : circuit.get? k with
  | none => rw [hcv] at h; cases h
  | some v =>
    cases hcu : circuit.get? (if k = 0 then circuit.length - 1 else k - 1) with
    | none => rw [hcv, hcu] at h; cases h
    | some u =>
      rw [hcv, hcu] at h
      simp only [] at h
      cases hdv : getDegree degrees0 v with
      | error e => rw [hdv] at h; cases h
      | ok degv =>
        rw [hdv] at h
        simp only [bind, Except.bind] at h
        have hvn : v < n0 := lt_of_lt_of_le (getDegree_lt hdv) hdeg
        by_cases hfix : (!degv.fixed) = true
        · rw [if_pos hfix] at h
          simp only [pure, Except.pure] at h
          cases h
          refine ⟨hinv, rfl, ?_⟩
          intro cidx v1 u1 degree hc hv1 hu1 hd1 hf1 hne
          rcases Nat.lt_succ_iff_lt_or_eq.1 hc with hlt | rfl
          · exact hF cidx v1 u1 degree hlt hv1 hu1 hd1 hf1 hne
          · rw [hcv] at hv1
            cases hv1
            rw [hdv] at hd1
            cases hd1
            rw [hf1] at hfix
            cases hfix
        · rw [if_neg hfix] at h
          have hfixed : degv.fixed = true := by
            cases hb : degv.fixed with
            | true => rfl
            | false => rw [hb] at hfix; exact absurd rfl hfix
          by_cases heq : acc.circuit_neighbor.getD u (-1) = acc.circuit_neighbor.getD v (-1)
          · rw [if_pos heq] at h
            simp only [pure, Except.pure] at h
            cases h
            refine ⟨⟨hinv.rows, hinv.size, hinv.fresh⟩, rfl, ?_⟩
            intro cidx v1 u1 degree hc hv1 hu1 hd1 hf1 hne
            rcases Nat.lt_succ_iff_lt_or_eq.1 hc with hlt | rfl
            · exact hF cidx v1 u1 degree hlt hv1 hu1 hd1 hf1 hne
            · rw [hcv] at hv1
              cases hv1
              rw [hcu] at hu1
              cases hu1
              exact absurd heq hne
          · rw [if_neg heq] at h
            by_cases hnum : 0 ≤ degv.lower_deg - ((adjacent acc.VtoV v).length : Int)
            · rw [if_pos hnum] at h
              cases hvf : vertexOf (acc.circuit_neighbor.getD u (-1)) with
              | error e => rw [hvf] at h; cases h
              | ok f =>
                rw [hvf] at h
                simp only [] at h
                cases hvl : vertexOf (acc.circuit_neighbor.getD v (-1)) with
                | error e => rw [hvl] at h; cases h
                | ok l =>
                  rw [hvl] at h
                  simp only [pure, Except.pure] at h
                  cases h
                  obtain ⟨hf0, hfe⟩ := vertexOf_ok hvf
                  obtain ⟨hl0, hle⟩ := vertexOf_ok hvl
                  have hfr : n0 ≤ f ∧ f < acc.VtoV.length := by
                    rcases hinv.fresh u with h1 | ⟨h1, h2⟩
                    · omega
                    · omega
                  have hlr : n0 ≤ l ∧ l < acc.VtoV.length := by
                    rcases hinv.fresh v with h1 | ⟨h1, h2⟩
                    · omega
                    · omega
                  have hfan := foldl_range_inv (thirdFanStep v)
                    (fun i (p : ThirdVars × Nat) =>
                      ThirdInv n0 p.1 ∧ p.1.circuit_neighbor = acc.circuit_neighbor
                      ∧ (n0 ≤ p.2 ∧ p.2 < p.1.VtoV.length)
                      ∧ (adjacent p.1.VtoV v).length = (adjacent acc.VtoV v).length + i
                      ∧ ∀ x, x < n0 → x ≠ v → adjacent p.1.VtoV x = adjacent acc.VtoV x)
                    (ThirdVars.mk acc.VtoV acc.degrees
                      (pushAt acc.third_neighbors v (acc.circuit_neighbor.getD u (-1)))
                      acc.circuit_neighbor, f)
                    (degv.lower_deg - ((adjacent acc.VtoV v).length : Int)).toNat
                    ⟨⟨hinv.rows, hinv.size, hinv.fresh⟩, rfl, hfr, rfl, fun _ _ _ => rfl⟩
                    (fun i p _ hp => @thirdFanStep_ok n0 v acc hvn i p hp i)
                  obtain ⟨hinv2, hcn2, ⟨hr1, hr2⟩, hlen2, hother2⟩ := hfan
                  have hgrow := hinv2.size
                  refine ⟨⟨?_, ?_, ?_⟩, hcn2, ?_⟩
                  · exact rowsBelow_addEdge hinv2.rows _ _ hr2 (by
                      rcases hinv2.fresh v with h1 | ⟨h1, h2⟩
                      · rw [hcn2] at h1; omega
                      · rw [hcn2] at h2; omega)
                  · show n0 ≤ (addEdge _ _ _).length
                    rw [length_addEdge]
                    exact hgrow
                  · intro x
                    show _ ∨ (_ ∧ _ < ((addEdge _ _ _).length : Int))
                    rw [length_addEdge]
                    exact hinv2.fresh x
                  · intro cidx v1 u1 degree hc hv1 hu1 hd1 hf1 hne
                    have hv1n : v1 < n0 := lt_of_lt_of_le (getDegree_lt hd1) hdeg
                    show ((adjacent (addEdge _ _ _) v1).length : Int) = _
                    rw [adjacent_addEdge_other _ _ _ _ (by omega) (by omega)]
                    by_cases hvv : v1 = v
                    · subst hvv
                      rw [hdv] at hd1
                      cases hd1
                      rw [hlen2]
                      push_cast
                      rw [Int.toNat_of_nonneg hnum]
                      omega
                    · rw [hother2 v1 hv1n hvv]
                      rcases Nat.lt_succ_iff_lt_or_eq.1 hc with hlt | rfl
                      · exact hF cidx v1 u1 degree hlt hv1 hu1 hd1 hf1 hne
                      · rw [hcv] at hv1
                        cases hv1
                        exact absurd rfl hvv
            · rw [if_neg hnum] at h
              cases h

theorem thirdRing_fold {n0 : Nat} {degrees0 : List (Option Degree)} {circuit : List Nat}
    (hdeg : degrees0.length ≤ n0) (n : Nat) (s1 s2 : ThirdVars) (hinv : ThirdInv n0 s1)
    (h : (List.range n).foldlM (thirdRingStep degrees0 circuit) s1 = .ok s2) :
    ThirdInv n0 s2 ∧ Filled degrees0 circuit s1.circuit_neighbor n s2.VtoV := by
  have := foldlM_range_ok (thirdRingStep degrees0 circuit)
    (fun k (acc : ThirdVars) => ThirdInv n0 acc ∧ acc.circuit_neighbor = s1.circuit_neighbor
      ∧ Filled degrees0 circuit s1.circuit_neighbor k acc.VtoV)
    n s1 s2 h ⟨hinv, rfl, fun cidx _ _ _ hc => absurd hc (Nat.not_lt_zero _)⟩
    (fun i a a1 _ hP hf => by
      obtain ⟨h1, h2, h3⟩ := hP
      rw [← h2] at h3
      obtain ⟨g1, g2, g3⟩ := thirdRingStep_ok hdeg i a a1 h1 h3 hf
      rw [h2] at g2 g3
      exact ⟨g1, g2, g3⟩)
  exact ⟨this.1, this.2.2⟩

/-! ## extendThirdNeighbor: the first loop over the circuit -/

theorem getD_set_or (l : List Int) (i x : Nat) (a d : Int) :
    (l.set i a).getD x d = a ∨ (l.set i a).getD x d = l.getD x d := by
  rw [List.getD_eq_getElem?_getD, List.getD_eq_getElem?_getD, List.getElem?_set]
  by_cases hix : i = x
  · subst hix
    by_cases hlt : i < l.length
    · left
      rw [if_pos rfl, if_pos hlt]
      rfl
    · right
      rw [if_pos rfl, if_neg hlt, List.getElem?_eq_none (not_lt.1 hlt)]
  · right
    rw [if_neg hix]

theorem thirdInv_reuse {n0 : Nat} {acc : ThirdVars} (hinv : ThirdInv n0 acc) (p v : Nat)
    (VtoV : List (List Nat))
    (hrows : RowsBelow VtoV) (hlen : VtoV.length = acc.VtoV.length) :
    ThirdInv n0 { acc with
      circuit_neighbor := acc.circuit_neighbor.set v (acc.circuit_neighbor.getD p (-1))
      VtoV := VtoV } := by
  refine ⟨hrows, by rw [hlen]; exact hinv.size, ?_⟩
  intro x
  show (acc.circuit_neighbor.set v _).getD x (-1) = -1
    ∨ (_ ≤ (acc.circuit_neighbor.set v _).getD x (-1)
      ∧ (acc.circuit_neighbor.set v _).getD x (-1) < (VtoV.length : Int))
  rw [hlen]
  rcases getD_set_or acc.circuit_neighbor v x (acc.circuit_neighbor.getD p (-1)) (-1)
    with h1 | h1
  · rw [h1]
    exact hinv.fresh p
  · rw [h1]
    exact hinv.fresh x

theorem vertexOf_range {n0 : Nat} {acc : ThirdVars} (hinv : ThirdInv n0 acc) {p w : Nat}
    (hw : vertexOf (acc.circuit_neighbor.getD p (-1)) = .ok w) :
    n0 ≤ w ∧ w < acc.VtoV.length := by
  obtain ⟨h0, he⟩ := vertexOf_ok hw
  rcases hinv.fresh p with h1 | ⟨h1, h2⟩
  · omega
  · omega

theorem circuitNeighborStep_ok {n0 : Nat} {degrees0 : List (Option Degree)}
    {circuit : List Nat} (hdeg : degrees0.length ≤ n0) (deg0 : Degree) (cidx : Nat)
    (acc acc1 : ThirdVars) (hinv : ThirdInv n0 acc)
    (h : circuitNeighborStep degrees0 circuit deg0 acc cidx = .ok acc1) :
    ThirdInv n0 acc1 := by
  unfold circuitNeighborStep at h
  cases hcv : circuit.get? cidx with
  | none => rw [hcv] at h; cases h
  | some v =>
    cases hcu : circuit.get? (if cidx + 1 = circuit.length then 0 else cidx + 1) with
    | none => rw [hcv, hcu] at h; cases h
    | some u =>
      cases hc0 : circuit.get? 0 with
      | none => rw [hcv, hcu, hc0] at h; cases h
      | some c0 =>
        rw [hcv, hcu, hc0] at h
        simp only [] at h
        cases hdv : getDegree degrees0 v with
        | error e => rw [hdv] at h; cases h
        | ok degv =>
          cases hdu : getDegree degrees0 u with
          | error e => rw [hdv, hdu] at h; cases h
          | ok degu =>
            rw [hdv, hdu] at h
            simp only [bind, Except.bind] at h
            have hvn : v < acc.VtoV.length :=
              lt_of_lt_of_le (lt_of_lt_of_le (getDegree_lt hdv) hdeg) hinv.size
            have hun : u < acc.VtoV.length :=
              lt_of_lt_of_le (lt_of_lt_of_le (getDegree_lt hdu) hdeg) hinv.size
            split at h
            · cases hw : vertexOf (acc.circuit_neighbor.getD c0 (-1)) with
              | error e => rw [hw] at h; cases h
              | ok w =>
                rw [hw] at h
                simp only [pure, Except.pure] at h
                cases h
                have hwr := vertexOf_range hinv hw
                exact thirdInv_reuse hinv c0 v _
                  (rowsBelow_addEdge (rowsBelow_addEdge hinv.rows _ _ hvn hwr.2) _ _
                    (by rw [length_addEdge]; exact hun) (by rw [length_addEdge]; exact hwr.2))
                  (by rw [length_addEdge, length_addEdge])
            · split at h
              · split at h
                · cases hp : circuit.get? (cidx - 1) with
                  | none => rw [hp] at h; cases h
                  | some p =>
                    rw [hp] at h
                    simp only [] at h
                    cases hw : vertexOf (acc.circuit_neighbor.getD p (-1)) with
                    | error e => rw [hw] at h; cases h
                    | ok w =>
                      rw [hw] at h
                      simp only [pure, Except.pure] at h
                      cases h
                      have hwr := vertexOf_range hinv hw
                      exact thirdInv_reuse hinv p v _
                        (rowsBelow_addEdge hinv.rows _ _ hun hwr.2)
                        (by rw [length_addEdge])
                · cases h
              · split at h
                · split at h
                  · cases hw : vertexOf (acc.circuit_neighbor.getD c0 (-1)) with
                    | error e => rw [hw] at h; cases h
                    | ok w =>
                      rw [hw] at h
                      simp only [pure, Except.pure] at h
                      cases h
                      have hwr := vertexOf_range hinv hw
                      exact thirdInv_reuse hinv c0 v _
                        (rowsBelow_addEdge hinv.rows _ _ hvn hwr.2)
                        (by rw [length_addEdge])
                  · cases h
                · split at h
                  · simp only [pure, Except.pure] at h
                    cases h
                    exact hinv
                  · simp only [pure, Except.pure] at h
                    cases h
                    have hL : (acc.VtoV ++ [[]]).length = acc.VtoV.length + 1 := by simp
                    have hsize := hinv.size
                    refine ⟨?_, ?_, ?_⟩
                    · exact rowsBelow_addEdge
                        (rowsBelow_addEdge (rowsBelow_append_nil hinv.rows) _ _
                          (by omega) (by omega)) _ _
                        (by rw [length_addEdge]; omega) (by rw [length_addEdge]; omega)
                    · show n0 ≤ (addEdge (addEdge (acc.VtoV ++ [[]]) u acc.VtoV.length) v
                        acc.VtoV.length).length
                      rw [length_addEdge, length_addEdge, hL]
                      omega
                    · intro x
                      show (acc.circuit_neighbor.set v _).getD x (-1) = -1
                        ∨ (_ ≤ (acc.circuit_neighbor.set v _).getD x (-1)
                          ∧ (acc.circuit_neighbor.set v _).getD x (-1)
                            < ((addEdge (addEdge (acc.VtoV ++ [[]]) u acc.VtoV.length) v
                                acc.VtoV.length).length : Int))
                      rw [length_addEdge, length_addEdge, hL]
                      rcases getD_set_or acc.circuit_neighbor v x (acc.VtoV.length : Int) (-1)
                        with h1 | h1
                      · rw [h1]
                        right
                        exact ⟨by omega, by push_cast; omega⟩
                      · rw [h1]
                        rcases hinv.fresh x with h2 | ⟨h2, h3⟩
                        · exact Or.inl h2
                        · exact Or.inr ⟨h2, by push_cast; omega⟩

theorem circuitNeighbor_fold {n0 : Nat} {degrees0 : List (Option Degree)}
    {circuit : List Nat} (hdeg : degrees0.length ≤ n0) (deg0 : Degree) (n : Nat)
    (s0 s1 : ThirdVars) (hinv : ThirdInv n0 s0)
    (h : (List.range n).foldlM (circuitNeighborStep degrees0 circuit deg0) s0 = .ok s1) :
    ThirdInv n0 s1 :=
  foldlM_range_ok (circuitNeighborStep degrees0 circuit deg0)
    (fun _ (acc : ThirdVars) => ThirdInv n0 acc) n s0 s1 h hinv
    (fun i a a1 _ hP hf => circuitNeighborStep_ok hdeg deg0 i a a1 hP hf)

/-! ## extendThirdNeighbor: the adjacency it starts from -/

theorem triangles_inner {nt : NearTriangulation} (e : Edge) (he : e.1 < nt.vertex_size
      ∧ e.2 < nt.vertex_size) :
    ∀ (ds : List Nat) (V : List (List Nat)), (∀ w, w ∈ ds → w < nt.vertex_size) →
      RowsBelow V ∧ V.length = nt.vertex_size →
      RowsBelow (ds.foldl
        (fun VtoV v => addEdge (addEdge (addEdge VtoV v e.1) v e.2) e.1 e.2) V)
      ∧ (ds.foldl
        (fun VtoV v => addEdge (addEdge (addEdge VtoV v e.1) v e.2) e.1 e.2) V).length
        = nt.vertex_size := by
  intro ds
  induction ds with
  | nil => intro V _ hV; exact hV
  | cons w ds ih2 =>
    intro V hsub hV
    rw [List.foldl_cons]
    have hw := hsub w (List.mem_cons_self _ _)
    refine ih2 _ (fun w2 h2 => hsub w2 (List.mem_cons_of_mem _ h2)) ⟨?_, ?_⟩
    · exact rowsBelow_addEdge
        (rowsBelow_addEdge (rowsBelow_addEdge hV.1 _ _ (by omega) (by omega)) _ _
          (by rw [length_addEdge]; omega) (by rw [length_addEdge]; omega)) _ _
        (by rw [length_addEdge, length_addEdge]; omega)
        (by rw [length_addEdge, length_addEdge]; omega)
    · rw [length_addEdge, length_addEdge, length_addEdge]
      exact hV.2

theorem trianglesVtoV_ok {nt : NearTriangulation} (hr : InRange nt) (VtoV : List (List Nat))
    (h : trianglesVtoV nt = .ok VtoV) :
    RowsBelow VtoV ∧ VtoV.length = nt.vertex_size := by
  have hs : Sat (fun V => RowsBelow V ∧ V.length = nt.vertex_size) (fun _ => True)
      (trianglesVtoV nt) := by
    unfold trianglesVtoV
    refine Sat_mono (Sat_foldlM _
      (fun (rest : List Edge) (V : List (List Nat)) =>
        (∀ e, e ∈ rest → e ∈ nt.edges) ∧ RowsBelow V ∧ V.length = nt.vertex_size)
      ?_ nt.edges _ ⟨fun _ h2 => h2, rowsBelow_replicate _, by simp⟩)
      (fun a ha => ha.2) (fun _ h2 => h2)
    intro e rest V hJ
    cases hd : nt.diagonalAt e with
    | none => exact trivial
    | some diagonal =>
      simp only []
      refine Sat_pure ⟨fun e2 h2 => hJ.1 e2 (List.mem_cons_of_mem _ h2), ?_⟩
      exact triangles_inner e (hr.1 e (hJ.1 e (List.mem_cons_self _ _))) diagonal V
        (hr.2 e diagonal hd) hJ.2
  rw [h] at hs
  exact hs

/-! ## The number of neighbours in the near-triangulation that the constructor builds -/

theorem countP_flatMap_rows (VtoV : List (List Nat)) (v : Nat) :
    ∀ (l : List Nat), l.Nodup →
      (l.flatMap (fun a => (adjacent VtoV a).map (fun u => (a, u)))).countP
          (fun e => decide (e.1 = v))
        = if v ∈ l then (adjacent VtoV v).length else 0 := by
  intro l
  induction l with
  | nil => intro _; simp
  | cons a l ih =>
    intro hnd
    rw [List.nodup_cons] at hnd
    rw [List.flatMap_cons, List.countP_append, ih hnd.2]
    by_cases hav : a = v
    · subst hav
      have h1 : ((adjacent VtoV a).map (fun u => (a, u))).countP (fun e => decide (e.1 = a))
          = (adjacent VtoV a).length := by
        rw [List.countP_eq_length.2]
        · simp
        · intro e he
          obtain ⟨u, _, rfl⟩ := List.mem_map.1 he
          simp
      rw [h1, if_neg hnd.1]
      simp
    · have h1 : ((adjacent VtoV a).map (fun u => (a, u))).countP (fun e => decide (e.1 = v))
          = 0 := by
        rw [List.countP_eq_zero]
        intro e he
        obtain ⟨u, _, rfl⟩ := List.mem_map.1 he
        simp [hav]
      rw [h1]
      have hva : v ≠ a := fun hc => hav hc.symm
      simp [hva]

theorem numNeighbors_build (n : Nat) (VtoV : List (List Nat)) (degrees : List (Option Degree))
    (v : Nat) (hv : v < n) :
    (NearTriangulation.build n VtoV degrees).numNeighbors v = (adjacent VtoV v).length := by
  unfold NearTriangulation.numNeighbors NearTriangulation.build constructEdges
  simp only []
  rw [countP_flatMap_rows VtoV v (List.range n) (List.nodup_range n),
    if_pos (List.mem_range.2 hv)]

/-! ## extendThirdNeighbor: the circuit vertices that are filled -/

theorem extendThirdNeighbor_filled (self e : CartWheel) (hr : InRange self.cartwheel)
    (hdeg : self.cartwheel.degrees.length ≤ self.cartwheel.vertex_size)
    (h : self.extendThirdNeighbor = .ok e) :
    ∃ VtoV circuit c0 deg0 s1,
      trianglesVtoV self.cartwheel = .ok VtoV
      ∧ (List.range' 1 self.num_neighbor).foldlM (circuitOf self) [] = .ok circuit
      ∧ circuit.get? 0 = some c0
      ∧ getDegree self.cartwheel.degrees c0 = .ok deg0
      ∧ (List.range circuit.length).foldlM
          (circuitNeighborStep self.cartwheel.degrees circuit deg0)
          { VtoV := VtoV
            degrees := self.cartwheel.degrees
            third_neighbors := List.replicate self.cartwheel.vertex_size []
            circuit_neighbor := List.replicate self.cartwheel.vertex_size (-1) } = .ok s1
      ∧ ∀ cidx v u degree, circuit.get? cidx = some v →
          circuit.get? (if cidx = 0 then circuit.length - 1 else cidx - 1) = some u →
          getDegree self.cartwheel.degrees v = .ok degree → degree.fixed = true →
          s1.circuit_neighbor.getD u (-1) ≠ s1.circuit_neighbor.getD v (-1) →
          (e.cartwheel.numNeighbors v : Int) = degree.lower_deg := by
  unfold CartWheel.extendThirdNeighbor at h
  cases hV : trianglesVtoV self.cartwheel with
  | error er => rw [hV] at h; cases h
  | ok VtoV =>
    rw [hV] at h
    simp only [bind, Except.bind] at h
    cases hC : (List.range' 1 self.num_neighbor).foldlM (circuitOf self) [] with
    | error er => rw [hC] at h; cases h
    | ok circuit =>
      rw [hC] at h
      simp only [] at h
      cases hc0 : circuit.get? 0 with
      | none => rw [hc0] at h; cases h
      | some c0 =>
        rw [hc0] at h
        simp only [] at h
        cases hd0 : getDegree self.cartwheel.degrees c0 with
        | error er => rw [hd0] at h; cases h
        | ok deg0 =>
          rw [hd0] at h
          simp only [] at h
          cases h1 : (List.range circuit.length).foldlM
              (circuitNeighborStep self.cartwheel.degrees circuit deg0)
              { VtoV := VtoV
                degrees := self.cartwheel.degrees
                third_neighbors := List.replicate self.cartwheel.vertex_size []
                circuit_neighbor := List.replicate self.cartwheel.vertex_size (-1) } with
          | error er => rw [h1] at h; cases h
          | ok s1 =>
            rw [h1] at h
            simp only [] at h
            cases h2 : (List.range circuit.length).foldlM
                (thirdRingStep self.cartwheel.degrees circuit) s1 with
            | error er => rw [h2] at h; cases h
            | ok s2 =>
              rw [h2] at h
              simp only [] at h
              cases h3 : NearTriangulation.construct s2.VtoV.length s2.VtoV s2.degrees with
              | none => rw [h3] at h; cases h
              | some cartwheel =>
                rw [h3] at h
                simp only [pure, Except.pure] at h
                cases h
                refine ⟨VtoV, circuit, c0, deg0, s1, rfl, rfl, hc0, hd0, h1, ?_⟩
                obtain ⟨hrows, hlen⟩ := trianglesVtoV_ok hr VtoV hV
                have hinv0 : ThirdInv self.cartwheel.vertex_size
                    { VtoV := VtoV
                      degrees := self.cartwheel.degrees
                      third_neighbors := List.replicate self.cartwheel.vertex_size []
                      circuit_neighbor := List.replicate self.cartwheel.vertex_size (-1) } := by
                  refine ⟨hrows, by rw [hlen], ?_⟩
                  intro x
                  left
                  show (List.replicate self.cartwheel.vertex_size (-1 : Int)).getD x (-1) = -1
                  rw [List.getD_eq_getElem?_getD, List.getElem?_replicate]
                  split <;> rfl
                have hinv1 := circuitNeighbor_fold hdeg deg0 _ _ s1 hinv0 h1
                obtain ⟨hinv2, hfill⟩ := thirdRing_fold hdeg _ s1 s2 hinv1 h2
                intro cidx v u degree hv hu hdv hfix hne
                have hc : cidx < circuit.length := by
                  by_contra hge
                  rw [List.get?_eq_none.2 (not_lt.1 hge)] at hv
                  cases hv
                have hvn : v < s2.VtoV.length :=
                  lt_of_lt_of_le (lt_of_lt_of_le (getDegree_lt hdv) hdeg) hinv2.size
                obtain ⟨rfl, _⟩ := construct_eq_some h3
                show ((NearTriangulation.build s2.VtoV.length s2.VtoV s2.degrees).numNeighbors v
                  : Int) = _
                rw [numNeighbors_build _ _ _ _ hvn]
                exact hfill cidx v u degree hc hv hu hdv hfix hne

theorem inRange_build (n : Nat) (VtoV : List (List Nat)) (degrees : List (Option Degree))
    (hrows : RowsBelow VtoV) (hlen : VtoV.length = n) :
    InRange (NearTriangulation.build n VtoV degrees) := by
  constructor
  · intro e he
    have he2 : (e.1, e.2) ∈ constructEdges n VtoV := he
    rw [mem_constructEdges] at he2
    exact ⟨he2.1, by rw [← hlen]; exact hrows _ _ he2.2⟩
  · intro e d hd w hw
    have hd2 : ((constructEdges n VtoV).map (fun e => (e, constructDiagonal VtoV e))).lookup e
        = some d := hd
    rw [lookup_map_self] at hd2
    split at hd2
    · cases hd2
      rw [mem_constructDiagonal] at hw
      rw [← hlen]
      exact hrows _ _ hw.1
    · cases hd2

theorem rowsBelow_of_named {d : Nat} {fx : Nat → Bool} {m : Nat → Nat}
    {VtoV : List (List Nat)} {tags : List Tag} (h : Named d fx m VtoV tags) :
    RowsBelow VtoV := by
  intro a b hb
  obtain ⟨s, t, _, ht, _⟩ := h.sound a b hb
  rw [← h.length_eq]
  by_contra hge
  rw [List.getElem?_eq_none (not_lt.1 hge)] at ht
  cases ht

theorem inRange_of_sameFrame {cw self : CartWheel} (hf : SameFrame cw self)
    (h : InRange cw.cartwheel) : InRange self.cartwheel := by
  obtain ⟨a1, a2, a3, _⟩ := hf
  constructor
  · intro e he
    rw [a1]
    rw [a2] at he
    exact h.1 e he
  · intro e d hd w hw
    rw [a1]
    have hd2 : cw.cartwheel.diagonalAt e = some d := by
      unfold NearTriangulation.diagonalAt at hd ⊢
      rw [← a3]
      exact hd
    exact h.2 e d hd2 w hw

theorem sameFrame_of_check {wheel w : CartWheel}
    (h : w.cartwheel.vertex_size = wheel.cartwheel.vertex_size
      ∧ w.cartwheel.edges = wheel.cartwheel.edges
      ∧ w.cartwheel.diagonal_vertices = wheel.cartwheel.diagonal_vertices
      ∧ w.cartwheel.degrees.length = wheel.cartwheel.degrees.length
      ∧ w.num_neighbor = wheel.num_neighbor
      ∧ w.hub_neighbors_neighbors = wheel.hub_neighbors_neighbors
      ∧ w.third_neighbors = wheel.third_neighbors
      ∧ ∀ v, v < wheel.cartwheel.degrees.length →
          (wheel.cartwheel.degreeAt v = none
            ∨ w.cartwheel.degreeAt v = wheel.cartwheel.degreeAt v)) :
    SameFrame wheel w := by
  obtain ⟨a1, a2, a3, a4, a5, a6, a7, a8⟩ := h
  refine ⟨a1, a2, a3, a4, a5, a6, a7, ?_⟩
  intro v degree hv
  have hlt : v < wheel.cartwheel.degrees.length := by
    by_contra hge
    unfold NearTriangulation.degreeAt at hv
    rw [List.getD_eq_getElem?_getD, List.getElem?_eq_none (not_lt.1 hge)] at hv
    cases hv
  rcases a8 v hlt with h1 | h1
  · rw [h1] at hv
    cases hv
  · rw [h1]
    exact hv

/-! ## C35 -/

/-- C35, the counterexample: for the wheel with hub degree 5 whose five rim degrees are 5,
`fromWheel` returns the cartwheel `cart5` with the second neighbours `6, ..., 10`. When they
get the degrees 5, 5, 6, 5, 5, so that every vertex has a degree, the circuit is
`10, 6, 7, 8, 9` and `extendThirdNeighbor` returns a near-triangulation in which the circuit
vertex `8`, of the fixed degree 6, has 5 neighbours. -/
theorem C35_counterexample :
    CartWheel.fromWheel wheelAllFive = .ok cart5
      ∧ (∀ v, v < ((setSecondDegrees cart5 five).setDegree 8 (some six)).cartwheel.vertex_size →
          ((setSecondDegrees cart5 five).setDegree 8 (some six)).cartwheel.degreeAt v ≠ none)
      ∧ ((setSecondDegrees cart5 five).setDegree 8 (some six)).cartwheel.degreeAt 8 = some six
      ∧ six.fixed = true ∧ six.lower_deg = 6
      ∧ (List.range' 1 ((setSecondDegrees cart5 five).setDegree 8 (some six)).num_neighbor).foldlM
          (circuitOf ((setSecondDegrees cart5 five).setDegree 8 (some six))) []
          = .ok [10, 6, 7, 8, 9]
      ∧ ∃ e, ((setSecondDegrees cart5 five).setDegree 8 (some six)).extendThirdNeighbor = .ok e
          ∧ e.cartwheel.numNeighbors 8 = 5 := by
  have h1 : CartWheel.fromWheel wheelAllFive = .ok cart5 := by decide!
  have h2 : ∀ v,
      v < ((setSecondDegrees cart5 five).setDegree 8 (some six)).cartwheel.vertex_size →
      ((setSecondDegrees cart5 five).setDegree 8 (some six)).cartwheel.degreeAt v ≠ none := by
    decide!
  have h3 : (((setSecondDegrees cart5 five).setDegree 8 (some six)).extendThirdNeighbor).map
      (fun e => e.cartwheel.numNeighbors 8) = .ok 5 := by decide!
  obtain ⟨e, h4, h5⟩ := except_map_eq_ok h3
  exact ⟨h1, h2, by decide!, by decide, by decide, by decide!, e, h4, h5⟩

/-- C35, amended: for a cartwheel that `fromWheel` has built, with degrees set afterwards
(one entry of `degrees` for each vertex), whenever `extendThirdNeighbor` returns, every
vertex `v` on the circuit whose degree is fixed at `k` and whose two circuit neighbours
`circuit_neighbor[u]` and `circuit_neighbor[v]`, `u` being the vertex before `v` on the
circuit, are different has exactly `k` neighbours in the near-triangulation that is
returned. The circuit and `circuit_neighbor` are the ones that the function computes: the
value of `circuit` after its loop and the value of `circuit_neighbor` after the first loop
over the circuit. -/
theorem C35_circuit_vertex_between_two_circuit_neighbours_is_filled (wheel : Wheel) (d : Nat)
    (hd : wheel.numNeighbor = .ok (d : Int)) (hset : RimDegreesSet d wheel.wheel.degrees)
    (cw self e : CartWheel) (hcw : CartWheel.fromWheel wheel = .ok cw)
    (hframe : SameFrame cw self)
    (hlen : self.cartwheel.degrees.length = self.cartwheel.vertex_size)
    (h : self.extendThirdNeighbor = .ok e) :
    ∃ VtoV circuit c0 deg0 s1,
      trianglesVtoV self.cartwheel = .ok VtoV
      ∧ (List.range' 1 self.num_neighbor).foldlM (circuitOf self) [] = .ok circuit
      ∧ circuit.get? 0 = some c0
      ∧ getDegree self.cartwheel.degrees c0 = .ok deg0
      ∧ (List.range circuit.length).foldlM
          (circuitNeighborStep self.cartwheel.degrees circuit deg0)
          { VtoV := VtoV
            degrees := self.cartwheel.degrees
            third_neighbors := List.replicate self.cartwheel.vertex_size []
            circuit_neighbor := List.replicate self.cartwheel.vertex_size (-1) } = .ok s1
      ∧ ∀ cidx v u degree, circuit.get? cidx = some v →
          circuit.get? (if cidx = 0 then circuit.length - 1 else cidx - 1) = some u →
          getDegree self.cartwheel.degrees v = .ok degree → degree.fixed = true →
          s1.circuit_neighbor.getD u (-1) ≠ s1.circuit_neighbor.getD v (-1) →
          (e.cartwheel.numNeighbors v : Int) = degree.lower_deg := by
  obtain ⟨s, _, hinv, hspec, _⟩ := fromWheel_spec hd hset
  obtain ⟨hcweq, _⟩ := hspec cw hcw
  obtain ⟨tags, hci, _, _⟩ := hinv
  have hrange : InRange cw.cartwheel := by
    rw [hcweq]
    exact inRange_build _ _ _ (rowsBelow_of_named hci.named) rfl
  exact extendThirdNeighbor_filled self e (inRange_of_sameFrame hframe hrange)
    (Nat.le_of_eq hlen) h

/-- C35, an instance: the cartwheel of the wheel with hub degree 5 whose rim degrees are 5,
its five second neighbours having the degree 7. `extendThirdNeighbor` returns a
near-triangulation in which each of the second neighbours `6, ..., 10` has 7 neighbours: its
list of third neighbours begins and ends with two different circuit neighbours and has one
new vertex between them. -/
theorem C35_witness :
    wheelAllFive.numNeighbor = .ok ((5 : Nat) : Int)
      ∧ CartWheel.fromWheel wheelAllFive = .ok cart5
      ∧ ∃ e, (setSecondDegrees cart5 { lower_deg := 7, upper_deg := 7 }).extendThirdNeighbor
            = .ok e
        ∧ (List.range' 6 5).map e.cartwheel.numNeighbors = [7, 7, 7, 7, 7]
        ∧ (List.range' 6 5).map (fun v => e.third_neighbors.getD v [])
            = [[11, 17, 12], [12, 18, 13], [13, 19, 14], [14, 20, 15], [15, 16, 11]]
        ∧ ∃ VtoV circuit c0 deg0 s1,
          trianglesVtoV (setSecondDegrees cart5 { lower_deg := 7, upper_deg := 7 }).cartwheel
            = .ok VtoV
          ∧ (List.range' 1
                (setSecondDegrees cart5 { lower_deg := 7, upper_deg := 7 }).num_neighbor).foldlM
              (circuitOf (setSecondDegrees cart5 { lower_deg := 7, upper_deg := 7 })) []
              = .ok circuit
          ∧ circuit.get? 0 = some c0
          ∧ getDegree (setSecondDegrees cart5 { lower_deg := 7, upper_deg := 7 }).cartwheel.degrees
              c0 = .ok deg0
          ∧ (List.range circuit.length).foldlM
              (circuitNeighborStep
                (setSecondDegrees cart5 { lower_deg := 7, upper_deg := 7 }).cartwheel.degrees
                circuit deg0)
              { VtoV := VtoV
                degrees :=
                  (setSecondDegrees cart5 { lower_deg := 7, upper_deg := 7 }).cartwheel.degrees
                third_neighbors := List.replicate
                  (setSecondDegrees cart5
                    { lower_deg := 7, upper_deg := 7 }).cartwheel.vertex_size []
                circuit_neighbor := List.replicate
                  (setSecondDegrees cart5
                    { lower_deg := 7, upper_deg := 7 }).cartwheel.vertex_size (-1) } = .ok s1
          ∧ ∀ cidx v u degree, circuit.get? cidx = some v →
              circuit.get? (if cidx = 0 then circuit.length - 1 else cidx - 1) = some u →
              getDegree
                (setSecondDegrees cart5 { lower_deg := 7, upper_deg := 7 }).cartwheel.degrees v
                = .ok degree →
              degree.fixed = true →
              s1.circuit_neighbor.getD u (-1) ≠ s1.circuit_neighbor.getD v (-1) →
              (e.cartwheel.numNeighbors v : Int) = degree.lower_deg := by
  have h1 : CartWheel.fromWheel wheelAllFive = .ok cart5 := by decide!
  have h3 : ((setSecondDegrees cart5 { lower_deg := 7, upper_deg := 7 }).extendThirdNeighbor).map
      (fun e => ((List.range' 6 5).map e.cartwheel.numNeighbors,
        (List.range' 6 5).map (fun v => e.third_neighbors.getD v [])))
      = .ok ([7, 7, 7, 7, 7],
          [[11, 17, 12], [12, 18, 13], [13, 19, 14], [14, 20, 15], [15, 16, 11]]) := by
    decide!
  obtain ⟨e, h4, h5⟩ := except_map_eq_ok h3
  exact ⟨by decide, h1, e, h4, congrArg Prod.fst h5, congrArg Prod.snd h5,
    C35_circuit_vertex_between_two_circuit_neighbours_is_filled wheelAllFive 5 (by decide)
      (by decide) cart5 (setSecondDegrees cart5 { lower_deg := 7, upper_deg := 7 }) e h1
      (sameFrame_of_check (by decide)) (by decide) h4⟩

end Discharging
